import Mathlib

/-!
# ITKNornir: mosaic refinement driver, peak extraction, Legendre transform

A shallow embedding of the grid-transform refinement driver
(`IRMosaicRefinementCommon.h`: `calc_displacements`, `refine_one_tile_t`,
`refine_mosaic`, `refine_mosaic_mt`), of the peak finder and the overlap mask
(`IRFFTCommon.cxx`: `find_maxima_cm`, `find_correlation`), of the Legendre
polynomial transform (`itkLegendrePolynomialTransform.h`: `index_a`, `index_b`,
`setup`), of the numeric inverse (`itkNumericInverse.h`: `NewtonRaphson`,
`NumericInverse`) and of the worker thread (`IRThreadInterface.cxx`: `work`,
`flush`, `stop_and_go`, `flush_and_go`).

Conventions used throughout:

* `double` and `float` values are modelled by rationals (`ℚ`), except in the
  range test of `find_maxima_cm`, which is also modelled on IEEE values
  (`double_t`); `unsigned int` arithmetic is modulo `2 ^ 32`;
* a C++ vector is a `List`; an access outside the vector, a null pointer
  dereference and a modulus by zero are undefined behaviour and are modelled
  by `none`;
* code of the repository that is declared but not defined in the sources at
  hand (the FFT matcher, the median filter, image warping, bounding boxes) is
  a field of the environment `Env`; the transactions a worker executes and
  the thread pool are fields of `thread_env`.
-/

namespace Nornir

/-! ## Definitions: points, vertices, grid transforms -/

/-- Type `vec2d_t` / `pnt2d_t`: two doubles. -/
structure vec2d_t where
  x : ℚ
  y : ℚ
deriving DecidableEq

/-- Constructor `vec2d(x, y)`. -/
def vec2d (x y : ℚ) : vec2d_t := ⟨x, y⟩

/-- Vector addition, `a += b`. -/
def vec2d_t.add (a b : vec2d_t) : vec2d_t := ⟨a.x + b.x, a.y + b.y⟩

/-- Scaling by a scalar, `a *= s`. -/
def vec2d_t.scale (a : vec2d_t) (s : ℚ) : vec2d_t := ⟨a.x * s, a.y * s⟩

/-- Class `vertex_t` (IRGridTransform.h): tile space and mosaic space coordinates. -/
structure vertex_t where
  uv_ : vec2d_t
  xy_ : vec2d_t
deriving DecidableEq

/-- Class `the_grid_transform_t` (IRGridTransform.h), reduced to the members the
refinement driver reads and writes: `rows_`, `cols_` and the vertex array
`grid_.mesh_`. An `itk::GridTransform` wraps one such object (`transform_`). -/
structure the_grid_transform_t where
  rows_ : Nat
  cols_ : Nat
  mesh_ : List vertex_t
deriving DecidableEq

/-- Modelled from the spec: `the_acceleration_grid_t::update` is declared in
IRGridTransform.h and defined outside the sources at hand. The spec: "add the
per-vertex displacement vector array to every vertex.xy, then rebuild". The
following `transform[i]->setup(gt)` recomputes derived state only. -/
def update (gt : the_grid_transform_t) (xy_shift : List vec2d_t) : the_grid_transform_t :=
  { gt with mesh_ := List.zipWith (fun v s => { v with xy_ := v.xy_.add s }) gt.mesh_ xy_shift }

/-- Displacement images `dx`, `dy`, `db` (`image_t`), pixels addressed by
(column, row); `make_image(cols, rows, 1.0, 0.0)` is the zero image. -/
structure image_t where
  cols : Nat
  rows : Nat
  pix : Nat × Nat → ℚ

/-- The call `make_image<image_t>(cols, rows, 1.0, 0.0)`. -/
def make_image (cols rows : Nat) : image_t := ⟨cols, rows, fun _ => 0⟩

/-- The call `img->SetPixel(index, v)`. -/
def image_t.SetPixel (img : image_t) (index : Nat × Nat) (v : ℚ) : image_t :=
  { img with pix := Function.update img.pix index v }

/-- An axis aligned box given by its minimum and maximum corner
(`mosaic_min[i]`, `mosaic_max[i]`). -/
abbrev bbox_t := vec2d_t × vec2d_t

/-- The collaborators of the refinement driver that are declared but not
defined in the sources at hand. `Img` and `Msk` are the tile and mask image
types. -/
structure Env (Img Msk : Type) where
  /-- Method `GetSpacing()` of a tile image. -/
  GetSpacing : Img → ℚ × ℚ
  /-- Function `warp<image_t>(tile, transform)`. -/
  warp : Img → the_grid_transform_t → Img
  /-- Function `warp<mask_t>(mask, transform)`. -/
  warp_mask : Msk → the_grid_transform_t → Msk
  /-- Functions `calc_image_bboxes` followed by `calc_mosaic_bboxes`: the mosaic
  space box of tile `i`. -/
  calc_mosaic_bboxes : List the_grid_transform_t → List Img → Nat → bbox_t
  /-- Method `the_aa_bbox_t::intersects`. -/
  intersects : bbox_t → bbox_t → Bool
  /-- Function `refine_one_point_fft` applied at mesh vertex `i` of the moving
  transform (the vertex center is `transform_inv` of its uv): arguments are the
  tiles-already-warped flag, fixed tile, mask and transform, moving tile, mask
  and transform, neighborhood, minimum overlap, vertex index. The result is
  `none` when the matcher reports failure. -/
  refine_one_point_fft : Bool → Img → Option Msk → the_grid_transform_t →
    Img → Option Msk → the_grid_transform_t → Nat → ℚ → Nat → Option vec2d_t
  /-- The median filter inside `regularize_displacements`: the smoothed vector and
  the mass it yields at mesh vertex `k` for the fields `dx`, `dy`, `db` and a
  median radius. -/
  median : image_t → image_t → image_t → Nat → Nat → vec2d_t × ℚ

variable {Img Msk : Type}

/-- Modelled from the spec: `regularize_displacements` is declared extern in
IRMosaicRefinementCommon.h and defined outside the sources at hand. The spec:
"The smoothed vectors are added to xy_shift; masses are added to mass". -/
def regularize_displacements (env : Env Img Msk) (xy_shift : List vec2d_t) (mass : List ℚ)
    (dx dy db : image_t) (median_radius : Nat) : List vec2d_t × List ℚ :=
  (xy_shift.mapIdx (fun k s => s.add (env.median dx dy db median_radius k).1),
   mass.mapIdx (fun k m => m + (env.median dx dy db median_radius k).2))

/-- One iteration of the vertex loop of `calc_displacements`: the pixel of vertex
`i` is `(i % mesh_cols, i / mesh_cols)`; it is zeroed, then set to the shift
with weight 1 when the matcher succeeds. -/
def calc_displacements_vertex (env : Env Img Msk) (tiles_already_warped : Bool)
    (tile_0 : Img) (mask_0 : Option Msk) (forward_0 : the_grid_transform_t)
    (tile_1 : Img) (mask_1 : Option Msk) (forward_1 : the_grid_transform_t)
    (neighborhood : Nat) (min_overlap : ℚ)
    (d : image_t × image_t × image_t) (i : Nat) : image_t × image_t × image_t :=
  let mesh_cols := forward_1.cols_ + 1
  let index : Nat × Nat := (i % mesh_cols, i / mesh_cols)
  let dx := d.1.SetPixel index 0
  let dy := d.2.1.SetPixel index 0
  let db := d.2.2.SetPixel index 0
  match env.refine_one_point_fft tiles_already_warped tile_0 mask_0 forward_0
      tile_1 mask_1 forward_1 neighborhood min_overlap i with
  | none => (dx, dy, db)
  | some shift => (dx.SetPixel index shift.x, dy.SetPixel index shift.y, db.SetPixel index 1)

/-- Function `calc_displacements` (IRMosaicRefinementCommon.h:216-370). Returns the
new `xy_shift` and `mass`. A null tile pointer is dereferenced by
`tile_1->GetSpacing()` / `tile_0->GetSpacing()`: the result is `none`. -/
def calc_displacements (env : Env Img Msk) (mass : List ℚ) (tiles_already_warped : Bool)
    (tile_0 : Option Img) (mask_0 : Option Msk) (forward_0 : the_grid_transform_t)
    (tile_1 : Option Img) (mask_1 : Option Msk) (forward_1 : the_grid_transform_t)
    (neighborhood : Nat) (min_overlap : ℚ) (median_radius : Nat) :
    Option (List vec2d_t × List ℚ) :=
  match tile_1, tile_0 with
  | some t1, some t0 =>
    let mesh_cols := forward_1.cols_ + 1
    let mesh_rows := forward_1.rows_ + 1
    let mesh_size := forward_1.mesh_.length
    let xy_shift := List.replicate mesh_size (vec2d 0 0)
    -- make sure both tiles have the same pixel spacing:
    if env.GetSpacing t1 ≠ env.GetSpacing t0 then
      some (xy_shift, mass)
    else
      let d0 := (make_image mesh_cols mesh_rows, make_image mesh_cols mesh_rows,
        make_image mesh_cols mesh_rows)
      let d := (List.range mesh_size).foldl
        (calc_displacements_vertex env tiles_already_warped t0 mask_0 forward_0
          t1 mask_1 forward_1 neighborhood min_overlap) d0
      some (regularize_displacements env xy_shift mass d.1 d.2.1 d.2.2 median_radius)
  | _, _ => none

/-- The options of `refine_mosaic` / `refine_mosaic_mt` that stay constant. -/
structure options_t where
  neighborhood : Nat
  prewarp_tiles : Bool
  minimum_overlap : ℚ
  median_radius : Nat
  keep_first_tile_fixed : Bool

/-- The neighbor loop of one tile: `calc_displacements` is called for each
neighbor `j` of `tile_index` in list order, threading `mass` and collecting
`shift_i[k]`. -/
def neighbor_loop (env : Env Img Msk) (o : options_t) (tile_index : Nat)
    (transform : List the_grid_transform_t)
    (warped_tile : List (Option Img)) (warped_mask : List (Option Msk))
    (gt : the_grid_transform_t) :
    List Nat → List (List vec2d_t) × List ℚ → Option (List (List vec2d_t) × List ℚ)
  | [], acc => some acc
  | j :: js, acc =>
    match transform[j]? with
    | none => none
    | some tj =>
      match calc_displacements env acc.2 o.prewarp_tiles
          (warped_tile.getD j none) (warped_mask.getD j none) tj
          (warped_tile.getD tile_index none) (warped_mask.getD tile_index none) gt
          o.neighborhood o.minimum_overlap o.median_radius with
      | none => none
      | some r => neighbor_loop env o tile_index transform warped_tile warped_mask gt js
          (acc.1 ++ [r.1], r.2)

/-- The blend loop: `shift[i][k] += shift_i[j][k]` for every neighbor slot `j`. -/
def blend (mesh_size : Nat) (shift_i : List (List vec2d_t)) : List vec2d_t :=
  shift_i.foldl (fun s sj => List.zipWith vec2d_t.add s sj)
    (List.replicate mesh_size (vec2d 0 0))

/-- The normalize loop: `scale = 1 / (1 + mass[k]); shift[i][k] *= scale`. -/
def normalize (shift : List vec2d_t) (mass : List ℚ) : List vec2d_t :=
  List.zipWith (fun s m => s.scale (1 / (1 + m))) shift mass

/-- The shift of one mobile tile: the body of `refine_one_tile_t::execute`
(IRMosaicRefinementCommon.h:1299-1358). The same statements are repeated verbatim
in the tile loop of `refine_mosaic` (lines 1147-1202) and in the in-line loop of
`refine_mosaic_mt` (lines 1566-1623). -/
def refine_one_tile (env : Env Img Msk) (o : options_t) (tile_index : Nat)
    (transform : List the_grid_transform_t)
    (warped_tile : List (Option Img)) (warped_mask : List (Option Msk))
    (neighbors : List (List Nat)) : Option (List vec2d_t) :=
  match transform[tile_index]? with
  | none => none
  | some gt =>
    let mesh_size := gt.mesh_.length
    match neighbor_loop env o tile_index transform warped_tile warped_mask gt
        (neighbors.getD tile_index []) ([], List.replicate mesh_size 0) with
    | none => none
    | some (shift_i, mass) =>
      let shift := blend mesh_size shift_i
      some (if o.keep_first_tile_fixed then shift else normalize shift mass)

/-- The result of `calc_displacements` for the neighbor pair (`tile_index`, `j`)
taken on its own: the regularized shift of the pair and, started from a zero
mass, the mass of the pair. -/
def pair_result (env : Env Img Msk) (o : options_t) (tile_index : Nat)
    (transform : List the_grid_transform_t)
    (warped_tile : List (Option Img)) (warped_mask : List (Option Msk))
    (gt : the_grid_transform_t) (j : Nat) : Option (List vec2d_t × List ℚ) :=
  match transform[j]? with
  | none => none
  | some tj =>
    calc_displacements env (List.replicate gt.mesh_.length 0) o.prewarp_tiles
      (warped_tile.getD j none) (warped_mask.getD j none) tj
      (warped_tile.getD tile_index none) (warped_mask.getD tile_index none) gt
      o.neighborhood o.minimum_overlap o.median_radius

/-- The index of the first mobile tile: `start = keep_first_tile_fixed ? 1 : 0`. -/
def start_index (keep_first_tile_fixed : Bool) : Nat :=
  if keep_first_tile_fixed then 1 else 0

/-- The neighbor discovery loops (refine_mosaic:1081-1103, refine_mosaic_mt:1443-1465):
`neighbors[i]` for `i < start` stays empty; for `i >= start` index `j` is
pushed, for `j` from 0 up, when `i != j` and the boxes intersect. -/
def find_neighbors (env : Env Img Msk) (transform : List the_grid_transform_t)
    (tile : List Img) (start : Nat) : List (List Nat) :=
  let num_tiles := tile.length
  let box := env.calc_mosaic_bboxes transform tile
  (List.range num_tiles).map (fun i =>
    if i < start then []
    else (List.range num_tiles).filter
      (fun j => !(i == j) && env.intersects (box i) (box j)))

/-- The refinement driver state: the transforms (refined in place) and the local
vectors `warped_tile`, `warped_mask` (a null pointer is `none`). -/
structure mosaic_state (Img Msk : Type) where
  transform : List the_grid_transform_t
  warped_tile : List (Option Img)
  warped_mask : List (Option Msk)
deriving DecidableEq

/-- Warping of tile `i` into the warped set: the body of
`warp_tile_transaction_t::execute` (lines 1238-1251), which is also the body of
the warp loop of `refine_mosaic` (lines 1133-1143). The mask is warped only
when it is not null. -/
def warp_tile (env : Env Img Msk) (tile : List Img) (mask : List (Option Msk))
    (transform : List the_grid_transform_t)
    (w : List (Option Img) × List (Option Msk)) (i : Nat) :
    Option (List (Option Img) × List (Option Msk)) :=
  match tile[i]?, mask[i]?, transform[i]? with
  | some t, some m, some tr =>
    some (w.1.set i (some (env.warp t tr)),
      match m with
      | some mk => w.2.set i (some (env.warp_mask mk tr))
      | none => w.2)
  | _, _, _ => none

/-- One iteration of the displacement loop: `shift[i]` receives the shift of
tile `i`. -/
def shift_step (env : Env Img Msk) (o : options_t) (transform : List the_grid_transform_t)
    (warped_tile : List (Option Img)) (warped_mask : List (Option Msk))
    (neighbors : List (List Nat)) (shift : List (List vec2d_t)) (i : Nat) :
    Option (List (List vec2d_t)) :=
  match refine_one_tile env o i transform warped_tile warped_mask neighbors with
  | none => none
  | some s => some (shift.set i s)

/-- One iteration of the update loop: `gt.grid_.update(&(shift[i][0]));
transform[i]->setup(gt)`. -/
def update_step (shift : List (List vec2d_t)) (transform : List the_grid_transform_t)
    (i : Nat) : Option (List the_grid_transform_t) :=
  match transform[i]?, shift[i]? with
  | some gt, some s => some (transform.set i (update gt s))
  | _, _ => none

/-- The indices `start, ..., num_tiles - 1` of the mobile tiles. -/
def mobile_tiles (num_tiles start : Nat) : List Nat :=
  List.range' start (num_tiles - start)

/-- One pass of the loop of `refine_mosaic` (lines 1126-1210): warp (when
prewarping), compute `shift[i]` for every mobile tile from the transforms as
they are at the start of the pass, then update every mobile transform. The
result also carries the `shift` vector of the pass. -/
def refine_mosaic_pass (env : Env Img Msk) (o : options_t) (tile : List Img)
    (mask : List (Option Msk)) (neighbors : List (List Nat)) (st : mosaic_state Img Msk) :
    Option (mosaic_state Img Msk × List (List vec2d_t)) :=
  let num_tiles := tile.length
  let idx := mobile_tiles num_tiles (start_index o.keep_first_tile_fixed)
  match (if o.prewarp_tiles then
      idx.foldlM (warp_tile env tile mask st.transform) (st.warped_tile, st.warped_mask)
    else some (st.warped_tile, st.warped_mask)) with
  | none => none
  | some w =>
    match idx.foldlM (shift_step env o st.transform w.1 w.2 neighbors)
        (List.replicate num_tiles []) with
    | none => none
    | some shift =>
      match idx.foldlM (update_step shift) st.transform with
      | none => none
      | some transform => some (⟨transform, w.1, w.2⟩, shift)

/-- The pass loop of `refine_mosaic`: `for (pass = 0; pass < num_passes; pass++)`;
the argument counts the passes that remain. -/
def refine_mosaic_loop (env : Env Img Msk) (o : options_t) (tile : List Img)
    (mask : List (Option Msk)) (neighbors : List (List Nat)) :
    Nat → mosaic_state Img Msk → Option (mosaic_state Img Msk)
  | 0, st => some st
  | n + 1, st =>
    match refine_mosaic_pass env o tile mask neighbors st with
    | none => none
    | some (st1, _) => refine_mosaic_loop env o tile mask neighbors n st1

/-- The warped set of `refine_mosaic` before the first pass (lines 1108-1124): all
entries null, except that with `keep_first_tile_fixed` entry 0 is a duplicate of
`tile[0]` / `mask[0]`. The duplicator is run on `mask[0]` without a null test;
ITK raises an exception for a null input, modelled by `none`. -/
def refine_mosaic_init (tile : List Img) (mask : List (Option Msk))
    (keep_first_tile_fixed : Bool) : Option (List (Option Img) × List (Option Msk)) :=
  let num_tiles := tile.length
  if keep_first_tile_fixed then
    match tile[0]?, mask[0]? with
    | some t, some (some m) =>
      some ((List.replicate num_tiles none).set 0 (some t),
        (List.replicate num_tiles none).set 0 (some m))
    | _, _ => none
  else some (List.replicate num_tiles none, List.replicate num_tiles none)

/-- Function `refine_mosaic` for grid transforms (IRMosaicRefinementCommon.h:1045-1211),
returning the final driver state (`none`: undefined behaviour or exception). -/
def refine_mosaic_state (env : Env Img Msk) (o : options_t)
    (transform : List the_grid_transform_t) (tile : List Img) (mask : List (Option Msk))
    (num_passes : Nat) : Option (mosaic_state Img Msk) :=
  let num_tiles := tile.length
  if num_tiles < 2 then some ⟨transform, [], []⟩
  else
    let start := start_index o.keep_first_tile_fixed
    let neighbors := find_neighbors env transform tile start
    match refine_mosaic_init tile mask o.keep_first_tile_fixed with
    | none => none
    | some w => refine_mosaic_loop env o tile mask neighbors num_passes ⟨transform, w.1, w.2⟩

/-- Function `refine_mosaic`: the transforms on return. -/
def refine_mosaic (env : Env Img Msk) (o : options_t)
    (transform : List the_grid_transform_t) (tile : List Img) (mask : List (Option Msk))
    (num_passes : Nat) : Option (List the_grid_transform_t) :=
  (refine_mosaic_state env o transform tile mask num_passes).map (fun st => st.transform)

/-- The largest finite double, `std::numeric_limits<double>::max()`. -/
def DBL_MAX : ℚ := (2 ^ 53 - 1) * 2 ^ 971

/-- The call `std::abs(v)` on a double. -/
def fabs (v : ℚ) : ℚ := if v < 0 then -v else v

/-- The statistics loop of `refine_mosaic_mt` (lines 1689-1703): the sum of
`|x| + |y|` over all shift vectors and `count`, two per vector; the result is
`(avg / count, count)`. -/
def displacement_stats (shift : List (List vec2d_t)) : ℚ × ℚ :=
  let acc := shift.flatten.foldl (fun (a : ℚ × ℚ) v => (a.1 + (fabs v.x + fabs v.y), a.2 + 2)) (0, 0)
  (acc.1 / acc.2, acc.2)

/-- One pass of the loop of `refine_mosaic_mt` (lines 1497-1634, the enabled
`#if 1` branch). The tiles `start .. start + num_tiles_distributed - 1` are
handled by `refine_one_tile_t` transactions, the remaining ones in line; the
transactions write disjoint slots of `shift` and read the transforms, which
are updated only afterwards. The modulus by `num_threads = 0` is undefined. -/
def refine_mosaic_mt_pass (env : Env Img Msk) (o : options_t) (tile : List Img)
    (mask : List (Option Msk)) (neighbors : List (List Nat)) (num_threads : Nat)
    (st : mosaic_state Img Msk) :
    Option (mosaic_state Img Msk × List (List vec2d_t)) :=
  let num_tiles := tile.length
  let start := start_index o.keep_first_tile_fixed
  let idx := mobile_tiles num_tiles start
  match (if o.prewarp_tiles then
      idx.foldlM (warp_tile env tile mask st.transform) (st.warped_tile, st.warped_mask)
    else some (st.warped_tile, st.warped_mask)) with
  | none => none
  | some w =>
    if num_threads = 0 then none
    else
      let num_tiles_distributed := (num_tiles - start) - (num_tiles - start) % num_threads
      let num_tiles_remaining := (num_tiles - start) - num_tiles_distributed
      match (List.range' start num_tiles_distributed).foldlM
          (shift_step env o st.transform w.1 w.2 neighbors) (List.replicate num_tiles []) with
      | none => none
      | some shift0 =>
        match (List.range' (start + num_tiles_distributed) num_tiles_remaining).foldlM
            (shift_step env o st.transform w.1 w.2 neighbors) shift0 with
        | none => none
        | some shift =>
          match idx.foldlM (update_step shift) st.transform with
          | none => none
          | some transform => some (⟨transform, w.1, w.2⟩, shift)

/-- The pass loop of `refine_mosaic_mt` with its convergence test (lines
1689-1715). The first argument counts the passes that remain; the result
carries `(avg, count)` of every pass executed, oldest first. -/
def refine_mosaic_mt_loop (env : Env Img Msk) (o : options_t) (tile : List Img)
    (mask : List (Option Msk)) (neighbors : List (List Nat)) (threshold : ℚ)
    (num_threads : Nat) :
    Nat → ℚ → mosaic_state Img Msk → Option (mosaic_state Img Msk × List (ℚ × ℚ))
  | 0, _, st => some (st, [])
  | n + 1, last_average, st =>
    match refine_mosaic_mt_pass env o tile mask neighbors num_threads st with
    | none => none
    | some (st1, shift) =>
      let stats := displacement_stats shift
      if 0 < stats.2 then
        if stats.1 ≤ threshold then some (st1, [stats])
        else if last_average ≤ stats.1 then some (st1, [stats])
        else
          match refine_mosaic_mt_loop env o tile mask neighbors threshold num_threads
              n stats.1 st1 with
          | none => none
          | some r => some (r.1, stats :: r.2)
      else
        match refine_mosaic_mt_loop env o tile mask neighbors threshold num_threads
            n last_average st1 with
        | none => none
        | some r => some (r.1, stats :: r.2)

/-- The warped set of `refine_mosaic_mt` before the first pass (lines 1467-1492):
every tile is duplicated, every non-null mask is duplicated. -/
def refine_mosaic_mt_init (tile : List Img) (mask : List (Option Msk)) :
    Option (List (Option Img) × List (Option Msk)) :=
  if tile.length ≤ mask.length then
    some (tile.map some, mask.take tile.length)
  else none

/-- Function `refine_mosaic_mt` (IRMosaicRefinementCommon.h:1378-1716) for
`num_threads != 1`, returning the final driver state and the `(avg, count)` of
every pass executed. -/
def refine_mosaic_mt_state (env : Env Img Msk) (o : options_t)
    (transform : List the_grid_transform_t) (tile : List Img) (mask : List (Option Msk))
    (num_passes : Nat) (displacement_threshold : ℚ) (num_threads : Nat) :
    Option (mosaic_state Img Msk × List (ℚ × ℚ)) :=
  let num_tiles := tile.length
  if num_tiles < 2 then some (⟨transform, [], []⟩, [])
  else
    let threshold := displacement_threshold
    let start := start_index o.keep_first_tile_fixed
    let neighbors := find_neighbors env transform tile start
    match refine_mosaic_mt_init tile mask with
    | none => none
    | some w =>
      refine_mosaic_mt_loop env o tile mask neighbors threshold num_threads
        num_passes DBL_MAX ⟨transform, w.1, w.2⟩

/-- Function `refine_mosaic_mt`: the transforms on return. With `num_threads == 1`
the call is forwarded to `refine_mosaic` (lines 1393-1406), which takes no
`displacement_threshold`. -/
def refine_mosaic_mt (env : Env Img Msk) (o : options_t)
    (transform : List the_grid_transform_t) (tile : List Img) (mask : List (Option Msk))
    (num_passes : Nat) (displacement_threshold : ℚ) (num_threads : Nat) :
    Option (List the_grid_transform_t) :=
  if num_threads = 1 then refine_mosaic env o transform tile mask num_passes
  else (refine_mosaic_mt_state env o transform tile mask num_passes
    displacement_threshold num_threads).map (fun r => r.1.transform)

/-! ## Concrete collaborators used to evaluate the model -/

/-- A small environment: a tile is identified by a number, its pixel spacing is
`(1, 1)` except for tile 7 whose spacing is `(2, 2)`; warping keeps the tile;
all boxes intersect; the matcher always reports the shift `(1, 0)`; the median
filter (radius 0) passes the vertex value through with the weight as mass. -/
def demo_env : Env Nat Unit where
  GetSpacing := fun t => if t = 7 then (2, 2) else (1, 1)
  warp := fun t _ => t
  warp_mask := fun m _ => m
  calc_mosaic_bboxes := fun _ _ _ => (vec2d 0 0, vec2d 1 1)
  intersects := fun _ _ => true
  refine_one_point_fft := fun _ _ _ _ _ _ _ _ _ _ => some (vec2d 1 0)
  median := fun dx dy db _ k =>
    (vec2d (dx.pix (k % dx.cols, k / dx.cols)) (dy.pix (k % dy.cols, k / dy.cols)),
     db.pix (k % db.cols, k / db.cols))

/-- A grid transform with a single quad (2 x 2 vertices) at the given offset. -/
def demo_grid (ox : ℚ) : the_grid_transform_t where
  rows_ := 1
  cols_ := 1
  mesh_ := [⟨vec2d 0 0, vec2d ox 0⟩, ⟨vec2d 1 0, vec2d (ox + 1) 0⟩,
    ⟨vec2d 0 1, vec2d ox 1⟩, ⟨vec2d 1 1, vec2d (ox + 1) 1⟩]

/-- Default options: neighborhood 8, prewarping on, overlap 1/4, median radius 0. -/
def demo_options (keep : Bool) : options_t := ⟨8, true, 1 / 4, 0, keep⟩

/-! ## Definitions: peak extraction (`find_maxima_cm`, IRFFTCommon.cxx) -/

/-- An `itk::Index<2>`: signed pixel coordinates `(x, y)`. -/
abbrev index_t := Int × Int

/-- The image type `itk_image_t` (`itk::Image<float, 2>`): its size and `GetPixel`.
Sizes are taken to fit the machine integers, so that no sum of a coordinate
and a size wraps around. -/
structure itk_image_t where
  w : Nat
  h : Nat
  pix : index_t → ℚ

/-- Type `local_max_t`: a record `(value, x, y, area)`. -/
structure local_max_t where
  value_ : ℚ
  x_ : ℚ
  y_ : ℚ
  area_ : Nat
deriving DecidableEq

/-- Modelled from the spec: `operator >` of `local_max_t` is declared outside the
sources at hand. The spec: "Local maximum record: (value, x, y, area). Ordered
by value descending." The relation is the order `std::list::sort` with
`std::greater` leaves between an element and a later one: the later one is not
greater. -/
def local_max_t.ge (a b : local_max_t) : Prop := b.value_ ≤ a.value_

instance : DecidableRel local_max_t.ge := fun a b => inferInstanceAs (Decidable (b.value_ ≤ a.value_))

/-- Modelled from the spec: `cluster_bbox_t` is declared outside the sources at
hand; the spec speaks of the clusters' "bounding boxes", which are "updated"
with pixel coordinates. A box holds `min_` and `max_`; `reset` makes it empty. -/
structure cluster_bbox_t where
  min_ : Int × Int
  max_ : Int × Int
deriving DecidableEq

/-- Modelled from the spec: the empty bounding box (`cluster_bbox_t::reset`), with
`min_` at the largest and `max_` at the smallest `int`. -/
def cluster_bbox_t.reset : cluster_bbox_t :=
  ⟨(2147483647, 2147483647), (-2147483648, -2147483648)⟩

/-- Modelled from the spec: `cluster_bbox_t::update(x, y)` extends the box to hold
the point. -/
def cluster_bbox_t.update (b : cluster_bbox_t) (x y : Int) : cluster_bbox_t :=
  ⟨(min b.min_.1 x, min b.min_.2 y), (max b.max_.1 x, max b.max_.2 y)⟩

/-- The pixels of `GetLargestPossibleRegion()` in iterator order: `x` runs
fastest. -/
def region (w h : Nat) : List (Nat × Nat) :=
  (List.range h).flatMap (fun y => (List.range w).map (fun x => (x, y)))

/-- The first loop of `find_maxima_cm` (lines 85-94): `(v_min, v_max)`. -/
def image_min_max (image : itk_image_t) : ℚ × ℚ :=
  (region image.w image.h).foldl
    (fun (a : ℚ × ℚ) p => (min a.1 (image.pix (p.1, p.2)), max a.2 (image.pix (p.1, p.2))))
    (DBL_MAX, -DBL_MAX)

/-- The number of histogram bins. -/
def bins : Nat := 4096

/-- The histogram loop (lines 110-115): `pdf[bin]++` with
`bin = (unsigned int)((v - v_min) / v_rng * (bins - 1))`. -/
def histogram (image : itk_image_t) (v_min v_rng : ℚ) : Nat → Nat :=
  (region image.w image.h).foldl
    (fun pdf p =>
      let bin := (Rat.floor ((image.pix (p.1, p.2) - v_min) / v_rng * ((bins : ℚ) - 1))).toNat
      Function.update pdf bin (pdf bin + 1))
    (fun _ => 0)

/-- The cumulative histogram (lines 118-123): `cdf[i] = cdf[i - 1] + pdf[i]`. -/
def cumulative (pdf : Nat → Nat) : Nat → Nat
  | 0 => pdf 0
  | i + 1 => cumulative pdf i + pdf (i + 1)

/-- The clip loop (lines 132-138), `for (i = 1; i < bins; i++)`, entered at `i`
with `n` bins left to visit: `clip_min` is set for bin `i`, and the loop is
left when `cdf[i] >= percentage * wh`. -/
def find_clip_min (v_min v_rng percentage wh : ℚ) (cdf : Nat → Nat) : Nat → Nat → ℚ → ℚ
  | 0, _, clip_min => clip_min
  | n + 1, i, _ =>
    let clip_min := v_min + ((i : ℚ) / ((bins : ℚ) - 1)) * v_rng
    if percentage * wh ≤ (cdf i : ℚ) then clip_min
    else find_clip_min v_min v_rng percentage wh cdf n (i + 1) clip_min

/-- Modelled from the spec: `threshold<itk_image_t>(image, min, max, new_min,
new_max)` is defined outside the sources at hand. The spec: "Threshold the
field ... assign a sentinel background": pixels below `min` become `new_min`,
pixels above `max` become `new_max`. -/
def threshold (image : itk_image_t) (lo hi new_min new_max : ℚ) : itk_image_t :=
  { image with pix := fun p =>
      if image.pix p < lo then new_min else if hi < image.pix p then new_max else image.pix p }

/-- Modelled from the spec: `remap_min_max<itk_image_t>(image, 0.0, 1.0)` is
defined outside the sources at hand. The spec: "remap thresholded values to
[0,1]": the affine map sending the least pixel value to 0 and the largest
to 1. -/
def remap_min_max (image : itk_image_t) : itk_image_t :=
  let mm := image_min_max image
  { image with pix := fun p => (image.pix p - mm.1) / (mm.2 - mm.1) }

/-- The stencil of `find_maxima_cm` (lines 156-167), in source order. -/
def stencil : List (Int × Int) :=
  [(0, -1), (-1, 0), (0, 1), (1, 0), (-1, -1), (1, 1), (-1, 1), (1, -1)]

/-- The labelling state: `clusters` and `bboxes` (dynamic arrays of `size`
entries) and `cluster_map`, a vector indexed by `x * h + y` whose entry `~0` is
`none`. Arrays are total maps; entries outside the array are never read. -/
structure clusters_t where
  clusters : Nat → List index_t
  bboxes : Nat → cluster_bbox_t
  size : Nat
  cluster_map : Int → Option Nat

/-- Modelled from the spec: `push_back_unique` is defined outside the sources at
hand; it appends the id unless the vector holds it already. -/
def push_back_unique (l : List Nat) (a : Nat) : List Nat :=
  if a ∈ l then l else l ++ [a]

/-- The neighborhood loop of the scanline pass (lines 193-205): the cluster ids of
the labelled stencil neighbors inside the image, without repetition, in
stencil order. -/
def collect_neighbors (w h : Nat) (cluster_map : Int → Option Nat) (x y : Int) : List Nat :=
  stencil.foldl
    (fun neighbors d =>
      let u := x + d.1
      let v := y + d.2
      if u < 0 ∨ (w : Int) ≤ u ∨ v < 0 ∨ (h : Int) ≤ v then neighbors
      else
        match cluster_map (u * h + v) with
        | none => neighbors
        | some cluster_id => push_back_unique neighbors cluster_id)
    []

/-- The three statements `cluster_map[ij[0] * h + ij[1]] = id;
clusters[id].push_back(ij); bboxes[id].update(ij[0], ij[1])` (lines 222-224 and
240-242). -/
def absorb (h : Nat) (id : Nat) (s : clusters_t) (ij : index_t) : clusters_t :=
  { s with
    cluster_map := Function.update s.cluster_map (ij.1 * h + ij.2) (some id)
    clusters := Function.update s.clusters id (s.clusters id ++ [ij])
    bboxes := Function.update s.bboxes id ((s.bboxes id).update ij.1 ij.2) }

/-- The merge of cluster `old_id` into `id` in the scanline pass (lines 233-243):
the box of `old_id` is reset and its pixels are moved, head first, to the end of
cluster `id`. (`old_id` differs from `id`: the neighbor ids are unique.) -/
def merge_cluster (h : Nat) (id : Nat) (s : clusters_t) (old_id : Nat) : clusters_t :=
  (s.clusters old_id).foldl (absorb h id)
    { s with
      bboxes := Function.update s.bboxes old_id cluster_bbox_t.reset
      clusters := Function.update s.clusters old_id [] }

/-- The body of the scanline loop (lines 175-247) for the pixel `p`. -/
def label_pixel (peaks : itk_image_t) (s : clusters_t) (p : Nat × Nat) : clusters_t :=
  let x : Int := p.1
  let y : Int := p.2
  -- skip over the background:
  if peaks.pix (x, y) ≤ 0 then s
  else
    match collect_neighbors peaks.w peaks.h s.cluster_map x y with
    | [] =>
      -- make a new cluster:
      let id := s.size
      absorb peaks.h id
        { s with
          clusters := Function.update s.clusters id []
          bboxes := Function.update s.bboxes id cluster_bbox_t.reset
          size := s.size + 1 }
        (x, y)
    | id :: rest =>
      -- add this pixel to the cluster, merge the clusters into the first one:
      rest.foldl (merge_cluster peaks.h id) (absorb peaks.h id s (x, y))

/-- The scanline pass (lines 169-247). -/
def label_clusters (peaks : itk_image_t) : clusters_t :=
  (region peaks.w peaks.h).foldl (label_pixel peaks)
    ⟨fun _ => [], fun _ => cluster_bbox_t.reset, 0, fun _ => none⟩

/-- The body of the stencil loop of the periodic pass (lines 262-300) for the
pixel `index` of cluster `i`. -/
def periodic_merge (w h : Nat) (i : Nat) (index : index_t) (s : clusters_t) (d : Int × Int) :
    clusters_t :=
  let x := Int.tmod (index.1 + w) w
  let y := Int.tmod (index.2 + h) h
  -- adjust for periodicity:
  let u := (x + d.1 + w) % w
  let v := (y + d.2 + h) % h
  match s.cluster_map (u * h + v) with
  | none => s
  | some cluster_id =>
    if cluster_id = i then s
    else
      let ba := s.bboxes i
      let bb := s.bboxes cluster_id
      let merge_x : Bool :=
        decide (((w / 2 : Nat) : Int) < bb.max_.1 - ba.min_.1) ||
        decide (((w / 2 : Nat) : Int) < ba.max_.1 - bb.min_.1)
      let merge_y : Bool :=
        decide (((h / 2 : Nat) : Int) < bb.max_.2 - ba.min_.2) ||
        decide (((h / 2 : Nat) : Int) < ba.max_.2 - bb.min_.2)
      let shift_x : Int := if !merge_x then 0 else if ba.min_.1 ≤ 0 then -(w : Int) else w
      let shift_y : Int := if !merge_y then 0 else if ba.min_.2 ≤ 0 then -(h : Int) else h
      (s.clusters cluster_id).foldl
        (fun s ij =>
          { s with
            cluster_map := Function.update s.cluster_map (ij.1 * h + ij.2) (some i)
            clusters := Function.update s.clusters i
              (s.clusters i ++ [(ij.1 + shift_x, ij.2 + shift_y)])
            bboxes := Function.update s.bboxes i
              ((s.bboxes i).update (ij.1 + shift_x) (ij.2 + shift_y)) })
        { s with
          bboxes := Function.update s.bboxes cluster_id cluster_bbox_t.reset
          clusters := Function.update s.clusters cluster_id [] }

/-- The iteration over the pixels of cluster `i` in the periodic pass (lines
256-301), entered at list position `pos`. The list grows at its end while it
is walked; `fuel` bounds the number of positions visited. The result is `none`
when the fuel runs out before the end of the list is reached. -/
def periodic_walk (w h : Nat) (i : Nat) : Nat → Nat → clusters_t → Option clusters_t
  | 0, _, _ => none
  | fuel + 1, pos, s =>
    match (s.clusters i)[pos]? with
    | none => some s
    | some index =>
      periodic_walk w h i fuel (pos + 1) (stencil.foldl (periodic_merge w h i index) s)

/-- The periodic pass (lines 250-302): the clusters are visited by increasing id;
an empty cluster is skipped. A cluster never holds more than `w * h` pixels,
which bounds the walk. -/
def periodic_pass (w h : Nat) (s : clusters_t) : Option clusters_t :=
  (List.range s.size).foldlM
    (fun s i => if s.clusters i = [] then some s else periodic_walk w h i (w * h + 1) 0 s)
    s

/-- The center of mass loop for one cluster (lines 317-345): `(mx, my, mt)`; the
coordinates enter the sums as stored, the pixel is read at the index adjusted
for periodicity. -/
def center_of_mass (peaks : itk_image_t) (cluster : List index_t) : ℚ × ℚ × ℚ :=
  cluster.foldl
    (fun (a : ℚ × ℚ × ℚ) ij =>
      let x : ℚ := (ij.1 : ℚ)
      let y : ℚ := (ij.2 : ℚ)
      let i0 : Int := if x < 0 then ij.1 + (peaks.w : Int) else ij.1
      let i0 : Int := if (peaks.w : ℚ) ≤ x then i0 - (peaks.w : Int) else i0
      let i1 : Int := if y < 0 then ij.2 + (peaks.h : Int) else ij.2
      let i1 : Int := if (peaks.h : ℚ) ≤ y then i1 - (peaks.h : Int) else i1
      let m := peaks.pix (i0, i1)
      (a.1 + m * x, a.2.1 + m * y, a.2.2 + m))
    (0, 0, 0)

/-- The record of a cluster (lines 343-352):
`local_max_t(mt / size, mx / mt, my / mt, size)`. -/
def cluster_record (peaks : itk_image_t) (cluster : List index_t) : local_max_t :=
  let m := center_of_mass peaks cluster
  ⟨m.2.2 / (cluster.length : ℚ), m.1 / m.2.2, m.2.1 / m.2.2, cluster.length⟩

/-- The non-empty clusters of a labelling state by increasing id. -/
def surviving (s : clusters_t) : List (List index_t) :=
  ((List.range s.size).map s.clusters).filter (fun c => !c.isEmpty)

/-- The threshold `clip_min` found by the histogram steps (lines 106-138). -/
def clip_level (image : itk_image_t) (percentage : ℚ) : ℚ :=
  let v_min := (image_min_max image).1
  let v_max := (image_min_max image).2
  let v_rng := v_max - v_min
  let cdf := cumulative (histogram image v_min v_rng)
  let wh : ℚ := ((image.w * image.h : Nat) : ℚ)
  find_clip_min v_min v_rng percentage wh cdf (bins - 1) 1 0

/-- The thresholded and remapped copy `peaks` of the image (lines 140-144) for an
image of range `v_rng != 0`. -/
def threshold_peaks (image : itk_image_t) (percentage : ℚ) : itk_image_t :=
  let v_min := (image_min_max image).1
  let v_max := (image_min_max image).2
  let v_rng := v_max - v_min
  let clip_min := clip_level image percentage
  let background := clip_min - v_rng * (1 / 1000)
  remap_min_max (threshold image clip_min v_max background v_max)

/-- Function `find_maxima_cm` (IRFFTCommon.cxx:58-367): the number of peaks
returned and `max_list` on return. The sort `max_list.sort(std::greater)` is a
stable sort, here insertion sort. The NaN and infinity tests of the range have
no counterpart over the rationals. -/
def find_maxima_cm (max_list : List local_max_t) (image : itk_image_t) (percentage : ℚ) :
    Option (Nat × List local_max_t) :=
  let v_min := (image_min_max image).1
  let v_max := (image_min_max image).2
  let v_rng := v_max - v_min
  if v_rng = 0 then
    -- there are no peaks in this image:
    some (0, max_list)
  else
    let peaks := threshold_peaks image percentage
    match periodic_pass peaks.w peaks.h (label_clusters peaks) with
    | none => none
    | some s =>
      let records := (surviving s).map (cluster_record peaks)
      some (records.length, List.insertionSort local_max_t.ge (max_list ++ records))

/-! ## Definitions: connected components on the torus -/

/-- A pixel index read modulo the image size. -/
def wrap (w h : Nat) (ij : index_t) : index_t := ((ij.1 + w) % w, (ij.2 + h) % h)

/-- The position `x * h + y` of a pixel in `cluster_map`. -/
def key (h : Nat) (p : index_t) : Int := p.1 * h + p.2

/-- The index lies inside a `w` by `h` image. -/
def in_image (w h : Nat) (p : index_t) : Prop := 0 ≤ p.1 ∧ p.1 < w ∧ 0 ≤ p.2 ∧ p.2 < h

instance (w h : Nat) (p : index_t) : Decidable (in_image w h p) := by
  unfold in_image; infer_instance

/-- An above-threshold pixel of the thresholded image: a pixel the scanline pass
does not skip as background. -/
def foreground (peaks : itk_image_t) (p : index_t) : Prop :=
  in_image peaks.w peaks.h p ∧ 0 < peaks.pix p

instance (peaks : itk_image_t) (p : index_t) : Decidable (foreground peaks p) := by
  unfold foreground; infer_instance

/-- The neighbor of `p` in stencil direction `d` on the torus: `x` is taken modulo
the width and `y` modulo the height. -/
def torus_neighbor (w h : Nat) (p : index_t) (d : Int × Int) : index_t :=
  ((p.1 + d.1 + w) % w, (p.2 + d.2 + h) % h)

/-- Two above-threshold pixels are 8-neighbors on the torus. -/
def adjacent8 (peaks : itk_image_t) (p q : index_t) : Prop :=
  foreground peaks p ∧ foreground peaks q ∧
    ∃ d ∈ stencil, q = torus_neighbor peaks.w peaks.h p d

/-- Two above-threshold pixels lie in the same connected component (8-connectivity
on the torus). -/
def connected (peaks : itk_image_t) : index_t → index_t → Prop :=
  Relation.ReflTransGen (adjacent8 peaks)

/-- The consistency of a labelling state with the image: every stored pixel, read
modulo the image size, is an above-threshold pixel mapped to its cluster and
lies at most one period outside the image; every mapped pixel is stored; no
pixel is stored twice; the pixels of one cluster are connected; `shifted`
bounds the clusters that may hold indices outside the image. -/
structure labelling_inv (peaks : itk_image_t) (shifted : Nat → Prop) (s : clusters_t) : Prop where
  member_fg : ∀ id, ∀ ij ∈ s.clusters id,
    foreground peaks (wrap peaks.w peaks.h ij) ∧
      s.cluster_map (key peaks.h (wrap peaks.w peaks.h ij)) = some id
  member_range : ∀ id, ∀ ij ∈ s.clusters id,
    -(peaks.w : Int) ≤ ij.1 ∧ ij.1 < 2 * peaks.w ∧ -(peaks.h : Int) ≤ ij.2 ∧ ij.2 < 2 * peaks.h
  map_member : ∀ p id, in_image peaks.w peaks.h p → s.cluster_map (key peaks.h p) = some id →
    ∃ ij ∈ s.clusters id, wrap peaks.w peaks.h ij = p
  nodup : ∀ id, ((s.clusters id).map (wrap peaks.w peaks.h)).Nodup
  reach : ∀ p q id, in_image peaks.w peaks.h p → in_image peaks.w peaks.h q →
    s.cluster_map (key peaks.h p) = some id → s.cluster_map (key peaks.h q) = some id →
    connected peaks p q
  beyond : ∀ id, s.size ≤ id → s.clusters id = []
  unshifted : ∀ id, ¬ shifted id → ∀ ij ∈ s.clusters id, in_image peaks.w peaks.h ij

/-- Every above-threshold torus neighbor of the stored pixel `ij` is mapped to
cluster `id`. -/
def pixel_closed (peaks : itk_image_t) (s : clusters_t) (id : Nat) (ij : index_t) : Prop :=
  ∀ d ∈ stencil,
    foreground peaks (torus_neighbor peaks.w peaks.h (wrap peaks.w peaks.h ij) d) →
    s.cluster_map (key peaks.h (torus_neighbor peaks.w peaks.h (wrap peaks.w peaks.h ij) d)) =
      some id

/-- Cluster `id` is closed under torus adjacency. -/
def cluster_closed (peaks : itk_image_t) (s : clusters_t) (id : Nat) : Prop :=
  ∀ ij ∈ s.clusters id, pixel_closed peaks s id ij

/-- The relabelling of a `cluster_map` entry by a merge of cluster `old_id` into
cluster `id`. -/
def relabel (old_id id : Nat) : Option Nat → Option Nat
  | none => none
  | some c => if c = old_id then some id else some c

/-- The move of the pixels `l` to the end of cluster `i`, shifted by `(sx, sy)`, as
done by the inner loops of both merges. -/
def move_pixels (h : Nat) (i : Nat) (sx sy : Int) (s : clusters_t) (l : List index_t) :
    clusters_t :=
  l.foldl
    (fun s ij =>
      { s with
        cluster_map := Function.update s.cluster_map (ij.1 * h + ij.2) (some i)
        clusters := Function.update s.clusters i (s.clusters i ++ [(ij.1 + sx, ij.2 + sy)])
        bboxes := Function.update s.bboxes i ((s.bboxes i).update (ij.1 + sx) (ij.2 + sy)) })
    s

/-- The state after the merge of cluster `cid` into cluster `i` with the shift
`(sx, sy)`: the box of `cid` is reset, its pixels are moved to cluster `i`. -/
def merge_into (h : Nat) (i : Nat) (sx sy : Int) (s : clusters_t) (cid : Nat) : clusters_t :=
  move_pixels h i sx sy
    { s with
      bboxes := Function.update s.bboxes cid cluster_bbox_t.reset
      clusters := Function.update s.clusters cid [] }
    (s.clusters cid)

/-- The invariant of the scanline pass after the pixels `done` have been visited:
the labelling is consistent, no cluster holds an index outside the image, and
the mapped pixels are the above-threshold pixels visited so far. -/
structure scan_inv (peaks : itk_image_t) (done : List index_t) (s : clusters_t) : Prop where
  inv : labelling_inv peaks (fun _ => False) s
  labelled_done : ∀ q, in_image peaks.w peaks.h q → s.cluster_map (key peaks.h q) ≠ none →
    q ∈ done
  done_labelled : ∀ q ∈ done, foreground peaks q → s.cluster_map (key peaks.h q) ≠ none

/-- The invariant of the periodic pass before cluster `i` is visited: the
labelling is consistent, every above-threshold pixel is mapped, only clusters
below `i` may hold shifted indices, and they are closed under adjacency. -/
structure periodic_inv (peaks : itk_image_t) (i : Nat) (s : clusters_t) : Prop where
  inv : labelling_inv peaks (fun id => id < i) s
  complete : ∀ q, foreground peaks q → s.cluster_map (key peaks.h q) ≠ none
  closed : ∀ id, id < i → cluster_closed peaks s id

/-- The invariant of the periodic pass while cluster `i` is walked. -/
structure walk_inv (peaks : itk_image_t) (i : Nat) (s : clusters_t) : Prop where
  inv : labelling_inv peaks (fun id => id ≤ i) s
  complete : ∀ q, foreground peaks q → s.cluster_map (key peaks.h q) ≠ none
  closed : ∀ id, id < i → cluster_closed peaks s id
  lt_size : i < s.size

/-- A 4 by 3 image that is 1 at the four corners and 0 elsewhere: on the torus the
corners form one cluster. -/
def corner_image : itk_image_t :=
  ⟨4, 3, fun p => if (p.1 = 0 ∨ p.1 = 3) ∧ (p.2 = 0 ∨ p.2 = 2) then 1 else 0⟩

/-- A 4 by 3 image of constant value 5. -/
def flat_image : itk_image_t := ⟨4, 3, fun _ => 5⟩

/-! ## Definitions: the overlap mask of `find_correlation` (IRFFTCommon.cxx) -/

/-- The call `PDF->SetPixel(index, v)` on an `itk_image_t`. -/
def itk_image_t.SetPixel (image : itk_image_t) (index : index_t) (v : ℚ) : itk_image_t :=
  { image with pix := Function.update image.pix index v }

/-- Modelled from the spec: `OverlapPercent(size, pt)` is defined outside the
sources at hand. The spec: "the fractional overlap this translation would induce
between two tiles of the input size": the area shared by a tile and its copy
translated by `pt`, over the area of the tile. The masking step is modelled for
any such function; this one is used to evaluate it. -/
def OverlapPercent (size : Nat × Nat) (pt : ℚ × ℚ) : ℚ :=
  (max 0 ((size.1 : ℚ) - fabs pt.1) * max 0 ((size.2 : ℚ) - fabs pt.2)) /
    ((size.1 : ℚ) * (size.2 : ℚ))

/-- The test `overlap >= overlap_min && overlap <= overlap_max` (lines 595, 605,
615, 625) for the displacement `pt`. -/
def in_overlap_zone (overlap : ℚ × ℚ → ℚ) (overlap_min overlap_max : ℚ) (pt : ℚ × ℚ) : Bool :=
  decide (overlap_min ≤ overlap pt) && decide (overlap pt ≤ overlap_max)

/-- The four displacements tested for the quadrant pixel `(ix, iy)` (lines
591-630), in source order: `(ix, iy)`, `(nx - ix, iy)`, `(ix, ny - iy)`,
`(nx - ix, ny - iy)`. -/
def tested_displacements (nx ny : Nat) (iPixel : Nat × Nat) : List (ℚ × ℚ) :=
  [((iPixel.1 : ℚ), (iPixel.2 : ℚ)),
   ((nx : ℚ) - (iPixel.1 : ℚ), (iPixel.2 : ℚ)),
   ((iPixel.1 : ℚ), (ny : ℚ) - (iPixel.2 : ℚ)),
   ((nx : ℚ) - (iPixel.1 : ℚ), (ny : ℚ) - (iPixel.2 : ℚ))]

/-- The four pixels written for the quadrant pixel `(ix, iy)` (lines 633-644), in
source order: `(ix, iy)`, `(nx - 1 - ix, iy)`, `(ix, ny - 1 - iy)`,
`(nx - 1 - ix, ny - 1 - iy)`. -/
def mirror_pixels (nx ny : Nat) (iPixel : Nat × Nat) : List index_t :=
  [((iPixel.1 : Int), (iPixel.2 : Int)),
   (((nx : Int) - 1) - (iPixel.1 : Int), (iPixel.2 : Int)),
   ((iPixel.1 : Int), ((ny : Int) - 1) - (iPixel.2 : Int)),
   (((nx : Int) - 1) - (iPixel.1 : Int), ((ny : Int) - 1) - (iPixel.2 : Int))]

/-- The body of the masking loop (lines 589-646) for the quadrant pixel `iPixel`:
the state is the PDF and `PixelsInOverlapZone`. When one of the four
displacements lies in the overlap zone the count grows by 4 and the loop
continues; otherwise the four mirror pixels are set to `min`. -/
def mask_pixel (overlap : ℚ × ℚ → ℚ) (overlap_min overlap_max min : ℚ) (nx ny : Nat)
    (s : itk_image_t × Int) (iPixel : Nat × Nat) : itk_image_t × Int :=
  if in_overlap_zone overlap overlap_min overlap_max
      ((iPixel.1 : ℚ), (iPixel.2 : ℚ)) then (s.1, s.2 + 4)
  else if in_overlap_zone overlap overlap_min overlap_max
      ((nx : ℚ) - (iPixel.1 : ℚ), (iPixel.2 : ℚ)) then (s.1, s.2 + 4)
  else if in_overlap_zone overlap overlap_min overlap_max
      ((iPixel.1 : ℚ), (ny : ℚ) - (iPixel.2 : ℚ)) then (s.1, s.2 + 4)
  else if in_overlap_zone overlap overlap_min overlap_max
      ((nx : ℚ) - (iPixel.1 : ℚ), (ny : ℚ) - (iPixel.2 : ℚ)) then (s.1, s.2 + 4)
  else
    -- If we got here the pixel can't be overlapping
    ((mirror_pixels nx ny iPixel).foldl (fun (PDF : itk_image_t) i => PDF.SetPixel i min) s.1, s.2)

/-- The quadrant pixels in loop order (lines 586-589): `iPixel[1]` runs over
`0 .. ny / 2` in the outer loop, `iPixel[0]` over `0 .. nx / 2` in the inner
one, both bounds included. -/
def quadrant (nx ny : Nat) : List (Nat × Nat) :=
  (List.range (ny / 2 + 1)).flatMap (fun iy => (List.range (nx / 2 + 1)).map (fun ix => (ix, iy)))

/-- The masking step of `find_correlation` (lines 584-646): the masked PDF and
`PixelsInOverlapZone`. On an image without pixels the first `SetPixel` writes
outside the buffer, which is undefined. -/
def mask_pdf (overlap : ℚ × ℚ → ℚ) (overlap_min overlap_max min : ℚ) (PDF : itk_image_t) :
    Option (itk_image_t × Int) :=
  if PDF.w = 0 ∨ PDF.h = 0 then none
  else
    some ((quadrant PDF.w PDF.h).foldl
      (mask_pixel overlap overlap_min overlap_max min PDF.w PDF.h) (PDF, 0))

/-- The fraction of the pixels attributed to local maxima (line 692):
`std::min(64.0 / area, std::max(5.0 / area, 1e-2))`. -/
def fraction (area : ℚ) : ℚ := min (64 / area) (max (5 / area) (1 / 100))

/-- Function `find_maxima_cm` (IRFFTCommon.cxx:58-367) called with the percentile
minus infinity, which is `1.0 - fraction` for an infinite `fraction`. The range
test of line 100 does not read the percentile. In the clip loop (lines 132-138)
the product `percentage * wh` is minus infinity, so the test
`cdf[i] >= percentage * wh` holds at `i = 1`; for an image without pixels the
product is NaN, the test never holds and the loop ends with `i = bins - 1`. -/
def find_maxima_cm_neg_inf (max_list : List local_max_t) (image : itk_image_t) :
    Option (Nat × List local_max_t) :=
  let v_min := (image_min_max image).1
  let v_max := (image_min_max image).2
  let v_rng := v_max - v_min
  if v_rng = 0 then
    -- there are no peaks in this image:
    some (0, max_list)
  else
    let i : ℚ := if image.w * image.h = 0 then (bins : ℚ) - 1 else 1
    let clip_min := v_min + (i / ((bins : ℚ) - 1)) * v_rng
    let background := clip_min - v_rng * (1 / 1000)
    let peaks := remap_min_max (threshold image clip_min v_max background v_max)
    match periodic_pass peaks.w peaks.h (label_clusters peaks) with
    | none => none
    | some s =>
      let records := (surviving s).map (cluster_record peaks)
      some (records.length, List.insertionSort local_max_t.ge (max_list ++ records))

/-- Function `find_correlation` (IRFFTCommon.cxx:462-699) from the point where the
displacement PDF has been computed (line 560): the minimum of the PDF is taken,
the PDF is masked, the fraction is computed from the count, the assertion
`fraction < 1.0` is tested, and `find_maxima_cm` is called with the percentile
`1.0 - fraction`. `NDEBUG` tells whether the assertions are compiled out; a
failed assertion aborts the program, which is `none` like undefined behaviour.
With no pixel in the overlap zone `64.0 / area` and `5.0 / area` are plus
infinity, so is the fraction, and the percentile is minus infinity.
`image_min_max<itk_image_t>` is defined outside the sources at hand; it is the
scan that opens `find_maxima_cm`. -/
def find_correlation (NDEBUG : Bool) (overlap : ℚ × ℚ → ℚ) (max_list : List local_max_t)
    (PDF : itk_image_t) (overlap_min overlap_max : ℚ) : Option (Nat × List local_max_t) :=
  match mask_pdf overlap overlap_min overlap_max (image_min_max PDF).1 PDF with
  | none => none
  | some (masked, PixelsInOverlapZone) =>
    let area : ℚ := (PixelsInOverlapZone : ℚ)
    if area = 0 then
      -- the fraction is plus infinity, the assertion fails:
      if NDEBUG then find_maxima_cm_neg_inf max_list masked else none
    else
      -- the entire image should never be treated as a maxima cluster:
      if !NDEBUG && !decide (fraction area < 1) then none
      else
        -- find the maxima clusters:
        find_maxima_cm max_list masked (1 - fraction area)

/-- A 4 by 4 PDF whose pixel `(x, y)` holds `1 + x + 4 y`, except for pixel `(2, 2)`,
which holds the minimum `0`. -/
def ramp_pdf : itk_image_t :=
  ⟨4, 4, fun p => if p = (2, 2) then 0 else 1 + (p.1 : ℚ) + 4 * (p.2 : ℚ)⟩

/-- None of the four displacements tested for the quadrant pixel `iPixel` lies in
the overlap zone: the loop body reaches the four `SetPixel` calls. -/
def no_overlap (overlap : ℚ × ℚ → ℚ) (overlap_min overlap_max : ℚ) (nx ny : Nat)
    (iPixel : Nat × Nat) : Bool :=
  (tested_displacements nx ny iPixel).all
    (fun pt => !in_overlap_zone overlap overlap_min overlap_max pt)

/-- The masking rule in the words of the spec: a pixel whose overlap lies inside
`[overlap_min, overlap_max]` keeps its value, every other pixel of the image
holds `min`. -/
def masked_by_own_overlap (overlap : ℚ × ℚ → ℚ) (overlap_min overlap_max min : ℚ)
    (PDF masked : itk_image_t) : Prop :=
  ∀ q : index_t, in_image PDF.w PDF.h q →
    if overlap_min ≤ overlap ((q.1 : ℚ), (q.2 : ℚ)) ∧ overlap ((q.1 : ℚ), (q.2 : ℚ)) ≤ overlap_max
    then masked.pix q = PDF.pix q
    else masked.pix q = min

/-! ## Definitions: Legendre polynomial transform (itkLegendrePolynomialTransform.h) -/

/-- Static function `index_a` (lines 345-349): `j + ((j + k) * (j + k + 1)) / 2` in
`unsigned int` arithmetic, which is modulo `2 ^ 32`. -/
def index_a (j k : Nat) : Nat :=
  (j + ((j + k) * (j + k + 1)) % 2 ^ 32 / 2) % 2 ^ 32

/-- The constant `CoefficientsPerDimension` (line 91) of the transform of degree
`N`: `((N + 1) * (N + 2)) / 2`. -/
def CoefficientsPerDimension (N : Nat) : Nat := ((N + 1) * (N + 2)) % 2 ^ 32 / 2

/-- The constant `ParameterVectorLength` (line 94) of the transform of degree `N`:
`(N + 1) * (N + 2)`. -/
def ParameterVectorLength (N : Nat) : Nat := ((N + 1) * (N + 2)) % 2 ^ 32

/-- Static function `index_b` (lines 351-355) of the transform of degree `N`:
`CoefficientsPerDimension + index_a(j, k)`. -/
def index_b (N j k : Nat) : Nat := (CoefficientsPerDimension N + index_a j k) % 2 ^ 32

/-- Class `LegendrePolynomialTransform<TScalar, N>`: the degree `N`, the fixed
parameters `(uc, vc, Xmax, Ymax)` and the parameter vector, `a_jk` in its first
half and `b_jk` in its second half. The vectors are total maps; entries beyond
their length are never read. -/
structure LegendrePolynomialTransform where
  N : Nat
  m_FixedParameters : Nat → ℚ
  m_Parameters : Nat → ℚ

/-- Accessor `GetUc` (lines 309-313). -/
def LegendrePolynomialTransform.GetUc (t : LegendrePolynomialTransform) : ℚ :=
  t.m_FixedParameters 0

/-- Accessor `GetVc` (lines 315-319). -/
def LegendrePolynomialTransform.GetVc (t : LegendrePolynomialTransform) : ℚ :=
  t.m_FixedParameters 1

/-- Accessor `GetXmax` (lines 322-326). -/
def LegendrePolynomialTransform.GetXmax (t : LegendrePolynomialTransform) : ℚ :=
  t.m_FixedParameters 2

/-- Accessor `GetYmax` (lines 328-332). -/
def LegendrePolynomialTransform.GetYmax (t : LegendrePolynomialTransform) : ℚ :=
  t.m_FixedParameters 3

/-- Coefficient accessor `a(j, k)` (lines 381-385). -/
def LegendrePolynomialTransform.a (t : LegendrePolynomialTransform) (j k : Nat) : ℚ :=
  t.m_Parameters (index_a j k)

/-- Coefficient accessor `b(j, k)` (lines 387-391). -/
def LegendrePolynomialTransform.b (t : LegendrePolynomialTransform) (j k : Nat) : ℚ :=
  t.m_Parameters (index_b t.N j k)

/-- The normalization parameters stored by `setup` (lines 220-234): the values
passed in when both are non-zero, half the extent of the box otherwise. -/
def normalization (x_min x_max y_min y_max Xmax Ymax : ℚ) : ℚ × ℚ :=
  if Xmax ≠ 0 ∧ Ymax ≠ 0 then (Xmax, Ymax)
  else
    let w := x_max - x_min
    let h := y_max - y_min
    -- -1 : 1
    (w / 2, h / 2)

/-- Member function `setup` (lines 196-239). The default of `Xmax` and of `Ymax` is
`0.0`. When a normalization parameter stored is zero the quotients `a00_` and
`b00_` are infinite or NaN, values the rationals do not have: the result is
`none`. -/
def LegendrePolynomialTransform.setup (t : LegendrePolynomialTransform)
    (x_min x_max y_min y_max Xmax Ymax : ℚ) : Option LegendrePolynomialTransform :=
  -- center of the image:
  let xc := (x_min + x_max) / 2
  let yc := (y_min + y_max) / 2
  let fixed := Function.update (Function.update t.m_FixedParameters 0 xc) 1 yc
  -- setup the normalization parameters:
  let nrm := normalization x_min x_max y_min y_max Xmax Ymax
  let fixed := Function.update (Function.update fixed 2 nrm.1) 3 nrm.2
  if nrm.1 = 0 ∨ nrm.2 = 0 then none
  else
    -- setup a00, b00 (local translation parameters):
    some { t with
      m_FixedParameters := fixed
      m_Parameters :=
        Function.update (Function.update t.m_Parameters (index_a 0 0) (xc / nrm.1))
          (index_b t.N 0 0) (yc / nrm.2) }

/-- Modelled from the spec: the Legendre polynomial `P_k`; the file that evaluates
it (`itkLegendrePolynomialTransform.hxx`) is not among the sources at hand. The
spec: "where P_k is the Legendre polynomial of degree k", with
`P_0 = 1`, `P_1(x) = x` and
`(k + 2) P_{k+2}(x) = (2k + 3) x P_{k+1}(x) - (k + 1) P_k(x)`. -/
def Legendre : Nat → ℚ → ℚ
  | 0, _ => 1
  | 1, x => x
  | k + 2, x =>
    ((2 * (k : ℚ) + 3) * x * Legendre (k + 1) x - ((k : ℚ) + 1) * Legendre k x) / ((k : ℚ) + 2)

/-- The sum `sum(i in [0, N], sum(j in [0, i], c_jk * Pj * Qk))` with `k = i - j` of
the class comment (lines 63-67). -/
def legendre_sum (N : Nat) (c : Nat → Nat → ℚ) (P Q : Nat → ℚ) : ℚ :=
  ((List.range (N + 1)).map
    (fun i => ((List.range (i + 1)).map (fun j => c j (i - j) * P j * Q (i - j))).sum)).sum

/-- Modelled from the spec: member function `TransformPoint`, declared at line 119
and defined in `itkLegendrePolynomialTransform.hxx`, which is not among the
sources at hand. The class comment (lines 52-68) and the spec: "with
A = (u - uc)/Xmax, B = (v - vc)/Ymax, compute x = Xmax * Sa, y = Ymax * Sb".
With a zero normalization parameter the quotients are not rationals: `none`. -/
def LegendrePolynomialTransform.TransformPoint (t : LegendrePolynomialTransform) (x : ℚ × ℚ) :
    Option (ℚ × ℚ) :=
  if t.GetXmax = 0 ∨ t.GetYmax = 0 then none
  else
    let A := (x.1 - t.GetUc) / t.GetXmax
    let B := (x.2 - t.GetVc) / t.GetYmax
    let Sa := legendre_sum t.N t.a (fun j => Legendre j A) (fun k => Legendre k B)
    let Sb := legendre_sum t.N t.b (fun j => Legendre j A) (fun k => Legendre k B)
    some (t.GetXmax * Sa, t.GetYmax * Sb)

/-- A transform of degree 2 with all parameters zero, before `setup`. -/
def blank_transform : LegendrePolynomialTransform := ⟨2, fun _ => 0, fun _ => 0⟩

/-- The parameter vector of the identity polynomial of degree 2 on the box
`[0, 4] x [0, 2]`: `a00 = 1`, `a10 = 1`, `b00 = 1`, `b01 = 1`. -/
def identity_parameters : Nat → ℚ :=
  fun i => if i = 0 ∨ i = 2 ∨ i = 6 ∨ i = 7 then 1 else 0

/-! ## Definitions: numeric inverse (itkNumericInverse.h) -/

/-- Class `nonlinear_system_evaluator_t` (lines 50-62): `operator()` evaluates the
system `F` and its Jacobian `J` at the point `x`. Vectors are lists; `F` and `J`
are allocated with `n` entries and are read by index. -/
abbrev nonlinear_system_evaluator_t := List ℚ → List ℚ × List (List ℚ)

/-- The error sums `errf` and `errx` of `NewtonRaphson` (lines 88-92 and 112-117):
the sum of `fabs(v[i])` for `i < n`. -/
def error_sum (n : Nat) (v : List ℚ) : ℚ :=
  (List.range n).foldl (fun err i => err + fabs (v.getD i 0)) 0

/-- The step `dx` of one iteration of `NewtonRaphson` (lines 95-110): the solution
`svd.solve(b)` of the system with the matrix `A[i][j] = J[i][j]` and the right
hand side `b[i] = -F[i]`. The solver of VXL is a parameter. -/
def newton_step (usrfun : nonlinear_system_evaluator_t)
    (solve : List (List ℚ) → List ℚ → List ℚ) (n : Nat) (x : List ℚ) : List ℚ :=
  let FJ := usrfun x
  -- setup the left hand side of the linear system:
  let A := (List.range n).map (fun i => (List.range n).map (fun j => (FJ.2.getD i []).getD j 0))
  -- setup the right hand side of the linear system:
  let b := (List.range n).map (fun i => -(FJ.1.getD i 0))
  solve A b

/-- The update `x[i] += dx[i]` for `i < n` (line 116). -/
def newton_next (usrfun : nonlinear_system_evaluator_t)
    (solve : List (List ℚ) → List ℚ → List ℚ) (n : Nat) (x : List ℚ) : List ℚ :=
  (List.range n).map (fun i => x.getD i 0 + (newton_step usrfun solve n x).getD i 0)

/-- The loop of `NewtonRaphson` (lines 82-124) with `trials` iterations left: the
point `x` on exit and the number of evaluations of `usrfun` made so far. -/
def newton_loop (usrfun : nonlinear_system_evaluator_t)
    (solve : List (List ℚ) → List ℚ → List ℚ) (n : Nat) (tolx tolf : ℚ) :
    Nat → List ℚ → Nat → List ℚ × Nat
  | 0, x, evals => (x, evals)
  | trials + 1, x, evals =>
    -- evaluate the function at the current position, check for function convergence:
    if error_sum n (usrfun x).1 ≤ tolf then (x, evals + 1)
    -- check for root convergence:
    else if error_sum n (newton_step usrfun solve n x) ≤ tolx then
      (newton_next usrfun solve n x, evals + 1)
    else newton_loop usrfun solve n tolx tolf trials (newton_next usrfun solve n x) (evals + 1)

/-- Function `NewtonRaphson` (lines 67-127): the value returned, the estimated root
`x` on return and the number of evaluations of `usrfun`. -/
def NewtonRaphson (usrfun : nonlinear_system_evaluator_t)
    (solve : List (List ℚ) → List ℚ → List ℚ) (x : List ℚ) (ntrial : Nat) (tolx tolf : ℚ) :
    Bool × List ℚ × Nat :=
  let r := newton_loop usrfun solve x.length tolx tolf ntrial x 0
  (true, r.1, r.2)

/-- Member `operator()` of `NumericInverse` (lines 147-158): `transform_.eval(x, F, J)`
followed by `F[i] -= y_[i]` for `i < n`. -/
def NumericInverse.call (eval : nonlinear_system_evaluator_t) (y_ : List ℚ) :
    nonlinear_system_evaluator_t :=
  fun x =>
    let FJ := eval x
    ((List.range x.length).map (fun i => FJ.1.getD i 0 - y_.getD i 0), FJ.2)

/-- Member function `NumericInverse::transform` (lines 162-171): the value returned,
`x` on return and the number of evaluations. The tolerances are `1e-12`. With
an initialized `x` longer than `y` the read of `y_[i]` is outside the vector:
`none`. -/
def NumericInverse.transform (eval : nonlinear_system_evaluator_t)
    (solve : List (List ℚ) → List ℚ → List ℚ) (y x : List ℚ) (x_is_initialized : Bool) :
    Option (Bool × List ℚ × Nat) :=
  let x := if !x_is_initialized then y else x
  if y.length < x.length then none
  else some (NewtonRaphson (NumericInverse.call eval y) solve x 50 (1 / 10 ^ 12) (1 / 10 ^ 12))

/-- Modelled from the spec: the derivative of the Legendre polynomial `P_k`. The
spec: "Jacobian with respect to (u,v) and with respect to parameters are
computed by the same recurrence", the recurrence of `P_k` differentiated. -/
def Legendre_derivative : Nat → ℚ → ℚ
  | 0, _ => 0
  | 1, _ => 1
  | k + 2, x =>
    ((2 * (k : ℚ) + 3) * (Legendre (k + 1) x + x * Legendre_derivative (k + 1) x) -
      ((k : ℚ) + 1) * Legendre_derivative k x) / ((k : ℚ) + 2)

/-- Modelled from the spec: member function `eval`, declared at lines 264-267
("evaluate F = T(x), J = dT/dx") and defined in
`itkLegendrePolynomialTransform.hxx`, which is not among the sources at hand:
the forward map and its Jacobian with respect to `(u, v)`. -/
def LegendrePolynomialTransform.eval (t : LegendrePolynomialTransform) :
    nonlinear_system_evaluator_t :=
  fun x =>
    let A := (x.getD 0 0 - t.GetUc) / t.GetXmax
    let B := (x.getD 1 0 - t.GetVc) / t.GetYmax
    let P := fun j => Legendre j A
    let Q := fun k => Legendre k B
    let dP := fun j => Legendre_derivative j A
    let dQ := fun k => Legendre_derivative k B
    ([t.GetXmax * legendre_sum t.N t.a P Q, t.GetYmax * legendre_sum t.N t.b P Q],
     [[legendre_sum t.N t.a dP Q, t.GetXmax * legendre_sum t.N t.a P dQ / t.GetYmax],
      [t.GetYmax * legendre_sum t.N t.b dP Q / t.GetXmax, legendre_sum t.N t.b P dQ]])

/-- Modelled from the spec: member function `BackTransformPoint`, declared at
lines 121-125 ("If y = Transform(x), then x = BackTransform(y); if no mapping
from y to x exists, then an exception is thrown") and defined in
`itkLegendrePolynomialTransform.hxx`, which is not among the sources at hand.
The spec: "Inverse map: Newton-Raphson in R^2. Start from y as the seed". The
exception thrown when the numeric inverse returns `false` is `none`, as is a
zero normalization parameter. -/
def LegendrePolynomialTransform.BackTransformPoint (t : LegendrePolynomialTransform)
    (solve : List (List ℚ) → List ℚ → List ℚ) (y : ℚ × ℚ) : Option (ℚ × ℚ) :=
  if t.GetXmax = 0 ∨ t.GetYmax = 0 then none
  else
    match NumericInverse.transform t.eval solve [y.1, y.2] [] false with
    | some (true, [x0, x1], _) => some (x0, x1)
    | _ => none

/-- A solver standing for `vnl_svd<double>::solve` (VXL, outside the repository) on
systems of two equations in exact arithmetic: the solution of a non-singular
system, and the least-squares solution of least norm of a singular one. The
theorems take the solver as a parameter; this one is used to evaluate them. -/
def svd_solve (A : List (List ℚ)) (b : List ℚ) : List ℚ :=
  match A, b with
  | [[a11, a12], [a21, a22]], [b1, b2] =>
    let det := a11 * a22 - a12 * a21
    if det ≠ 0 then [(b1 * a22 - a12 * b2) / det, (a11 * b2 - a21 * b1) / det]
    else
      let s := a11 * a11 + a12 * a12 + a21 * a21 + a22 * a22
      if s = 0 then [0, 0] else [(a11 * b1 + a21 * b2) / s, (a12 * b1 + a22 * b2) / s]
  | _, _ => b.map (fun _ => 0)

/-- The transform of degree 3 with `uc = vc = 0`, `Xmax = Ymax = 1`, `a00 = 2`,
`a10 = -7/5`, `a30 = 2/5` and `b01 = 1`: the map
`(u, v) -> (u^3 - 2 u + 2, v)`. -/
def cubic_transform : LegendrePolynomialTransform :=
  ⟨3, fun i => if i = 2 ∨ i = 3 then 1 else 0,
    fun i => if i = 0 then 2 else if i = 2 then -7 / 5 else if i = 9 then 2 / 5
      else if i = 11 then 1 else 0⟩

/-- The transform of degree 2 set up on the box `[-1, 1] x [-1, 1]` (`uc = vc = 0`,
`Xmax = Ymax = 1`, `a00 = b00 = 0`) with `a10 = 1/100000` and `b01 = 1`: the
invertible map `(u, v) -> (u / 100000, v)`. -/
def flat_transform : LegendrePolynomialTransform :=
  ⟨2, fun i => if i = 2 ∨ i = 3 then 1 else 0,
    fun i => if i = 2 then 1 / 100000 else if i = 7 then 1 else 0⟩

/-- The residual sum `errf` of `NewtonRaphson` at the point `x`. -/
def residual (usrfun : nonlinear_system_evaluator_t) (n : Nat) (x : List ℚ) : ℚ :=
  error_sum n (usrfun x).1

/-- The step sum `errx` of `NewtonRaphson` for the step taken at the point `x`. -/
def step_size (usrfun : nonlinear_system_evaluator_t)
    (solve : List (List ℚ) → List ℚ → List ℚ) (n : Nat) (x : List ℚ) : ℚ :=
  error_sum n (newton_step usrfun solve n x)

/-- The point reached from the seed `x` by `k` Newton-Raphson steps, no stopping
test applied. -/
def newton_iterate (usrfun : nonlinear_system_evaluator_t)
    (solve : List (List ℚ) → List ℚ → List ℚ) (n : Nat) (x : List ℚ) (k : Nat) : List ℚ :=
  (newton_next usrfun solve n)^[k] x

/-- The field shifted cyclically by `(dx, dy)`, in the words of the spec: the value
of the shifted field at `(x, y)` is the value of the field at
`(x - dx, y - dy)`, read modulo the size. -/
def cyclic_shift (image : itk_image_t) (dx dy : Int) : itk_image_t :=
  { image with pix := fun p => image.pix (wrap image.w image.h (p.1 - dx, p.2 - dy)) }

/-- A 3 by 6 field that is 1 on the column `x = 1`, `0 <= y <= 4`, and at `(2, 4)`,
and 0 elsewhere: one cluster of six pixels that stays clear of the boundary of
the field in `x` and leaves the row `y = 5` empty. -/
def hook_image : itk_image_t :=
  ⟨3, 6, fun p => if (p.1 = 1 ∧ 0 ≤ p.2 ∧ p.2 ≤ 4) ∨ p = (2, 4) then 1 else 0⟩

/-! ## Definitions: the range test of `find_maxima_cm` on IEEE values -/

/-- A value of type `double`: a finite number, an infinity or NaN. -/
inductive double_t where
  | finite (v : ℚ)
  | pos_inf
  | neg_inf
  | nan
deriving DecidableEq

/-- The comparison `a < b` of two doubles; it is false when an operand is NaN. -/
def double_t.lt : double_t → double_t → Bool
  | .finite a, .finite b => decide (a < b)
  | .finite _, .pos_inf => true
  | .neg_inf, .finite _ => true
  | .neg_inf, .pos_inf => true
  | _, _ => false

/-- The call `std::min(a, b)`, which is `(b < a) ? b : a`. -/
def std_min (a b : double_t) : double_t := if double_t.lt b a then b else a

/-- The call `std::max(a, b)`, which is `(a < b) ? b : a`. -/
def std_max (a b : double_t) : double_t := if double_t.lt a b then b else a

/-- The difference `a - b` of two doubles; a finite difference beyond the largest
double overflows to an infinity. -/
def double_t.sub : double_t → double_t → double_t
  | .finite a, .finite b =>
    if DBL_MAX < a - b then .pos_inf
    else if a - b < -DBL_MAX then .neg_inf
    else .finite (a - b)
  | .nan, _ => .nan
  | _, .nan => .nan
  | .pos_inf, .pos_inf => .nan
  | .neg_inf, .neg_inf => .nan
  | .pos_inf, _ => .pos_inf
  | .neg_inf, _ => .neg_inf
  | .finite _, .pos_inf => .neg_inf
  | .finite _, .neg_inf => .pos_inf

/-- An image of type `itk_image_t` whose pixels may be infinite or NaN. -/
structure ieee_image_t where
  w : Nat
  h : Nat
  pix : index_t → double_t

/-- The first loop of `find_maxima_cm` (lines 85-94) on IEEE values:
`(v_min, v_max)`, from `v_min = DBL_MAX` and `v_max = -DBL_MAX`. -/
def ieee_min_max (image : ieee_image_t) : double_t × double_t :=
  (region image.w image.h).foldl
    (fun (a : double_t × double_t) p =>
      (std_min a.1 (image.pix (p.1, p.2)), std_max a.2 (image.pix (p.1, p.2))))
    (.finite DBL_MAX, .finite (-DBL_MAX))

/-- The range `v_rng = v_max - v_min` (line 97). -/
def value_range (image : ieee_image_t) : double_t :=
  (ieee_min_max image).2.sub (ieee_min_max image).1

/-- The test of line 100:
`v_rng == 0.0 || v_rng != v_rng || v_rng == std::numeric_limits<double>::infinity()`. -/
def no_peaks (v_rng : double_t) : Bool :=
  match v_rng with
  | .finite v => decide (v = 0)
  | .nan => true
  | .pos_inf => true
  | .neg_inf => false

/-- The image as an image of rationals, when all its pixels are finite. -/
def finite_image (image : ieee_image_t) : Option itk_image_t :=
  if (region image.w image.h).all
      (fun p => match image.pix (p.1, p.2) with
        | .finite _ => true
        | _ => false) then
    some ⟨image.w, image.h, fun p =>
      match image.pix p with
      | .finite v => v
      | _ => 0⟩
  else none

/-- Function `find_maxima_cm` (IRFFTCommon.cxx:58-367) on IEEE values. When the
range passes the test of line 100 and a pixel is not finite, that pixel is NaN,
and the histogram loop (line 113) converts a NaN to `unsigned int`, which is
undefined: `none`. On finite pixels the function is `find_maxima_cm`. -/
def find_maxima_cm_ieee (max_list : List local_max_t) (image : ieee_image_t) (percentage : ℚ) :
    Option (Nat × List local_max_t) :=
  if no_peaks (value_range image) then
    -- there are no peaks in this image:
    some (0, max_list)
  else
    match finite_image image with
    | none => none
    | some finite => find_maxima_cm max_list finite percentage

/-- A 2 by 2 field all of whose pixels are NaN. -/
def nan_image : ieee_image_t := ⟨2, 2, fun _ => .nan⟩

/-! ## Definitions: worker thread (IRThreadInterface.cxx) -/

/-- A transaction pointer `the_transaction_t *`, identified by a number. -/
abbrev the_transaction_t := Nat

/-- The states a transaction is notified of (`the_transaction_t::state_t`). -/
inductive state_t where
  | STARTED_E
  | SKIPPED_E
  | ABORTED_E
  | DONE_E
deriving DecidableEq

/-- A call a transaction makes on the thread it is executed by. -/
inductive thread_call where
  | stop
  | push_back (t : the_transaction_t)
  | push_front (t : the_transaction_t)
deriving DecidableEq

/-- What `t->execute(thread)` does as far as the worker can see: the calls it
makes on the thread, in order, and whether it ends by throwing. -/
structure execution_t where
  calls : List thread_call
  throws : Bool

/-- Class `the_thread_interface_t`, reduced to the members `work` reads and
writes: the queue `transactions_`, the flags `stopped_` and `sleep_when_idle_`,
whether `thread_pool_` is set, and, as a ghost member, the notifications
`t->notify(this, state)` made so far, oldest first. Calls from other threads
are outside the model. -/
structure the_thread_interface_t where
  transactions_ : List the_transaction_t
  stopped_ : Bool
  sleep_when_idle_ : Bool
  thread_pool_ : Bool
  notified : List (the_transaction_t × state_t)
deriving DecidableEq

/-- The collaborators of the worker that are not defined in the sources at hand:
`the_transaction_t::execute`, the pure virtual `start` of the thread, and
`the_thread_pool_t::handle_thread`. -/
structure thread_env where
  execute : the_transaction_t → execution_t
  start : the_thread_interface_t → the_thread_interface_t
  handle_thread : the_thread_interface_t → the_thread_interface_t

/-- The call `t->notify(this, state)`. -/
def notify (thread : the_thread_interface_t) (t : the_transaction_t) (s : state_t) :
    the_thread_interface_t :=
  { thread with notified := thread.notified ++ [(t, s)] }

/-- Member function `push_back(transaction)` (lines 140-145). -/
def the_thread_interface_t.push_back (thread : the_thread_interface_t) (t : the_transaction_t) :
    the_thread_interface_t :=
  { thread with transactions_ := thread.transactions_ ++ [t] }

/-- Member function `push_front(transaction)` (lines 150-155). -/
def the_thread_interface_t.push_front (thread : the_thread_interface_t) (t : the_transaction_t) :
    the_thread_interface_t :=
  { thread with transactions_ := t :: thread.transactions_ }

/-- Member function `push_back(schedule)` (lines 160-165): the schedule is spliced
to the end of the queue. -/
def the_thread_interface_t.push_back_list (thread : the_thread_interface_t)
    (schedule : List the_transaction_t) : the_thread_interface_t :=
  { thread with transactions_ := thread.transactions_ ++ schedule }

/-- Member function `stop` (lines 189-202); `terminators().terminate()` touches
neither the queue nor the notifications. -/
def the_thread_interface_t.stop (thread : the_thread_interface_t) : the_thread_interface_t :=
  if !thread.stopped_ then { thread with stopped_ := true } else thread

/-- The loop `while (!transactions_.empty()) { t = remove_head(transactions_);
t->notify(this, SKIPPED_E); }` shared by `flush`, `terminate_transactions`,
`stop_and_go`, `flush_and_go` and `work`; the first argument is the queue. -/
def skip_pending : List the_transaction_t → the_thread_interface_t → the_thread_interface_t
  | [], thread => thread
  | t :: rest, thread => skip_pending rest (notify { thread with transactions_ := rest } t .SKIPPED_E)

/-- Member function `flush` (lines 207-219). -/
def the_thread_interface_t.flush (thread : the_thread_interface_t) : the_thread_interface_t :=
  skip_pending thread.transactions_ thread

/-- Member function `terminate_transactions` (lines 224-239). -/
def the_thread_interface_t.terminate_transactions (thread : the_thread_interface_t) :
    the_thread_interface_t :=
  skip_pending thread.transactions_ thread

/-- Member function `stop_and_go(transaction)` (lines 244-267). -/
def the_thread_interface_t.stop_and_go (env : thread_env) (thread : the_thread_interface_t)
    (transaction : the_transaction_t) : the_thread_interface_t :=
  -- remove any further pending transactions, schedule the next transaction,
  -- start the thread if it isn't already running:
  env.start ((skip_pending thread.transactions_ thread).push_back transaction)

/-- Member function `stop_and_go(schedule)` (lines 272-295). -/
def the_thread_interface_t.stop_and_go_list (env : thread_env) (thread : the_thread_interface_t)
    (schedule : List the_transaction_t) : the_thread_interface_t :=
  env.start ((skip_pending thread.transactions_ thread).push_back_list schedule)

/-- Member function `flush_and_go(transaction)` (lines 300-320). -/
def the_thread_interface_t.flush_and_go (env : thread_env) (thread : the_thread_interface_t)
    (transaction : the_transaction_t) : the_thread_interface_t :=
  env.start ((skip_pending thread.transactions_ thread).push_back transaction)

/-- Member function `flush_and_go(schedule)` (lines 325-346). -/
def the_thread_interface_t.flush_and_go_list (env : thread_env) (thread : the_thread_interface_t)
    (schedule : List the_transaction_t) : the_thread_interface_t :=
  env.start ((skip_pending thread.transactions_ thread).push_back_list schedule)

/-- The effect of one call made by a transaction on the thread. -/
def apply_call (thread : the_thread_interface_t) : thread_call → the_thread_interface_t
  | .stop => thread.stop
  | .push_back t => thread.push_back t
  | .push_front t => thread.push_front t

/-- The `try` block of `work` (lines 409-437) for the transaction `t`: `STARTED_E` is
notified, the transaction is executed, then `DONE_E` is notified, or
`ABORTED_E` when `execute` throws. -/
def run_transaction (env : thread_env) (thread : the_thread_interface_t) (t : the_transaction_t) :
    the_thread_interface_t :=
  let thread := notify thread t .STARTED_E
  let thread := (env.execute t).calls.foldl apply_call thread
  if (env.execute t).throws then notify thread t .ABORTED_E else notify thread t .DONE_E

/-- The loop `while (!stopped_)` of `work` (lines 360-438): the thread when the loop
is left. `fuel` bounds the number of iterations; `none` when it runs out (an
idle worker that sleeps waits for other threads for ever). -/
def work_loop (env : thread_env) : Nat → the_thread_interface_t → Option the_thread_interface_t
  | 0, _ => none
  | fuel + 1, thread =>
    if thread.stopped_ then some thread
    else
      -- call back the thread pool:
      let thread := if thread.thread_pool_ then env.handle_thread thread else thread
      match thread.transactions_ with
      | [] =>
        if thread.sleep_when_idle_ && !thread.stopped_ then work_loop env fuel thread
        else some thread
      | t :: rest =>
        work_loop env fuel (run_transaction env { thread with transactions_ := rest } t)

/-- Member function `work` (lines 351-473): the value returned and the thread on
return. -/
def work (env : thread_env) (fuel : Nat) (thread : the_thread_interface_t) :
    Option (Bool × the_thread_interface_t) :=
  match work_loop env fuel thread with
  | none => none
  | some thread =>
    let thread := { thread with stopped_ := true }
    let all_transactions_completed := thread.transactions_.isEmpty
    -- abort pending transaction:
    let thread := skip_pending thread.transactions_ thread
    let thread := if thread.thread_pool_ then env.handle_thread thread else thread
    some (all_transactions_completed, thread)

/-- The notifications of a transaction that is executed: `STARTED_E`, then
`ABORTED_E` when it throws and `DONE_E` otherwise. -/
def executed_trace (env : thread_env) (t : the_transaction_t) :
    List (the_transaction_t × state_t) :=
  [(t, .STARTED_E), (t, if (env.execute t).throws then .ABORTED_E else .DONE_E)]

/-- An environment of transactions that make no call on the thread: transaction 13
throws, every other one returns; `start` marks the thread as running. -/
def quiet_env : thread_env where
  execute := fun t => ⟨[], decide (t = 13)⟩
  start := fun thread => { thread with stopped_ := false }
  handle_thread := fun thread => thread

/-- An environment in which transaction 7 stops the thread it is executed by and
transaction 13 throws. -/
def stopping_env : thread_env where
  execute := fun t => ⟨if t = 7 then [.stop] else [], decide (t = 13)⟩
  start := fun thread => { thread with stopped_ := false }
  handle_thread := fun thread => thread

/-- A running worker without a pool whose queue holds the given transactions. -/
def worker (queue : List the_transaction_t) : the_thread_interface_t :=
  ⟨queue, false, false, false, []⟩

/-! ## Definitions: work split of a pass, mesh indexing -/

/-- The count `num_tiles_distributed` of a pass of `refine_mosaic_mt` (line 1530),
`(num_tiles - start) - (num_tiles - start) % num_threads` in `unsigned int`
arithmetic. The modulus by `num_threads = 0` is undefined. -/
def num_tiles_distributed (num_tiles start num_threads : Nat) : Nat :=
  let span := (num_tiles + 2 ^ 32 - start) % 2 ^ 32
  (span + 2 ^ 32 - span % num_threads) % 2 ^ 32

/-- The count `num_tiles_remaining` (line 1532),
`(num_tiles - start) - num_tiles_distributed` in `unsigned int` arithmetic. -/
def num_tiles_remaining (num_tiles start num_threads : Nat) : Nat :=
  let span := (num_tiles + 2 ^ 32 - start) % 2 ^ 32
  (span + 2 ^ 32 - num_tiles_distributed num_tiles start num_threads) % 2 ^ 32

/-- The tiles given to `refine_one_tile_t` transactions (lines 1534-1554):
`index = start + i` for `i < num_tiles_distributed`, in schedule order. -/
def distributed_tiles (num_tiles start num_threads : Nat) : List Nat :=
  (List.range (num_tiles_distributed num_tiles start num_threads)).map
    (fun i => (start + i) % 2 ^ 32)

/-- The tiles handled in line (lines 1565-1567):
`index = start + num_tiles_distributed + i` for `i < num_tiles_remaining`. -/
def remaining_tiles (num_tiles start num_threads : Nat) : List Nat :=
  (List.range (num_tiles_remaining num_tiles start num_threads)).map
    (fun i => (start + num_tiles_distributed num_tiles start num_threads + i) % 2 ^ 32)

/-- The index into `grid_.mesh_` that `the_grid_transform_t::vertex(row, col)`
reads (IRGridTransform.h:198-209): `row * (cols_ + 1) + col`. -/
def the_grid_transform_t.vertex_index (gt : the_grid_transform_t) (row col : Nat) : Nat :=
  row * (gt.cols_ + 1) + col

/-- The pixel `index` of the displacement images for the mesh index `i`
(`calc_displacements`, lines 288-290; `calc_intermediate_results_t::execute`,
lines 870-872): `index[0] = i % mesh_cols`, `index[1] = i / mesh_cols` with
`mesh_cols = gt.cols_ + 1`. -/
def mesh_pixel (gt : the_grid_transform_t) (i : Nat) : Nat × Nat :=
  let mesh_cols := gt.cols_ + 1
  (i % mesh_cols, i / mesh_cols)

/-! ## Definitions: the merges of the two labelling passes, recorded -/

/-- The merges `(id, old_id)` the body of the scanline loop performs for the pixel
`p` in the state `s` (lines 215-245): cluster `old_id` is emptied into cluster
`id = *(neighbors.begin())`, for every further neighbor id `old_id`, in the
order of the vector `neighbors`. -/
def label_merged (peaks : itk_image_t) (s : clusters_t) (p : Nat × Nat) : List (Nat × Nat) :=
  let x : Int := p.1
  let y : Int := p.2
  if peaks.pix (x, y) ≤ 0 then []
  else
    match collect_neighbors peaks.w peaks.h s.cluster_map x y with
    | [] => []
    | id :: rest => rest.map (fun old_id => (id, old_id))

/-- The scanline pass (lines 169-247) together with the merges it performs,
oldest first. -/
def label_clusters_log (peaks : itk_image_t) : clusters_t × List (Nat × Nat) :=
  (region peaks.w peaks.h).foldl
    (fun sl p => (label_pixel peaks sl.1 p, sl.2 ++ label_merged peaks sl.1 p))
    (⟨fun _ => [], fun _ => cluster_bbox_t.reset, 0, fun _ => none⟩, [])

/-- The merge `(i, cluster_id)` the body of the stencil loop of the periodic pass
performs for the pixel `index` of cluster `i` in the state `s` (lines 262-300),
if any: cluster `cluster_id` is emptied into cluster `i`. -/
def periodic_merged (w h : Nat) (i : Nat) (index : index_t) (s : clusters_t) (d : Int × Int) :
    List (Nat × Nat) :=
  let x := Int.tmod (index.1 + w) w
  let y := Int.tmod (index.2 + h) h
  -- adjust for periodicity:
  let u := (x + d.1 + w) % w
  let v := (y + d.2 + h) % h
  match s.cluster_map (u * h + v) with
  | none => []
  | some cluster_id => if cluster_id = i then [] else [(i, cluster_id)]

/-- The body of the stencil loop of the periodic pass together with the record
of the merges. -/
def periodic_merge_log (w h : Nat) (i : Nat) (index : index_t)
    (sl : clusters_t × List (Nat × Nat)) (d : Int × Int) : clusters_t × List (Nat × Nat) :=
  (periodic_merge w h i index sl.1 d, sl.2 ++ periodic_merged w h i index sl.1 d)

/-- The iteration `periodic_walk` over the pixels of cluster `i` together with the
record of the merges. -/
def periodic_walk_log (w h : Nat) (i : Nat) :
    Nat → Nat → clusters_t × List (Nat × Nat) → Option (clusters_t × List (Nat × Nat))
  | 0, _, _ => none
  | fuel + 1, pos, sl =>
    match (sl.1.clusters i)[pos]? with
    | none => some sl
    | some index =>
      periodic_walk_log w h i fuel (pos + 1) (stencil.foldl (periodic_merge_log w h i index) sl)

/-- The periodic pass (lines 250-302) together with the merges it performs, oldest
first. -/
def periodic_pass_log (w h : Nat) (s : clusters_t) : Option (clusters_t × List (Nat × Nat)) :=
  (List.range s.size).foldlM
    (fun sl i =>
      if sl.1.clusters i = [] then some sl else periodic_walk_log w h i (w * h + 1) 0 sl)
    (s, [])

/-- A 3 by 2 image with the value 1 at `(2, 0)`, `(0, 1)` and `(1, 1)` and 0
elsewhere: the scanline pass reaches `(1, 1)` with cluster 1 to its left and
cluster 0 above to its right. -/
def staircase_image : itk_image_t :=
  ⟨3, 2, fun p => if p = (2, 0) ∨ p = (0, 1) ∨ p = (1, 1) then 1 else 0⟩

/-! ## Definitions: neighbor lists and the pass loop -/

/-- The hull of the mosaic space coordinates `xy_` of a mesh: the box a tile
covers in the mosaic when the tile spans its mesh. -/
def mesh_bbox (mesh : List vertex_t) : bbox_t :=
  match mesh with
  | [] => (vec2d 0 0, vec2d 0 0)
  | v :: rest =>
    rest.foldl
      (fun b u =>
        (vec2d (min b.1.x u.xy_.x) (min b.1.y u.xy_.y),
          vec2d (max b.2.x u.xy_.x) (max b.2.y u.xy_.y)))
      (v.xy_, v.xy_)

/-- An environment like `demo_env` in which the mosaic box of a tile is the hull
of the mesh of its transform and two boxes intersect when they share a point. -/
def box_env : Env Nat Unit :=
  { demo_env with
    calc_mosaic_bboxes := fun transform _ i =>
      match transform[i]? with
      | some gt => mesh_bbox gt.mesh_
      | none => (vec2d 0 0, vec2d 0 0)
    intersects := fun a b =>
      decide (a.1.x ≤ b.2.x) && decide (b.1.x ≤ a.2.x) &&
        (decide (a.1.y ≤ b.2.y) && decide (b.1.y ≤ a.2.y)) }

/-- The pass loop in the words of the spec: "Outer loop (per pass): compute
per-tile axis-aligned mosaic bounding boxes and build the neighbor list", then
warp, match and update: the neighbor list of a pass is built from the
transforms that are current at the start of that pass. -/
def refine_mosaic_loop_per_pass_neighbors (env : Env Img Msk) (o : options_t) (tile : List Img)
    (mask : List (Option Msk)) : Nat → mosaic_state Img Msk → Option (mosaic_state Img Msk)
  | 0, st => some st
  | n + 1, st =>
    match refine_mosaic_pass env o tile mask
        (find_neighbors env st.transform tile (start_index o.keep_first_tile_fixed)) st with
    | none => none
    | some (st1, _) => refine_mosaic_loop_per_pass_neighbors env o tile mask n st1

/-- Function `refine_mosaic` with the pass loop in the words of the spec. -/
def refine_mosaic_per_pass_neighbors (env : Env Img Msk) (o : options_t)
    (transform : List the_grid_transform_t) (tile : List Img) (mask : List (Option Msk))
    (num_passes : Nat) : Option (List the_grid_transform_t) :=
  if tile.length < 2 then some transform
  else
    match refine_mosaic_init tile mask o.keep_first_tile_fixed with
    | none => none
    | some w =>
      (refine_mosaic_loop_per_pass_neighbors env o tile mask num_passes
        ⟨transform, w.1, w.2⟩).map (fun st => st.transform)

/-- A box function that agrees with `box_env` on the transforms `transform` and
gives the empty box at the origin for any other transforms. -/
def stale_boxes (transform : List the_grid_transform_t) :
    List the_grid_transform_t → List Nat → Nat → bbox_t :=
  fun tr tl i =>
    if tr = transform then box_env.calc_mosaic_bboxes tr tl i else (vec2d 0 0, vec2d 0 0)

/-! ## Definitions: the mean of a pass and the passes of a run -/

/-- The mean absolute shift component in the words of the spec: the average of
`|x|` and `|y|` over all the vectors of `shift`. -/
def mean_absolute_component (shift : List (List vec2d_t)) : ℚ :=
  let components := shift.flatten.flatMap (fun v => [fabs v.x, fabs v.y])
  components.sum / (components.length : ℚ)

/-- The passes behind a trace of `refine_mosaic_mt`: every entry of the trace
belongs to one pass, made from the state the pass before it has left, and
holds the mean absolute component of the `shift` of that pass and the number
of components; the last pass leaves the final state. -/
def passes_run (env : Env Img Msk) (o : options_t) (tile : List Img)
    (mask : List (Option Msk)) (neighbors : List (List Nat)) (num_threads : Nat) :
    mosaic_state Img Msk → List (ℚ × ℚ) → mosaic_state Img Msk → Prop
  | st, [], st1 => st = st1
  | st, a :: rest, st1 =>
    ∃ st2 shift,
      refine_mosaic_mt_pass env o tile mask neighbors num_threads st = some (st2, shift) ∧
      a = (mean_absolute_component shift, 2 * (shift.flatten.length : ℚ)) ∧
      passes_run env o tile mask neighbors num_threads st2 rest st1

/-- An image of rationals as an image of doubles, all of whose pixels are finite. -/
def ieee_of (image : itk_image_t) : ieee_image_t :=
  ⟨image.w, image.h, fun p => .finite (image.pix p)⟩

/-! ## Theorems -/

theorem foldlM_option_cons {σ : Type} (f : σ → Nat → Option σ) (i : Nat) (is : List Nat) (a : σ) :
    (i :: is).foldlM f a = (f a i).bind (fun b => is.foldlM f b) := by
  simp [List.foldlM_cons]

theorem shift_fold_spec (env : Env Img Msk) (o : options_t)
    (transform : List the_grid_transform_t) (wt : List (Option Img)) (wm : List (Option Msk))
    (neighbors : List (List Nat)) :
    ∀ (idx : List Nat) (acc res : List (List vec2d_t)), idx.Nodup →
      idx.foldlM (shift_step env o transform wt wm neighbors) acc = some res →
      res.length = acc.length ∧
      (∀ i, i ∈ idx → i < acc.length →
        ∃ s, refine_one_tile env o i transform wt wm neighbors = some s ∧ res[i]? = some s) ∧
      (∀ i, i ∉ idx → res[i]? = acc[i]?) := by
  intro idx
  induction idx with
  | nil =>
    intro acc res _ h
    simp at h
    subst h
    simp
  | cons k ks ih =>
    intro acc res hnd h
    rw [foldlM_option_cons] at h
    obtain ⟨hk, hks⟩ := List.nodup_cons.mp hnd
    cases hstep : shift_step env o transform wt wm neighbors acc k with
    | none => simp [hstep] at h
    | some acc1 =>
      simp only [hstep, Option.some_bind] at h
      obtain ⟨hlen, hin, hout⟩ := ih acc1 res hks h
      unfold shift_step at hstep
      cases hr : refine_one_tile env o k transform wt wm neighbors with
      | none => simp [hr] at hstep
      | some s =>
        simp only [hr, Option.some.injEq] at hstep
        subst hstep
        refine ⟨by simpa using hlen, ?_, ?_⟩
        · intro i hi hlt
          rcases List.mem_cons.mp hi with rfl | hi
          · refine ⟨s, hr, ?_⟩
            rw [hout _ hk]
            simp [List.getElem?_set, hlt]
          · exact hin i hi (by simpa using hlt)
        · intro i hi
          have hik : i ≠ k := fun e => hi (e ▸ List.mem_cons_self _ _)
          have hi2 : i ∉ ks := fun e => hi (List.mem_cons_of_mem _ e)
          rw [hout i hi2]
          simp [List.getElem?_set, Ne.symm hik]

theorem update_fold_spec (shift : List (List vec2d_t)) :
    ∀ (idx : List Nat) (acc res : List the_grid_transform_t), idx.Nodup →
      idx.foldlM (update_step shift) acc = some res →
      res.length = acc.length ∧
      (∀ i, i ∈ idx →
        ∃ gt s, acc[i]? = some gt ∧ shift[i]? = some s ∧ res[i]? = some (update gt s)) ∧
      (∀ i, i ∉ idx → res[i]? = acc[i]?) := by
  intro idx
  induction idx with
  | nil =>
    intro acc res _ h
    simp at h
    subst h
    simp
  | cons k ks ih =>
    intro acc res hnd h
    rw [foldlM_option_cons] at h
    obtain ⟨hk, hks⟩ := List.nodup_cons.mp hnd
    cases hstep : update_step shift acc k with
    | none => simp [hstep] at h
    | some acc1 =>
      simp only [hstep, Option.some_bind] at h
      obtain ⟨hlen, hin, hout⟩ := ih acc1 res hks h
      unfold update_step at hstep
      cases hg : acc[k]? with
      | none => simp [hg] at hstep
      | some gt =>
        cases hs : shift[k]? with
        | none => simp [hg, hs] at hstep
        | some s =>
          simp only [hg, hs, Option.some.injEq] at hstep
          subst hstep
          have hklt : k < acc.length := by
            rcases List.getElem?_eq_some_iff.mp hg with ⟨h1, _⟩
            exact h1
          refine ⟨by simpa using hlen, ?_, ?_⟩
          · intro i hi
            rcases List.mem_cons.mp hi with rfl | hi
            · refine ⟨gt, s, hg, hs, ?_⟩
              rw [hout _ hk]
              simp [List.getElem?_set, hklt]
            · obtain ⟨gt1, s1, h1, h2, h3⟩ := hin i hi
              have hik : k ≠ i := fun e => hk (e ▸ hi)
              refine ⟨gt1, s1, ?_, h2, h3⟩
              simpa [List.getElem?_set, hik] using h1
          · intro i hi
            have hik : i ≠ k := fun e => hi (e ▸ List.mem_cons_self _ _)
            have hi2 : i ∉ ks := fun e => hi (List.mem_cons_of_mem _ e)
            rw [hout i hi2]
            simp [List.getElem?_set, Ne.symm hik]

theorem warp_fold_spec (env : Env Img Msk) (tile : List Img) (mask : List (Option Msk))
    (transform : List the_grid_transform_t) :
    ∀ (idx : List Nat) (acc res : List (Option Img) × List (Option Msk)),
      idx.foldlM (warp_tile env tile mask transform) acc = some res →
      res.1.length = acc.1.length ∧ res.2.length = acc.2.length ∧
      (∀ i, i ∈ idx → i < acc.1.length → ∃ t, res.1[i]? = some (some t)) ∧
      (∀ i, i ∉ idx → res.1[i]? = acc.1[i]? ∧ res.2[i]? = acc.2[i]?) ∧
      (∀ i : Nat, (∃ t, acc.1[i]? = some (some t)) → ∃ t, res.1[i]? = some (some t)) := by
  intro idx
  induction idx with
  | nil =>
    intro acc res h
    simp at h
    subst h
    simp
  | cons k ks ih =>
    intro acc res h
    rw [foldlM_option_cons] at h
    cases hstep : warp_tile env tile mask transform acc k with
    | none => simp [hstep] at h
    | some acc1 =>
      simp only [hstep, Option.some_bind] at h
      obtain ⟨hlen1, hlen2, hin, hout, hkeep⟩ := ih acc1 res h
      unfold warp_tile at hstep
      cases ht : tile[k]? with
      | none => simp [ht] at hstep
      | some t =>
        cases hm : mask[k]? with
        | none => simp [ht, hm] at hstep
        | some m =>
          cases htr : transform[k]? with
          | none => simp [ht, hm, htr] at hstep
          | some tr =>
            simp only [ht, hm, htr, Option.some.injEq] at hstep
            subst hstep
            have hl2 : (match m with
                | some mk => acc.2.set k (some (env.warp_mask mk tr))
                | none => acc.2).length = acc.2.length := by
              cases m <;> simp
            have hset : ∀ i, i ≠ k → (match m with
                | some mk => acc.2.set k (some (env.warp_mask mk tr))
                | none => acc.2)[i]? = acc.2[i]? := by
              intro i hik
              cases m <;> simp [List.getElem?_set, Ne.symm hik]
            refine ⟨by simpa using hlen1, by simpa [hl2] using hlen2, ?_, ?_, ?_⟩
            · intro i hi hlt
              by_cases hik : ks.contains i
              · exact hin i (by simpa using hik) (by simpa using hlt)
              · rcases List.mem_cons.mp hi with rfl | hi2
                · apply hkeep
                  exact ⟨env.warp t tr, by simp [List.getElem?_set, hlt]⟩
                · exact hin i hi2 (by simpa using hlt)
            · intro i hi
              have hik : i ≠ k := fun e => hi (e ▸ List.mem_cons_self _ _)
              have hi2 : i ∉ ks := fun e => hi (List.mem_cons_of_mem _ e)
              obtain ⟨h1, h2⟩ := hout i hi2
              refine ⟨?_, ?_⟩
              · rw [h1]; simp [List.getElem?_set, Ne.symm hik]
              · rw [h2]; exact hset i hik
            · intro i ⟨t0, h0⟩
              apply hkeep
              by_cases hik : k = i
              · subst hik
                have hlt : k < acc.1.length := (List.getElem?_eq_some_iff.mp h0).1
                exact ⟨env.warp t tr, by simp [List.getElem?_set, hlt]⟩
              · exact ⟨t0, by simpa [List.getElem?_set, hik] using h0⟩

theorem zipWith_add_replicate_zero (mass : List ℚ) :
    List.zipWith (fun a b => a + b) mass (List.replicate mass.length 0) = mass := by
  induction mass with
  | nil => simp
  | cons a l ih => simp [List.replicate_succ, ih]

theorem calc_displacements_additive (env : Env Img Msk) (mass : List ℚ) (taw : Bool)
    (t0 : Option Img) (m0 : Option Msk) (f0 : the_grid_transform_t)
    (t1 : Option Img) (m1 : Option Msk) (f1 : the_grid_transform_t)
    (nb : Nat) (mo : ℚ) (mr : Nat) (res : List vec2d_t × List ℚ)
    (hlen : mass.length = f1.mesh_.length)
    (h : calc_displacements env mass taw t0 m0 f0 t1 m1 f1 nb mo mr = some res) :
    ∃ dm, calc_displacements env (List.replicate f1.mesh_.length 0) taw t0 m0 f0 t1 m1 f1
        nb mo mr = some (res.1, dm) ∧
      res.1.length = f1.mesh_.length ∧ dm.length = f1.mesh_.length ∧
      res.2 = List.zipWith (fun a b => a + b) mass dm := by
  unfold calc_displacements at h ⊢
  cases t1 with
  | none => simp at h
  | some a1 =>
    cases t0 with
    | none => simp at h
    | some a0 =>
      dsimp only at h ⊢
      by_cases hsp : env.GetSpacing a1 ≠ env.GetSpacing a0
      · rw [if_pos hsp] at h ⊢
        simp only [Option.some.injEq] at h ⊢
        subst h
        refine ⟨_, rfl, by simp, by simp, ?_⟩
        rw [← hlen, zipWith_add_replicate_zero]
      · rw [if_neg hsp] at h ⊢
        simp only [Option.some.injEq] at h ⊢
        subst h
        refine ⟨_, rfl, by simp [regularize_displacements],
          by simp [regularize_displacements], ?_⟩
        simp only [regularize_displacements]
        apply List.ext_getElem?
        intro k
        simp only [List.getElem?_mapIdx, List.getElem?_zipWith, List.getElem?_replicate]
        by_cases hk : k < f1.mesh_.length
        · have hk2 : k < mass.length := hlen ▸ hk
          simp [hk, List.getElem?_eq_getElem hk2]
        · have hk2 : ¬ k < mass.length := hlen ▸ hk
          simp [hk, List.getElem?_eq_none (Nat.le_of_not_lt hk2)]

theorem neighbor_loop_spec (env : Env Img Msk) (o : options_t) (tile_index : Nat)
    (transform : List the_grid_transform_t)
    (wt : List (Option Img)) (wm : List (Option Msk)) (gt : the_grid_transform_t) :
    ∀ (js : List Nat) (acc res : List (List vec2d_t) × List ℚ),
      acc.2.length = gt.mesh_.length →
      neighbor_loop env o tile_index transform wt wm gt js acc = some res →
      ∃ pairs : List (List vec2d_t × List ℚ),
        js.map (pair_result env o tile_index transform wt wm gt) = pairs.map some ∧
        (∀ p ∈ pairs, p.1.length = gt.mesh_.length ∧ p.2.length = gt.mesh_.length) ∧
        res.1 = acc.1 ++ pairs.map Prod.fst ∧
        res.2.length = gt.mesh_.length ∧
        ∀ v, res.2.getD v 0 = acc.2.getD v 0 + (pairs.map (fun p => p.2.getD v 0)).sum := by
  intro js
  induction js with
  | nil =>
    intro acc res hlen h
    simp only [neighbor_loop, Option.some.injEq] at h
    subst h
    exact ⟨[], by simp, by simp, by simp, hlen, by simp⟩
  | cons j js ih =>
    intro acc res hlen h
    unfold neighbor_loop at h
    cases htj : transform[j]? with
    | none => simp [htj] at h
    | some tj =>
      simp only [htj] at h
      cases hc : calc_displacements env acc.2 o.prewarp_tiles (wt.getD j none) (wm.getD j none) tj
          (wt.getD tile_index none) (wm.getD tile_index none) gt o.neighborhood
          o.minimum_overlap o.median_radius with
      | none => rw [hc] at h; simp at h
      | some r =>
        simp only [hc] at h
        obtain ⟨dm, hpair, hl1, hl2, hsum⟩ :=
          calc_displacements_additive env acc.2 _ _ _ _ _ _ _ _ _ _ r hlen hc
        have hrlen : r.2.length = gt.mesh_.length := by
          rw [hsum]; simp [hlen, hl2]
        obtain ⟨pairs, hmap, hlens, hres1, hres2, hres3⟩ := ih (acc.1 ++ [r.1], r.2) res hrlen h
        refine ⟨(r.1, dm) :: pairs, ?_, ?_, ?_, hres2, ?_⟩
        · simp only [List.map_cons, hmap]
          congr 1
          simp only [pair_result, htj]
          exact hpair
        · intro p hp
          rcases List.mem_cons.mp hp with rfl | hp
          · exact ⟨hl1, hl2⟩
          · exact hlens p hp
        · simp [hres1]
        · intro v
          rw [hres3 v]
          simp only [List.map_cons, List.sum_cons]
          have : r.2.getD v 0 = acc.2.getD v 0 + dm.getD v 0 := by
            rw [hsum]
            simp only [List.getD_eq_getElem?_getD, List.getElem?_zipWith]
            by_cases hv : v < gt.mesh_.length
            · have h1 : v < acc.2.length := hlen ▸ hv
              have h2 : v < dm.length := hl2 ▸ hv
              simp [List.getElem?_eq_getElem h1, List.getElem?_eq_getElem h2]
            · have h1 : acc.2.length ≤ v := hlen ▸ Nat.le_of_not_lt hv
              have h2 : dm.length ≤ v := hl2 ▸ Nat.le_of_not_lt hv
              simp [List.getElem?_eq_none h1, List.getElem?_eq_none h2]
          rw [this]
          ring

theorem blend_fold_spec (n : Nat) :
    ∀ (S : List (List vec2d_t)) (init : List vec2d_t),
      (∀ s ∈ S, s.length = n) → init.length = n →
      (S.foldl (fun s sj => List.zipWith vec2d_t.add s sj) init).length = n ∧
      ∀ v, v < n →
        ((S.foldl (fun s sj => List.zipWith vec2d_t.add s sj) init).getD v (vec2d 0 0)).x =
            (init.getD v (vec2d 0 0)).x + (S.map (fun s => (s.getD v (vec2d 0 0)).x)).sum ∧
        ((S.foldl (fun s sj => List.zipWith vec2d_t.add s sj) init).getD v (vec2d 0 0)).y =
            (init.getD v (vec2d 0 0)).y + (S.map (fun s => (s.getD v (vec2d 0 0)).y)).sum := by
  intro S
  induction S with
  | nil =>
    intro init _ hinit
    simp [hinit]
  | cons s S ih =>
    intro init hS hinit
    have hs : s.length = n := hS s (List.mem_cons_self _ _)
    have hS2 : ∀ t ∈ S, t.length = n := fun t ht => hS t (List.mem_cons_of_mem _ ht)
    have hz : (List.zipWith vec2d_t.add init s).length = n := by simp [hinit, hs]
    obtain ⟨hlen, hv⟩ := ih (List.zipWith vec2d_t.add init s) hS2 hz
    refine ⟨by simpa using hlen, ?_⟩
    intro v hvn
    obtain ⟨hx, hy⟩ := hv v hvn
    simp only [List.foldl_cons, List.map_cons, List.sum_cons]
    rw [hx, hy]
    have h1 : v < init.length := hinit ▸ hvn
    have h2 : v < s.length := hs ▸ hvn
    have hz : (List.zipWith vec2d_t.add init s).getD v (vec2d 0 0) =
        (init.getD v (vec2d 0 0)).add (s.getD v (vec2d 0 0)) := by
      simp [List.getElem?_zipWith, List.getElem?_eq_getElem h1, List.getElem?_eq_getElem h2]
    rw [hz]
    simp only [vec2d_t.add]
    constructor <;> ring

theorem refine_mosaic_mt_pass_eq (env : Env Img Msk) (o : options_t) (tile : List Img)
    (mask : List (Option Msk)) (neighbors : List (List Nat)) (num_threads : Nat)
    (st : mosaic_state Img Msk) (hthreads : num_threads ≠ 0) :
    refine_mosaic_mt_pass env o tile mask neighbors num_threads st =
      refine_mosaic_pass env o tile mask neighbors st := by
  unfold refine_mosaic_mt_pass refine_mosaic_pass
  dsimp only
  cases hw : (if o.prewarp_tiles = true then
      List.foldlM (warp_tile env tile mask st.transform) (st.warped_tile, st.warped_mask)
        (mobile_tiles tile.length (start_index o.keep_first_tile_fixed))
    else some (st.warped_tile, st.warped_mask)) with
  | none => rfl
  | some w =>
    dsimp only
    rw [if_neg hthreads]
    have hsplit : mobile_tiles tile.length (start_index o.keep_first_tile_fixed) =
        List.range' (start_index o.keep_first_tile_fixed)
          ((tile.length - start_index o.keep_first_tile_fixed) -
            (tile.length - start_index o.keep_first_tile_fixed) % num_threads) ++
        List.range' (start_index o.keep_first_tile_fixed +
          ((tile.length - start_index o.keep_first_tile_fixed) -
            (tile.length - start_index o.keep_first_tile_fixed) % num_threads))
          ((tile.length - start_index o.keep_first_tile_fixed) -
            ((tile.length - start_index o.keep_first_tile_fixed) -
              (tile.length - start_index o.keep_first_tile_fixed) % num_threads)) := by
      rw [List.range'_append_1]
      unfold mobile_tiles
      congr 1
      have := Nat.mod_le (tile.length - start_index o.keep_first_tile_fixed) num_threads
      omega
    rw [hsplit, List.foldlM_append]
    cases h0 : List.foldlM (shift_step env o st.transform w.1 w.2 neighbors)
        (List.replicate tile.length [])
        (List.range' (start_index o.keep_first_tile_fixed)
          ((tile.length - start_index o.keep_first_tile_fixed) -
            (tile.length - start_index o.keep_first_tile_fixed) % num_threads)) with
    | none => rfl
    | some shift0 =>
      dsimp only
      simp only [Option.bind_eq_bind, Option.some_bind]

theorem update_zero_shift (gt : the_grid_transform_t) :
    update gt (List.replicate gt.mesh_.length (vec2d 0 0)) = gt := by
  cases gt with
  | mk r c mesh =>
    simp only [update, the_grid_transform_t.mk.injEq, true_and]
    induction mesh with
    | nil => simp
    | cons v l ih =>
      simp only [List.length_cons, List.replicate_succ, List.zipWith_cons_cons, ih]
      cases v with
      | mk uv xy =>
        cases xy with
        | mk x y => simp [vec2d_t.add, vec2d]

theorem refine_one_tile_spec (env : Env Img Msk) (o : options_t) (i : Nat)
    (transform : List the_grid_transform_t) (wt : List (Option Img)) (wm : List (Option Msk))
    (neighbors : List (List Nat)) (gt : the_grid_transform_t) (s : List vec2d_t)
    (hgt : transform[i]? = some gt)
    (h : refine_one_tile env o i transform wt wm neighbors = some s) :
    ∃ pairs : List (List vec2d_t × List ℚ),
      (neighbors.getD i []).map (pair_result env o i transform wt wm gt) = pairs.map some ∧
      s.length = gt.mesh_.length ∧
      ∀ v, v < gt.mesh_.length →
        (s.getD v (vec2d 0 0)).x =
          (pairs.map (fun p => (p.1.getD v (vec2d 0 0)).x)).sum *
            (if o.keep_first_tile_fixed then 1
              else 1 / (1 + (pairs.map (fun p => p.2.getD v 0)).sum)) ∧
        (s.getD v (vec2d 0 0)).y =
          (pairs.map (fun p => (p.1.getD v (vec2d 0 0)).y)).sum *
            (if o.keep_first_tile_fixed then 1
              else 1 / (1 + (pairs.map (fun p => p.2.getD v 0)).sum)) := by
  unfold refine_one_tile at h
  simp only [hgt] at h
  cases hl : neighbor_loop env o i transform wt wm gt (neighbors.getD i [])
      ([], List.replicate gt.mesh_.length 0) with
  | none => rw [hl] at h; simp at h
  | some r =>
    rw [hl] at h
    obtain ⟨shift_i, mass⟩ := r
    simp only [Option.some.injEq] at h
    obtain ⟨pairs, hmap, hlens, hres1, hres2, hres3⟩ :=
      neighbor_loop_spec env o i transform wt wm gt _ _ _ (by simp) hl
    simp only [List.nil_append] at hres1
    subst hres1
    have hS : ∀ t ∈ pairs.map Prod.fst, t.length = gt.mesh_.length := by
      intro t ht
      obtain ⟨p, hp, rfl⟩ := List.mem_map.mp ht
      exact (hlens p hp).1
    obtain ⟨hblen, hbv⟩ := blend_fold_spec gt.mesh_.length (pairs.map Prod.fst)
      (List.replicate gt.mesh_.length (vec2d 0 0)) hS (by simp)
    refine ⟨pairs, hmap, ?_, ?_⟩
    · rw [← h]
      split
      · exact hblen
      · simp only [normalize, List.length_zipWith]
        rw [hres2]
        unfold blend
        rw [hblen]
        simp
    · intro v hv
      obtain ⟨hx, hy⟩ := hbv v hv
      have hz : (List.replicate gt.mesh_.length (vec2d 0 0)).getD v (vec2d 0 0) = vec2d 0 0 := by
        simp [List.getElem?_replicate, hv]
      rw [hz] at hx hy
      simp only [show (vec2d 0 0).x = 0 from rfl, show (vec2d 0 0).y = 0 from rfl, zero_add,
        List.map_map, Function.comp_def] at hx hy
      have hm : mass.getD v 0 = (pairs.map (fun p => p.2.getD v 0)).sum := by
        rw [hres3 v]
        simp [List.getElem?_replicate, hv]
      rw [← h]
      cases hk : o.keep_first_tile_fixed with
      | true =>
        simp only [if_true, mul_one]
        unfold blend
        exact ⟨hx, hy⟩
      | false =>
        simp only [Bool.false_eq_true, if_false]
        have h1 : v < (blend gt.mesh_.length (pairs.map Prod.fst)).length := by
          unfold blend; rw [hblen]; exact hv
        have h2 : v < mass.length := hres2 ▸ hv
        have hn : (normalize (blend gt.mesh_.length (pairs.map Prod.fst)) mass).getD v (vec2d 0 0) =
            ((blend gt.mesh_.length (pairs.map Prod.fst)).getD v (vec2d 0 0)).scale
              (1 / (1 + mass.getD v 0)) := by
          simp [normalize, List.getElem?_zipWith, List.getElem?_eq_getElem h1,
            List.getElem?_eq_getElem h2]
        rw [hn, hm]
        unfold blend
        simp only [vec2d_t.scale, hx, hy, and_self]

theorem mem_mobile_tiles (n start i : Nat) : i ∈ mobile_tiles n start ↔ start ≤ i ∧ i < n := by
  unfold mobile_tiles
  rw [List.mem_range'_1]
  omega

theorem nodup_mobile_tiles (n start : Nat) : (mobile_tiles n start).Nodup :=
  List.nodup_range' start (n - start)

theorem refine_mosaic_pass_spec (env : Env Img Msk) (o : options_t) (tile : List Img)
    (mask : List (Option Msk)) (neighbors : List (List Nat))
    (st st1 : mosaic_state Img Msk) (shift : List (List vec2d_t))
    (h : refine_mosaic_pass env o tile mask neighbors st = some (st1, shift)) :
    shift.length = tile.length ∧
    st1.transform.length = st.transform.length ∧
    (∀ i, start_index o.keep_first_tile_fixed ≤ i → i < tile.length →
      ∃ gt s, st.transform[i]? = some gt ∧
        refine_one_tile env o i st.transform st1.warped_tile st1.warped_mask neighbors = some s ∧
        shift[i]? = some s ∧ st1.transform[i]? = some (update gt s)) ∧
    (∀ i, i < start_index o.keep_first_tile_fixed →
      st1.transform[i]? = st.transform[i]? ∧ st1.warped_tile[i]? = st.warped_tile[i]? ∧
      st1.warped_mask[i]? = st.warped_mask[i]?) := by
  unfold refine_mosaic_pass at h
  dsimp only at h
  cases hw : (if o.prewarp_tiles = true then
      List.foldlM (warp_tile env tile mask st.transform) (st.warped_tile, st.warped_mask)
        (mobile_tiles tile.length (start_index o.keep_first_tile_fixed))
    else some (st.warped_tile, st.warped_mask)) with
  | none => rw [hw] at h; simp at h
  | some w =>
    rw [hw] at h
    dsimp only at h
    cases hs : List.foldlM (shift_step env o st.transform w.1 w.2 neighbors)
        (List.replicate tile.length [])
        (mobile_tiles tile.length (start_index o.keep_first_tile_fixed)) with
    | none => rw [hs] at h; simp at h
    | some sh =>
      rw [hs] at h
      dsimp only at h
      cases hu : List.foldlM (update_step sh) st.transform
          (mobile_tiles tile.length (start_index o.keep_first_tile_fixed)) with
      | none => rw [hu] at h; simp at h
      | some tr =>
        rw [hu] at h
        simp only [Option.some.injEq, Prod.mk.injEq] at h
        obtain ⟨h1, h2⟩ := h
        subst h1 h2
        obtain ⟨hslen, hsin, _⟩ := shift_fold_spec env o st.transform w.1 w.2 neighbors _ _ _
          (nodup_mobile_tiles _ _) hs
        obtain ⟨hulen, huin, huout⟩ := update_fold_spec sh _ _ _ (nodup_mobile_tiles _ _) hu
        refine ⟨by simpa using hslen, hulen, ?_, ?_⟩
        · intro i hlo hhi
          have hmem := (mem_mobile_tiles tile.length _ i).mpr ⟨hlo, hhi⟩
          obtain ⟨s, hr, hsi⟩ := hsin i hmem (by simpa using hhi)
          obtain ⟨gt, s2, hg, hs2, hres⟩ := huin i hmem
          rw [hsi] at hs2
          cases hs2
          exact ⟨gt, s, hg, hr, hsi, hres⟩
        · intro i hi
          have hnot : i ∉ mobile_tiles tile.length (start_index o.keep_first_tile_fixed) := by
            rw [mem_mobile_tiles]; omega
          refine ⟨huout i hnot, ?_⟩
          by_cases hp : o.prewarp_tiles = true
          · rw [if_pos hp] at hw
            obtain ⟨_, _, _, hwout, _⟩ := warp_fold_spec env tile mask st.transform _ _ _ hw
            exact hwout i hnot
          · rw [if_neg hp] at hw
            cases hw
            exact ⟨rfl, rfl⟩

/-- C1: in a refinement pass (of `refine_mosaic` or of `refine_mosaic_mt`) the shift
applied to vertex `v` of a mobile tile `i` is the plain sum over the neighbors
of `i` of the per-neighbor regularized shifts, multiplied by `1 / (1 + mass)`
where `mass` is the sum of the per-neighbor masses, and multiplied by 1 (left
undivided) when `keep_first_tile_fixed` holds; a tile without neighbors gets
the zero shift at every vertex and `update` leaves its transform unchanged. -/
theorem pass_shift_is_normalized_blend (env : Env Img Msk) (o : options_t) (tile : List Img)
    (mask : List (Option Msk)) (neighbors : List (List Nat)) (num_threads : Nat)
    (st st1 : mosaic_state Img Msk) (shift : List (List vec2d_t))
    (hpass : refine_mosaic_pass env o tile mask neighbors st = some (st1, shift) ∨
      refine_mosaic_mt_pass env o tile mask neighbors num_threads st = some (st1, shift))
    (i : Nat) (hlo : start_index o.keep_first_tile_fixed ≤ i) (hhi : i < tile.length) :
    ∃ (gt : the_grid_transform_t) (s : List vec2d_t) (pairs : List (List vec2d_t × List ℚ)),
      st.transform[i]? = some gt ∧ shift[i]? = some s ∧
      st1.transform[i]? = some (update gt s) ∧
      (neighbors.getD i []).map
        (pair_result env o i st.transform st1.warped_tile st1.warped_mask gt) = pairs.map some ∧
      s.length = gt.mesh_.length ∧
      (∀ v, v < gt.mesh_.length →
        (s.getD v (vec2d 0 0)).x =
          (pairs.map (fun p => (p.1.getD v (vec2d 0 0)).x)).sum *
            (if o.keep_first_tile_fixed then 1
              else 1 / (1 + (pairs.map (fun p => p.2.getD v 0)).sum)) ∧
        (s.getD v (vec2d 0 0)).y =
          (pairs.map (fun p => (p.1.getD v (vec2d 0 0)).y)).sum *
            (if o.keep_first_tile_fixed then 1
              else 1 / (1 + (pairs.map (fun p => p.2.getD v 0)).sum))) ∧
      (neighbors.getD i [] = [] →
        pairs = [] ∧ s = List.replicate gt.mesh_.length (vec2d 0 0) ∧ update gt s = gt) := by
  have hp : refine_mosaic_pass env o tile mask neighbors st = some (st1, shift) := by
    rcases hpass with h | h
    · exact h
    · by_cases h0 : num_threads = 0
      · subst h0
        unfold refine_mosaic_mt_pass at h
        dsimp only at h
        split at h
        · simp at h
        · simp at h
      · rw [refine_mosaic_mt_pass_eq env o tile mask neighbors num_threads st h0] at h
        exact h
  obtain ⟨_, _, hin, _⟩ := refine_mosaic_pass_spec env o tile mask neighbors st st1 shift hp
  obtain ⟨gt, s, hgt, hr, hsi, hup⟩ := hin i hlo hhi
  obtain ⟨pairs, hmap, hlen, hv⟩ := refine_one_tile_spec env o i st.transform _ _ neighbors gt s hgt hr
  refine ⟨gt, s, pairs, hgt, hsi, hup, hmap, hlen, hv, ?_⟩
  intro hnil
  rw [hnil] at hmap
  have hpairs : pairs = [] := by
    cases pairs with
    | nil => rfl
    | cons p ps => simp at hmap
  subst hpairs
  have hs : s = List.replicate gt.mesh_.length (vec2d 0 0) := by
    apply List.ext_getElem
    · simp [hlen]
    · intro v h1 h2
      have hvn : v < gt.mesh_.length := hlen ▸ h1
      obtain ⟨hx, hy⟩ := hv v hvn
      simp only [List.map_nil, List.sum_nil, zero_mul] at hx hy
      have hg : s.getD v (vec2d 0 0) = s[v] := by
        simp [List.getElem?_eq_getElem h1]
      rw [hg] at hx hy
      simp only [List.getElem_replicate]
      cases hsv : s[v] with
      | mk a b =>
        rw [hsv] at hx hy
        simp only at hx hy
        subst hx hy
        rfl
  refine ⟨rfl, hs, ?_⟩
  rw [hs]
  exact update_zero_shift gt

theorem mt_loop_nonempty (env : Env Img Msk) (o : options_t) (tile : List Img)
    (mask : List (Option Msk)) (neighbors : List (List Nat)) (thr : ℚ) (num_threads : Nat)
    (n : Nat) (last : ℚ) (st st1 : mosaic_state Img Msk) (trace : List (ℚ × ℚ))
    (h : refine_mosaic_mt_loop env o tile mask neighbors thr num_threads (n + 1) last st =
      some (st1, trace)) : trace ≠ [] := by
  unfold refine_mosaic_mt_loop at h
  split at h
  · simp at h
  · dsimp only at h
    split at h
    · split at h
      · simp only [Option.some.injEq, Prod.mk.injEq] at h
        rw [← h.2]; simp
      · split at h
        · simp only [Option.some.injEq, Prod.mk.injEq] at h
          rw [← h.2]; simp
        · split at h
          · simp at h
          · simp only [Option.some.injEq, Prod.mk.injEq] at h
            rw [← h.2]; simp
    · split at h
      · simp at h
      · simp only [Option.some.injEq, Prod.mk.injEq] at h
        rw [← h.2]; simp

theorem mt_loop_spec (env : Env Img Msk) (o : options_t) (tile : List Img)
    (mask : List (Option Msk)) (neighbors : List (List Nat)) (thr : ℚ) (num_threads : Nat) :
    ∀ (n : Nat) (last : ℚ) (st st1 : mosaic_state Img Msk) (trace : List (ℚ × ℚ)),
      refine_mosaic_mt_loop env o tile mask neighbors thr num_threads n last st =
        some (st1, trace) →
      (∀ a ∈ trace, 0 < a.2) →
      trace.length ≤ n ∧
      ∀ p, p < trace.length →
        (p + 1 = trace.length ↔
          ((trace.getD p (0, 0)).1 ≤ thr ∨
           (if p = 0 then last else (trace.getD (p - 1) (0, 0)).1) ≤ (trace.getD p (0, 0)).1 ∨
           p + 1 = n)) := by
  intro n
  induction n with
  | zero =>
    intro last st st1 trace h _
    simp only [refine_mosaic_mt_loop, Option.some.injEq, Prod.mk.injEq] at h
    rw [← h.2]
    simp
  | succ n ih =>
    intro last st st1 trace h hcount
    have hne := mt_loop_nonempty env o tile mask neighbors thr num_threads n last st st1 trace h
    unfold refine_mosaic_mt_loop at h
    cases hpass : refine_mosaic_mt_pass env o tile mask neighbors num_threads st with
    | none => rw [hpass] at h; simp at h
    | some r =>
      obtain ⟨st2, shift⟩ := r
      rw [hpass] at h
      dsimp only at h
      by_cases hc : 0 < (displacement_stats shift).2
      · rw [if_pos hc] at h
        by_cases h1 : (displacement_stats shift).1 ≤ thr
        · rw [if_pos h1] at h
          simp only [Option.some.injEq, Prod.mk.injEq] at h
          rw [← h.2]
          refine ⟨by simp, ?_⟩
          intro p hp
          simp only [List.length_singleton, Nat.lt_one_iff] at hp
          subst hp
          simp [h1]
        · rw [if_neg h1] at h
          by_cases h2 : last ≤ (displacement_stats shift).1
          · rw [if_pos h2] at h
            simp only [Option.some.injEq, Prod.mk.injEq] at h
            rw [← h.2]
            refine ⟨by simp, ?_⟩
            intro p hp
            simp only [List.length_singleton, Nat.lt_one_iff] at hp
            subst hp
            simp [h2]
          · rw [if_neg h2] at h
            cases hrec : refine_mosaic_mt_loop env o tile mask neighbors thr num_threads n
                (displacement_stats shift).1 st2 with
            | none => rw [hrec] at h; simp at h
            | some r2 =>
              rw [hrec] at h
              simp only [Option.some.injEq, Prod.mk.injEq] at h
              obtain ⟨_, htr⟩ := h
              subst htr
              have hcount2 : ∀ a ∈ r2.2, 0 < a.2 :=
                fun a ha => hcount a (List.mem_cons_of_mem _ ha)
              obtain ⟨hlen, hih⟩ := ih _ st2 r2.1 r2.2 (by rw [hrec]) hcount2
              refine ⟨by simpa using hlen, ?_⟩
              intro p hp
              cases p with
              | zero =>
                simp only [List.getD_cons_zero, if_true, List.length_cons, h1, h2, false_or,
                  zero_add, Nat.add_right_cancel_iff]
                constructor
                · intro e
                  cases n with
                  | zero => rfl
                  | succ m =>
                    exfalso
                    have := mt_loop_nonempty env o tile mask neighbors thr num_threads m _ st2
                      r2.1 r2.2 (by rw [hrec])
                    exact this (List.length_eq_zero.mp (by omega))
                · intro e
                  have : r2.2.length = 0 := by omega
                  omega
              | succ q =>
                have hq : q < r2.2.length := by simpa using hp
                have := hih q hq
                simp only [List.length_cons, Nat.add_right_cancel_iff, List.getD_cons_succ,
                  Nat.add_sub_cancel, Nat.succ_ne_zero, if_false]
                rw [this]
                cases q with
                | zero => simp
                | succ r => simp
      · exfalso
        rw [if_neg hc] at h
        cases hrec : refine_mosaic_mt_loop env o tile mask neighbors thr num_threads n
            last st2 with
        | none => rw [hrec] at h; simp at h
        | some r2 =>
          rw [hrec] at h
          simp only [Option.some.injEq, Prod.mk.injEq] at h
          obtain ⟨_, htr⟩ := h
          exact hc (hcount _ (htr ▸ List.mem_cons_self _ _))

theorem displacement_fold (l : List vec2d_t) :
    ∀ a : ℚ × ℚ,
      l.foldl (fun (a : ℚ × ℚ) v => (a.1 + (fabs v.x + fabs v.y), a.2 + 2)) a =
        (a.1 + (l.flatMap (fun v => [fabs v.x, fabs v.y])).sum,
          a.2 + ((l.flatMap (fun v => [fabs v.x, fabs v.y])).length : ℚ)) := by
  induction l with
  | nil => intro a; simp
  | cons v l ih =>
    intro a
    rw [List.foldl_cons, ih]
    simp only [List.flatMap_cons, List.sum_append, List.sum_cons, List.sum_nil,
      List.length_append, List.length_cons, List.length_nil, Nat.cast_add, Nat.cast_ofNat]
    refine Prod.ext ?_ ?_
    · dsimp only
      ring
    · dsimp only
      push_cast
      ring

theorem components_length (l : List vec2d_t) :
    (l.flatMap (fun v => [fabs v.x, fabs v.y])).length = 2 * l.length := by
  induction l with
  | nil => rfl
  | cons v l ih =>
    simp only [List.flatMap_cons, List.length_append, List.length_cons, List.length_nil, ih]
    omega

theorem displacement_stats_eq (shift : List (List vec2d_t)) :
    displacement_stats shift =
      (mean_absolute_component shift, 2 * (shift.flatten.length : ℚ)) := by
  unfold displacement_stats mean_absolute_component
  dsimp only
  rw [displacement_fold, components_length]
  simp only [zero_add]
  push_cast
  rfl

theorem mt_loop_passes (env : Env Img Msk) (o : options_t) (tile : List Img)
    (mask : List (Option Msk)) (neighbors : List (List Nat)) (thr : ℚ) (num_threads : Nat) :
    ∀ (n : Nat) (last : ℚ) (st st1 : mosaic_state Img Msk) (trace : List (ℚ × ℚ)),
      refine_mosaic_mt_loop env o tile mask neighbors thr num_threads n last st =
        some (st1, trace) →
      passes_run env o tile mask neighbors num_threads st trace st1 := by
  intro n
  induction n with
  | zero =>
    intro last st st1 trace h
    simp only [refine_mosaic_mt_loop, Option.some.injEq, Prod.mk.injEq] at h
    rw [← h.1, ← h.2]
    rfl
  | succ n ih =>
    intro last st st1 trace h
    unfold refine_mosaic_mt_loop at h
    cases hpass : refine_mosaic_mt_pass env o tile mask neighbors num_threads st with
    | none => rw [hpass] at h; simp at h
    | some r =>
      obtain ⟨st2, shift⟩ := r
      rw [hpass] at h
      dsimp only at h
      have hlast : ∀ s, some (st2, [displacement_stats shift]) = some (s, trace) →
          s = st1 → passes_run env o tile mask neighbors num_threads st trace st1 := by
        intro s e hs
        simp only [Option.some.injEq, Prod.mk.injEq] at e
        rw [← e.2]
        exact ⟨st2, shift, hpass, displacement_stats_eq shift, by rw [← hs, ← e.1]; rfl⟩
      have hrec : ∀ l,
          (match refine_mosaic_mt_loop env o tile mask neighbors thr num_threads n l st2 with
            | none => none
            | some r => some (r.1, displacement_stats shift :: r.2)) = some (st1, trace) →
          passes_run env o tile mask neighbors num_threads st trace st1 := by
        intro l e
        cases hr : refine_mosaic_mt_loop env o tile mask neighbors thr num_threads n l st2 with
        | none => rw [hr] at e; simp at e
        | some r2 =>
          rw [hr] at e
          simp only [Option.some.injEq, Prod.mk.injEq] at e
          rw [← e.2]
          exact ⟨st2, shift, hpass, displacement_stats_eq shift,
            e.1 ▸ ih l st2 r2.1 r2.2 (by rw [hr])⟩
      by_cases hc : 0 < (displacement_stats shift).2
      · rw [if_pos hc] at h
        by_cases h1 : (displacement_stats shift).1 ≤ thr
        · rw [if_pos h1] at h
          exact hlast st1 h rfl
        · rw [if_neg h1] at h
          by_cases h2 : last ≤ (displacement_stats shift).1
          · rw [if_pos h2] at h
            exact hlast st1 h rfl
          · rw [if_neg h2] at h
            exact hrec _ h
      · rw [if_neg hc] at h
        exact hrec _ h

theorem pass_shift_anchor (env : Env Img Msk) (o : options_t) (tile : List Img)
    (mask : List (Option Msk)) (neighbors : List (List Nat))
    (st st1 : mosaic_state Img Msk) (shift : List (List vec2d_t))
    (h : refine_mosaic_pass env o tile mask neighbors st = some (st1, shift)) :
    ∀ i, i < start_index o.keep_first_tile_fixed → i < tile.length → shift[i]? = some [] := by
  unfold refine_mosaic_pass at h
  dsimp only at h
  cases hw : (if o.prewarp_tiles = true then
      List.foldlM (warp_tile env tile mask st.transform) (st.warped_tile, st.warped_mask)
        (mobile_tiles tile.length (start_index o.keep_first_tile_fixed))
    else some (st.warped_tile, st.warped_mask)) with
  | none => rw [hw] at h; simp at h
  | some w =>
    rw [hw] at h
    dsimp only at h
    cases hs : List.foldlM (shift_step env o st.transform w.1 w.2 neighbors)
        (List.replicate tile.length [])
        (mobile_tiles tile.length (start_index o.keep_first_tile_fixed)) with
    | none => rw [hs] at h; simp at h
    | some sh =>
      rw [hs] at h
      dsimp only at h
      cases hu : List.foldlM (update_step sh) st.transform
          (mobile_tiles tile.length (start_index o.keep_first_tile_fixed)) with
      | none => rw [hu] at h; simp at h
      | some tr =>
        rw [hu] at h
        simp only [Option.some.injEq, Prod.mk.injEq] at h
        obtain ⟨_, h2⟩ := h
        subst h2
        obtain ⟨_, _, hout⟩ := shift_fold_spec env o st.transform w.1 w.2 neighbors _ _ _
          (nodup_mobile_tiles _ _) hs
        intro i hi hlt
        rw [hout i (fun hmem => by
          have := (mem_mobile_tiles _ _ _).mp hmem
          omega)]
        simp [List.getElem?_replicate, hlt]

/-- C2: run with two or more workers, `refine_mosaic_mt` executes at most
`num_passes` passes. Entry `p` of the trace belongs to pass `p`: it holds the
mean absolute shift component of that pass, the average of `|x|` and `|y|` over
all vectors of its `shift`, which has the shift of every mobile tile and no
vector for the anchor tile. The run stops after pass `p` exactly when that mean
is at most the threshold, or at least the mean of the previous pass (pass 0 has
no previous pass), or the passes are exhausted. The means are those of finite
doubles below `DBL_MAX`, the value `last_average` starts from, and every pass
has a mobile vertex. -/
theorem refine_mosaic_mt_convergence (env : Env Img Msk) (o : options_t)
    (transform : List the_grid_transform_t) (tile : List Img) (mask : List (Option Msk))
    (num_passes : Nat) (displacement_threshold : ℚ) (num_threads : Nat)
    (st : mosaic_state Img Msk) (trace : List (ℚ × ℚ))
    (hthreads : 2 ≤ num_threads)
    (hrun : refine_mosaic_mt_state env o transform tile mask num_passes
      displacement_threshold num_threads = some (st, trace))
    (hcount : ∀ a ∈ trace, 0 < a.2)
    (hfin : ∀ a ∈ trace, a.1 < DBL_MAX) :
    refine_mosaic_mt env o transform tile mask num_passes displacement_threshold num_threads =
      some st.transform ∧
    trace.length ≤ num_passes ∧
    (∀ p, p < trace.length →
      (p + 1 = trace.length ↔
        ((trace.getD p (0, 0)).1 ≤ displacement_threshold ∨
         (∃ q, p = q + 1 ∧ (trace.getD q (0, 0)).1 ≤ (trace.getD p (0, 0)).1) ∨
         p + 1 = num_passes))) ∧
    (2 ≤ tile.length →
      ∃ w, refine_mosaic_mt_init tile mask = some w ∧
        passes_run env o tile mask
          (find_neighbors env transform tile (start_index o.keep_first_tile_fixed))
          num_threads ⟨transform, w.1, w.2⟩ trace st) ∧
    (∀ (neighbors : List (List Nat)) (s s1 : mosaic_state Img Msk) (shift : List (List vec2d_t)),
      refine_mosaic_mt_pass env o tile mask neighbors num_threads s = some (s1, shift) →
      displacement_stats shift =
        (mean_absolute_component shift, 2 * (shift.flatten.length : ℚ)) ∧
      shift.length = tile.length ∧
      (∀ i, i < start_index o.keep_first_tile_fixed → i < tile.length → shift[i]? = some []) ∧
      ∀ i, start_index o.keep_first_tile_fixed ≤ i → i < tile.length →
        ∃ sh, refine_one_tile env o i s.transform s1.warped_tile s1.warped_mask neighbors =
            some sh ∧
          shift[i]? = some sh) := by
  have hmt : refine_mosaic_mt env o transform tile mask num_passes displacement_threshold
      num_threads = some st.transform := by
    unfold refine_mosaic_mt
    rw [if_neg (by omega), hrun]
    rfl
  have hpass : ∀ (neighbors : List (List Nat)) (s s1 : mosaic_state Img Msk)
      (shift : List (List vec2d_t)),
      refine_mosaic_mt_pass env o tile mask neighbors num_threads s = some (s1, shift) →
      displacement_stats shift =
        (mean_absolute_component shift, 2 * (shift.flatten.length : ℚ)) ∧
      shift.length = tile.length ∧
      (∀ i, i < start_index o.keep_first_tile_fixed → i < tile.length → shift[i]? = some []) ∧
      ∀ i, start_index o.keep_first_tile_fixed ≤ i → i < tile.length →
        ∃ sh, refine_one_tile env o i s.transform s1.warped_tile s1.warped_mask neighbors =
            some sh ∧
          shift[i]? = some sh := by
    intro neighbors s s1 shift h
    rw [refine_mosaic_mt_pass_eq env o tile mask neighbors num_threads s (by omega)] at h
    obtain ⟨g1, _, g3, _⟩ := refine_mosaic_pass_spec env o tile mask neighbors s s1 shift h
    refine ⟨displacement_stats_eq shift, g1,
      pass_shift_anchor env o tile mask neighbors s s1 shift h, ?_⟩
    intro i hi hlt
    obtain ⟨_, sh, _, h2, h3, _⟩ := g3 i hi hlt
    exact ⟨sh, h2, h3⟩
  refine ⟨hmt, ?_⟩
  unfold refine_mosaic_mt_state at hrun
  dsimp only at hrun
  by_cases hn : tile.length < 2
  · rw [if_pos hn] at hrun
    simp only [Option.some.injEq, Prod.mk.injEq] at hrun
    rw [← hrun.2]
    exact ⟨by simp, by simp, fun h => absurd hn (by omega), hpass⟩
  · rw [if_neg hn] at hrun
    cases hinit : refine_mosaic_mt_init tile mask with
    | none => rw [hinit] at hrun; simp at hrun
    | some w =>
      rw [hinit] at hrun
      dsimp only at hrun
      obtain ⟨hlen, hstop⟩ := mt_loop_spec env o tile mask _ displacement_threshold num_threads
        num_passes DBL_MAX _ st trace hrun hcount
      refine ⟨hlen, ?_, fun _ => ⟨w, rfl, mt_loop_passes env o tile mask _
        displacement_threshold num_threads num_passes DBL_MAX _ st trace hrun⟩, hpass⟩
      intro p hp
      rw [hstop p hp]
      cases p with
      | zero =>
        have h0 : (trace.getD 0 (0, 0)).1 < DBL_MAX := by
          cases trace with
          | nil => simp at hp
          | cons a l => exact hfin a (List.mem_cons_self _ _)
        simp only [if_true, not_le.mpr h0, false_or]
        constructor
        · intro h
          rcases h with h | h
          · exact Or.inl h
          · exact Or.inr (Or.inr h)
        · intro h
          rcases h with h | ⟨q, hq, _⟩ | h
          · exact Or.inl h
          · omega
          · exact Or.inr h
      | succ q =>
        simp only [Nat.succ_ne_zero, if_false, Nat.add_sub_cancel]
        constructor
        · intro h
          rcases h with h | h | h
          · exact Or.inl h
          · exact Or.inr (Or.inl ⟨q, rfl, h⟩)
          · exact Or.inr (Or.inr h)
        · intro h
          rcases h with h | ⟨r, hr, h⟩ | h
          · exact Or.inl h
          · have : r = q := by omega
            subst this
            exact Or.inr (Or.inl h)
          · exact Or.inr (Or.inr h)

/-- Witness of C2: three passes allowed, threshold 0, two workers; every vertex of
both tiles is shifted by `(1/2, 0)` in each pass, the means are 1/4 and 1/4, so
the run stops after the second pass. -/
theorem refine_mosaic_mt_convergence_witness :
    refine_mosaic_mt_state demo_env (demo_options false) [demo_grid 0, demo_grid 1] [0, 1]
        [none, none] 3 0 2 =
      some (⟨[demo_grid 1, demo_grid 2], [some 0, some 1], [none, none]⟩,
        [(1 / 4, 16), (1 / 4, 16)]) ∧
    mean_absolute_component
      [List.replicate 4 (vec2d (1 / 2) 0), List.replicate 4 (vec2d (1 / 2) 0)] = 1 / 4 ∧
    (refine_mosaic_mt demo_env (demo_options false) [demo_grid 0, demo_grid 1] [0, 1]
        [none, none] 3 0 2 = some [demo_grid 1, demo_grid 2] ∧
    ([(1 / 4, 16), (1 / 4, 16)] : List (ℚ × ℚ)).length ≤ 3 ∧
    (∀ p, p < ([(1 / 4, 16), (1 / 4, 16)] : List (ℚ × ℚ)).length →
      (p + 1 = ([(1 / 4, 16), (1 / 4, 16)] : List (ℚ × ℚ)).length ↔
        ((([(1 / 4, 16), (1 / 4, 16)] : List (ℚ × ℚ)).getD p (0, 0)).1 ≤ 0 ∨
         (∃ q, p = q + 1 ∧ (([(1 / 4, 16), (1 / 4, 16)] : List (ℚ × ℚ)).getD q (0, 0)).1 ≤
            (([(1 / 4, 16), (1 / 4, 16)] : List (ℚ × ℚ)).getD p (0, 0)).1) ∨
         p + 1 = 3))) ∧
    (2 ≤ ([0, 1] : List Nat).length →
      ∃ w, refine_mosaic_mt_init ([0, 1] : List Nat) ([none, none] : List (Option Unit)) =
          some w ∧
        passes_run demo_env (demo_options false) [0, 1] [none, none]
          (find_neighbors demo_env [demo_grid 0, demo_grid 1] [0, 1]
            (start_index (demo_options false).keep_first_tile_fixed))
          2 ⟨[demo_grid 0, demo_grid 1], w.1, w.2⟩ [(1 / 4, 16), (1 / 4, 16)]
          ⟨[demo_grid 1, demo_grid 2], [some 0, some 1], [none, none]⟩)) :=
  ⟨by decide!, by decide!,
    (fun h => ⟨h.1, h.2.1, h.2.2.1, h.2.2.2.1⟩)
      (refine_mosaic_mt_convergence demo_env (demo_options false) [demo_grid 0, demo_grid 1]
        [0, 1] [none, none] 3 0 2 ⟨[demo_grid 1, demo_grid 2], [some 0, some 1], [none, none]⟩
        [(1 / 4, 16), (1 / 4, 16)] (by decide) (by decide!) (by decide!) (by decide!))⟩

/-- C3 (the code evaluated at the failing input): two tiles, two passes allowed,
threshold 10. With one worker both passes are run; with two workers the run
stops after the first pass, whose mean 1/4 is below the threshold. -/
theorem refine_mosaic_mt_depends_on_num_threads :
    refine_mosaic_mt demo_env (demo_options false) [demo_grid 0, demo_grid 1] [0, 1]
        [none, none] 2 10 1 = some [demo_grid 1, demo_grid 2] ∧
    refine_mosaic_mt demo_env (demo_options false) [demo_grid 0, demo_grid 1] [0, 1]
        [none, none] 2 10 2 = some [demo_grid (1 / 2), demo_grid (3 / 2)] ∧
    refine_mosaic_mt demo_env (demo_options false) [demo_grid 0, demo_grid 1] [0, 1]
        [none, none] 2 10 1 ≠
      refine_mosaic_mt demo_env (demo_options false) [demo_grid 0, demo_grid 1] [0, 1]
        [none, none] 2 10 2 := by
  decide!

/-- C4: with fewer than two tiles `refine_mosaic` and `refine_mosaic_mt` return
the transforms unchanged, for all options, pass counts and worker counts. -/
theorem refine_mosaic_fewer_than_two_tiles (env : Env Img Msk) (o : options_t)
    (transform : List the_grid_transform_t) (tile : List Img) (mask : List (Option Msk))
    (num_passes : Nat) (displacement_threshold : ℚ) (num_threads : Nat)
    (h : tile.length < 2) :
    refine_mosaic env o transform tile mask num_passes = some transform ∧
    refine_mosaic_mt env o transform tile mask num_passes displacement_threshold num_threads =
      some transform := by
  have h1 : refine_mosaic env o transform tile mask num_passes = some transform := by
    simp [refine_mosaic, refine_mosaic_state, h]
  refine ⟨h1, ?_⟩
  unfold refine_mosaic_mt
  split
  · exact h1
  · simp [refine_mosaic_mt_state, h]

/-- Witness of C4: a single tile, anchor flag set, five passes, four workers. -/
theorem refine_mosaic_fewer_than_two_tiles_witness :
    refine_mosaic demo_env (demo_options true) [demo_grid 0] [0] [none] 5 = some [demo_grid 0] ∧
    refine_mosaic_mt demo_env (demo_options true) [demo_grid 0] [0] [none] 5 (1 / 2) 4 =
      some [demo_grid 0] :=
  refine_mosaic_fewer_than_two_tiles demo_env (demo_options true) [demo_grid 0] [0] [none] 5
    (1 / 2) 4 (by decide)

/-- C5: for a tile `i` the neighbor list built by `find_neighbors` (the loops of
`refine_mosaic` and `refine_mosaic_mt`) is, when `i` is mobile, strictly
increasing and holds exactly the `j != i` whose box intersects the box of `i`;
tile 0 is listed whenever its box intersects, also when it is the anchor; the
list of the anchor itself is empty. -/
theorem find_neighbors_spec (env : Env Img Msk) (transform : List the_grid_transform_t)
    (tile : List Img) (keep_first_tile_fixed : Bool) (i : Nat) (hi : i < tile.length) :
    (start_index keep_first_tile_fixed ≤ i →
      ((find_neighbors env transform tile (start_index keep_first_tile_fixed)).getD i []).Sorted
        (fun a b => a < b) ∧
      ∀ j, j ∈ (find_neighbors env transform tile (start_index keep_first_tile_fixed)).getD i [] ↔
        (j < tile.length ∧ j ≠ i ∧
          env.intersects (env.calc_mosaic_bboxes transform tile i)
            (env.calc_mosaic_bboxes transform tile j) = true)) ∧
    (keep_first_tile_fixed = true → 1 ≤ i →
      (0 ∈ (find_neighbors env transform tile (start_index keep_first_tile_fixed)).getD i [] ↔
        env.intersects (env.calc_mosaic_bboxes transform tile i)
          (env.calc_mosaic_bboxes transform tile 0) = true)) ∧
    (keep_first_tile_fixed = true →
      (find_neighbors env transform tile (start_index keep_first_tile_fixed)).getD 0 [] = []) := by
  have hget : ∀ k, k < tile.length →
      (find_neighbors env transform tile (start_index keep_first_tile_fixed)).getD k [] =
        if k < start_index keep_first_tile_fixed then []
        else (List.range tile.length).filter (fun j => !(k == j) &&
          env.intersects (env.calc_mosaic_bboxes transform tile k)
            (env.calc_mosaic_bboxes transform tile j)) := by
    intro k hk
    simp [find_neighbors, List.getElem?_map, List.getElem?_range hk]
  have hmem : ∀ k, k < tile.length → start_index keep_first_tile_fixed ≤ k → ∀ j,
      j ∈ (find_neighbors env transform tile (start_index keep_first_tile_fixed)).getD k [] ↔
        (j < tile.length ∧ j ≠ k ∧
          env.intersects (env.calc_mosaic_bboxes transform tile k)
            (env.calc_mosaic_bboxes transform tile j) = true) := by
    intro k hk hs j
    rw [hget k hk, if_neg (by omega)]
    simp only [List.mem_filter, List.mem_range, Bool.and_eq_true, Bool.not_eq_true',
      beq_eq_false_iff_ne, ne_eq]
    constructor
    · rintro ⟨h1, h2, h3⟩
      exact ⟨h1, fun e => h2 e.symm, h3⟩
    · rintro ⟨h1, h2, h3⟩
      exact ⟨h1, fun e => h2 e.symm, h3⟩
  refine ⟨?_, ?_, ?_⟩
  · intro hs
    refine ⟨?_, hmem i hi hs⟩
    rw [hget i hi, if_neg (by omega)]
    exact (List.pairwise_lt_range tile.length).filter _
  · intro hk h1
    have hs : start_index keep_first_tile_fixed ≤ i := by simp [start_index, hk]; exact h1
    rw [hmem i hi hs 0]
    constructor
    · intro h; exact h.2.2
    · intro h; exact ⟨by omega, by omega, h⟩
  · intro hk
    rw [hget 0 (by omega)]
    simp [start_index, hk]

/-- Witness of C5: three tiles, anchor flag set, tile 2. -/
theorem find_neighbors_spec_witness :
    (find_neighbors demo_env [demo_grid 0, demo_grid 1, demo_grid 2] [0, 1, 2]
      (start_index true)).getD 2 [] = [0, 1] ∧
    (find_neighbors demo_env [demo_grid 0, demo_grid 1, demo_grid 2] [0, 1, 2]
      (start_index true)).getD 0 [] = [] ∧
    (0 ∈ (find_neighbors demo_env [demo_grid 0, demo_grid 1, demo_grid 2] [0, 1, 2]
      (start_index true)).getD 2 [] ↔
      demo_env.intersects
        (demo_env.calc_mosaic_bboxes [demo_grid 0, demo_grid 1, demo_grid 2] [0, 1, 2] 2)
        (demo_env.calc_mosaic_bboxes [demo_grid 0, demo_grid 1, demo_grid 2] [0, 1, 2] 0) =
          true) :=
  ⟨by decide, by decide,
    (find_neighbors_spec demo_env [demo_grid 0, demo_grid 1, demo_grid 2] [0, 1, 2] true 2
      (by decide)).2.1 rfl (by decide)⟩

theorem refine_mosaic_loop_anchor (env : Env Img Msk) (o : options_t) (tile : List Img)
    (mask : List (Option Msk)) (neighbors : List (List Nat))
    (hkeep : o.keep_first_tile_fixed = true) :
    ∀ (n : Nat) (st st1 : mosaic_state Img Msk),
      refine_mosaic_loop env o tile mask neighbors n st = some st1 →
      st1.transform[0]? = st.transform[0]? ∧ st1.warped_tile[0]? = st.warped_tile[0]? ∧
      st1.warped_mask[0]? = st.warped_mask[0]? := by
  intro n
  induction n with
  | zero =>
    intro st st1 h
    simp only [refine_mosaic_loop, Option.some.injEq] at h
    subst h
    exact ⟨rfl, rfl, rfl⟩
  | succ n ih =>
    intro st st1 h
    unfold refine_mosaic_loop at h
    cases hp : refine_mosaic_pass env o tile mask neighbors st with
    | none => rw [hp] at h; simp at h
    | some r =>
      obtain ⟨st2, shift⟩ := r
      rw [hp] at h
      dsimp only at h
      obtain ⟨_, _, _, hfix⟩ := refine_mosaic_pass_spec env o tile mask neighbors st st2 shift hp
      obtain ⟨h1, h2, h3⟩ := hfix 0 (by simp [start_index, hkeep])
      obtain ⟨g1, g2, g3⟩ := ih st2 st1 h
      exact ⟨g1.trans h1, g2.trans h2, g3.trans h3⟩

theorem refine_mosaic_mt_loop_anchor (env : Env Img Msk) (o : options_t) (tile : List Img)
    (mask : List (Option Msk)) (neighbors : List (List Nat)) (thr : ℚ) (num_threads : Nat)
    (hkeep : o.keep_first_tile_fixed = true) :
    ∀ (n : Nat) (last : ℚ) (st st1 : mosaic_state Img Msk) (trace : List (ℚ × ℚ)),
      refine_mosaic_mt_loop env o tile mask neighbors thr num_threads n last st =
        some (st1, trace) →
      st1.transform[0]? = st.transform[0]? ∧ st1.warped_tile[0]? = st.warped_tile[0]? ∧
      st1.warped_mask[0]? = st.warped_mask[0]? := by
  intro n
  induction n with
  | zero =>
    intro last st st1 trace h
    simp only [refine_mosaic_mt_loop, Option.some.injEq, Prod.mk.injEq] at h
    rw [← h.1]
    exact ⟨rfl, rfl, rfl⟩
  | succ n ih =>
    intro last st st1 trace h
    unfold refine_mosaic_mt_loop at h
    cases hp : refine_mosaic_mt_pass env o tile mask neighbors num_threads st with
    | none => rw [hp] at h; simp at h
    | some r =>
      obtain ⟨st2, shift⟩ := r
      rw [hp] at h
      dsimp only at h
      have hp2 : refine_mosaic_pass env o tile mask neighbors st = some (st2, shift) := by
        by_cases h0 : num_threads = 0
        · subst h0
          unfold refine_mosaic_mt_pass at hp
          dsimp only at hp
          split at hp
          · simp at hp
          · simp at hp
        · rw [refine_mosaic_mt_pass_eq env o tile mask neighbors num_threads st h0] at hp
          exact hp
      obtain ⟨_, _, _, hfix⟩ := refine_mosaic_pass_spec env o tile mask neighbors st st2 shift hp2
      obtain ⟨h1, h2, h3⟩ := hfix 0 (by simp [start_index, hkeep])
      have hstep : ∀ (l : ℚ) (r2 : mosaic_state Img Msk × List (ℚ × ℚ)),
          refine_mosaic_mt_loop env o tile mask neighbors thr num_threads n l st2 = some r2 →
          r2.1.transform[0]? = st.transform[0]? ∧ r2.1.warped_tile[0]? = st.warped_tile[0]? ∧
          r2.1.warped_mask[0]? = st.warped_mask[0]? := by
        intro l r2 hr
        obtain ⟨g1, g2, g3⟩ := ih l st2 r2.1 r2.2 hr
        exact ⟨g1.trans h1, g2.trans h2, g3.trans h3⟩
      split at h
      · split at h
        · simp only [Option.some.injEq, Prod.mk.injEq] at h
          rw [← h.1]; exact ⟨h1, h2, h3⟩
        · split at h
          · simp only [Option.some.injEq, Prod.mk.injEq] at h
            rw [← h.1]; exact ⟨h1, h2, h3⟩
          · split at h
            · simp at h
            · rename_i r2 hr
              simp only [Option.some.injEq, Prod.mk.injEq] at h
              rw [← h.1]; exact hstep _ r2 hr
      · split at h
        · simp at h
        · rename_i r2 hr
          simp only [Option.some.injEq, Prod.mk.injEq] at h
          rw [← h.1]; exact hstep _ r2 hr

/-- C6: with `keep_first_tile_fixed` set, after any number of passes of
`refine_mosaic` or of `refine_mosaic_mt` transform 0 is equal to its input
value, and (when there are passes at all, i.e. two or more tiles) entry 0 of
the warped set is the copy of the input tile 0 made before the first pass. -/
theorem anchor_tile_never_updated (env : Env Img Msk) (o : options_t)
    (transform : List the_grid_transform_t) (tile : List Img) (mask : List (Option Msk))
    (num_passes : Nat) (displacement_threshold : ℚ) (num_threads : Nat)
    (hkeep : o.keep_first_tile_fixed = true) :
    (∀ st, refine_mosaic_state env o transform tile mask num_passes = some st →
      st.transform[0]? = transform[0]? ∧
      (2 ≤ tile.length → st.warped_tile[0]? = some tile[0]?)) ∧
    (∀ st trace, refine_mosaic_mt_state env o transform tile mask num_passes
        displacement_threshold num_threads = some (st, trace) →
      st.transform[0]? = transform[0]? ∧
      (2 ≤ tile.length → st.warped_tile[0]? = some tile[0]?)) := by
  constructor
  · intro st h
    unfold refine_mosaic_state at h
    dsimp only at h
    by_cases hn : tile.length < 2
    · rw [if_pos hn] at h
      simp only [Option.some.injEq] at h
      subst h
      exact ⟨rfl, fun h2 => absurd hn (by omega)⟩
    · rw [if_neg hn] at h
      cases hinit : refine_mosaic_init tile mask o.keep_first_tile_fixed with
      | none => rw [hinit] at h; simp at h
      | some w =>
        rw [hinit] at h
        dsimp only at h
        obtain ⟨h1, h2, _⟩ := refine_mosaic_loop_anchor env o tile mask _ hkeep num_passes _ st h
        refine ⟨h1, fun _ => ?_⟩
        rw [h2]
        unfold refine_mosaic_init at hinit
        rw [hkeep] at hinit
        simp only [if_true] at hinit
        cases ht : tile[0]? with
        | none => rw [ht] at hinit; simp at hinit
        | some t =>
          rw [ht] at hinit
          cases hm : mask[0]? with
          | none => rw [hm] at hinit; simp at hinit
          | some m =>
            rw [hm] at hinit
            cases m with
            | none => simp at hinit
            | some mk =>
              simp only [Option.some.injEq] at hinit
              rw [← hinit]
              have : 0 < tile.length := by omega
              simp [List.getElem?_set, this]
  · intro st trace h
    unfold refine_mosaic_mt_state at h
    dsimp only at h
    by_cases hn : tile.length < 2
    · rw [if_pos hn] at h
      simp only [Option.some.injEq, Prod.mk.injEq] at h
      rw [← h.1]
      exact ⟨rfl, fun h2 => absurd hn (by omega)⟩
    · rw [if_neg hn] at h
      cases hinit : refine_mosaic_mt_init tile mask with
      | none => rw [hinit] at h; simp at h
      | some w =>
        rw [hinit] at h
        dsimp only at h
        obtain ⟨h1, h2, _⟩ := refine_mosaic_mt_loop_anchor env o tile mask _ _ num_threads hkeep
          num_passes _ _ st trace h
        refine ⟨h1, fun _ => ?_⟩
        rw [h2]
        unfold refine_mosaic_mt_init at hinit
        split at hinit
        · simp only [Option.some.injEq] at hinit
          rw [← hinit]
          have h0 : 0 < tile.length := by omega
          simp [List.getElem?_map, List.getElem?_eq_getElem h0]
        · simp at hinit

/-- Witness of C6: two tiles with masks, anchor flag set, three passes; the final
state of `refine_mosaic` keeps transform 0 and the copy of tile 0. -/
theorem anchor_tile_never_updated_witness :
    refine_mosaic_state demo_env (demo_options true) [demo_grid 0, demo_grid 1] [5, 6]
        [some (), some ()] 3 =
      some ⟨[demo_grid 0, demo_grid 4], [some 5, some 6], [some (), some ()]⟩ ∧
    (⟨[demo_grid 0, demo_grid 4], [some 5, some 6], [some (), some ()]⟩ :
        mosaic_state Nat Unit).transform[0]? = [demo_grid 0, demo_grid 1][0]? ∧
    (2 ≤ [5, 6].length →
      (⟨[demo_grid 0, demo_grid 4], [some 5, some 6], [some (), some ()]⟩ :
        mosaic_state Nat Unit).warped_tile[0]? = some [5, 6][0]?) :=
  ⟨by decide!,
    (anchor_tile_never_updated demo_env (demo_options true) [demo_grid 0, demo_grid 1] [5, 6]
      [some (), some ()] 3 0 1 rfl).1 _ (by decide!)⟩

/-- C7 (counterexample): tiles 0 and 7 have inconsistent pixel spacing and are
neighbors, yet one pass of `refine_mosaic` over the tiles 0, 7, 2 moves the
vertices of tile 0 and of tile 2. -/
theorem spacing_mismatch_still_moves_vertices :
    demo_env.GetSpacing 7 ≠ demo_env.GetSpacing 0 ∧
    1 ∈ (find_neighbors demo_env [demo_grid 0, demo_grid 1, demo_grid 2] [0, 7, 2] 0).getD 0 [] ∧
    refine_mosaic demo_env (demo_options false) [demo_grid 0, demo_grid 1, demo_grid 2]
        [0, 7, 2] [none, none, none] 1 =
      some [demo_grid (1 / 2), demo_grid 1, demo_grid (5 / 2)] ∧
    refine_mosaic demo_env (demo_options false) [demo_grid 0, demo_grid 1, demo_grid 2]
        [0, 7, 2] [none, none, none] 1 ≠
      some [demo_grid 0, demo_grid 1, demo_grid 2] := by
  decide!

/-- C7 (amended): when the fixed and the moving tile have inconsistent pixel
spacing, `calc_displacements` returns early for that pair: the shift of the pair
is zero at every vertex and the mass is left as it was. -/
theorem calc_displacements_spacing_mismatch (env : Env Img Msk) (mass : List ℚ)
    (tiles_already_warped : Bool) (t0 : Img) (m0 : Option Msk) (f0 : the_grid_transform_t)
    (t1 : Img) (m1 : Option Msk) (f1 : the_grid_transform_t)
    (neighborhood : Nat) (min_overlap : ℚ) (median_radius : Nat)
    (h : env.GetSpacing t1 ≠ env.GetSpacing t0) :
    calc_displacements env mass tiles_already_warped (some t0) m0 f0 (some t1) m1 f1
        neighborhood min_overlap median_radius =
      some (List.replicate f1.mesh_.length (vec2d 0 0), mass) := by
  unfold calc_displacements
  dsimp only
  rw [if_pos h]

/-- Witness of C7 (amended): fixed tile 0, moving tile 7. -/
theorem calc_displacements_spacing_mismatch_witness :
    calc_displacements demo_env [3, 4, 5, 6] true (some 0) none (demo_grid 0) (some 7) none
        (demo_grid 1) 8 (1 / 4) 0 =
      some (List.replicate (demo_grid 1).mesh_.length (vec2d 0 0), [3, 4, 5, 6]) :=
  calc_displacements_spacing_mismatch demo_env [3, 4, 5, 6] true 0 none (demo_grid 0) 7 none
    (demo_grid 1) 8 (1 / 4) 0 (by decide!)

/-- Witness of C1: one pass over two tiles that are neighbors of each other; the
matcher reports the shift (1, 0) with mass 1 at every vertex of tile 0, so the
shift applied is (1, 0) * 1 / (1 + 1). -/
theorem pass_shift_is_normalized_blend_witness :
    ∃ (gt : the_grid_transform_t) (s : List vec2d_t) (pairs : List (List vec2d_t × List ℚ)),
      [demo_grid 0, demo_grid 1][0]? = some gt ∧
      [List.replicate 4 (vec2d (1 / 2) 0), List.replicate 4 (vec2d (1 / 2) 0)][0]? = some s ∧
      [demo_grid (1 / 2), demo_grid (3 / 2)][0]? = some (update gt s) ∧
      ([[1], [0]].getD 0 []).map
        (pair_result demo_env (demo_options false) 0 [demo_grid 0, demo_grid 1]
          [some 0, some 1] [none, none] gt) = pairs.map some ∧
      s.length = gt.mesh_.length ∧
      (∀ v, v < gt.mesh_.length →
        (s.getD v (vec2d 0 0)).x =
          (pairs.map (fun p => (p.1.getD v (vec2d 0 0)).x)).sum *
            (if (demo_options false).keep_first_tile_fixed then 1
              else 1 / (1 + (pairs.map (fun p => p.2.getD v 0)).sum)) ∧
        (s.getD v (vec2d 0 0)).y =
          (pairs.map (fun p => (p.1.getD v (vec2d 0 0)).y)).sum *
            (if (demo_options false).keep_first_tile_fixed then 1
              else 1 / (1 + (pairs.map (fun p => p.2.getD v 0)).sum))) ∧
      ([[1], [0]].getD 0 [] = [] →
        pairs = [] ∧ s = List.replicate gt.mesh_.length (vec2d 0 0) ∧ update gt s = gt) :=
  pass_shift_is_normalized_blend demo_env (demo_options false) [0, 1] [none, none] [[1], [0]] 1
    ⟨[demo_grid 0, demo_grid 1], [none, none], [none, none]⟩
    ⟨[demo_grid (1 / 2), demo_grid (3 / 2)], [some 0, some 1], [none, none]⟩
    [List.replicate 4 (vec2d (1 / 2) 0), List.replicate 4 (vec2d (1 / 2) 0)]
    (Or.inl (by decide!)) 0 (by decide) (by decide)

theorem key_injective (w h : Nat) (p q : index_t) (hp : in_image w h p) (hq : in_image w h q)
    (hk : key h p = key h q) : p = q := by
  obtain ⟨_, _, hp3, hp4⟩ := hp
  obtain ⟨_, _, hq3, hq4⟩ := hq
  unfold key at hk
  have hh : (0 : Int) < h := by omega
  have e1 : (p.1 * h + p.2) / (h : Int) = p.1 := by
    rw [Int.add_comm, Int.add_mul_ediv_right _ _ (by omega), Int.ediv_eq_zero_of_lt hp3 hp4]
    simp
  have e2 : (q.1 * h + q.2) / (h : Int) = q.1 := by
    rw [Int.add_comm, Int.add_mul_ediv_right _ _ (by omega), Int.ediv_eq_zero_of_lt hq3 hq4]
    simp
  have h1 : p.1 = q.1 := by rw [← e1, ← e2, hk]
  have h2 : p.2 = q.2 := by
    rw [h1] at hk
    omega
  exact Prod.ext h1 h2

theorem wrap_in_image (w h : Nat) (hw : 0 < w) (hh : 0 < h) (ij : index_t) :
    in_image w h (wrap w h ij) := by
  unfold in_image wrap
  have hw2 : (w : Int) ≠ 0 := by omega
  have hh2 : (h : Int) ≠ 0 := by omega
  exact ⟨Int.emod_nonneg _ hw2, Int.emod_lt_of_pos _ (by omega),
    Int.emod_nonneg _ hh2, Int.emod_lt_of_pos _ (by omega)⟩

theorem wrap_of_in_image (w h : Nat) (p : index_t) (hp : in_image w h p) : wrap w h p = p := by
  obtain ⟨h1, h2, h3, h4⟩ := hp
  unfold wrap
  apply Prod.ext
  · simp only [Int.add_emod_self]
    exact Int.emod_eq_of_lt h1 h2
  · simp only [Int.add_emod_self]
    exact Int.emod_eq_of_lt h3 h4

theorem wrap_shift (w h : Nat) (ij : index_t) (sx sy : Int)
    (hx : sx = 0 ∨ sx = w ∨ sx = -(w : Int)) (hy : sy = 0 ∨ sy = h ∨ sy = -(h : Int)) :
    wrap w h (ij.1 + sx, ij.2 + sy) = wrap w h ij := by
  unfold wrap
  apply Prod.ext
  · simp only [Int.add_emod_self]
    rcases hx with rfl | rfl | rfl
    · simp
    · simp
    · rw [← Int.sub_eq_add_neg, Int.sub_emod, Int.emod_self]; simp
  · simp only [Int.add_emod_self]
    rcases hy with rfl | rfl | rfl
    · simp
    · simp
    · rw [← Int.sub_eq_add_neg, Int.sub_emod, Int.emod_self]; simp

theorem torus_neighbor_in_image (w h : Nat) (hw : 0 < w) (hh : 0 < h) (p : index_t)
    (d : Int × Int) : in_image w h (torus_neighbor w h p d) := by
  unfold in_image torus_neighbor
  have hw2 : (w : Int) ≠ 0 := by omega
  have hh2 : (h : Int) ≠ 0 := by omega
  exact ⟨Int.emod_nonneg _ hw2, Int.emod_lt_of_pos _ (by omega),
    Int.emod_nonneg _ hh2, Int.emod_lt_of_pos _ (by omega)⟩

theorem stencil_neg (d : Int × Int) (hd : d ∈ stencil) : (-d.1, -d.2) ∈ stencil := by
  simp only [stencil, List.mem_cons, List.mem_singleton, List.mem_nil_iff, or_false] at hd ⊢
  rcases hd with rfl | rfl | rfl | rfl | rfl | rfl | rfl | rfl <;> simp

theorem torus_neighbor_symm (w h : Nat) (p : index_t) (d : Int × Int)
    (hp : in_image w h p) :
    torus_neighbor w h (torus_neighbor w h p d) (-d.1, -d.2) = p := by
  obtain ⟨h1, h2, h3, h4⟩ := hp
  unfold torus_neighbor
  apply Prod.ext
  · simp only [Int.add_emod_self, Int.emod_add_cancel_right]
    rw [Int.add_emod, Int.emod_emod_of_dvd _ (dvd_refl _), ← Int.add_emod]
    simp only [add_neg_cancel_right]
    exact Int.emod_eq_of_lt h1 h2
  · simp only [Int.add_emod_self, Int.emod_add_cancel_right]
    rw [Int.add_emod, Int.emod_emod_of_dvd _ (dvd_refl _), ← Int.add_emod]
    simp only [add_neg_cancel_right]
    exact Int.emod_eq_of_lt h3 h4

theorem adjacent8_symm (peaks : itk_image_t) (p q : index_t) (h : adjacent8 peaks p q) :
    adjacent8 peaks q p := by
  obtain ⟨hp, hq, d, hd, he⟩ := h
  refine ⟨hq, hp, (-d.1, -d.2), stencil_neg d hd, ?_⟩
  rw [he, torus_neighbor_symm _ _ _ _ hp.1]

theorem connected_symm (peaks : itk_image_t) (p q : index_t) (h : connected peaks p q) :
    connected peaks q p :=
  Relation.ReflTransGen.symmetric (fun a b hab => adjacent8_symm peaks a b hab) h

theorem connected_trans (peaks : itk_image_t) (p q r : index_t) (h1 : connected peaks p q)
    (h2 : connected peaks q r) : connected peaks p r :=
  Relation.ReflTransGen.trans h1 h2

theorem move_pixels_spec (h i : Nat) (sx sy : Int) :
    ∀ (l : List index_t) (s : clusters_t),
      (move_pixels h i sx sy s l).clusters =
        Function.update s.clusters i
          (s.clusters i ++ l.map (fun ij => (ij.1 + sx, ij.2 + sy))) ∧
      (move_pixels h i sx sy s l).size = s.size ∧
      ∀ k, (move_pixels h i sx sy s l).cluster_map k =
        if ∃ ij ∈ l, key h ij = k then some i else s.cluster_map k := by
  intro l
  induction l with
  | nil =>
    intro s
    simp [move_pixels]
  | cons a l ih =>
    intro s
    unfold move_pixels at ih ⊢
    rw [List.foldl_cons]
    obtain ⟨h1, h2, h3⟩ := ih
      { s with
        cluster_map := Function.update s.cluster_map (a.1 * h + a.2) (some i)
        clusters := Function.update s.clusters i (s.clusters i ++ [(a.1 + sx, a.2 + sy)])
        bboxes := Function.update s.bboxes i ((s.bboxes i).update (a.1 + sx) (a.2 + sy)) }
    refine ⟨?_, ?_, ?_⟩
    · rw [h1]
      simp [Function.update_same, List.append_assoc]
    · rw [h2]
    · intro k
      rw [h3 k]
      by_cases hk : ∃ ij ∈ l, key h ij = k
      · have : ∃ ij ∈ a :: l, key h ij = k := by
          obtain ⟨ij, hij, e⟩ := hk
          exact ⟨ij, List.mem_cons_of_mem _ hij, e⟩
        simp [hk, this]
      · by_cases hka : key h a = k
        · have : ∃ ij ∈ a :: l, key h ij = k := ⟨a, List.mem_cons_self _ _, hka⟩
          simp only [hk, this, if_false, if_true]
          unfold key at hka
          rw [← hka]
          exact Function.update_same _ _ _
        · have : ¬ ∃ ij ∈ a :: l, key h ij = k := by
            rintro ⟨ij, hij, e⟩
            rcases List.mem_cons.mp hij with rfl | hij
            · exact hka e
            · exact hk ⟨ij, hij, e⟩
          simp only [hk, this, if_false]
          unfold key at hka
          exact Function.update_noteq (Ne.symm hka) _ _

theorem merge_into_spec (h i : Nat) (sx sy : Int) (s : clusters_t) (cid : Nat) (hne : cid ≠ i) :
    (merge_into h i sx sy s cid).clusters i =
        s.clusters i ++ (s.clusters cid).map (fun ij => (ij.1 + sx, ij.2 + sy)) ∧
    (merge_into h i sx sy s cid).clusters cid = [] ∧
    (∀ id, id ≠ i → id ≠ cid → (merge_into h i sx sy s cid).clusters id = s.clusters id) ∧
    (merge_into h i sx sy s cid).size = s.size ∧
    ∀ k, (merge_into h i sx sy s cid).cluster_map k =
      if ∃ ij ∈ s.clusters cid, key h ij = k then some i else s.cluster_map k := by
  unfold merge_into
  obtain ⟨h1, h2, h3⟩ := move_pixels_spec h i sx sy (s.clusters cid)
    { s with
      bboxes := Function.update s.bboxes cid cluster_bbox_t.reset
      clusters := Function.update s.clusters cid [] }
  refine ⟨?_, ?_, ?_, h2, h3⟩
  · rw [h1]
    simp [Function.update_same, Function.update_noteq (Ne.symm hne)]
  · rw [h1]
    simp [Function.update_noteq hne]
  · intro id h1i h1c
    rw [h1]
    simp [Function.update_noteq h1i, Function.update_noteq h1c]

theorem relabel_some_iff (cid i : Nat) (o : Option Nat) (id : Nat) (hne : cid ≠ i) :
    relabel cid i o = some id ↔ (o = some cid ∧ id = i) ∨ (o = some id ∧ id ≠ cid) := by
  cases o with
  | none => simp [relabel]
  | some c =>
    by_cases hc : c = cid
    · subst hc
      show (if c = c then some i else some c) = some id ↔ _
      rw [if_pos rfl]
      constructor
      · intro e; exact Or.inl ⟨rfl, (Option.some.inj e).symm⟩
      · rintro (⟨_, e⟩ | ⟨e, h2⟩)
        · rw [e]
        · exact absurd (Option.some.inj e).symm h2
    · show (if c = cid then some i else some c) = some id ↔ _
      rw [if_neg hc]
      constructor
      · intro e
        have := Option.some.inj e
        subst this
        exact Or.inr ⟨rfl, hc⟩
      · rintro (⟨e, _⟩ | ⟨e, _⟩)
        · exact absurd (Option.some.inj e) hc
        · exact e

theorem merge_cluster_map (peaks : itk_image_t) (S : Nat → Prop) (s : clusters_t)
    (i cid : Nat) (sx sy : Int) (hinv : labelling_inv peaks S s) (hne : cid ≠ i)
    (hcid : ¬ S cid) (p : index_t) (hp : in_image peaks.w peaks.h p) :
    (merge_into peaks.h i sx sy s cid).cluster_map (key peaks.h p) =
      relabel cid i (s.cluster_map (key peaks.h p)) := by
  obtain ⟨_, _, _, _, hmap⟩ := merge_into_spec peaks.h i sx sy s cid hne
  rw [hmap]
  by_cases hex : ∃ ij ∈ s.clusters cid, key peaks.h ij = key peaks.h p
  · rw [if_pos hex]
    obtain ⟨ij, hij, hk⟩ := hex
    have hin := hinv.unshifted cid hcid ij hij
    have heq := key_injective _ _ _ _ hin hp hk
    subst heq
    have := (hinv.member_fg cid ij hij).2
    rw [wrap_of_in_image _ _ _ hin] at this
    rw [this]
    simp [relabel]
  · rw [if_neg hex]
    cases hm : s.cluster_map (key peaks.h p) with
    | none => rfl
    | some c =>
      have hc : c ≠ cid := by
        intro e
        subst e
        obtain ⟨ij, hij, hwrap⟩ := hinv.map_member p c hp hm
        have hin := hinv.unshifted c hcid ij hij
        rw [wrap_of_in_image _ _ _ hin] at hwrap
        exact hex ⟨ij, hij, by rw [hwrap]⟩
      simp [relabel, hc]

theorem merge_preserves (peaks : itk_image_t) (S T : Nat → Prop) (s : clusters_t)
    (i cid : Nat) (sx sy : Int)
    (hinv : labelling_inv peaks S s) (hne : cid ≠ i) (hcid : ¬ S cid) (hi : i < s.size)
    (hsx : sx = 0 ∨ sx = peaks.w ∨ sx = -(peaks.w : Int))
    (hsy : sy = 0 ∨ sy = peaks.h ∨ sy = -(peaks.h : Int))
    (hST : ∀ id, S id → T id) (hTi : T i ∨ (sx = 0 ∧ sy = 0))
    (hconn : ∃ p q, in_image peaks.w peaks.h p ∧ in_image peaks.w peaks.h q ∧
      s.cluster_map (key peaks.h p) = some i ∧ s.cluster_map (key peaks.h q) = some cid ∧
      connected peaks p q) :
    labelling_inv peaks T (merge_into peaks.h i sx sy s cid) := by
  obtain ⟨hci, hcc, hco, hsize, _⟩ := merge_into_spec peaks.h i sx sy s cid hne
  have hmap := merge_cluster_map peaks S s i cid sx sy hinv hne hcid
  have hL : ∀ ij ∈ s.clusters cid, in_image peaks.w peaks.h ij := hinv.unshifted cid hcid
  have hmem : ∀ id, id ≠ cid → ∀ ij ∈ s.clusters id,
      ij ∈ (merge_into peaks.h i sx sy s cid).clusters id := by
    intro id hid ij hij
    by_cases hidi : id = i
    · subst hidi
      rw [hci]
      exact List.mem_append_left _ hij
    · rw [hco id hidi hid]
      exact hij
  have hcases : ∀ id, ∀ ij ∈ (merge_into peaks.h i sx sy s cid).clusters id,
      (id ≠ cid ∧ ij ∈ s.clusters id) ∨
      (id = i ∧ ∃ l ∈ s.clusters cid, ij = (l.1 + sx, l.2 + sy)) := by
    intro id ij hij
    by_cases hidi : id = i
    · subst hidi
      rw [hci] at hij
      rcases List.mem_append.mp hij with h1 | h1
      · exact Or.inl ⟨Ne.symm hne, h1⟩
      · obtain ⟨l, hl, e⟩ := List.mem_map.mp h1
        exact Or.inr ⟨rfl, l, hl, e.symm⟩
    · by_cases hidc : id = cid
      · subst hidc
        rw [hcc] at hij
        simp at hij
      · rw [hco id hidi hidc] at hij
        exact Or.inl ⟨hidc, hij⟩
  refine ⟨?_, ?_, ?_, ?_, ?_, ?_, ?_⟩
  · -- member_fg
    intro id ij hij
    rcases hcases id ij hij with ⟨hidc, h1⟩ | ⟨rfl, l, hl, rfl⟩
    · obtain ⟨hfg, hm⟩ := hinv.member_fg id ij h1
      refine ⟨hfg, ?_⟩
      rw [hmap _ hfg.1, hm]
      simp [relabel, hidc]
    · rw [wrap_shift _ _ _ _ _ hsx hsy]
      obtain ⟨hfg, hm⟩ := hinv.member_fg cid l hl
      refine ⟨hfg, ?_⟩
      rw [hmap _ hfg.1, hm]
      simp [relabel]
  · -- member_range
    intro id ij hij
    rcases hcases id ij hij with ⟨hidc, h1⟩ | ⟨rfl, l, hl, rfl⟩
    · exact hinv.member_range id ij h1
    · obtain ⟨a1, a2, a3, a4⟩ := hL l hl
      dsimp only
      refine ⟨?_, ?_, ?_, ?_⟩
      · rcases hsx with rfl | rfl | rfl <;> omega
      · rcases hsx with rfl | rfl | rfl <;> omega
      · rcases hsy with rfl | rfl | rfl <;> omega
      · rcases hsy with rfl | rfl | rfl <;> omega
  · -- map_member
    intro p id hp hm
    rw [hmap p hp] at hm
    rcases (relabel_some_iff cid i _ id hne).mp hm with ⟨h1, rfl⟩ | ⟨h1, h2⟩
    · obtain ⟨ij, hij, hwrap⟩ := hinv.map_member p cid hp h1
      refine ⟨(ij.1 + sx, ij.2 + sy), ?_, ?_⟩
      · rw [hci]
        exact List.mem_append_right _ (List.mem_map.mpr ⟨ij, hij, rfl⟩)
      · rw [wrap_shift _ _ _ _ _ hsx hsy]
        exact hwrap
    · obtain ⟨ij, hij, hwrap⟩ := hinv.map_member p id hp h1
      exact ⟨ij, hmem id h2 ij hij, hwrap⟩
  · -- nodup
    intro id
    by_cases hidi : id = i
    · subst hidi
      rw [hci, List.map_append, List.map_map]
      have hfun : (wrap peaks.w peaks.h ∘ fun ij : index_t => (ij.1 + sx, ij.2 + sy)) =
          wrap peaks.w peaks.h := by
        funext ij
        exact wrap_shift _ _ _ _ _ hsx hsy
      rw [hfun]
      refine List.Nodup.append (hinv.nodup id) (hinv.nodup cid) ?_
      intro p hp1 hp2
      obtain ⟨a, ha, rfl⟩ := List.mem_map.mp hp1
      obtain ⟨b, hb, hab⟩ := List.mem_map.mp hp2
      have h1 := (hinv.member_fg id a ha).2
      have h2 := (hinv.member_fg cid b hb).2
      rw [hab, h1] at h2
      exact hne (Option.some.inj h2).symm
    · by_cases hidc : id = cid
      · subst hidc
        rw [hcc]
        simp
      · rw [hco id hidi hidc]
        exact hinv.nodup id
  · -- reach
    intro p q id hp hq hmp hmq
    rw [hmap p hp] at hmp
    rw [hmap q hq] at hmq
    obtain ⟨p0, q0, hp0, hq0, hmp0, hmq0, hc0⟩ := hconn
    rcases (relabel_some_iff cid i _ id hne).mp hmp with ⟨h1, rfl⟩ | ⟨h1, h2⟩
    · rcases (relabel_some_iff cid id _ id hne).mp hmq with ⟨g1, _⟩ | ⟨g1, g2⟩
      · exact hinv.reach p q cid hp hq h1 g1
      · exact connected_trans _ _ _ _ (hinv.reach p q0 cid hp hq0 h1 hmq0)
          (connected_trans _ _ _ _ (connected_symm _ _ _ hc0) (hinv.reach p0 q id hp0 hq hmp0 g1))
    · rcases (relabel_some_iff cid i _ id hne).mp hmq with ⟨g1, rfl⟩ | ⟨g1, g2⟩
      · exact connected_trans _ _ _ _ (hinv.reach p p0 id hp hp0 h1 hmp0)
          (connected_trans _ _ _ _ hc0 (hinv.reach q0 q cid hq0 hq hmq0 g1))
      · exact hinv.reach p q id hp hq h1 g1
  · -- beyond
    intro id hid
    rw [hsize] at hid
    have hidi : id ≠ i := by omega
    by_cases hidc : id = cid
    · subst hidc; exact hcc
    · rw [hco id hidi hidc]
      exact hinv.beyond id hid
  · -- unshifted
    intro id hT ij hij
    have hSid : ¬ S id := fun h => hT (hST id h)
    rcases hcases id ij hij with ⟨hidc, h1⟩ | ⟨rfl, l, hl, rfl⟩
    · exact hinv.unshifted id hSid ij h1
    · rcases hTi with h | ⟨rfl, rfl⟩
      · exact absurd h hT
      · simpa using hL l hl

theorem add_pixel_preserves (peaks : itk_image_t) (S : Nat → Prop) (s t : clusters_t)
    (id : Nat) (p : index_t)
    (hinv : labelling_inv peaks S s) (hfg : foreground peaks p)
    (hnone : s.cluster_map (key peaks.h p) = none)
    (hcl : t.clusters = Function.update s.clusters id (s.clusters id ++ [p]))
    (hmp : t.cluster_map = Function.update s.cluster_map (key peaks.h p) (some id))
    (hsz : s.size ≤ t.size) (hid : id < t.size)
    (hconn : ∀ q, in_image peaks.w peaks.h q → s.cluster_map (key peaks.h q) = some id →
      connected peaks p q) :
    labelling_inv peaks S t := by
  have hwp : wrap peaks.w peaks.h p = p := wrap_of_in_image _ _ _ hfg.1
  have hmap : ∀ q, in_image peaks.w peaks.h q →
      t.cluster_map (key peaks.h q) = if q = p then some id else s.cluster_map (key peaks.h q) := by
    intro q hq
    rw [hmp]
    by_cases hqp : q = p
    · subst hqp
      simp
    · have : key peaks.h q ≠ key peaks.h p := fun e => hqp (key_injective _ _ _ _ hq hfg.1 e)
      simp [Function.update_noteq this, hqp]
  have hcases : ∀ id1, ∀ ij ∈ t.clusters id1, ij ∈ s.clusters id1 ∨ (id1 = id ∧ ij = p) := by
    intro id1 ij hij
    rw [hcl] at hij
    by_cases h1 : id1 = id
    · subst h1
      simp only [Function.update_same, List.mem_append, List.mem_singleton] at hij
      rcases hij with h | h
      · exact Or.inl h
      · exact Or.inr ⟨rfl, h⟩
    · rw [Function.update_noteq h1] at hij
      exact Or.inl hij
  have hmem : ∀ id1, ∀ ij ∈ s.clusters id1, ij ∈ t.clusters id1 := by
    intro id1 ij hij
    rw [hcl]
    by_cases h1 : id1 = id
    · subst h1
      simp only [Function.update_same]
      exact List.mem_append_left _ hij
    · rw [Function.update_noteq h1]
      exact hij
  have hold : ∀ id1, ∀ ij ∈ s.clusters id1, wrap peaks.w peaks.h ij ≠ p := by
    intro id1 ij hij e
    have := (hinv.member_fg id1 ij hij).2
    rw [e, hnone] at this
    exact Option.noConfusion this
  refine ⟨?_, ?_, ?_, ?_, ?_, ?_, ?_⟩
  · intro id1 ij hij
    rcases hcases id1 ij hij with h | ⟨rfl, rfl⟩
    · obtain ⟨h1, h2⟩ := hinv.member_fg id1 ij h
      refine ⟨h1, ?_⟩
      rw [hmap _ h1.1, if_neg (hold id1 ij h)]
      exact h2
    · rw [hwp]
      refine ⟨hfg, ?_⟩
      rw [hmap _ hfg.1, if_pos rfl]
  · intro id1 ij hij
    rcases hcases id1 ij hij with h | ⟨rfl, rfl⟩
    · exact hinv.member_range id1 ij h
    · obtain ⟨a1, a2, a3, a4⟩ := hfg.1
      refine ⟨by omega, by omega, by omega, by omega⟩
  · intro q id1 hq hm
    rw [hmap q hq] at hm
    by_cases hqp : q = p
    · subst hqp
      rw [if_pos rfl] at hm
      have := Option.some.inj hm
      subst this
      refine ⟨q, ?_, hwp⟩
      rw [hcl]
      simp
    · rw [if_neg hqp] at hm
      obtain ⟨ij, hij, hw⟩ := hinv.map_member q id1 hq hm
      exact ⟨ij, hmem id1 ij hij, hw⟩
  · intro id1
    rw [hcl]
    by_cases h1 : id1 = id
    · subst h1
      simp only [Function.update_same, List.map_append, List.map_cons, List.map_nil]
      refine List.Nodup.append (hinv.nodup id1) (List.nodup_singleton _) ?_
      intro q hq1 hq2
      obtain ⟨a, ha, rfl⟩ := List.mem_map.mp hq1
      rw [List.mem_singleton, hwp] at hq2
      exact hold id1 a ha hq2
    · rw [Function.update_noteq h1]
      exact hinv.nodup id1
  · intro q1 q2 id1 hq1 hq2 hm1 hm2
    rw [hmap q1 hq1] at hm1
    rw [hmap q2 hq2] at hm2
    by_cases e1 : q1 = p
    · subst e1
      rw [if_pos rfl] at hm1
      have := Option.some.inj hm1
      subst this
      by_cases e2 : q2 = q1
      · subst e2
        exact Relation.ReflTransGen.refl
      · rw [if_neg e2] at hm2
        exact hconn q2 hq2 hm2
    · rw [if_neg e1] at hm1
      by_cases e2 : q2 = p
      · subst e2
        rw [if_pos rfl] at hm2
        have := Option.some.inj hm2
        subst this
        exact connected_symm _ _ _ (hconn q1 hq1 hm1)
      · rw [if_neg e2] at hm2
        exact hinv.reach q1 q2 id1 hq1 hq2 hm1 hm2
  · intro id1 hid1
    have h1 : id1 ≠ id := by omega
    rw [hcl, Function.update_noteq h1]
    exact hinv.beyond id1 (by omega)
  · intro id1 hS ij hij
    rcases hcases id1 ij hij with h | ⟨rfl, rfl⟩
    · exact hinv.unshifted id1 hS ij h
    · exact hfg.1

theorem collect_neighbors_fold (w h : Nat) (cm : Int → Option Nat) (x y : Int) :
    ∀ (l : List (Int × Int)) (acc : List Nat),
      (∀ d ∈ l, d ∈ stencil) → acc.Nodup →
      (∀ id ∈ acc, ∃ d ∈ stencil, in_image w h (x + d.1, y + d.2) ∧
        cm (key h (x + d.1, y + d.2)) = some id) →
      (l.foldl
        (fun neighbors d =>
          let u := x + d.1
          let v := y + d.2
          if u < 0 ∨ (w : Int) ≤ u ∨ v < 0 ∨ (h : Int) ≤ v then neighbors
          else
            match cm (u * h + v) with
            | none => neighbors
            | some cluster_id => push_back_unique neighbors cluster_id)
        acc).Nodup ∧
      ∀ id ∈ l.foldl
        (fun neighbors d =>
          let u := x + d.1
          let v := y + d.2
          if u < 0 ∨ (w : Int) ≤ u ∨ v < 0 ∨ (h : Int) ≤ v then neighbors
          else
            match cm (u * h + v) with
            | none => neighbors
            | some cluster_id => push_back_unique neighbors cluster_id)
        acc,
        ∃ d ∈ stencil, in_image w h (x + d.1, y + d.2) ∧
          cm (key h (x + d.1, y + d.2)) = some id := by
  intro l
  induction l with
  | nil =>
    intro acc _ hnd hacc
    exact ⟨hnd, hacc⟩
  | cons d l ih =>
    intro acc hl hnd hacc
    rw [List.foldl_cons]
    apply ih
    · intro e he
      exact hl e (List.mem_cons_of_mem _ he)
    · dsimp only
      split
      · exact hnd
      · split
        · exact hnd
        · unfold push_back_unique
          split
          · exact hnd
          · rename_i hni
            exact List.Nodup.append hnd (List.nodup_singleton _)
              (by
                intro a ha hb
                rw [List.mem_singleton] at hb
                subst hb
                exact hni ha)
    · dsimp only
      split
      · exact hacc
      · rename_i hrange
        split
        · exact hacc
        · rename_i cid hcm
          unfold push_back_unique
          split
          · exact hacc
          · intro id hid
            rcases List.mem_append.mp hid with h1 | h1
            · exact hacc id h1
            · rw [List.mem_singleton] at h1
              subst h1
              refine ⟨d, hl d (List.mem_cons_self _ _), ?_, hcm⟩
              unfold in_image
              dsimp only
              omega

theorem collect_neighbors_spec (w h : Nat) (cm : Int → Option Nat) (x y : Int) :
    (collect_neighbors w h cm x y).Nodup ∧
    ∀ id ∈ collect_neighbors w h cm x y,
      ∃ d ∈ stencil, in_image w h (x + d.1, y + d.2) ∧
        cm (key h (x + d.1, y + d.2)) = some id :=
  collect_neighbors_fold w h cm x y stencil [] (fun _ hd => hd) List.nodup_nil
    (fun _ hid => absurd hid (List.not_mem_nil _))

theorem merge_cluster_eq (h id : Nat) (s : clusters_t) (old_id : Nat) :
    merge_cluster h id s old_id = merge_into h id 0 0 s old_id := by
  unfold merge_cluster merge_into move_pixels
  congr 1
  funext t ij
  simp [absorb]

theorem in_image_neighbor (w h : Nat) (p : index_t) (d : Int × Int)
    (hq : in_image w h (p.1 + d.1, p.2 + d.2)) :
    torus_neighbor w h p d = (p.1 + d.1, p.2 + d.2) := by
  obtain ⟨h1, h2, h3, h4⟩ := hq
  dsimp only at h1 h2 h3 h4
  unfold torus_neighbor
  apply Prod.ext
  · simp only [Int.add_emod_self]
    exact Int.emod_eq_of_lt h1 h2
  · simp only [Int.add_emod_self]
    exact Int.emod_eq_of_lt h3 h4

theorem mapped_foreground (peaks : itk_image_t) (S : Nat → Prop) (s : clusters_t)
    (hinv : labelling_inv peaks S s) (q : index_t) (id : Nat)
    (hq : in_image peaks.w peaks.h q) (hm : s.cluster_map (key peaks.h q) = some id) :
    foreground peaks q ∧ id < s.size := by
  obtain ⟨ij, hij, hw⟩ := hinv.map_member q id hq hm
  refine ⟨hw ▸ (hinv.member_fg id ij hij).1, ?_⟩
  by_contra hge
  have := hinv.beyond id (by omega)
  rw [this] at hij
  exact absurd hij (List.not_mem_nil _)

theorem merge_fold_preserves (peaks : itk_image_t) (p : index_t) (id : Nat)
    (hp : in_image peaks.w peaks.h p) :
    ∀ (rest : List Nat) (s : clusters_t),
      labelling_inv peaks (fun _ => False) s →
      s.cluster_map (key peaks.h p) = some id →
      rest.Nodup → id ∉ rest →
      (∀ old ∈ rest, ∃ q, in_image peaks.w peaks.h q ∧
        s.cluster_map (key peaks.h q) = some old ∧ connected peaks p q) →
      labelling_inv peaks (fun _ => False) (rest.foldl (merge_cluster peaks.h id) s) ∧
      ∀ q, in_image peaks.w peaks.h q →
        ((rest.foldl (merge_cluster peaks.h id) s).cluster_map (key peaks.h q) = none ↔
          s.cluster_map (key peaks.h q) = none) := by
  intro rest
  induction rest with
  | nil =>
    intro s hinv _ _ _ _
    exact ⟨hinv, fun _ _ => Iff.rfl⟩
  | cons old rest ih =>
    intro s hinv hmp hnd hid hrest
    rw [List.foldl_cons, merge_cluster_eq]
    obtain ⟨hold, hnd2⟩ := List.nodup_cons.mp hnd
    have hne : old ≠ id := fun e => hid (e ▸ List.mem_cons_self _ _)
    obtain ⟨q0, hq0, hmq0, hc0⟩ := hrest old (List.mem_cons_self _ _)
    have hidlt := (mapped_foreground peaks _ s hinv p id hp hmp).2
    have hinv2 : labelling_inv peaks (fun _ => False) (merge_into peaks.h id 0 0 s old) :=
      merge_preserves peaks _ _ s id old 0 0 hinv hne (fun h => h) hidlt (Or.inl rfl)
        (Or.inl rfl) (fun _ h => h) (Or.inr ⟨rfl, rfl⟩) ⟨p, q0, hp, hq0, hmp, hmq0, hc0⟩
    have hmap := merge_cluster_map peaks _ s id old 0 0 hinv hne (fun h => h)
    obtain ⟨h1, h2⟩ := ih (merge_into peaks.h id 0 0 s old) hinv2
      (by rw [hmap p hp, hmp]; simp [relabel, Ne.symm hne])
      hnd2 (fun h => hid (List.mem_cons_of_mem _ h))
      (by
        intro o ho
        obtain ⟨q, hq, hmq, hc⟩ := hrest o (List.mem_cons_of_mem _ ho)
        refine ⟨q, hq, ?_, hc⟩
        rw [hmap q hq, hmq]
        have : o ≠ old := fun e => hold (e ▸ ho)
        simp [relabel, this])
    refine ⟨h1, ?_⟩
    intro q hq
    rw [h2 q hq, hmap q hq]
    cases s.cluster_map (key peaks.h q) with
    | none => simp [relabel]
    | some c =>
      simp only [relabel]
      split <;> simp

theorem label_pixel_preserves (peaks : itk_image_t) (done : List index_t) (s : clusters_t)
    (x y : Nat) (hx : x < peaks.w) (hy : y < peaks.h)
    (hinv : scan_inv peaks done s) (hnew : ((x : Int), (y : Int)) ∉ done) :
    scan_inv peaks (done ++ [((x : Int), (y : Int))]) (label_pixel peaks s (x, y)) := by
  have hp : in_image peaks.w peaks.h ((x : Int), (y : Int)) := by
    unfold in_image
    dsimp only
    omega
  have hnone : s.cluster_map (key peaks.h ((x : Int), (y : Int))) = none := by
    by_contra hne
    exact hnew (hinv.labelled_done _ hp hne)
  unfold label_pixel
  dsimp only
  by_cases hbg : peaks.pix ((x : Int), (y : Int)) ≤ 0
  · rw [if_pos hbg]
    refine ⟨hinv.inv, ?_, ?_⟩
    · intro q hq hm
      exact List.mem_append_left _ (hinv.labelled_done q hq hm)
    · intro q hq hfg
      rcases List.mem_append.mp hq with h | h
      · exact hinv.done_labelled q h hfg
      · rw [List.mem_singleton] at h
        subst h
        exact absurd hfg.2 (not_lt.mpr hbg)
  · rw [if_neg hbg]
    have hfg : foreground peaks ((x : Int), (y : Int)) := ⟨hp, not_le.mp hbg⟩
    obtain ⟨hnd, hnb⟩ := collect_neighbors_spec peaks.w peaks.h s.cluster_map x y
    have hadj : ∀ id ∈ collect_neighbors peaks.w peaks.h s.cluster_map x y,
        ∃ q, in_image peaks.w peaks.h q ∧ s.cluster_map (key peaks.h q) = some id ∧
          connected peaks ((x : Int), (y : Int)) q := by
      intro id hid
      obtain ⟨d, hd, hq, hm⟩ := hnb id hid
      refine ⟨_, hq, hm, Relation.ReflTransGen.single ⟨hfg, ?_, d, hd, ?_⟩⟩
      · exact (mapped_foreground peaks _ s hinv.inv _ id hq hm).1
      · exact (in_image_neighbor peaks.w peaks.h ((x : Int), (y : Int)) d hq).symm
    have hfinal : ∀ t : clusters_t, labelling_inv peaks (fun _ => False) t →
        (∀ q, in_image peaks.w peaks.h q →
          (t.cluster_map (key peaks.h q) = none ↔
            (q ≠ ((x : Int), (y : Int)) ∧ s.cluster_map (key peaks.h q) = none))) →
        scan_inv peaks (done ++ [((x : Int), (y : Int))]) t := by
      intro t ht hmap
      refine ⟨ht, ?_, ?_⟩
      · intro q hq hm
        by_cases hqp : q = ((x : Int), (y : Int))
        · rw [hqp]; simp
        · have : s.cluster_map (key peaks.h q) ≠ none := by
            intro e
            exact hm ((hmap q hq).mpr ⟨hqp, e⟩)
          exact List.mem_append_left _ (hinv.labelled_done q hq this)
      · intro q hq hfgq hm
        obtain ⟨h1, h2⟩ := (hmap q hfgq.1).mp hm
        rcases List.mem_append.mp hq with h | h
        · exact hinv.done_labelled q h hfgq h2
        · rw [List.mem_singleton] at h
          exact h1 h
    cases hN : collect_neighbors peaks.w peaks.h s.cluster_map x y with
    | nil =>
      dsimp only
      have hb := hinv.inv.beyond s.size (le_refl _)
      apply hfinal
      · apply add_pixel_preserves peaks _ s _ s.size ((x : Int), (y : Int)) hinv.inv hfg hnone
        · simp [absorb, hb]
        · simp [absorb, key]
        · simp [absorb]
        · simp [absorb]
        · intro q hq hm
          have := (mapped_foreground peaks _ s hinv.inv q s.size hq hm).2
          omega
      · intro q hq
        by_cases hqp : q = ((x : Int), (y : Int))
        · subst hqp
          simp [absorb, key]
        · have : key peaks.h q ≠ key peaks.h ((x : Int), (y : Int)) :=
            fun e => hqp (key_injective _ _ _ _ hq hp e)
          unfold key at this
          simp [absorb, key, Function.update_noteq this, hqp]
    | cons id rest =>
      dsimp only
      rw [hN] at hnd hadj
      obtain ⟨hidn, hnd2⟩ := List.nodup_cons.mp hnd
      obtain ⟨q0, hq0, hmq0, hc0⟩ := hadj id (List.mem_cons_self _ _)
      have hidlt := (mapped_foreground peaks _ s hinv.inv q0 id hq0 hmq0).2
      have hmap1 : ∀ q, in_image peaks.w peaks.h q →
          (absorb peaks.h id s ((x : Int), (y : Int))).cluster_map (key peaks.h q) =
            if q = ((x : Int), (y : Int)) then some id else s.cluster_map (key peaks.h q) := by
        intro q hq
        by_cases hqp : q = ((x : Int), (y : Int))
        · subst hqp
          simp [absorb, key]
        · have : key peaks.h q ≠ key peaks.h ((x : Int), (y : Int)) :=
            fun e => hqp (key_injective _ _ _ _ hq hp e)
          unfold key at this
          simp [absorb, key, Function.update_noteq this, hqp]
      have hinv1 : labelling_inv peaks (fun _ => False)
          (absorb peaks.h id s ((x : Int), (y : Int))) := by
        apply add_pixel_preserves peaks _ s _ id ((x : Int), (y : Int)) hinv.inv hfg hnone
        · simp [absorb]
        · simp [absorb, key]
        · simp [absorb]
        · simpa [absorb] using hidlt
        · intro q hq hm
          exact connected_trans _ _ _ _ hc0 (hinv.inv.reach q0 q id hq0 hq hmq0 hm)
      obtain ⟨h1, h2⟩ := merge_fold_preserves peaks ((x : Int), (y : Int)) id hp rest
        (absorb peaks.h id s ((x : Int), (y : Int))) hinv1
        (by rw [hmap1 _ hp, if_pos rfl]) hnd2 hidn
        (by
          intro o ho
          obtain ⟨q, hq, hmq, hc⟩ := hadj o (List.mem_cons_of_mem _ ho)
          refine ⟨q, hq, ?_, hc⟩
          rw [hmap1 q hq]
          have : q ≠ ((x : Int), (y : Int)) := by
            intro e
            rw [e, hnone] at hmq
            exact Option.noConfusion hmq
          rw [if_neg this]
          exact hmq)
      apply hfinal _ h1
      intro q hq
      rw [h2 q hq, hmap1 q hq]
      by_cases hqp : q = ((x : Int), (y : Int))
      · simp [hqp]
      · simp [hqp]

theorem mem_region (w h : Nat) (p : Nat × Nat) : p ∈ region w h ↔ p.1 < w ∧ p.2 < h := by
  unfold region
  simp only [List.mem_flatMap, List.mem_range, List.mem_map]
  constructor
  · rintro ⟨y, hy, x, hx, rfl⟩
    exact ⟨hx, hy⟩
  · rintro ⟨hx, hy⟩
    exact ⟨p.2, hy, p.1, hx, rfl⟩

theorem nodup_region (w h : Nat) : (region w h).Nodup := by
  unfold region
  rw [List.nodup_flatMap]
  refine ⟨?_, ?_⟩
  · intro y _
    refine List.Nodup.map ?_ (List.nodup_range w)
    intro a b e
    exact (Prod.mk.inj e).1
  · refine List.Pairwise.imp ?_ (List.nodup_range h)
    intro a b hab
    intro p hp1 hp2
    obtain ⟨x1, _, rfl⟩ := List.mem_map.mp hp1
    obtain ⟨x2, _, e⟩ := List.mem_map.mp hp2
    exact hab (Prod.mk.inj e).2.symm

theorem scan_fold_preserves (peaks : itk_image_t) :
    ∀ (l : List (Nat × Nat)) (done : List index_t) (s : clusters_t),
      scan_inv peaks done s → l.Nodup →
      (∀ p ∈ l, p.1 < peaks.w ∧ p.2 < peaks.h) →
      (∀ p ∈ l, ((p.1 : Int), (p.2 : Int)) ∉ done) →
      scan_inv peaks (done ++ l.map (fun p => ((p.1 : Int), (p.2 : Int))))
        (l.foldl (label_pixel peaks) s) := by
  intro l
  induction l with
  | nil =>
    intro done s hinv _ _ _
    simpa using hinv
  | cons p l ih =>
    intro done s hinv hnd hrange hnew
    obtain ⟨hp, hnd2⟩ := List.nodup_cons.mp hnd
    obtain ⟨hx, hy⟩ := hrange p (List.mem_cons_self _ _)
    have h1 := label_pixel_preserves peaks done s p.1 p.2 hx hy hinv
      (hnew p (List.mem_cons_self _ _))
    have h2 := ih (done ++ [((p.1 : Int), (p.2 : Int))]) (label_pixel peaks s (p.1, p.2)) h1 hnd2
      (fun q hq => hrange q (List.mem_cons_of_mem _ hq))
      (by
        intro q hq hmem
        rcases List.mem_append.mp hmem with h | h
        · exact hnew q (List.mem_cons_of_mem _ hq) h
        · rw [List.mem_singleton] at h
          have e1 : (q.1 : Int) = p.1 := (Prod.mk.inj h).1
          have e2 : (q.2 : Int) = p.2 := (Prod.mk.inj h).2
          have : q = p := Prod.ext (by exact_mod_cast e1) (by exact_mod_cast e2)
          exact hp (this ▸ hq))
    simpa [List.foldl_cons, List.append_assoc] using h2

theorem label_clusters_inv (peaks : itk_image_t) :
    labelling_inv peaks (fun _ => False) (label_clusters peaks) ∧
    ∀ q, foreground peaks q → (label_clusters peaks).cluster_map (key peaks.h q) ≠ none := by
  have h0 : scan_inv peaks []
      ⟨fun _ => [], fun _ => cluster_bbox_t.reset, 0, fun _ => none⟩ := by
    refine ⟨⟨?_, ?_, ?_, ?_, ?_, ?_, ?_⟩, ?_, ?_⟩
    · intro id ij hij; exact absurd hij (List.not_mem_nil _)
    · intro id ij hij; exact absurd hij (List.not_mem_nil _)
    · intro p id _ hm; exact Option.noConfusion hm
    · intro id; exact List.nodup_nil
    · intro p q id _ _ hm; exact Option.noConfusion hm
    · intro id _; rfl
    · intro id _ ij hij; exact absurd hij (List.not_mem_nil _)
    · intro q _ hm; exact absurd rfl hm
    · intro q hq; exact absurd hq (List.not_mem_nil _)
  have h1 := scan_fold_preserves peaks (region peaks.w peaks.h) [] _ h0
    (nodup_region _ _) (fun p hp => (mem_region _ _ p).mp hp)
    (fun _ _ h => absurd h (List.not_mem_nil _))
  refine ⟨h1.inv, ?_⟩
  intro q hq
  apply h1.done_labelled q _ hq
  obtain ⟨a1, a2, a3, a4⟩ := hq.1
  simp only [List.nil_append, List.mem_map]
  refine ⟨(q.1.toNat, q.2.toNat), (mem_region _ _ _).mpr ⟨by omega, by omega⟩, ?_⟩
  apply Prod.ext
  · simp [Int.toNat_of_nonneg a1]
  · simp [Int.toNat_of_nonneg a3]

theorem labelling_inv_mono (peaks : itk_image_t) (S T : Nat → Prop) (s : clusters_t)
    (hST : ∀ id, S id → T id) (h : labelling_inv peaks S s) : labelling_inv peaks T s :=
  ⟨h.member_fg, h.member_range, h.map_member, h.nodup, h.reach, h.beyond,
    fun id hT => h.unshifted id (fun hS => hT (hST id hS))⟩

theorem periodic_merge_eq (w h i : Nat) (index : index_t) (s : clusters_t) (d : Int × Int)
    (hx : 0 ≤ index.1 + w) (hy : 0 ≤ index.2 + h) :
    periodic_merge w h i index s d =
      match s.cluster_map (key h (torus_neighbor w h (wrap w h index) d)) with
      | none => s
      | some cluster_id =>
        if cluster_id = i then s
        else
          merge_into h i
            (if !(decide (((w / 2 : Nat) : Int) < (s.bboxes cluster_id).max_.1 - (s.bboxes i).min_.1) ||
                decide (((w / 2 : Nat) : Int) < (s.bboxes i).max_.1 - (s.bboxes cluster_id).min_.1))
              then 0 else if (s.bboxes i).min_.1 ≤ 0 then -(w : Int) else w)
            (if !(decide (((h / 2 : Nat) : Int) < (s.bboxes cluster_id).max_.2 - (s.bboxes i).min_.2) ||
                decide (((h / 2 : Nat) : Int) < (s.bboxes i).max_.2 - (s.bboxes cluster_id).min_.2))
              then 0 else if (s.bboxes i).min_.2 ≤ 0 then -(h : Int) else h)
            s cluster_id := by
  unfold periodic_merge
  have e1 : Int.tmod (index.1 + w) w = (index.1 + w) % w :=
    Int.tmod_eq_emod hx (by omega)
  have e2 : Int.tmod (index.2 + h) h = (index.2 + h) % h :=
    Int.tmod_eq_emod hy (by omega)
  simp only [e1, e2]
  rfl

theorem periodic_merge_preserves (peaks : itk_image_t) (i : Nat) (index : index_t)
    (s : clusters_t) (d : Int × Int)
    (hw : walk_inv peaks i s) (hidx : index ∈ s.clusters i) (hd : d ∈ stencil) :
    walk_inv peaks i (periodic_merge peaks.w peaks.h i index s d) ∧
    (∃ l, (periodic_merge peaks.w peaks.h i index s d).clusters i = s.clusters i ++ l) ∧
    (∀ q, in_image peaks.w peaks.h q → s.cluster_map (key peaks.h q) = some i →
      (periodic_merge peaks.w peaks.h i index s d).cluster_map (key peaks.h q) = some i) ∧
    (foreground peaks (torus_neighbor peaks.w peaks.h (wrap peaks.w peaks.h index) d) →
      (periodic_merge peaks.w peaks.h i index s d).cluster_map
        (key peaks.h (torus_neighbor peaks.w peaks.h (wrap peaks.w peaks.h index) d)) = some i) ∧
    (periodic_merge peaks.w peaks.h i index s d).size = s.size := by
  obtain ⟨hfgP, hmP⟩ := hw.inv.member_fg i index hidx
  obtain ⟨r1, r2, r3, r4⟩ := hw.inv.member_range i index hidx
  have hwpos : 0 < peaks.w := by
    obtain ⟨a1, a2, _, _⟩ := hfgP.1
    omega
  have hhpos : 0 < peaks.h := by
    obtain ⟨_, _, a3, a4⟩ := hfgP.1
    omega
  have hQ := torus_neighbor_in_image peaks.w peaks.h hwpos hhpos (wrap peaks.w peaks.h index) d
  rw [periodic_merge_eq peaks.w peaks.h i index s d (by omega) (by omega)]
  cases hm : s.cluster_map (key peaks.h (torus_neighbor peaks.w peaks.h (wrap peaks.w peaks.h index) d)) with
  | none =>
    dsimp only
    refine ⟨hw, ⟨[], by simp⟩, fun _ _ h => h, ?_, rfl⟩
    intro hfg
    exact absurd hm (hw.complete _ hfg)
  | some cid =>
    dsimp only
    by_cases hci : cid = i
    · rw [if_pos hci]
      refine ⟨hw, ⟨[], by simp⟩, fun _ _ h => h, ?_, rfl⟩
      intro _
      rw [hm, hci]
    · rw [if_neg hci]
      obtain ⟨hfgQ, _⟩ := mapped_foreground peaks _ s hw.inv _ cid hQ hm
      have hcid : ¬ cid ≤ i := by
        intro hle
        have hlt : cid < i := lt_of_le_of_ne hle hci
        obtain ⟨ij, hij, hwq⟩ := hw.inv.map_member _ cid hQ hm
        have hcl := hw.closed cid hlt ij hij (-d.1, -d.2) (stencil_neg d hd)
        rw [hwq, torus_neighbor_symm _ _ _ _ hfgP.1] at hcl
        have := hcl hfgP
        rw [hmP] at this
        exact hci (Option.some.inj this).symm
      generalize hsx : (if !(decide (((peaks.w / 2 : Nat) : Int) <
          (s.bboxes cid).max_.1 - (s.bboxes i).min_.1) ||
          decide (((peaks.w / 2 : Nat) : Int) < (s.bboxes i).max_.1 - (s.bboxes cid).min_.1))
        then (0 : Int) else if (s.bboxes i).min_.1 ≤ 0 then -(peaks.w : Int) else peaks.w) = sx
      generalize hsy : (if !(decide (((peaks.h / 2 : Nat) : Int) <
          (s.bboxes cid).max_.2 - (s.bboxes i).min_.2) ||
          decide (((peaks.h / 2 : Nat) : Int) < (s.bboxes i).max_.2 - (s.bboxes cid).min_.2))
        then (0 : Int) else if (s.bboxes i).min_.2 ≤ 0 then -(peaks.h : Int) else peaks.h) = sy
      have hsx2 : sx = 0 ∨ sx = peaks.w ∨ sx = -(peaks.w : Int) := by
        rw [← hsx]
        split
        · exact Or.inl rfl
        · split
          · exact Or.inr (Or.inr rfl)
          · exact Or.inr (Or.inl rfl)
      have hsy2 : sy = 0 ∨ sy = peaks.h ∨ sy = -(peaks.h : Int) := by
        rw [← hsy]
        split
        · exact Or.inl rfl
        · split
          · exact Or.inr (Or.inr rfl)
          · exact Or.inr (Or.inl rfl)
      have hadj : connected peaks (wrap peaks.w peaks.h index)
          (torus_neighbor peaks.w peaks.h (wrap peaks.w peaks.h index) d) :=
        Relation.ReflTransGen.single ⟨hfgP, hfgQ, d, hd, rfl⟩
      have hinv2 := merge_preserves peaks _ (fun id => id ≤ i) s i cid sx sy hw.inv hci hcid
        hw.lt_size hsx2 hsy2 (fun _ h => h) (Or.inl (le_refl i))
        ⟨_, _, hfgP.1, hQ, hmP, hm, hadj⟩
      have hmap := merge_cluster_map peaks _ s i cid sx sy hw.inv hci hcid
      obtain ⟨hcli, _, hclo, hsize, _⟩ := merge_into_spec peaks.h i sx sy s cid hci
      refine ⟨⟨hinv2, ?_, ?_, ?_⟩, ⟨_, hcli⟩, ?_, ?_, hsize⟩
      · intro q hq
        rw [hmap q hq.1]
        have := hw.complete q hq
        cases hmq : s.cluster_map (key peaks.h q) with
        | none => exact absurd hmq this
        | some c =>
          simp only [relabel]
          split <;> simp
      · intro id hid ij hij e he hfg
        have h1 : id ≠ i := by omega
        have h2 : id ≠ cid := by omega
        rw [hclo id h1 h2] at hij
        have := hw.closed id hid ij hij e he hfg
        rw [hmap _ hfg.1, this]
        simp [relabel, h2]
      · rw [hsize]; exact hw.lt_size
      · intro q hq hmq
        rw [hmap q hq, hmq]
        simp [relabel, Ne.symm hci]
      · intro _
        rw [hmap _ hQ, hm]
        simp [relabel]

theorem key_lt (w h : Nat) (p : index_t) (hp : in_image w h p) :
    0 ≤ key h p ∧ key h p < (w : Int) * h := by
  obtain ⟨h1, h2, h3, h4⟩ := hp
  unfold key
  constructor
  · have := Int.mul_nonneg h1 (Int.ofNat_nonneg h)
    omega
  · have h5 : p.1 + 1 ≤ (w : Int) := by omega
    have := Int.mul_le_mul_of_nonneg_right h5 (Int.ofNat_nonneg h)
    rw [Int.add_mul] at this
    omega

theorem cluster_length_le (peaks : itk_image_t) (S : Nat → Prop) (s : clusters_t)
    (hinv : labelling_inv peaks S s) (id : Nat) :
    (s.clusters id).length ≤ peaks.w * peaks.h := by
  have hnd := hinv.nodup id
  have himg : ∀ p ∈ (s.clusters id).map (wrap peaks.w peaks.h), in_image peaks.w peaks.h p := by
    intro p hp
    obtain ⟨ij, hij, rfl⟩ := List.mem_map.mp hp
    exact (hinv.member_fg id ij hij).1.1
  have hnd2 : (((s.clusters id).map (wrap peaks.w peaks.h)).map
      (fun p => (key peaks.h p).toNat)).Nodup := by
    apply List.Nodup.map_on _ hnd
    intro a ha b hb e
    have ka := key_lt _ _ a (himg a ha)
    have kb := key_lt _ _ b (himg b hb)
    apply key_injective _ _ _ _ (himg a ha) (himg b hb)
    have := congrArg (fun n : Nat => (n : Int)) e
    simp only [Int.toNat_of_nonneg ka.1, Int.toNat_of_nonneg kb.1] at this
    exact this
  have hsub : ((s.clusters id).map (wrap peaks.w peaks.h)).map
      (fun p => (key peaks.h p).toNat) ⊆ List.range (peaks.w * peaks.h) := by
    intro n hn
    obtain ⟨p, hp, rfl⟩ := List.mem_map.mp hn
    have kp := key_lt _ _ p (himg p hp)
    rw [List.mem_range]
    have : ((key peaks.h p).toNat : Int) < ((peaks.w * peaks.h : Nat) : Int) := by
      rw [Int.toNat_of_nonneg kp.1]
      push_cast
      exact kp.2
    exact_mod_cast this
  have := (List.subperm_of_subset hnd2 hsub).length_le
  simpa using this

theorem stencil_fold_preserves (peaks : itk_image_t) (i : Nat) (index : index_t) :
    ∀ (l : List (Int × Int)) (s : clusters_t),
      walk_inv peaks i s → index ∈ s.clusters i → (∀ d ∈ l, d ∈ stencil) →
      walk_inv peaks i (l.foldl (periodic_merge peaks.w peaks.h i index) s) ∧
      (∃ m, (l.foldl (periodic_merge peaks.w peaks.h i index) s).clusters i =
        s.clusters i ++ m) ∧
      (∀ q, in_image peaks.w peaks.h q → s.cluster_map (key peaks.h q) = some i →
        (l.foldl (periodic_merge peaks.w peaks.h i index) s).cluster_map (key peaks.h q) =
          some i) ∧
      (∀ d ∈ l,
        foreground peaks (torus_neighbor peaks.w peaks.h (wrap peaks.w peaks.h index) d) →
        (l.foldl (periodic_merge peaks.w peaks.h i index) s).cluster_map
          (key peaks.h (torus_neighbor peaks.w peaks.h (wrap peaks.w peaks.h index) d)) =
            some i) ∧
      (l.foldl (periodic_merge peaks.w peaks.h i index) s).size = s.size := by
  intro l
  induction l with
  | nil =>
    intro s hw _ _
    exact ⟨hw, ⟨[], by simp⟩, fun _ _ h => h, fun _ hd => absurd hd (List.not_mem_nil _), rfl⟩
  | cons d l ih =>
    intro s hw hidx hl
    rw [List.foldl_cons]
    obtain ⟨g1, ⟨m1, g2⟩, g3, g4, g5⟩ := periodic_merge_preserves peaks i index s d hw hidx
      (hl d (List.mem_cons_self _ _))
    have hidx2 : index ∈ (periodic_merge peaks.w peaks.h i index s d).clusters i := by
      rw [g2]; exact List.mem_append_left _ hidx
    obtain ⟨k1, ⟨m2, k2⟩, k3, k4, k5⟩ := ih (periodic_merge peaks.w peaks.h i index s d) g1 hidx2
      (fun e he => hl e (List.mem_cons_of_mem _ he))
    refine ⟨k1, ⟨m1 ++ m2, by rw [k2, g2, List.append_assoc]⟩, ?_, ?_, by rw [k5, g5]⟩
    · intro q hq hm
      exact k3 q hq (g3 q hq hm)
    · intro e he hfg
      rcases List.mem_cons.mp he with rfl | he
      · exact k3 _ hfg.1 (g4 hfg)
      · exact k4 e he hfg

theorem periodic_walk_spec (peaks : itk_image_t) (i : Nat) :
    ∀ (fuel pos : Nat) (s : clusters_t),
      walk_inv peaks i s → pos ≤ (s.clusters i).length →
      (∀ k ij, k < pos → (s.clusters i)[k]? = some ij → pixel_closed peaks s i ij) →
      peaks.w * peaks.h + 1 ≤ fuel + pos →
      ∃ t, periodic_walk peaks.w peaks.h i fuel pos s = some t ∧ walk_inv peaks i t ∧
        cluster_closed peaks t i ∧ t.size = s.size := by
  intro fuel
  induction fuel with
  | zero =>
    intro pos s hw hpos _ hfuel
    have := cluster_length_le peaks _ s hw.inv i
    omega
  | succ fuel ih =>
    intro pos s hw hpos hvis hfuel
    unfold periodic_walk
    cases hget : (s.clusters i)[pos]? with
    | none =>
      refine ⟨s, rfl, hw, ?_, rfl⟩
      intro ij hij
      obtain ⟨k, hk, hkij⟩ := List.getElem_of_mem hij
      have hge : (s.clusters i).length ≤ pos := List.getElem?_eq_none_iff.mp hget
      exact hvis k ij (by omega) (by rw [List.getElem?_eq_getElem hk, hkij])
    | some index =>
      dsimp only
      have hidx : index ∈ s.clusters i := List.getElem?_mem hget
      have hlt : pos < (s.clusters i).length := by
        by_contra hge
        rw [List.getElem?_eq_none (by omega)] at hget
        exact Option.noConfusion hget
      obtain ⟨g1, ⟨m, g2⟩, g3, g4, g5⟩ := stencil_fold_preserves peaks i index stencil s hw hidx
        (fun _ hd => hd)
      obtain ⟨t, ht, ht1, ht2, ht3⟩ := ih (pos + 1)
        (stencil.foldl (periodic_merge peaks.w peaks.h i index) s) g1
        (by rw [g2, List.length_append]; omega)
        (by
          intro k ij hk hkij
          rw [g2] at hkij
          have hk2 : k < (s.clusters i).length := by omega
          rw [List.getElem?_append_left hk2] at hkij
          intro d hd hfg
          by_cases hkp : k < pos
          · exact g3 _ hfg.1 (hvis k ij hkp hkij d hd hfg)
          · have : k = pos := by omega
            subst this
            rw [hget] at hkij
            cases hkij
            exact g4 d hd hfg)
        (by omega)
      exact ⟨t, ht, ht1, ht2, by rw [ht3, g5]⟩

theorem periodic_fold_spec (peaks : itk_image_t) :
    ∀ (n : Nat) (s : clusters_t), periodic_inv peaks 0 s → n ≤ s.size →
      ∃ t, (List.range n).foldlM
          (fun s i =>
            if s.clusters i = [] then some s
            else periodic_walk peaks.w peaks.h i (peaks.w * peaks.h + 1) 0 s) s = some t ∧
        periodic_inv peaks n t ∧ t.size = s.size := by
  intro n
  induction n with
  | zero =>
    intro s hs _
    exact ⟨s, rfl, hs, rfl⟩
  | succ n ih =>
    intro s hs hn
    obtain ⟨t, ht, hinv, hsize⟩ := ih s hs (by omega)
    rw [List.range_succ, List.foldlM_append, ht]
    simp only [Option.bind_eq_bind, Option.some_bind, List.foldlM_cons, List.foldlM_nil,
      Option.pure_def, Option.bind_some]
    by_cases hemp : t.clusters n = []
    · rw [if_pos hemp]
      refine ⟨t, rfl, ⟨?_, hinv.complete, ?_⟩, hsize⟩
      · exact labelling_inv_mono peaks _ _ t (fun id h => by omega) hinv.inv
      · intro id hid
        by_cases h : id < n
        · exact hinv.closed id h
        · have : id = n := by omega
          subst this
          intro ij hij
          rw [hemp] at hij
          exact absurd hij (List.not_mem_nil _)
    · rw [if_neg hemp]
      have hw : walk_inv peaks n t :=
        ⟨labelling_inv_mono peaks _ _ t (fun id h => by omega) hinv.inv, hinv.complete,
          hinv.closed, by omega⟩
      obtain ⟨u, hu, hu1, hu2, hu3⟩ := periodic_walk_spec peaks n (peaks.w * peaks.h + 1) 0 t hw
        (Nat.zero_le _) (fun k ij hk _ => absurd hk (Nat.not_lt_zero k)) (by omega)
      refine ⟨u, hu, ⟨?_, hu1.complete, ?_⟩, by rw [hu3, hsize]⟩
      · exact labelling_inv_mono peaks _ _ u (fun id h => by omega) hu1.inv
      · intro id hid
        by_cases h : id < n
        · exact hu1.closed id h
        · have : id = n := by omega
          subst this
          exact hu2

theorem periodic_pass_spec (peaks : itk_image_t) :
    ∃ t, periodic_pass peaks.w peaks.h (label_clusters peaks) = some t ∧
      periodic_inv peaks t.size t := by
  obtain ⟨h1, h2⟩ := label_clusters_inv peaks
  have h0 : periodic_inv peaks 0 (label_clusters peaks) :=
    ⟨labelling_inv_mono peaks _ _ _ (fun _ h => absurd h id) h1, h2,
      fun id hid => absurd hid (Nat.not_lt_zero id)⟩
  obtain ⟨t, ht, hinv, hsize⟩ := periodic_fold_spec peaks (label_clusters peaks).size
    (label_clusters peaks) h0 (le_refl _)
  refine ⟨t, ht, ?_⟩
  rw [hsize]
  exact hinv

theorem mem_surviving (s : clusters_t) (c : List index_t) :
    c ∈ surviving s ↔ c ≠ [] ∧ ∃ id, id < s.size ∧ s.clusters id = c := by
  unfold surviving
  simp only [List.mem_filter, List.mem_map, List.mem_range, Bool.not_eq_true',
    List.isEmpty_eq_false]
  constructor
  · rintro ⟨⟨id, h1, h2⟩, h3⟩
    exact ⟨h3, id, h1, h2⟩
  · rintro ⟨h3, id, h1, h2⟩
    exact ⟨⟨id, h1, h2⟩, h3⟩

theorem connected_same_cluster (peaks : itk_image_t) (s : clusters_t)
    (hinv : periodic_inv peaks s.size s) (p q : index_t) (id : Nat)
    (hp : in_image peaks.w peaks.h p) (hm : s.cluster_map (key peaks.h p) = some id)
    (hc : connected peaks p q) :
    in_image peaks.w peaks.h q ∧ s.cluster_map (key peaks.h q) = some id := by
  induction hc with
  | refl => exact ⟨hp, hm⟩
  | @tail a b _ hab ih =>
    obtain ⟨ha, hma⟩ := ih
    obtain ⟨_, hfb, d, hd, he⟩ := hab
    refine ⟨hfb.1, ?_⟩
    obtain ⟨ij, hij, hw⟩ := hinv.inv.map_member a id ha hma
    have hlt := (mapped_foreground peaks _ s hinv.inv a id ha hma).2
    have := hinv.closed id hlt ij hij d hd
    rw [hw, ← he] at this
    exact this hfb

theorem surviving_components (peaks : itk_image_t) (s : clusters_t)
    (hinv : periodic_inv peaks s.size s) :
    (∀ c ∈ surviving s, c ≠ [] ∧ (c.map (wrap peaks.w peaks.h)).Nodup ∧
      (∀ ij ∈ c, foreground peaks (wrap peaks.w peaks.h ij) ∧
        -(peaks.w : Int) ≤ ij.1 ∧ ij.1 < 2 * peaks.w ∧
        -(peaks.h : Int) ≤ ij.2 ∧ ij.2 < 2 * peaks.h) ∧
      ∀ p ∈ c.map (wrap peaks.w peaks.h), ∀ q,
        (q ∈ c.map (wrap peaks.w peaks.h) ↔ connected peaks p q)) ∧
    (∀ p, foreground peaks p → ∃ c ∈ surviving s, p ∈ c.map (wrap peaks.w peaks.h)) ∧
    (surviving s).Pairwise
      (fun a b => List.Disjoint (a.map (wrap peaks.w peaks.h)) (b.map (wrap peaks.w peaks.h))) := by
  refine ⟨?_, ?_, ?_⟩
  · intro c hc
    obtain ⟨hne, id, hid, rfl⟩ := (mem_surviving s c).mp hc
    refine ⟨hne, hinv.inv.nodup id, ?_, ?_⟩
    · intro ij hij
      exact ⟨(hinv.inv.member_fg id ij hij).1, hinv.inv.member_range id ij hij⟩
    · intro p hp q
      obtain ⟨ij, hij, rfl⟩ := List.mem_map.mp hp
      obtain ⟨hfg, hm⟩ := hinv.inv.member_fg id ij hij
      constructor
      · intro hq
        obtain ⟨ij2, hij2, rfl⟩ := List.mem_map.mp hq
        obtain ⟨hfg2, hm2⟩ := hinv.inv.member_fg id ij2 hij2
        exact hinv.inv.reach _ _ id hfg.1 hfg2.1 hm hm2
      · intro hcon
        obtain ⟨hq, hmq⟩ := connected_same_cluster peaks s hinv _ q id hfg.1 hm hcon
        obtain ⟨ij2, hij2, hw2⟩ := hinv.inv.map_member q id hq hmq
        exact List.mem_map.mpr ⟨ij2, hij2, hw2⟩
  · intro p hp
    cases hm : s.cluster_map (key peaks.h p) with
    | none => exact absurd hm (hinv.complete p hp)
    | some id =>
      obtain ⟨ij, hij, hw⟩ := hinv.inv.map_member p id hp.1 hm
      have hlt := (mapped_foreground peaks _ s hinv.inv p id hp.1 hm).2
      refine ⟨s.clusters id, (mem_surviving s _).mpr ⟨?_, id, hlt, rfl⟩,
        List.mem_map.mpr ⟨ij, hij, hw⟩⟩
      intro e
      rw [e] at hij
      exact absurd hij (List.not_mem_nil _)
  · unfold surviving
    apply List.Pairwise.filter
    rw [List.pairwise_map]
    refine List.Pairwise.imp ?_ (List.nodup_range s.size)
    intro a b hab p hp1 hp2
    obtain ⟨i1, hi1, rfl⟩ := List.mem_map.mp hp1
    obtain ⟨i2, hi2, e⟩ := List.mem_map.mp hp2
    have h1 := (hinv.inv.member_fg a i1 hi1).2
    have h2 := (hinv.inv.member_fg b i2 hi2).2
    rw [e, h1] at h2
    exact hab (Option.some.inj h2)

theorem min_max_fold_bounds (pix : index_t → ℚ) :
    ∀ (l : List (Nat × Nat)) (a : ℚ × ℚ),
      (l.foldl (fun (a : ℚ × ℚ) p =>
          (min a.1 (pix ((p.1 : Int), (p.2 : Int))), max a.2 (pix ((p.1 : Int), (p.2 : Int))))) a).1 ≤ a.1 ∧
      a.2 ≤ (l.foldl (fun (a : ℚ × ℚ) p =>
          (min a.1 (pix ((p.1 : Int), (p.2 : Int))), max a.2 (pix ((p.1 : Int), (p.2 : Int))))) a).2 ∧
      ∀ p ∈ l,
        (l.foldl (fun (a : ℚ × ℚ) p =>
          (min a.1 (pix ((p.1 : Int), (p.2 : Int))), max a.2 (pix ((p.1 : Int), (p.2 : Int))))) a).1 ≤
            pix ((p.1 : Int), (p.2 : Int)) ∧
        pix ((p.1 : Int), (p.2 : Int)) ≤
          (l.foldl (fun (a : ℚ × ℚ) p =>
            (min a.1 (pix ((p.1 : Int), (p.2 : Int))), max a.2 (pix ((p.1 : Int), (p.2 : Int))))) a).2 := by
  intro l
  induction l with
  | nil =>
    intro a
    exact ⟨le_refl _, le_refl _, fun p hp => absurd hp (List.not_mem_nil _)⟩
  | cons q l ih =>
    intro a
    rw [List.foldl_cons]
    obtain ⟨h1, h2, h3⟩ := ih (min a.1 (pix ((q.1 : Int), (q.2 : Int))),
      max a.2 (pix ((q.1 : Int), (q.2 : Int))))
    refine ⟨le_trans h1 (min_le_left _ _), le_trans (le_max_left _ _) h2, ?_⟩
    intro p hp
    rcases List.mem_cons.mp hp with rfl | hp
    · exact ⟨le_trans h1 (min_le_right _ _), le_trans (le_max_right _ _) h2⟩
    · exact h3 p hp

theorem image_min_max_bounds (image : itk_image_t) (p : index_t)
    (hp : in_image image.w image.h p) :
    (image_min_max image).1 ≤ image.pix p ∧ image.pix p ≤ (image_min_max image).2 := by
  obtain ⟨a1, a2, a3, a4⟩ := hp
  have hmem : (p.1.toNat, p.2.toNat) ∈ region image.w image.h :=
    (mem_region _ _ _).mpr ⟨by omega, by omega⟩
  have := (min_max_fold_bounds image.pix (region image.w image.h) (DBL_MAX, -DBL_MAX)).2.2
    (p.1.toNat, p.2.toNat) hmem
  simp only [Int.toNat_of_nonneg a1, Int.toNat_of_nonneg a3] at this
  exact this

theorem remap_min_max_le_one (image : itk_image_t) (p : index_t)
    (hp : in_image image.w image.h p) (hpos : 0 < (remap_min_max image).pix p) :
    (remap_min_max image).pix p ≤ 1 := by
  obtain ⟨h1, h2⟩ := image_min_max_bounds image p hp
  simp only [remap_min_max] at hpos ⊢
  have hd : 0 < (image_min_max image).2 - (image_min_max image).1 := by
    rcases lt_trichotomy ((image_min_max image).2 - (image_min_max image).1) 0 with h | h | h
    · linarith
    · rw [h, div_zero] at hpos
      exact absurd hpos (lt_irrefl 0)
    · exact h
  rw [div_le_one hd]
  linarith

theorem center_of_mass_fold (peaks : itk_image_t) :
    ∀ (c : List index_t) (a : ℚ × ℚ × ℚ),
      (∀ ij ∈ c, -(peaks.w : Int) ≤ ij.1 ∧ ij.1 < 2 * peaks.w ∧
        -(peaks.h : Int) ≤ ij.2 ∧ ij.2 < 2 * peaks.h) →
      c.foldl
        (fun (a : ℚ × ℚ × ℚ) ij =>
          let x : ℚ := (ij.1 : ℚ)
          let y : ℚ := (ij.2 : ℚ)
          let i0 : Int := if x < 0 then ij.1 + (peaks.w : Int) else ij.1
          let i0 : Int := if (peaks.w : ℚ) ≤ x then i0 - (peaks.w : Int) else i0
          let i1 : Int := if y < 0 then ij.2 + (peaks.h : Int) else ij.2
          let i1 : Int := if (peaks.h : ℚ) ≤ y then i1 - (peaks.h : Int) else i1
          let m := peaks.pix (i0, i1)
          (a.1 + m * x, a.2.1 + m * y, a.2.2 + m)) a =
      (a.1 + (c.map (fun ij => peaks.pix (wrap peaks.w peaks.h ij) * (ij.1 : ℚ))).sum,
       a.2.1 + (c.map (fun ij => peaks.pix (wrap peaks.w peaks.h ij) * (ij.2 : ℚ))).sum,
       a.2.2 + (c.map (fun ij => peaks.pix (wrap peaks.w peaks.h ij))).sum) := by
  intro c
  induction c with
  | nil =>
    intro a _
    simp
  | cons ij c ih =>
    intro a hr
    rw [List.foldl_cons, ih _ (fun q hq => hr q (List.mem_cons_of_mem _ hq))]
    obtain ⟨r1, r2, r3, r4⟩ := hr ij (List.mem_cons_self _ _)
    have hwrap : ((if (peaks.w : ℚ) ≤ (ij.1 : ℚ) then
          (if (ij.1 : ℚ) < 0 then ij.1 + (peaks.w : Int) else ij.1) - (peaks.w : Int)
          else (if (ij.1 : ℚ) < 0 then ij.1 + (peaks.w : Int) else ij.1)),
        (if (peaks.h : ℚ) ≤ (ij.2 : ℚ) then
          (if (ij.2 : ℚ) < 0 then ij.2 + (peaks.h : Int) else ij.2) - (peaks.h : Int)
          else (if (ij.2 : ℚ) < 0 then ij.2 + (peaks.h : Int) else ij.2))) =
        wrap peaks.w peaks.h ij := by
      unfold wrap
      apply Prod.ext
      · dsimp only
        by_cases hneg : (ij.1 : ℚ) < 0
        · have hn : ij.1 < 0 := by exact_mod_cast hneg
          have hge : ¬ (peaks.w : ℚ) ≤ (ij.1 : ℚ) := by
            intro h
            have : (peaks.w : Int) ≤ ij.1 := by exact_mod_cast h
            omega
          rw [if_neg hge, if_pos hneg]
          exact (Int.emod_eq_of_lt (by omega) (by omega)).symm
        · have hn : 0 ≤ ij.1 := by
            have := not_lt.mp hneg
            exact_mod_cast this
          rw [if_neg hneg]
          by_cases hge : (peaks.w : ℚ) ≤ (ij.1 : ℚ)
          · have hg : (peaks.w : Int) ≤ ij.1 := by exact_mod_cast hge
            rw [if_pos hge, Int.add_emod_self]
            have : ij.1 = (ij.1 - peaks.w) + peaks.w := by omega
            rw [this, Int.add_emod_self]
            simp only [add_sub_cancel_right]
            exact (Int.emod_eq_of_lt (by omega) (by omega)).symm
          · have hg : ij.1 < (peaks.w : Int) := by
              have := not_le.mp hge
              exact_mod_cast this
            rw [if_neg hge, Int.add_emod_self]
            exact (Int.emod_eq_of_lt hn hg).symm
      · dsimp only
        by_cases hneg : (ij.2 : ℚ) < 0
        · have hn : ij.2 < 0 := by exact_mod_cast hneg
          have hge : ¬ (peaks.h : ℚ) ≤ (ij.2 : ℚ) := by
            intro h
            have : (peaks.h : Int) ≤ ij.2 := by exact_mod_cast h
            omega
          rw [if_neg hge, if_pos hneg]
          exact (Int.emod_eq_of_lt (by omega) (by omega)).symm
        · have hn : 0 ≤ ij.2 := by
            have := not_lt.mp hneg
            exact_mod_cast this
          rw [if_neg hneg]
          by_cases hge : (peaks.h : ℚ) ≤ (ij.2 : ℚ)
          · have hg : (peaks.h : Int) ≤ ij.2 := by exact_mod_cast hge
            rw [if_pos hge, Int.add_emod_self]
            have : ij.2 = (ij.2 - peaks.h) + peaks.h := by omega
            rw [this, Int.add_emod_self]
            simp only [add_sub_cancel_right]
            exact (Int.emod_eq_of_lt (by omega) (by omega)).symm
          · have hg : ij.2 < (peaks.h : Int) := by
              have := not_le.mp hge
              exact_mod_cast this
            rw [if_neg hge, Int.add_emod_self]
            exact (Int.emod_eq_of_lt hn hg).symm
    dsimp only
    rw [hwrap]
    simp only [List.map_cons, List.sum_cons]
    refine Prod.ext ?_ (Prod.ext ?_ ?_) <;> dsimp only <;> ring

theorem weighted_sum_bounds (m x : index_t → ℚ) (lo hi : ℚ) :
    ∀ c : List index_t, (∀ ij ∈ c, 0 < m ij ∧ lo ≤ x ij ∧ x ij ≤ hi) →
      lo * (c.map m).sum ≤ (c.map (fun ij => m ij * x ij)).sum ∧
      (c.map (fun ij => m ij * x ij)).sum ≤ hi * (c.map m).sum := by
  intro c
  induction c with
  | nil => intro _; simp
  | cons a c ih =>
    intro h
    obtain ⟨h1, h2⟩ := ih (fun ij hij => h ij (List.mem_cons_of_mem _ hij))
    obtain ⟨g1, g2, g3⟩ := h a (List.mem_cons_self _ _)
    simp only [List.map_cons, List.sum_cons]
    constructor
    · nlinarith
    · nlinarith

theorem sum_pos_of_pos (m : index_t → ℚ) :
    ∀ c : List index_t, c ≠ [] → (∀ ij ∈ c, 0 < m ij) → 0 < (c.map m).sum := by
  intro c
  induction c with
  | nil => intro h _; exact absurd rfl h
  | cons a c ih =>
    intro _ h
    simp only [List.map_cons, List.sum_cons]
    have ha := h a (List.mem_cons_self _ _)
    cases c with
    | nil => simpa using ha
    | cons b c =>
      have := ih (by simp) (fun ij hij => h ij (List.mem_cons_of_mem _ hij))
      linarith

theorem sum_le_length (m : index_t → ℚ) :
    ∀ c : List index_t, (∀ ij ∈ c, m ij ≤ 1) → (c.map m).sum ≤ (c.length : ℚ) := by
  intro c
  induction c with
  | nil => intro _; simp
  | cons a c ih =>
    intro h
    simp only [List.map_cons, List.sum_cons, List.length_cons]
    have ha := h a (List.mem_cons_self _ _)
    have := ih (fun ij hij => h ij (List.mem_cons_of_mem _ hij))
    push_cast
    linarith

theorem find_maxima_cm_eq (max_list : List local_max_t) (image : itk_image_t) (percentage : ℚ)
    (hrng : (image_min_max image).2 - (image_min_max image).1 ≠ 0) :
    ∃ s, periodic_inv (threshold_peaks image percentage) s.size s ∧
      find_maxima_cm max_list image percentage =
        some ((surviving s).length,
          List.insertionSort local_max_t.ge
            (max_list ++ (surviving s).map (cluster_record (threshold_peaks image percentage)))) := by
  obtain ⟨s, hs, hinv⟩ := periodic_pass_spec (threshold_peaks image percentage)
  refine ⟨s, hinv, ?_⟩
  unfold find_maxima_cm
  dsimp only
  rw [if_neg hrng, hs]
  simp

/-- C9: for a field of non-zero value range every record appended by
`find_maxima_cm` for a cluster has the centroid `(mx / mt, my / mt)` and the
value `mt / size`, where `mt`, `mx`, `my` are the sums over the pixels of the
cluster of the remapped value, of value times `x` and of value times `y`; `mt`
is positive, the value lies in `(0, 1]`, and the centroid lies in every box
that holds the coordinates of the cluster, which are the coordinates of its
pixels when the cluster was not shifted across the periodic boundary. -/
theorem find_maxima_cm_centroid (max_list : List local_max_t) (image : itk_image_t)
    (percentage : ℚ)
    (hrng : (image_min_max image).2 - (image_min_max image).1 ≠ 0) :
    ∃ clusters : List (List index_t),
      find_maxima_cm max_list image percentage =
        some (clusters.length,
          List.insertionSort local_max_t.ge
            (max_list ++ clusters.map (cluster_record (threshold_peaks image percentage)))) ∧
      ∀ c ∈ clusters,
        0 < (c.map (fun ij => (threshold_peaks image percentage).pix
          (wrap image.w image.h ij))).sum ∧
        (cluster_record (threshold_peaks image percentage) c).x_ =
          (c.map (fun ij => (threshold_peaks image percentage).pix (wrap image.w image.h ij) *
            (ij.1 : ℚ))).sum /
          (c.map (fun ij => (threshold_peaks image percentage).pix
            (wrap image.w image.h ij))).sum ∧
        (cluster_record (threshold_peaks image percentage) c).y_ =
          (c.map (fun ij => (threshold_peaks image percentage).pix (wrap image.w image.h ij) *
            (ij.2 : ℚ))).sum /
          (c.map (fun ij => (threshold_peaks image percentage).pix
            (wrap image.w image.h ij))).sum ∧
        (cluster_record (threshold_peaks image percentage) c).value_ =
          (c.map (fun ij => (threshold_peaks image percentage).pix
            (wrap image.w image.h ij))).sum / (c.length : ℚ) ∧
        0 < (cluster_record (threshold_peaks image percentage) c).value_ ∧
        (cluster_record (threshold_peaks image percentage) c).value_ ≤ 1 ∧
        (∀ lo hi : ℚ, (∀ ij ∈ c, lo ≤ (ij.1 : ℚ) ∧ (ij.1 : ℚ) ≤ hi) →
          lo ≤ (cluster_record (threshold_peaks image percentage) c).x_ ∧
          (cluster_record (threshold_peaks image percentage) c).x_ ≤ hi) ∧
        (∀ lo hi : ℚ, (∀ ij ∈ c, lo ≤ (ij.2 : ℚ) ∧ (ij.2 : ℚ) ≤ hi) →
          lo ≤ (cluster_record (threshold_peaks image percentage) c).y_ ∧
          (cluster_record (threshold_peaks image percentage) c).y_ ≤ hi) ∧
        ((∀ ij ∈ c, in_image image.w image.h ij) →
          ∀ ij ∈ c, wrap image.w image.h ij = ij) := by
  obtain ⟨s, hinv, hfm⟩ := find_maxima_cm_eq max_list image percentage hrng
  obtain ⟨h1, _, _⟩ := surviving_components (threshold_peaks image percentage) s hinv
  refine ⟨surviving s, hfm, ?_⟩
  intro c hc
  obtain ⟨hne, _, hpix, _⟩ := h1 c hc
  have hrange : ∀ ij ∈ c, -((threshold_peaks image percentage).w : Int) ≤ ij.1 ∧
      ij.1 < 2 * (threshold_peaks image percentage).w ∧
      -((threshold_peaks image percentage).h : Int) ≤ ij.2 ∧
      ij.2 < 2 * (threshold_peaks image percentage).h :=
    fun ij hij => (hpix ij hij).2
  have hcm := center_of_mass_fold (threshold_peaks image percentage) c (0, 0, 0) hrange
  have hpos : ∀ ij ∈ c, 0 < (threshold_peaks image percentage).pix (wrap image.w image.h ij) :=
    fun ij hij => (hpix ij hij).1.2
  have hle : ∀ ij ∈ c, (threshold_peaks image percentage).pix (wrap image.w image.h ij) ≤ 1 := by
    intro ij hij
    exact remap_min_max_le_one _ _ (hpix ij hij).1.1 (hpos ij hij)
  have hmt := sum_pos_of_pos
    (fun ij => (threshold_peaks image percentage).pix (wrap image.w image.h ij)) c hne hpos
  have hlen : (0 : ℚ) < (c.length : ℚ) := by
    have : 0 < c.length := List.length_pos.mpr hne
    exact_mod_cast this
  have hx : (cluster_record (threshold_peaks image percentage) c).x_ =
      (c.map (fun ij => (threshold_peaks image percentage).pix (wrap image.w image.h ij) *
        (ij.1 : ℚ))).sum /
      (c.map (fun ij => (threshold_peaks image percentage).pix (wrap image.w image.h ij))).sum := by
    unfold cluster_record center_of_mass
    dsimp only
    rw [hcm]
    simp
    rfl
  have hy : (cluster_record (threshold_peaks image percentage) c).y_ =
      (c.map (fun ij => (threshold_peaks image percentage).pix (wrap image.w image.h ij) *
        (ij.2 : ℚ))).sum /
      (c.map (fun ij => (threshold_peaks image percentage).pix (wrap image.w image.h ij))).sum := by
    unfold cluster_record center_of_mass
    dsimp only
    rw [hcm]
    simp
    rfl
  have hv : (cluster_record (threshold_peaks image percentage) c).value_ =
      (c.map (fun ij => (threshold_peaks image percentage).pix (wrap image.w image.h ij))).sum /
        (c.length : ℚ) := by
    unfold cluster_record center_of_mass
    dsimp only
    rw [hcm]
    simp
    rfl
  refine ⟨hmt, hx, hy, hv, ?_, ?_, ?_, ?_, ?_⟩
  · rw [hv]
    exact div_pos hmt hlen
  · rw [hv, div_le_one hlen]
    exact sum_le_length _ c hle
  · intro lo hi hb
    obtain ⟨b1, b2⟩ := weighted_sum_bounds
      (fun ij => (threshold_peaks image percentage).pix (wrap image.w image.h ij))
      (fun ij => (ij.1 : ℚ)) lo hi c (fun ij hij => ⟨hpos ij hij, hb ij hij⟩)
    rw [hx]
    exact ⟨(le_div_iff₀ hmt).mpr b1, (div_le_iff₀ hmt).mpr b2⟩
  · intro lo hi hb
    obtain ⟨b1, b2⟩ := weighted_sum_bounds
      (fun ij => (threshold_peaks image percentage).pix (wrap image.w image.h ij))
      (fun ij => (ij.2 : ℚ)) lo hi c (fun ij hij => ⟨hpos ij hij, hb ij hij⟩)
    rw [hy]
    exact ⟨(le_div_iff₀ hmt).mpr b1, (div_le_iff₀ hmt).mpr b2⟩
  · intro hin ij hij
    exact wrap_of_in_image _ _ _ (hin ij hij)

/-- Witness of C9: the image with the four corners set; its single cluster was
shifted across the periodic boundary and has the centroid (-1/2, -1/2). -/
theorem find_maxima_cm_centroid_witness :
    ∃ clusters : List (List index_t),
      find_maxima_cm ([] : List local_max_t) corner_image (1 / 2) =
        some (clusters.length,
          List.insertionSort local_max_t.ge
            (([] : List local_max_t) ++ clusters.map (cluster_record (threshold_peaks corner_image (1 / 2))))) ∧
      ∀ c ∈ clusters,
        0 < (c.map (fun ij => (threshold_peaks corner_image (1 / 2)).pix
          (wrap corner_image.w corner_image.h ij))).sum ∧
        (cluster_record (threshold_peaks corner_image (1 / 2)) c).x_ =
          (c.map (fun ij => (threshold_peaks corner_image (1 / 2)).pix (wrap corner_image.w corner_image.h ij) *
            (ij.1 : ℚ))).sum /
          (c.map (fun ij => (threshold_peaks corner_image (1 / 2)).pix
            (wrap corner_image.w corner_image.h ij))).sum ∧
        (cluster_record (threshold_peaks corner_image (1 / 2)) c).y_ =
          (c.map (fun ij => (threshold_peaks corner_image (1 / 2)).pix (wrap corner_image.w corner_image.h ij) *
            (ij.2 : ℚ))).sum /
          (c.map (fun ij => (threshold_peaks corner_image (1 / 2)).pix
            (wrap corner_image.w corner_image.h ij))).sum ∧
        (cluster_record (threshold_peaks corner_image (1 / 2)) c).value_ =
          (c.map (fun ij => (threshold_peaks corner_image (1 / 2)).pix
            (wrap corner_image.w corner_image.h ij))).sum / (c.length : ℚ) ∧
        0 < (cluster_record (threshold_peaks corner_image (1 / 2)) c).value_ ∧
        (cluster_record (threshold_peaks corner_image (1 / 2)) c).value_ ≤ 1 ∧
        (∀ lo hi : ℚ, (∀ ij ∈ c, lo ≤ (ij.1 : ℚ) ∧ (ij.1 : ℚ) ≤ hi) →
          lo ≤ (cluster_record (threshold_peaks corner_image (1 / 2)) c).x_ ∧
          (cluster_record (threshold_peaks corner_image (1 / 2)) c).x_ ≤ hi) ∧
        (∀ lo hi : ℚ, (∀ ij ∈ c, lo ≤ (ij.2 : ℚ) ∧ (ij.2 : ℚ) ≤ hi) →
          lo ≤ (cluster_record (threshold_peaks corner_image (1 / 2)) c).y_ ∧
          (cluster_record (threshold_peaks corner_image (1 / 2)) c).y_ ≤ hi) ∧
        ((∀ ij ∈ c, in_image corner_image.w corner_image.h ij) →
          ∀ ij ∈ c, wrap corner_image.w corner_image.h ij = ij) :=
  find_maxima_cm_centroid [] corner_image (1 / 2) (by decide!)

/-- C10 (counterexample): for a field of zero range `find_maxima_cm` returns before
the sort, so a candidate list passed in out of order is returned out of order,
on rationals as on doubles. -/
theorem find_maxima_cm_flat_unsorted :
    find_maxima_cm [⟨1 / 10, 0, 0, 1⟩, ⟨9 / 10, 1, 1, 1⟩] flat_image (1 / 2) =
      some (0, [⟨1 / 10, 0, 0, 1⟩, ⟨9 / 10, 1, 1, 1⟩]) ∧
    ¬ List.Sorted local_max_t.ge [⟨1 / 10, 0, 0, 1⟩, ⟨9 / 10, 1, 1, 1⟩] ∧
    value_range (ieee_of flat_image) = .finite 0 ∧
    find_maxima_cm_ieee [⟨1 / 10, 0, 0, 1⟩, ⟨9 / 10, 1, 1, 1⟩] (ieee_of flat_image) (1 / 2) =
      some (0, [⟨1 / 10, 0, 0, 1⟩, ⟨9 / 10, 1, 1, 1⟩]) := by
  decide!

theorem find_maxima_cm_sorted_rational (max_list : List local_max_t) (image : itk_image_t)
    (percentage : ℚ) :
    ∃ (records l : List local_max_t),
      find_maxima_cm max_list image percentage = some (records.length, l) ∧
      l.Perm (max_list ++ records) ∧
      ((image_min_max image).2 - (image_min_max image).1 ≠ 0 →
        l.Sorted local_max_t.ge ∧
        ∀ a b, l.head? = some a → b ∈ l → b.value_ ≤ a.value_) ∧
      ((image_min_max image).2 - (image_min_max image).1 = 0 →
        records = [] ∧ l = max_list) := by
  haveI : IsTotal local_max_t local_max_t.ge := ⟨fun a b => le_total b.value_ a.value_⟩
  haveI : IsTrans local_max_t local_max_t.ge := ⟨fun a b c hab hbc => le_trans hbc hab⟩
  by_cases hrng : (image_min_max image).2 - (image_min_max image).1 = 0
  · refine ⟨[], max_list, ?_, by simp, fun h => absurd hrng h, fun _ => ⟨rfl, rfl⟩⟩
    unfold find_maxima_cm
    dsimp only
    rw [if_pos hrng]
    rfl
  · obtain ⟨s, _, hfm⟩ := find_maxima_cm_eq max_list image percentage hrng
    refine ⟨(surviving s).map (cluster_record (threshold_peaks image percentage)),
      List.insertionSort local_max_t.ge
        (max_list ++ (surviving s).map (cluster_record (threshold_peaks image percentage))),
      by rw [hfm, List.length_map], List.perm_insertionSort _ _, ?_, fun h => absurd h hrng⟩
    intro _
    have hsorted := List.sorted_insertionSort local_max_t.ge
      (max_list ++ (surviving s).map (cluster_record (threshold_peaks image percentage)))
    refine ⟨hsorted, ?_⟩
    intro a b ha hb
    generalize List.insertionSort local_max_t.ge
      (max_list ++ (surviving s).map (cluster_record (threshold_peaks image percentage))) = l
      at hsorted ha hb
    cases l with
    | nil => exact absurd hb (List.not_mem_nil _)
    | cons x xs =>
      simp only [List.head?_cons, Option.some.injEq] at ha
      subst ha
      rcases List.mem_cons.mp hb with rfl | hb
      · exact le_refl _
      · exact List.rel_of_sorted_cons hsorted b hb

theorem mask_pixel_pix (overlap : ℚ × ℚ → ℚ) (lo hi m : ℚ) (nx ny : Nat)
    (s : itk_image_t × Int) (i : Nat × Nat) (q : index_t) :
    (mask_pixel overlap lo hi m nx ny s i).1.pix q =
      if no_overlap overlap lo hi nx ny i = true ∧ q ∈ mirror_pixels nx ny i then m
      else s.1.pix q := by
  unfold mask_pixel no_overlap tested_displacements
  by_cases h1 : in_overlap_zone overlap lo hi ((i.1 : ℚ), (i.2 : ℚ)) = true
  · simp [h1]
  by_cases h2 : in_overlap_zone overlap lo hi ((nx : ℚ) - (i.1 : ℚ), (i.2 : ℚ)) = true
  · simp [h1, h2]
  by_cases h3 : in_overlap_zone overlap lo hi ((i.1 : ℚ), (ny : ℚ) - (i.2 : ℚ)) = true
  · simp [h1, h2, h3]
  by_cases h4 : in_overlap_zone overlap lo hi ((nx : ℚ) - (i.1 : ℚ), (ny : ℚ) - (i.2 : ℚ)) = true
  · simp [h1, h2, h3, h4]
  rw [if_neg h1, if_neg h2, if_neg h3, if_neg h4]
  simp only [Bool.not_eq_true] at h1 h2 h3 h4
  simp only [List.all_cons, List.all_nil, h1, h2, h3, h4, Bool.not_false, Bool.and_self,
    true_and]
  simp only [mirror_pixels, List.foldl_cons, List.foldl_nil, itk_image_t.SetPixel,
    List.mem_cons, List.mem_singleton, List.not_mem_nil, or_false]
  simp only [Function.update_apply]
  by_cases e4 : q = (((nx : Int) - 1) - (i.1 : Int), ((ny : Int) - 1) - (i.2 : Int))
  · simp [e4]
  by_cases e3 : q = ((i.1 : Int), ((ny : Int) - 1) - (i.2 : Int))
  · simp [e3]
  by_cases e2 : q = (((nx : Int) - 1) - (i.1 : Int), (i.2 : Int))
  · simp [e2]
  by_cases e1 : q = ((i.1 : Int), (i.2 : Int))
  · simp [e1]
  simp [e1, e2, e3, e4]

theorem mask_fold_pix (overlap : ℚ × ℚ → ℚ) (lo hi m : ℚ) (nx ny : Nat) (q : index_t) :
    ∀ (l : List (Nat × Nat)) (s : itk_image_t × Int),
      (l.foldl (mask_pixel overlap lo hi m nx ny) s).1.pix q =
        if ∃ i ∈ l, no_overlap overlap lo hi nx ny i = true ∧ q ∈ mirror_pixels nx ny i then m
        else s.1.pix q := by
  intro l
  induction l with
  | nil => intro s; simp
  | cons i l ih =>
    intro s
    rw [List.foldl_cons, ih, mask_pixel_pix]
    by_cases h1 : ∃ j ∈ l, no_overlap overlap lo hi nx ny j = true ∧ q ∈ mirror_pixels nx ny j
    · have : ∃ j ∈ i :: l, no_overlap overlap lo hi nx ny j = true ∧ q ∈ mirror_pixels nx ny j := by
        obtain ⟨j, hj, h⟩ := h1
        exact ⟨j, List.mem_cons_of_mem _ hj, h⟩
      rw [if_pos h1, if_pos this]
    · rw [if_neg h1]
      by_cases h2 : no_overlap overlap lo hi nx ny i = true ∧ q ∈ mirror_pixels nx ny i
      · rw [if_pos h2, if_pos ⟨i, List.mem_cons_self _ _, h2⟩]
      · rw [if_neg h2, if_neg]
        rintro ⟨j, hj, h⟩
        rcases List.mem_cons.mp hj with e | hj
        · exact h2 (e ▸ h)
        · exact h1 ⟨j, hj, h⟩

theorem mem_quadrant (nx ny : Nat) (i : Nat × Nat) :
    i ∈ quadrant nx ny ↔ i.1 ≤ nx / 2 ∧ i.2 ≤ ny / 2 := by
  obtain ⟨a, b⟩ := i
  simp only [quadrant, List.mem_flatMap, List.mem_range, List.mem_map, Prod.mk.injEq]
  constructor
  · rintro ⟨y, hy, x, hx, rfl, rfl⟩
    exact ⟨by omega, by omega⟩
  · rintro ⟨h1, h2⟩
    exact ⟨b, by omega, a, by omega, rfl, rfl⟩

theorem mask_pdf_pix (overlap : ℚ × ℚ → ℚ) (lo hi m : ℚ) (PDF masked : itk_image_t) (n : Int)
    (h : mask_pdf overlap lo hi m PDF = some (masked, n)) (q : index_t) :
    masked.pix q =
      if ∃ i ∈ quadrant PDF.w PDF.h,
          no_overlap overlap lo hi PDF.w PDF.h i = true ∧ q ∈ mirror_pixels PDF.w PDF.h i then m
      else PDF.pix q := by
  unfold mask_pdf at h
  split at h
  · exact absurd h (by simp)
  · have e := congrArg Prod.fst (Option.some.inj h)
    dsimp only at e
    rw [← e, mask_fold_pix]

/-- C13, as stated, fails: on the 4 by 4 PDF `ramp_pdf` with the overlap range
`[1/4, 1/2]` the displacement `(1, 0)` induces the overlap `3/4`, outside the
range, yet pixel `(1, 0)` keeps its value `2` and does not hold the minimum `0`:
the displacement `(4 - 1, 0)` tested with it has the overlap `1/4`. -/
theorem mask_pdf_not_by_own_overlap :
    (image_min_max ramp_pdf).1 = 0 ∧
    ∃ masked n,
      mask_pdf (OverlapPercent (4, 4)) (1 / 4) (1 / 2) (image_min_max ramp_pdf).1 ramp_pdf =
        some (masked, n) ∧
      OverlapPercent (4, 4) (1, 0) = 3 / 4 ∧ masked.pix (1, 0) = 2 ∧
      ¬ masked_by_own_overlap (OverlapPercent (4, 4)) (1 / 4) (1 / 2)
        (image_min_max ramp_pdf).1 ramp_pdf masked := by
  refine ⟨by decide!, _, _, rfl, by decide!, by decide!, fun h => ?_⟩
  have h1 := h (1, 0) (by decide)
  rw [if_neg (by decide!)] at h1
  exact absurd h1 (by decide!)

/-- C13, amended: on a PDF with pixels the masking step of `find_correlation`
returns; every pixel then keeps its value or holds `min`; a quadrant pixel
`(ix, iy)`, `ix <= nx / 2`, `iy <= ny / 2`, none of whose four displacements
`(ix, iy)`, `(nx - ix, iy)`, `(ix, ny - iy)`, `(nx - ix, ny - iy)` has its overlap
inside the range holds `min`; a pixel `(ix, iy)` with `ix < nx - 1 - nx / 2` and
`iy < ny - 1 - ny / 2` one of whose four displacements has its overlap inside the
range keeps its value. -/
theorem mask_pdf_spec (overlap : ℚ × ℚ → ℚ) (overlap_min overlap_max min : ℚ)
    (PDF : itk_image_t) (hw : 0 < PDF.w) (hh : 0 < PDF.h) :
    ∃ masked n, mask_pdf overlap overlap_min overlap_max min PDF = some (masked, n) ∧
      (∀ q, masked.pix q = PDF.pix q ∨ masked.pix q = min) ∧
      (∀ i : Nat × Nat, i.1 ≤ PDF.w / 2 → i.2 ≤ PDF.h / 2 →
        (∀ pt ∈ tested_displacements PDF.w PDF.h i,
          ¬ (overlap_min ≤ overlap pt ∧ overlap pt ≤ overlap_max)) →
        masked.pix ((i.1 : Int), (i.2 : Int)) = min) ∧
      (∀ i : Nat × Nat, i.1 + PDF.w / 2 + 1 < PDF.w → i.2 + PDF.h / 2 + 1 < PDF.h →
        (∃ pt ∈ tested_displacements PDF.w PDF.h i,
          overlap_min ≤ overlap pt ∧ overlap pt ≤ overlap_max) →
        masked.pix ((i.1 : Int), (i.2 : Int)) = PDF.pix ((i.1 : Int), (i.2 : Int))) := by
  have hsome : mask_pdf overlap overlap_min overlap_max min PDF =
      some ((quadrant PDF.w PDF.h).foldl
        (mask_pixel overlap overlap_min overlap_max min PDF.w PDF.h) (PDF, 0)) := by
    unfold mask_pdf
    rw [if_neg (by omega)]
  have hno : ∀ i : Nat × Nat, no_overlap overlap overlap_min overlap_max PDF.w PDF.h i = true ↔
      ∀ pt ∈ tested_displacements PDF.w PDF.h i,
        ¬ (overlap_min ≤ overlap pt ∧ overlap pt ≤ overlap_max) := by
    intro i
    simp only [no_overlap, in_overlap_zone, List.all_eq_true, Bool.not_eq_true',
      Bool.and_eq_false_iff, decide_eq_false_iff_not, not_and_or]
  refine ⟨_, _, hsome, ?_, ?_, ?_⟩
  · intro q
    rw [mask_pdf_pix overlap overlap_min overlap_max min PDF _ _ hsome q]
    split
    · exact Or.inr rfl
    · exact Or.inl rfl
  · intro i h1 h2 h3
    rw [mask_pdf_pix overlap overlap_min overlap_max min PDF _ _ hsome, if_pos]
    exact ⟨i, (mem_quadrant _ _ i).mpr ⟨h1, h2⟩, (hno i).mpr h3, by simp [mirror_pixels]⟩
  · intro i h1 h2 h3
    rw [mask_pdf_pix overlap overlap_min overlap_max min PDF _ _ hsome, if_neg]
    rintro ⟨j, hj, hjn, hjm⟩
    obtain ⟨g1, g2⟩ := (mem_quadrant _ _ j).mp hj
    have hji : j = i := by
      simp only [mirror_pixels, List.mem_cons, List.mem_singleton, List.not_mem_nil, or_false,
        Prod.mk.injEq] at hjm
      have hx : j.1 = i.1 := by omega
      have hy : j.2 = i.2 := by omega
      exact Prod.ext hx hy
    rw [hji] at hjn
    obtain ⟨pt, hpt, hz⟩ := h3
    exact (hno i).mp hjn pt hpt hz

/-- Witness of C13: the masking of `ramp_pdf` with the overlap range `[1/4, 1/2]`;
pixel `(0, 0)` is masked and 28 pixels are counted in the overlap zone. -/
theorem mask_pdf_spec_witness :
    (mask_pdf (OverlapPercent (4, 4)) (1 / 4) (1 / 2) 0 ramp_pdf).map
        (fun r => (r.1.pix (0, 0), r.2)) = some (0, 28) ∧
    ∃ masked n, mask_pdf (OverlapPercent (4, 4)) (1 / 4) (1 / 2) 0 ramp_pdf = some (masked, n) ∧
      (∀ q, masked.pix q = ramp_pdf.pix q ∨ masked.pix q = 0) ∧
      (∀ i : Nat × Nat, i.1 ≤ ramp_pdf.w / 2 → i.2 ≤ ramp_pdf.h / 2 →
        (∀ pt ∈ tested_displacements ramp_pdf.w ramp_pdf.h i,
          ¬ ((1 / 4 : ℚ) ≤ OverlapPercent (4, 4) pt ∧ OverlapPercent (4, 4) pt ≤ 1 / 2)) →
        masked.pix ((i.1 : Int), (i.2 : Int)) = 0) ∧
      (∀ i : Nat × Nat, i.1 + ramp_pdf.w / 2 + 1 < ramp_pdf.w →
        i.2 + ramp_pdf.h / 2 + 1 < ramp_pdf.h →
        (∃ pt ∈ tested_displacements ramp_pdf.w ramp_pdf.h i,
          (1 / 4 : ℚ) ≤ OverlapPercent (4, 4) pt ∧ OverlapPercent (4, 4) pt ≤ 1 / 2) →
        masked.pix ((i.1 : Int), (i.2 : Int)) = ramp_pdf.pix ((i.1 : Int), (i.2 : Int))) :=
  ⟨by decide!, mask_pdf_spec (OverlapPercent (4, 4)) (1 / 4) (1 / 2) 0 ramp_pdf
    (by decide) (by decide)⟩

theorem triangle_succ (s : Nat) : (s + 1) * (s + 2) / 2 = s * (s + 1) / 2 + (s + 1) := by
  have h : (s + 1) * (s + 2) = s * (s + 1) + 2 * (s + 1) := by ring
  rw [h, Nat.add_mul_div_left _ _ (by norm_num : 0 < 2)]

theorem triangle_mono {s t : Nat} (h : s ≤ t) : s * (s + 1) / 2 ≤ t * (t + 1) / 2 :=
  Nat.div_le_div_right (Nat.mul_le_mul h (by omega))

theorem triangle_lt {s t : Nat} (h : s < t) : s * (s + 1) / 2 + s + 1 ≤ t * (t + 1) / 2 := by
  have h1 : (s + 1) * (s + 2) / 2 ≤ t * (t + 1) / 2 := triangle_mono (show s + 1 ≤ t from h)
  have h2 := triangle_succ s
  omega

theorem triangle_le_self (s : Nat) : s * (s + 1) / 2 ≤ s * (s + 1) := Nat.div_le_self _ _

theorem coefficients_eq (N : Nat) (hN : (N + 1) * (N + 2) < 2 ^ 32) :
    CoefficientsPerDimension N = (N + 1) * (N + 2) / 2 := by
  unfold CoefficientsPerDimension
  rw [Nat.mod_eq_of_lt hN]

theorem index_a_eq (N j k : Nat) (hN : (N + 1) * (N + 2) < 2 ^ 32) (hjk : j + k ≤ N) :
    index_a j k = j + (j + k) * (j + k + 1) / 2 := by
  have h1 : (j + k) * (j + k + 1) ≤ N * (N + 1) := Nat.mul_le_mul hjk (by omega)
  have h2 : N * (N + 1) ≤ (N + 1) * (N + 2) := Nat.mul_le_mul (by omega) (by omega)
  have h3 := triangle_le_self (j + k)
  have h4 := triangle_mono hjk
  have h5 := triangle_succ N
  have h6 : (N + 1) * (N + 2) / 2 ≤ (N + 1) * (N + 2) := Nat.div_le_self _ _
  unfold index_a
  rw [Nat.mod_eq_of_lt (by omega : (j + k) * (j + k + 1) < 2 ^ 32), Nat.mod_eq_of_lt (by omega)]

theorem index_a_lt (N j k : Nat) (hN : (N + 1) * (N + 2) < 2 ^ 32) (hjk : j + k ≤ N) :
    index_a j k < CoefficientsPerDimension N := by
  rw [index_a_eq N j k hN hjk, coefficients_eq N hN]
  have h4 := triangle_mono hjk
  have h5 := triangle_succ N
  omega

theorem index_a_injective (N j k j' k' : Nat) (hN : (N + 1) * (N + 2) < 2 ^ 32)
    (hjk : j + k ≤ N) (hjk' : j' + k' ≤ N) (h : index_a j k = index_a j' k') :
    j = j' ∧ k = k' := by
  rw [index_a_eq N j k hN hjk, index_a_eq N j' k' hN hjk'] at h
  have hs : j + k = j' + k' := by
    rcases Nat.lt_trichotomy (j + k) (j' + k') with h1 | h1 | h1
    · have := triangle_lt h1
      omega
    · exact h1
    · have := triangle_lt h1
      omega
  rw [hs] at h
  omega

theorem index_a_surjective (N : Nat) (hN : (N + 1) * (N + 2) < 2 ^ 32) :
    ∀ i, i < CoefficientsPerDimension N → ∃ j k, j + k ≤ N ∧ index_a j k = i := by
  intro i hi
  rw [coefficients_eq N hN] at hi
  have key : ∀ M, i < (M + 1) * (M + 2) / 2 → ∃ s, s ≤ M ∧ s * (s + 1) / 2 ≤ i ∧
      i < (s + 1) * (s + 2) / 2 := by
    intro M
    induction M with
    | zero => intro h; exact ⟨0, le_refl _, by simp, h⟩
    | succ M ih =>
      intro h
      by_cases hlt : i < (M + 1) * (M + 2) / 2
      · obtain ⟨s, h1, h2, h3⟩ := ih hlt
        exact ⟨s, by omega, h2, h3⟩
      · have h1 : (M + 1) * (M + 2) / 2 ≤ i := by omega
        have h2 : i < (M + 2) * (M + 3) / 2 := h
        exact ⟨M + 1, le_refl _, h1, h2⟩
  obtain ⟨s, h1, h2, h3⟩ := key N hi
  have h4 := triangle_succ s
  refine ⟨i - s * (s + 1) / 2, s - (i - s * (s + 1) / 2), by omega, ?_⟩
  rw [index_a_eq N _ _ hN (by omega)]
  have : i - s * (s + 1) / 2 + (s - (i - s * (s + 1) / 2)) = s := by omega
  rw [this]
  omega

theorem index_b_eq (N j k : Nat) (hN : (N + 1) * (N + 2) < 2 ^ 32) (hjk : j + k ≤ N) :
    index_b N j k = CoefficientsPerDimension N + index_a j k := by
  have h1 := index_a_lt N j k hN hjk
  have h2 := coefficients_eq N hN
  unfold index_b
  rw [Nat.mod_eq_of_lt]
  omega

theorem parameter_length_eq (N : Nat) (hN : (N + 1) * (N + 2) < 2 ^ 32) :
    ParameterVectorLength N = 2 * CoefficientsPerDimension N := by
  rw [coefficients_eq N hN]
  unfold ParameterVectorLength
  rw [Nat.mod_eq_of_lt hN]
  have : 2 ∣ (N + 1) * (N + 2) := by
    have := Nat.even_mul_succ_self (N + 1)
    exact even_iff_two_dvd.mp this
  omega

/-- C15: for a degree `N` whose parameter vector length `(N + 1) * (N + 2)` fits an
`unsigned int`, `index_a` is a bijection from the pairs `(j, k)` with
`j + k <= N` onto `[0, (N + 1)(N + 2) / 2)` and `index_b` is a bijection from
these pairs onto `[(N + 1)(N + 2) / 2, (N + 1)(N + 2))`: the two ranges are
disjoint and cover the parameter vector. -/
theorem index_a_index_b_bijective (N : Nat) (hN : (N + 1) * (N + 2) < 2 ^ 32) :
    CoefficientsPerDimension N = (N + 1) * (N + 2) / 2 ∧
    ParameterVectorLength N = (N + 1) * (N + 2) ∧
    ParameterVectorLength N = 2 * CoefficientsPerDimension N ∧
    (∀ j k, j + k ≤ N → index_a j k = j + (j + k) * (j + k + 1) / 2 ∧
      index_a j k < CoefficientsPerDimension N) ∧
    (∀ j k j' k', j + k ≤ N → j' + k' ≤ N → index_a j k = index_a j' k' → j = j' ∧ k = k') ∧
    (∀ i, i < CoefficientsPerDimension N → ∃ j k, j + k ≤ N ∧ index_a j k = i) ∧
    (∀ j k, j + k ≤ N → index_b N j k = CoefficientsPerDimension N + index_a j k ∧
      CoefficientsPerDimension N ≤ index_b N j k ∧ index_b N j k < ParameterVectorLength N) ∧
    (∀ j k j' k', j + k ≤ N → j' + k' ≤ N → index_b N j k = index_b N j' k' →
      j = j' ∧ k = k') ∧
    (∀ i, CoefficientsPerDimension N ≤ i → i < ParameterVectorLength N →
      ∃ j k, j + k ≤ N ∧ index_b N j k = i) := by
  have hlen := parameter_length_eq N hN
  refine ⟨coefficients_eq N hN, by unfold ParameterVectorLength; exact Nat.mod_eq_of_lt hN,
    hlen, ?_, ?_, index_a_surjective N hN, ?_, ?_, ?_⟩
  · intro j k h
    exact ⟨index_a_eq N j k hN h, index_a_lt N j k hN h⟩
  · intro j k j' k' h h'
    exact index_a_injective N j k j' k' hN h h'
  · intro j k h
    have h1 := index_a_lt N j k hN h
    have h2 := index_b_eq N j k hN h
    exact ⟨h2, by omega, by omega⟩
  · intro j k j' k' h h' e
    rw [index_b_eq N j k hN h, index_b_eq N j' k' hN h'] at e
    exact index_a_injective N j k j' k' hN h h' (by omega)
  · intro i h1 h2
    obtain ⟨j, k, hjk, e⟩ := index_a_surjective N hN (i - CoefficientsPerDimension N) (by omega)
    refine ⟨j, k, hjk, ?_⟩
    rw [index_b_eq N j k hN hjk, e]
    omega

/-- Witness of C15: degree 2 has six coefficients per dimension; `a_{1,1}` is
parameter 4 and `b_{1,1}` is parameter 10 of 12. -/
theorem index_a_index_b_bijective_witness :
    (index_a 1 1 = 4 ∧ index_b 2 1 1 = 10) ∧
    (CoefficientsPerDimension 2 = (2 + 1) * (2 + 2) / 2 ∧
    ParameterVectorLength 2 = (2 + 1) * (2 + 2) ∧
    ParameterVectorLength 2 = 2 * CoefficientsPerDimension 2 ∧
    (∀ j k, j + k ≤ 2 → index_a j k = j + (j + k) * (j + k + 1) / 2 ∧
      index_a j k < CoefficientsPerDimension 2) ∧
    (∀ j k j' k', j + k ≤ 2 → j' + k' ≤ 2 → index_a j k = index_a j' k' → j = j' ∧ k = k') ∧
    (∀ i, i < CoefficientsPerDimension 2 → ∃ j k, j + k ≤ 2 ∧ index_a j k = i) ∧
    (∀ j k, j + k ≤ 2 → index_b 2 j k = CoefficientsPerDimension 2 + index_a j k ∧
      CoefficientsPerDimension 2 ≤ index_b 2 j k ∧ index_b 2 j k < ParameterVectorLength 2) ∧
    (∀ j k j' k', j + k ≤ 2 → j' + k' ≤ 2 → index_b 2 j k = index_b 2 j' k' →
      j = j' ∧ k = k') ∧
    (∀ i, CoefficientsPerDimension 2 ≤ i → i < ParameterVectorLength 2 →
      ∃ j k, j + k ≤ 2 ∧ index_b 2 j k = i)) :=
  ⟨by decide, index_a_index_b_bijective 2 (by norm_num)⟩

theorem index_a_zero : index_a 0 0 = 0 := by decide

theorem index_b_zero (N : Nat) (hN : (N + 1) * (N + 2) < 2 ^ 32) :
    index_b N 0 0 = CoefficientsPerDimension N ∧ 0 < CoefficientsPerDimension N := by
  have h1 := index_b_eq N 0 0 hN (by omega)
  rw [index_a_zero] at h1
  have h2 := coefficients_eq N hN
  have h3 : 2 ≤ (N + 1) * (N + 2) := by nlinarith
  have h4 : 1 ≤ (N + 1) * (N + 2) / 2 := (Nat.le_div_iff_mul_le (by norm_num)).mpr (by omega)
  exact ⟨by omega, by omega⟩

/-- C16: `setup` stores the center of the box in `(uc, vc)`, the normalization
passed in (when both values are non-zero; half the extent of the box otherwise)
in `(Xmax, Ymax)`, `uc / Xmax` in `a_{0,0}` and `vc / Ymax` in `b_{0,0}`, and
leaves every other parameter unchanged. The normalization stored is taken to be
non-zero and the parameter vector length to fit an `unsigned int`. -/
theorem setup_spec (t : LegendrePolynomialTransform) (x_min x_max y_min y_max Xmax Ymax : ℚ)
    (hN : (t.N + 1) * (t.N + 2) < 2 ^ 32)
    (hx : (normalization x_min x_max y_min y_max Xmax Ymax).1 ≠ 0)
    (hy : (normalization x_min x_max y_min y_max Xmax Ymax).2 ≠ 0) :
    ∃ t1, t.setup x_min x_max y_min y_max Xmax Ymax = some t1 ∧
      t1.N = t.N ∧
      t1.GetUc = (x_min + x_max) / 2 ∧ t1.GetVc = (y_min + y_max) / 2 ∧
      (Xmax ≠ 0 ∧ Ymax ≠ 0 → t1.GetXmax = Xmax ∧ t1.GetYmax = Ymax) ∧
      (¬ (Xmax ≠ 0 ∧ Ymax ≠ 0) →
        t1.GetXmax = (x_max - x_min) / 2 ∧ t1.GetYmax = (y_max - y_min) / 2) ∧
      t1.a 0 0 = t1.GetUc / t1.GetXmax ∧ t1.b 0 0 = t1.GetVc / t1.GetYmax ∧
      (∀ i, i ≠ index_a 0 0 → i ≠ index_b t.N 0 0 → t1.m_Parameters i = t.m_Parameters i) ∧
      (∀ i, 4 ≤ i → t1.m_FixedParameters i = t.m_FixedParameters i) := by
  obtain ⟨hb, hpos⟩ := index_b_zero t.N hN
  have hne : index_a 0 0 ≠ index_b t.N 0 0 := by
    rw [index_a_zero, hb]
    omega
  have hs : t.setup x_min x_max y_min y_max Xmax Ymax =
      some { t with
        m_FixedParameters :=
          Function.update (Function.update (Function.update (Function.update
            t.m_FixedParameters 0 ((x_min + x_max) / 2)) 1 ((y_min + y_max) / 2)) 2
            (normalization x_min x_max y_min y_max Xmax Ymax).1) 3
            (normalization x_min x_max y_min y_max Xmax Ymax).2
        m_Parameters :=
          Function.update (Function.update t.m_Parameters (index_a 0 0)
            ((x_min + x_max) / 2 / (normalization x_min x_max y_min y_max Xmax Ymax).1))
            (index_b t.N 0 0)
            ((y_min + y_max) / 2 / (normalization x_min x_max y_min y_max Xmax Ymax).2) } := by
    unfold LegendrePolynomialTransform.setup
    dsimp only
    rw [if_neg (by tauto)]
  refine ⟨_, hs, rfl, ?_, ?_, ?_, ?_, ?_, ?_, ?_, ?_⟩
  · simp [LegendrePolynomialTransform.GetUc, Function.update_apply]
  · simp [LegendrePolynomialTransform.GetVc, Function.update_apply]
  · intro h
    simp [LegendrePolynomialTransform.GetXmax, LegendrePolynomialTransform.GetYmax,
      Function.update_apply, normalization, h]
  · intro h
    simp only [LegendrePolynomialTransform.GetXmax, LegendrePolynomialTransform.GetYmax,
      normalization, if_neg h]
    simp [Function.update_apply]
  · simp only [LegendrePolynomialTransform.a, LegendrePolynomialTransform.GetUc,
      LegendrePolynomialTransform.GetXmax]
    rw [Function.update_noteq hne, Function.update_same]
    simp [Function.update_apply]
  · simp only [LegendrePolynomialTransform.b, LegendrePolynomialTransform.GetVc,
      LegendrePolynomialTransform.GetYmax]
    rw [Function.update_same]
    simp [Function.update_apply]
  · intro i h1 h2
    show Function.update (Function.update t.m_Parameters _ _) _ _ i = _
    rw [Function.update_noteq h2, Function.update_noteq h1]
  · intro i h
    show Function.update (Function.update (Function.update (Function.update
      t.m_FixedParameters _ _) _ _) _ _) _ _ i = _
    rw [Function.update_noteq (by omega), Function.update_noteq (by omega),
      Function.update_noteq (by omega), Function.update_noteq (by omega)]

/-- Witness of C16: `setup` of a degree 2 transform on the box `[0, 4] x [0, 2]`
without normalization parameters: `uc = 2`, `Xmax = 2`, `a00 = 1`. -/
theorem setup_spec_witness :
    ((blank_transform.setup 0 4 0 2 0 0).map
      (fun t => (t.GetUc, t.GetVc, t.GetXmax, t.GetYmax, t.a 0 0, t.b 0 0))) =
        some (2, 1, 2, 1, 1, 1) ∧
    ∃ t1, blank_transform.setup 0 4 0 2 0 0 = some t1 ∧
      t1.N = blank_transform.N ∧
      t1.GetUc = (0 + 4) / 2 ∧ t1.GetVc = (0 + 2) / 2 ∧
      ((0 : ℚ) ≠ 0 ∧ (0 : ℚ) ≠ 0 → t1.GetXmax = 0 ∧ t1.GetYmax = 0) ∧
      (¬ ((0 : ℚ) ≠ 0 ∧ (0 : ℚ) ≠ 0) →
        t1.GetXmax = (4 - 0) / 2 ∧ t1.GetYmax = (2 - 0) / 2) ∧
      t1.a 0 0 = t1.GetUc / t1.GetXmax ∧ t1.b 0 0 = t1.GetVc / t1.GetYmax ∧
      (∀ i, i ≠ index_a 0 0 → i ≠ index_b blank_transform.N 0 0 →
        t1.m_Parameters i = blank_transform.m_Parameters i) ∧
      (∀ i, 4 ≤ i → t1.m_FixedParameters i = blank_transform.m_FixedParameters i) :=
  ⟨by decide!, setup_spec blank_transform 0 4 0 2 0 0 (by decide) (by decide!) (by decide!)⟩

theorem sum_range_two (f : Nat → ℚ) (M : Nat) :
    ((List.range (M + 2)).map f).sum =
      f 0 + (f 1 + ((List.range M).map (fun i => f (i + 2))).sum) := by
  rw [List.range_succ_eq_map, List.map_cons, List.sum_cons, List.range_succ_eq_map,
    List.map_cons, List.map_cons, List.sum_cons, List.map_map, List.map_map]
  rfl

theorem legendre_sum_affine (N : Nat) (c : Nat → Nat → ℚ) (P Q : Nat → ℚ) (hN : 1 ≤ N)
    (hc : ∀ j k, j + k ≤ N → 2 ≤ j + k → c j k = 0) :
    legendre_sum N c P Q = c 0 0 * P 0 * Q 0 + (c 0 1 * P 0 * Q 1 + c 1 0 * P 1 * Q 0) := by
  obtain ⟨M, rfl⟩ : ∃ M, N = M + 1 := ⟨N - 1, by omega⟩
  unfold legendre_sum
  rw [sum_range_two]
  have hrest : ((List.range M).map
      (fun i => ((List.range (i + 2 + 1)).map
        (fun j => c j (i + 2 - j) * P j * Q (i + 2 - j))).sum)).sum = 0 := by
    apply List.sum_eq_zero
    intro x hx
    simp only [List.mem_map, List.mem_range] at hx
    obtain ⟨i, hi, rfl⟩ := hx
    apply List.sum_eq_zero
    intro y hy
    simp only [List.mem_map, List.mem_range] at hy
    obtain ⟨j, hj, rfl⟩ := hy
    rw [hc j (i + 2 - j) (by omega) (by omega)]
    ring
  rw [hrest]
  simp [List.range_succ]

/-- C17: for a transform of degree `N >= 1` set up on a box of non-zero width and
height, with `a_{1,0} = 1`, `b_{0,1} = 1` and every coefficient other than
`a_{0,0}`, `b_{0,0}` zero, the forward map is the identity: `x(u, v) = u` and
`y(u, v) = v` for every point `(u, v)`. -/
theorem identity_polynomial (t0 : LegendrePolynomialTransform)
    (x_min x_max y_min y_max Xmax Ymax : ℚ)
    (hN : (t0.N + 1) * (t0.N + 2) < 2 ^ 32) (hdeg : 1 ≤ t0.N)
    (hw : x_max - x_min ≠ 0) (hh : y_max - y_min ≠ 0) :
    ∃ t1, t0.setup x_min x_max y_min y_max Xmax Ymax = some t1 ∧
      ∀ t : LegendrePolynomialTransform, t.N = t1.N →
        t.m_FixedParameters = t1.m_FixedParameters →
        t.a 0 0 = t1.a 0 0 → t.b 0 0 = t1.b 0 0 → t.a 1 0 = 1 → t.b 0 1 = 1 →
        (∀ j k, j + k ≤ t.N → (j, k) ≠ (0, 0) → (j, k) ≠ (1, 0) → t.a j k = 0) →
        (∀ j k, j + k ≤ t.N → (j, k) ≠ (0, 0) → (j, k) ≠ (0, 1) → t.b j k = 0) →
        ∀ u v : ℚ, t.TransformPoint (u, v) = some (u, v) := by
  have hnx : (normalization x_min x_max y_min y_max Xmax Ymax).1 ≠ 0 := by
    unfold normalization
    split
    · rename_i h; exact h.1
    · exact div_ne_zero hw (by norm_num)
  have hny : (normalization x_min x_max y_min y_max Xmax Ymax).2 ≠ 0 := by
    unfold normalization
    split
    · rename_i h; exact h.2
    · exact div_ne_zero hh (by norm_num)
  obtain ⟨t1, hs, hN1, huc, hvc, -, -, ha, hb, -, -⟩ :=
    setup_spec t0 x_min x_max y_min y_max Xmax Ymax hN hnx hny
  have hX : t1.GetXmax ≠ 0 := by
    have e : t0.setup x_min x_max y_min y_max Xmax Ymax = some t1 := hs
    unfold LegendrePolynomialTransform.setup at e
    dsimp only at e
    rw [if_neg (by tauto)] at e
    have e' := Option.some.inj e
    rw [← e']
    simpa [LegendrePolynomialTransform.GetXmax, Function.update_apply] using hnx
  have hY : t1.GetYmax ≠ 0 := by
    have e : t0.setup x_min x_max y_min y_max Xmax Ymax = some t1 := hs
    unfold LegendrePolynomialTransform.setup at e
    dsimp only at e
    rw [if_neg (by tauto)] at e
    have e' := Option.some.inj e
    rw [← e']
    simpa [LegendrePolynomialTransform.GetYmax, Function.update_apply] using hny
  refine ⟨t1, hs, ?_⟩
  intro t htN hfix ha0 hb0 ha1 hb1 haz hbz u v
  have gX : t.GetXmax = t1.GetXmax := by
    unfold LegendrePolynomialTransform.GetXmax; rw [hfix]
  have gY : t.GetYmax = t1.GetYmax := by
    unfold LegendrePolynomialTransform.GetYmax; rw [hfix]
  have gU : t.GetUc = t1.GetUc := by
    unfold LegendrePolynomialTransform.GetUc; rw [hfix]
  have gV : t.GetVc = t1.GetVc := by
    unfold LegendrePolynomialTransform.GetVc; rw [hfix]
  have hdeg' : 1 ≤ t.N := by rw [htN, hN1]; exact hdeg
  unfold LegendrePolynomialTransform.TransformPoint
  rw [if_neg (by rw [gX, gY]; tauto)]
  dsimp only
  rw [legendre_sum_affine t.N t.a _ _ hdeg'
      (fun j k h1 h2 => haz j k h1 (by intro e; simp only [Prod.mk.injEq] at e; omega)
        (by intro e; simp only [Prod.mk.injEq] at e; omega)),
    legendre_sum_affine t.N t.b _ _ hdeg'
      (fun j k h1 h2 => hbz j k h1 (by intro e; simp only [Prod.mk.injEq] at e; omega)
        (by intro e; simp only [Prod.mk.injEq] at e; omega))]
  rw [haz 0 1 (by omega) (by simp) (by simp), hbz 1 0 (by omega) (by simp) (by simp),
    ha0, hb0, ha1, hb1, ha, hb, gX, gY, gU, gV]
  simp only [Legendre]
  congr 1
  rw [Prod.mk.injEq]
  constructor
  · field_simp
  · field_simp

/-- Witness of C17: the identity polynomial of degree 2 on the box `[0, 4] x [0, 2]`
maps the point `(3, 1/2)` to itself. -/
theorem identity_polynomial_witness :
    LegendrePolynomialTransform.TransformPoint ⟨2, fun i => if i = 0 ∨ i = 2 then 2 else 1,
      identity_parameters⟩ (3, 1 / 2) = some (3, 1 / 2) ∧
    ∃ t1, blank_transform.setup 0 4 0 2 0 0 = some t1 ∧
      ∀ t : LegendrePolynomialTransform, t.N = t1.N →
        t.m_FixedParameters = t1.m_FixedParameters →
        t.a 0 0 = t1.a 0 0 → t.b 0 0 = t1.b 0 0 → t.a 1 0 = 1 → t.b 0 1 = 1 →
        (∀ j k, j + k ≤ t.N → (j, k) ≠ (0, 0) → (j, k) ≠ (1, 0) → t.a j k = 0) →
        (∀ j k, j + k ≤ t.N → (j, k) ≠ (0, 0) → (j, k) ≠ (0, 1) → t.b j k = 0) →
        ∀ u v : ℚ, t.TransformPoint (u, v) = some (u, v) :=
  ⟨by decide!, identity_polynomial blank_transform 0 4 0 2 0 0 (by decide) (by decide)
    (by norm_num) (by norm_num)⟩

theorem newton_loop_stop (usrfun : nonlinear_system_evaluator_t)
    (solve : List (List ℚ) → List ℚ → List ℚ) (n : Nat) (tolx tolf : ℚ) (trials : Nat)
    (x : List ℚ) (evals : Nat) (h : residual usrfun n x ≤ tolf) :
    newton_loop usrfun solve n tolx tolf (trials + 1) x evals = (x, evals + 1) := by
  have h' : error_sum n (usrfun x).1 ≤ tolf := h
  show (if error_sum n (usrfun x).1 ≤ tolf then (x, evals + 1) else _) = _
  rw [if_pos h']

theorem newton_loop_step (usrfun : nonlinear_system_evaluator_t)
    (solve : List (List ℚ) → List ℚ → List ℚ) (n : Nat) (tolx tolf : ℚ) (trials : Nat)
    (x : List ℚ) (evals : Nat) (h : ¬ residual usrfun n x ≤ tolf) :
    newton_loop usrfun solve n tolx tolf (trials + 1) x evals =
      if step_size usrfun solve n x ≤ tolx then (newton_next usrfun solve n x, evals + 1)
      else newton_loop usrfun solve n tolx tolf trials (newton_next usrfun solve n x)
        (evals + 1) := by
  have h' : ¬ error_sum n (usrfun x).1 ≤ tolf := h
  show (if error_sum n (usrfun x).1 ≤ tolf then (x, evals + 1) else _) = _
  rw [if_neg h']
  rfl

theorem numeric_inverse_returns_true (eval : nonlinear_system_evaluator_t)
    (solve : List (List ℚ) → List ℚ → List ℚ) (y x : List ℚ) (x_is_initialized : Bool)
    (r : Bool × List ℚ × Nat)
    (h : NumericInverse.transform eval solve y x x_is_initialized = some r) : r.1 = true := by
  unfold NumericInverse.transform at h
  dsimp only at h
  generalize (if (!x_is_initialized) = true then y else x) = x0 at h
  by_cases hl : y.length < x0.length
  · rw [if_pos hl] at h
    exact absurd h (by simp)
  · rw [if_neg hl] at h
    rw [← Option.some.inj h]
    rfl

/-- C19 fails on the code: for the transform `(u, v) -> (u^3 - 2 u + 2, v)` of
degree 3 and the point `y = (0, 0)` the iteration alternates between `(0, 0)`
and `(1, 0)`; no residual and no step meets the tolerance in 50 iterations,
yet `NumericInverse::transform` returns `true`, with the point `(0, 0)`, whose
image is `(2, 0)`; `BackTransformPoint` returns that point and throws nothing.
No call of `NumericInverse::transform` returns `false`. -/
theorem numeric_inverse_reports_no_failure :
    NumericInverse.transform cubic_transform.eval svd_solve [0, 0] [] false =
      some (true, [0, 0], 50) ∧
    (∀ k, k < 50 →
      1 / 10 ^ 12 < residual (NumericInverse.call cubic_transform.eval [0, 0]) 2
        (newton_iterate (NumericInverse.call cubic_transform.eval [0, 0]) svd_solve 2 [0, 0] k) ∧
      1 / 10 ^ 12 < step_size (NumericInverse.call cubic_transform.eval [0, 0]) svd_solve 2
        (newton_iterate (NumericInverse.call cubic_transform.eval [0, 0]) svd_solve 2 [0, 0] k)) ∧
    cubic_transform.BackTransformPoint svd_solve (0, 0) = some (0, 0) ∧
    cubic_transform.TransformPoint (0, 0) = some (2, 0) ∧
    (∀ (eval : nonlinear_system_evaluator_t) (solve : List (List ℚ) → List ℚ → List ℚ)
      (y x : List ℚ) (x_is_initialized : Bool) (r : Bool × List ℚ × Nat),
      NumericInverse.transform eval solve y x x_is_initialized = some r → r.1 = true) := by
  refine ⟨by decide!, ?_, by decide!, by decide!, numeric_inverse_returns_true⟩
  decide!

theorem error_sum_two (a b : ℚ) : error_sum 2 [a, b] = fabs a + fabs b := by
  simp [error_sum, List.range_succ]

theorem fabs_zero : fabs 0 = 0 := by
  simp [fabs]

theorem newton_loop_affine (usrfun : nonlinear_system_evaluator_t)
    (solve : List (List ℚ) → List ℚ → List ℚ) (J11 J12 J21 J22 c1 c2 tol : ℚ)
    (htol : 0 ≤ tol) (hdet : J11 * J22 - J12 * J21 ≠ 0)
    (husr : ∀ p q, usrfun [p, q] =
      ([c1 + J11 * p + J12 * q, c2 + J21 * p + J22 * q], [[J11, J12], [J21, J22]]))
    (hsolve : ∀ r s, solve [[J11, J12], [J21, J22]] [r, s] =
      [(r * J22 - J12 * s) / (J11 * J22 - J12 * J21),
       (J11 * s - J21 * r) / (J11 * J22 - J12 * J21)])
    (x1 x2 : ℚ) (hroot1 : c1 + J11 * x1 + J12 * x2 = 0) (hroot2 : c2 + J21 * x1 + J22 * x2 = 0)
    (p q : ℚ) (trials : Nat) :
    (newton_loop usrfun solve 2 tol tol (trials + 2) [p, q] 0).1 = [x1, x2] ∨
    ((newton_loop usrfun solve 2 tol tol (trials + 2) [p, q] 0).1 = [p, q] ∧
      residual usrfun 2 [p, q] ≤ tol) := by
  have hnext : newton_next usrfun solve 2 [p, q] = [x1, x2] := by
    have hc1 : c1 = -(J11 * x1) - J12 * x2 := by linarith
    have hc2 : c2 = -(J21 * x1) - J22 * x2 := by linarith
    simp only [newton_next, newton_step, husr, List.range_succ, List.range_zero, List.nil_append,
      List.map_cons, List.map_nil, List.cons_append, List.getD_cons_zero, List.getD_cons_succ,
      hsolve]
    subst hc1 hc2
    congr 1
    · field_simp
      ring
    · congr 1
      field_simp
      ring
  have hres : residual usrfun 2 [x1, x2] ≤ tol := by
    unfold residual
    rw [husr, hroot1, hroot2, error_sum_two, fabs_zero]
    simpa using htol
  by_cases h1 : residual usrfun 2 [p, q] ≤ tol
  · right
    rw [newton_loop_stop usrfun solve 2 tol tol (trials + 1) [p, q] 0 h1]
    exact ⟨rfl, h1⟩
  · left
    rw [newton_loop_step usrfun solve 2 tol tol (trials + 1) [p, q] 0 h1, hnext]
    split
    · rfl
    · rw [newton_loop_stop usrfun solve 2 tol tol trials [x1, x2] (0 + 1) hres]

theorem legendre_eval_affine (t : LegendrePolynomialTransform) (hdeg : 1 ≤ t.N)
    (hz : ∀ j k, j + k ≤ t.N → 2 ≤ j + k → t.a j k = 0 ∧ t.b j k = 0) (u v : ℚ) :
    t.eval [u, v] =
      ([t.GetXmax * (t.a 0 0 + (t.a 0 1 * ((v - t.GetVc) / t.GetYmax) +
          t.a 1 0 * ((u - t.GetUc) / t.GetXmax))),
        t.GetYmax * (t.b 0 0 + (t.b 0 1 * ((v - t.GetVc) / t.GetYmax) +
          t.b 1 0 * ((u - t.GetUc) / t.GetXmax)))],
       [[t.a 1 0, t.GetXmax * t.a 0 1 / t.GetYmax],
        [t.GetYmax * t.b 1 0 / t.GetXmax, t.b 0 1]]) := by
  unfold LegendrePolynomialTransform.eval
  dsimp only
  rw [legendre_sum_affine t.N t.a _ _ hdeg (fun j k h1 h2 => (hz j k h1 h2).1),
    legendre_sum_affine t.N t.b _ _ hdeg (fun j k h1 h2 => (hz j k h1 h2).2),
    legendre_sum_affine t.N t.a _ _ hdeg (fun j k h1 h2 => (hz j k h1 h2).1),
    legendre_sum_affine t.N t.b _ _ hdeg (fun j k h1 h2 => (hz j k h1 h2).2),
    legendre_sum_affine t.N t.a _ _ hdeg (fun j k h1 h2 => (hz j k h1 h2).1),
    legendre_sum_affine t.N t.b _ _ hdeg (fun j k h1 h2 => (hz j k h1 h2).2)]
  simp [Legendre, Legendre_derivative]

theorem legendre_transform_affine (t : LegendrePolynomialTransform) (hdeg : 1 ≤ t.N)
    (hX : t.GetXmax ≠ 0) (hY : t.GetYmax ≠ 0)
    (hz : ∀ j k, j + k ≤ t.N → 2 ≤ j + k → t.a j k = 0 ∧ t.b j k = 0) (u v : ℚ) :
    t.TransformPoint (u, v) =
      some (t.GetXmax * (t.a 0 0 + (t.a 0 1 * ((v - t.GetVc) / t.GetYmax) +
          t.a 1 0 * ((u - t.GetUc) / t.GetXmax))),
        t.GetYmax * (t.b 0 0 + (t.b 0 1 * ((v - t.GetVc) / t.GetYmax) +
          t.b 1 0 * ((u - t.GetUc) / t.GetXmax)))) := by
  unfold LegendrePolynomialTransform.TransformPoint
  rw [if_neg (by tauto)]
  dsimp only
  rw [legendre_sum_affine t.N t.a _ _ hdeg (fun j k h1 h2 => (hz j k h1 h2).1),
    legendre_sum_affine t.N t.b _ _ hdeg (fun j k h1 h2 => (hz j k h1 h2).2)]
  simp [Legendre]

theorem numeric_inverse_transform_eq (eval : nonlinear_system_evaluator_t)
    (solve : List (List ℚ) → List ℚ → List ℚ) (y x : List ℚ) :
    NumericInverse.transform eval solve y x false =
      some (true,
        (newton_loop (NumericInverse.call eval y) solve y.length (1 / 10 ^ 12) (1 / 10 ^ 12)
          50 y 0).1,
        (newton_loop (NumericInverse.call eval y) solve y.length (1 / 10 ^ 12) (1 / 10 ^ 12)
          50 y 0).2) := by
  unfold NumericInverse.transform NewtonRaphson
  simp

theorem affine_call_form (X Y uc vc a00 a01 a10 b00 b01 b10 y1 y2 : ℚ)
    (hX : X ≠ 0) (hY : Y ≠ 0) (p q : ℚ) :
    ([X * (a00 + (a01 * ((q - vc) / Y) + a10 * ((p - uc) / X))) - y1,
      Y * (b00 + (b01 * ((q - vc) / Y) + b10 * ((p - uc) / X))) - y2] : List ℚ) =
    [(X * a00 - X * a01 * vc / Y - a10 * uc - y1) + a10 * p + (X * a01 / Y) * q,
     (Y * b00 - b01 * vc - Y * b10 * uc / X - y2) + (Y * b10 / X) * p + b01 * q] := by
  congr 1
  · field_simp
    ring
  · congr 1
    field_simp
    ring

/-- In the model over the rationals, where no step rounds: for a transform with
non-zero normalization whose coefficients of total degree 2 and more are zero
and whose linear part is invertible (`a10 b01 - a01 b10 != 0`), and a linear
solver that solves non-singular systems of two equations, the modelled
`BackTransformPoint` applied to `TransformPoint x` returns a point for every
`x`: the point `x` itself, or the seed `y = Transform(x)` when the seed already
meets the residual bound `|Transform(y) - y| <= 1e-12`. -/
theorem back_transform_affine (solve : List (List ℚ) → List ℚ → List ℚ)
    (hsolve : ∀ a b c d r s : ℚ, a * d - b * c ≠ 0 →
      solve [[a, b], [c, d]] [r, s] =
        [(r * d - b * s) / (a * d - b * c), (a * s - c * r) / (a * d - b * c)])
    (t : LegendrePolynomialTransform) (hdeg : 1 ≤ t.N)
    (hX : t.GetXmax ≠ 0) (hY : t.GetYmax ≠ 0)
    (hz : ∀ j k, j + k ≤ t.N → 2 ≤ j + k → t.a j k = 0 ∧ t.b j k = 0)
    (hdet : t.a 1 0 * t.b 0 1 - t.a 0 1 * t.b 1 0 ≠ 0) (x : ℚ × ℚ) :
    ∃ y, t.TransformPoint x = some y ∧
      ∃ x1, t.BackTransformPoint solve y = some x1 ∧
        (x1 = x ∨
          (x1 = y ∧ ∃ z, t.TransformPoint y = some z ∧
            fabs (z.1 - y.1) + fabs (z.2 - y.2) ≤ 1 / 10 ^ 12)) := by
  obtain ⟨u, v⟩ := x
  refine ⟨_, legendre_transform_affine t hdeg hX hY hz u v, ?_⟩
  generalize hy1 : t.GetXmax * (t.a 0 0 + (t.a 0 1 * ((v - t.GetVc) / t.GetYmax) +
    t.a 1 0 * ((u - t.GetUc) / t.GetXmax))) = y1
  generalize hy2 : t.GetYmax * (t.b 0 0 + (t.b 0 1 * ((v - t.GetVc) / t.GetYmax) +
    t.b 1 0 * ((u - t.GetUc) / t.GetXmax))) = y2
  have husr : ∀ p q, NumericInverse.call t.eval [y1, y2] [p, q] =
      ([(t.GetXmax * t.a 0 0 - t.GetXmax * t.a 0 1 * t.GetVc / t.GetYmax - t.a 1 0 * t.GetUc -
            y1) + t.a 1 0 * p + (t.GetXmax * t.a 0 1 / t.GetYmax) * q,
        (t.GetYmax * t.b 0 0 - t.b 0 1 * t.GetVc - t.GetYmax * t.b 1 0 * t.GetUc / t.GetXmax -
            y2) + (t.GetYmax * t.b 1 0 / t.GetXmax) * p + t.b 0 1 * q],
       [[t.a 1 0, t.GetXmax * t.a 0 1 / t.GetYmax],
        [t.GetYmax * t.b 1 0 / t.GetXmax, t.b 0 1]]) := by
    intro p q
    unfold NumericInverse.call
    rw [legendre_eval_affine t hdeg hz p q]
    simp only [List.length_cons, List.length_nil, List.range_succ, List.range_zero,
      List.nil_append, List.cons_append, List.map_cons, List.map_nil, List.getD_cons_zero,
      List.getD_cons_succ, zero_add]
    rw [affine_call_form _ _ _ _ _ _ _ _ _ _ _ _ hX hY]
  have hdet1 : t.a 1 0 * t.b 0 1 -
      (t.GetXmax * t.a 0 1 / t.GetYmax) * (t.GetYmax * t.b 1 0 / t.GetXmax) ≠ 0 := by
    have e : (t.GetXmax * t.a 0 1 / t.GetYmax) * (t.GetYmax * t.b 1 0 / t.GetXmax) =
        t.a 0 1 * t.b 1 0 := by
      field_simp
      ring
    rw [e]
    exact hdet
  have hroot1 : (t.GetXmax * t.a 0 0 - t.GetXmax * t.a 0 1 * t.GetVc / t.GetYmax -
      t.a 1 0 * t.GetUc - y1) + t.a 1 0 * u + (t.GetXmax * t.a 0 1 / t.GetYmax) * v = 0 := by
    rw [← hy1]
    field_simp
    ring
  have hroot2 : (t.GetYmax * t.b 0 0 - t.b 0 1 * t.GetVc -
      t.GetYmax * t.b 1 0 * t.GetUc / t.GetXmax - y2) + (t.GetYmax * t.b 1 0 / t.GetXmax) * u +
      t.b 0 1 * v = 0 := by
    rw [← hy2]
    field_simp
    ring
  have hloop : (newton_loop (NumericInverse.call t.eval [y1, y2]) solve 2 (1 / 10 ^ 12)
        (1 / 10 ^ 12) 50 [y1, y2] 0).1 = [u, v] ∨
      ((newton_loop (NumericInverse.call t.eval [y1, y2]) solve 2 (1 / 10 ^ 12)
        (1 / 10 ^ 12) 50 [y1, y2] 0).1 = [y1, y2] ∧
        residual (NumericInverse.call t.eval [y1, y2]) 2 [y1, y2] ≤ 1 / 10 ^ 12) :=
    newton_loop_affine (NumericInverse.call t.eval [y1, y2]) solve _ _ _ _ _ _
      (1 / 10 ^ 12) (by norm_num) hdet1 husr (fun r s => hsolve _ _ _ _ r s hdet1) u v
      hroot1 hroot2 y1 y2 48
  have hback : ∀ l : List ℚ,
      (newton_loop (NumericInverse.call t.eval [y1, y2]) solve 2 (1 / 10 ^ 12)
        (1 / 10 ^ 12) 50 [y1, y2] 0).1 = l →
      t.BackTransformPoint solve (y1, y2) =
        match l with
        | [x0, x1] => some (x0, x1)
        | _ => none := by
    intro l hl
    unfold LegendrePolynomialTransform.BackTransformPoint
    rw [if_neg (by tauto), numeric_inverse_transform_eq]
    dsimp only [List.length_cons, List.length_nil]
    rw [show (0 + 1 + 1 : Nat) = 2 from rfl, hl]
    cases l with
    | nil => rfl
    | cons a l =>
      cases l with
      | nil => rfl
      | cons b l =>
        cases l with
        | nil => rfl
        | cons c l => rfl
  rcases hloop with h | ⟨h, hres⟩
  · exact ⟨(u, v), hback _ h, Or.inl rfl⟩
  · refine ⟨(y1, y2), hback _ h,
      Or.inr ⟨rfl, _, legendre_transform_affine t hdeg hX hY hz y1 y2, ?_⟩⟩
    unfold residual at hres
    rw [husr, error_sum_two] at hres
    have e := affine_call_form t.GetXmax t.GetYmax t.GetUc t.GetVc (t.a 0 0) (t.a 0 1) (t.a 1 0)
      (t.b 0 0) (t.b 0 1) (t.b 1 0) y1 y2 hX hY y1 y2
    simp only [List.cons.injEq, and_true] at e
    rw [← e.1, ← e.2] at hres
    exact hres

/-- In the model over the rationals: the invertible transform
`(u, v) -> (u / 100000, v)` of degree 2 on the box `[-1, 1] x [-1, 1]` maps the
point `x = (5e-8, 0)` of the box to `y = (5e-13, 0)`; the seed `y` meets the
residual bound of `NewtonRaphson` at the first evaluation, so the modelled
`BackTransformPoint` returns `y`, which is farther than `1e-8` from `x`. -/
theorem back_transform_not_within_tolerance :
    (blank_transform.setup (-1) 1 (-1) 1 0 0).map
        (fun t => (t.GetUc, t.GetVc, t.GetXmax, t.GetYmax, t.a 0 0, t.b 0 0)) =
      some (flat_transform.GetUc, flat_transform.GetVc, flat_transform.GetXmax,
        flat_transform.GetYmax, flat_transform.a 0 0, flat_transform.b 0 0) ∧
    flat_transform.TransformPoint (1 / 20000000, 0) = some (1 / 2000000000000, 0) ∧
    flat_transform.BackTransformPoint svd_solve (1 / 2000000000000, 0) =
      some (1 / 2000000000000, 0) ∧
    ¬ (fabs (1 / 2000000000000 - 1 / 20000000) ≤ 1 / 10 ^ 8) := by
  refine ⟨by decide!, by decide!, by decide!, by decide!⟩

theorem svd_solve_nonsingular (a b c d r s : ℚ) (h : a * d - b * c ≠ 0) :
    svd_solve [[a, b], [c, d]] [r, s] =
      [(r * d - b * s) / (a * d - b * c), (a * s - c * r) / (a * d - b * c)] := by
  simp [svd_solve, h]

/-- An instance of `back_transform_affine`: the transform
`(u, v) -> (u / 100000, v)` and the point `(1/2, 1/3)`, which the modelled
`BackTransformPoint` recovers. -/
theorem back_transform_affine_witness :
    flat_transform.BackTransformPoint svd_solve (1 / 200000, 1 / 3) = some (1 / 2, 1 / 3) ∧
    ∃ y, flat_transform.TransformPoint (1 / 2, 1 / 3) = some y ∧
      ∃ x1, flat_transform.BackTransformPoint svd_solve y = some x1 ∧
        (x1 = (1 / 2, 1 / 3) ∨
          (x1 = y ∧ ∃ z, flat_transform.TransformPoint y = some z ∧
            fabs (z.1 - y.1) + fabs (z.2 - y.2) ≤ 1 / 10 ^ 12)) :=
  ⟨by decide!,
    back_transform_affine svd_solve svd_solve_nonsingular flat_transform (by decide)
      (by decide!) (by decide!)
      (by
        intro j k h1 h2
        have h1 : j + k ≤ 2 := h1
        have hk : k = 2 - j := by omega
        subst hk
        have hj : j ≤ 2 := by omega
        interval_cases j <;> decide!)
      (by decide!) (1 / 2, 1 / 3)⟩

/-- C12 fails on the code: the 3 by 6 field `hook_image` holds one cluster of six
pixels with centroid `(7/6, 7/3)`; shifted cyclically by `(1, 0)` the cluster is
broken across the boundary in `x` only, but the periodic pass also shifts the
pixel `(0, 4)` by the height, to `(3, -2)`, and the centroid returned is
`(13/6, 4/3)`: the `y` coordinate differs from `7/3` by 1, not by a multiple of
the height 6. -/
theorem find_maxima_cm_shift_centroid :
    find_maxima_cm [] hook_image (1 / 2) = some (1, [⟨1, 7 / 6, 7 / 3, 6⟩]) ∧
    find_maxima_cm [] (cyclic_shift hook_image 1 0) (1 / 2) =
      some (1, [⟨1, 13 / 6, 4 / 3, 6⟩]) ∧
    (13 / 6 : ℚ) - (7 / 6 + 1) = 0 ∧
    ¬ ∃ k : Int, (4 / 3 : ℚ) - (7 / 3 + 0) = (k : ℚ) * 6 := by
  refine ⟨by decide!, by decide!, by norm_num, ?_⟩
  rintro ⟨k, hk⟩
  have h : ((6 * k : Int) : ℚ) = ((-1 : Int) : ℚ) := by
    push_cast
    linarith
  have h2 : 6 * k = -1 := by exact_mod_cast h
  omega

theorem find_maxima_cm_ieee_no_peaks (max_list : List local_max_t) (image : ieee_image_t)
    (percentage : ℚ) (h : no_peaks (value_range image) = true) :
    find_maxima_cm_ieee max_list image percentage = some (0, max_list) := by
  unfold find_maxima_cm_ieee
  rw [if_pos h]

/-- C11 fails on the code: a field whose range is zero, NaN or plus infinity is
answered with 0 and the list as passed in, but on a field all of whose pixels
are NaN the scan leaves `v_min = DBL_MAX` and `v_max = -DBL_MAX`, the range is
minus infinity, the test of the range does not hold, and the function goes on
to the histogram, where the NaN is converted to an index. -/
theorem find_maxima_cm_nan_field :
    (∀ (max_list : List local_max_t) (image : ieee_image_t) (percentage : ℚ),
      (value_range image = .finite 0 ∨ value_range image = .nan ∨
        value_range image = .pos_inf) →
      find_maxima_cm_ieee max_list image percentage = some (0, max_list)) ∧
    ieee_min_max nan_image = (.finite DBL_MAX, .finite (-DBL_MAX)) ∧
    value_range nan_image = .neg_inf ∧
    no_peaks (value_range nan_image) = false ∧
    find_maxima_cm_ieee [] nan_image (1 / 2) = none := by
  refine ⟨?_, by decide!, by decide!, by decide!, by decide!⟩
  intro max_list image percentage h
  apply find_maxima_cm_ieee_no_peaks
  rcases h with h | h | h <;> rw [h] <;> decide

theorem std_min_finite (a b : ℚ) : std_min (.finite a) (.finite b) = .finite (min a b) := by
  unfold std_min double_t.lt
  by_cases h : b < a
  · simp [h, min_eq_right (le_of_lt h)]
  · simp [h, min_eq_left (not_lt.mp h)]

theorem std_max_finite (a b : ℚ) : std_max (.finite a) (.finite b) = .finite (max a b) := by
  unfold std_max double_t.lt
  by_cases h : a < b
  · simp [h, max_eq_right (le_of_lt h)]
  · simp [h, max_eq_left (not_lt.mp h)]

theorem ieee_min_max_fold (image : ieee_image_t) (pix : index_t → ℚ) :
    ∀ (l : List (Nat × Nat)),
      (∀ p ∈ l, image.pix ((p.1 : Int), (p.2 : Int)) = .finite (pix ((p.1 : Int), (p.2 : Int)))) →
      ∀ a b : ℚ,
        l.foldl
          (fun (a : double_t × double_t) p =>
            (std_min a.1 (image.pix (p.1, p.2)), std_max a.2 (image.pix (p.1, p.2))))
          (.finite a, .finite b) =
        (.finite (l.foldl
            (fun (a : ℚ × ℚ) p => (min a.1 (pix (p.1, p.2)), max a.2 (pix (p.1, p.2))))
            (a, b)).1,
          .finite (l.foldl
            (fun (a : ℚ × ℚ) p => (min a.1 (pix (p.1, p.2)), max a.2 (pix (p.1, p.2))))
            (a, b)).2) := by
  intro l
  induction l with
  | nil => intro _ a b; rfl
  | cons p l ih =>
    intro hl a b
    rw [List.foldl_cons, List.foldl_cons]
    dsimp only
    rw [hl p (List.mem_cons_self _ _), std_min_finite, std_max_finite]
    exact ih (fun q hq => hl q (List.mem_cons_of_mem _ hq)) _ _

theorem ieee_min_max_finite (image : ieee_image_t) (finite : itk_image_t)
    (h : finite_image image = some finite) :
    ieee_min_max image =
      (.finite (image_min_max finite).1, .finite (image_min_max finite).2) := by
  unfold finite_image at h
  split at h
  · rename_i hall
    simp only [Option.some.injEq] at h
    subst h
    refine ieee_min_max_fold image
      (fun p => match image.pix p with
        | .finite v => v
        | _ => 0) (region image.w image.h) ?_ DBL_MAX (-DBL_MAX)
    intro p hp
    have := List.all_eq_true.mp hall p hp
    cases hpix : image.pix ((p.1 : Int), (p.2 : Int)) with
    | finite v => simp only [hpix]
    | pos_inf => rw [hpix] at this; exact absurd this (by decide)
    | neg_inf => rw [hpix] at this; exact absurd this (by decide)
    | nan => rw [hpix] at this; exact absurd this (by decide)
  · exact Option.noConfusion h

theorem sub_finite (a b : ℚ) :
    double_t.sub (.finite a) (.finite b) =
      if DBL_MAX < a - b then .pos_inf
      else if a - b < -DBL_MAX then .neg_inf
      else .finite (a - b) := rfl

theorem value_range_finite (image : ieee_image_t) (finite : itk_image_t) (v : ℚ)
    (h : finite_image image = some finite) (hv : value_range image = .finite v) :
    (image_min_max finite).2 - (image_min_max finite).1 = v := by
  unfold value_range at hv
  rw [ieee_min_max_finite image finite h, sub_finite] at hv
  split at hv
  · exact double_t.noConfusion hv
  · split at hv
    · exact double_t.noConfusion hv
    · exact double_t.finite.inj hv

/-- C10 (amended): for a field whose range is zero, NaN or plus infinity
`find_maxima_cm` returns 0 before the sort, with the list as it was passed in.
For a field of finite values whose range is finite and not zero it returns, and
the list returned holds the records passed in and the records appended, ordered
by value in non-increasing order, so that no record has a greater value than
the first one; so it is for the 4 by 3 field with the value 1 at its corners,
called with the list `[0.1, 0.9]`. -/
theorem find_maxima_cm_sorted (max_list : List local_max_t) (image : ieee_image_t)
    (percentage : ℚ) :
    ((value_range image = .finite 0 ∨ value_range image = .nan ∨
        value_range image = .pos_inf) →
      find_maxima_cm_ieee max_list image percentage = some (0, max_list)) ∧
    (∀ (finite : itk_image_t) (v : ℚ), finite_image image = some finite →
      value_range image = .finite v → v ≠ 0 →
      find_maxima_cm_ieee max_list image percentage =
        find_maxima_cm max_list finite percentage ∧
      ∃ (records l : List local_max_t),
        find_maxima_cm_ieee max_list image percentage = some (records.length, l) ∧
        l.Perm (max_list ++ records) ∧
        l.Sorted local_max_t.ge ∧
        ∀ a b, l.head? = some a → b ∈ l → b.value_ ≤ a.value_) ∧
    (find_maxima_cm_ieee [⟨1 / 10, 0, 0, 1⟩, ⟨9 / 10, 1, 1, 1⟩] (ieee_of corner_image)
        (1 / 2)).map (fun r => (r.1, r.2.map local_max_t.value_)) =
      some (1, [1, 9 / 10, 1 / 10]) := by
  refine ⟨?_, ?_, by decide!⟩
  · intro h
    apply find_maxima_cm_ieee_no_peaks
    rcases h with h | h | h <;> rw [h] <;> decide
  · intro finite v hfin hv hne
    have hrng := value_range_finite image finite v hfin hv
    have heq : find_maxima_cm_ieee max_list image percentage =
        find_maxima_cm max_list finite percentage := by
      unfold find_maxima_cm_ieee
      rw [hv, hfin]
      have : no_peaks (.finite v) = false := by
        unfold no_peaks
        simpa using hne
      rw [this]
      rfl
    refine ⟨heq, ?_⟩
    obtain ⟨records, l, h1, h2, h3, _⟩ := find_maxima_cm_sorted_rational max_list finite percentage
    obtain ⟨h4, h5⟩ := h3 (by rw [hrng]; exact hne)
    exact ⟨records, l, by rw [heq, h1], h2, h4, h5⟩

theorem skip_pending_spec :
    ∀ (queue : List the_transaction_t) (thread : the_thread_interface_t),
      skip_pending queue thread =
        { thread with
          transactions_ := if queue = [] then thread.transactions_ else []
          notified := thread.notified ++ queue.map (fun t => (t, state_t.SKIPPED_E)) } := by
  intro queue
  induction queue with
  | nil => intro thread; simp [skip_pending]
  | cons t rest ih =>
    intro thread
    rw [skip_pending, ih]
    cases rest with
    | nil => simp [notify]
    | cons u rest => simp [notify]

theorem skip_pending_queue (thread : the_thread_interface_t) :
    skip_pending thread.transactions_ thread =
      { thread with
        transactions_ := []
        notified := thread.notified ++
          thread.transactions_.map (fun t => (t, state_t.SKIPPED_E)) } := by
  rw [skip_pending_spec]
  cases h : thread.transactions_ with
  | nil => simp [h]
  | cons t rest => simp

theorem run_transaction_quiet (env : thread_env) (thread : the_thread_interface_t)
    (t : the_transaction_t) (h : (env.execute t).calls = []) :
    run_transaction env thread t =
      { thread with notified := thread.notified ++ executed_trace env t } := by
  unfold run_transaction executed_trace
  rw [h]
  by_cases ht : (env.execute t).throws = true
  · simp [ht, notify]
  · simp [ht, notify]

theorem run_transaction_stop (env : thread_env) (thread : the_thread_interface_t)
    (t : the_transaction_t) (h : (env.execute t).calls = [thread_call.stop])
    (hs : thread.stopped_ = false) :
    run_transaction env thread t =
      { thread with
        stopped_ := true
        notified := thread.notified ++ executed_trace env t } := by
  unfold run_transaction executed_trace
  rw [h]
  by_cases ht : (env.execute t).throws = true
  · simp [ht, notify, apply_call, the_thread_interface_t.stop, hs]
  · simp [ht, notify, apply_call, the_thread_interface_t.stop, hs]

theorem work_loop_quiet (env : thread_env) :
    ∀ (queue : List the_transaction_t) (fuel : Nat)
      (notified : List (the_transaction_t × state_t)),
      (∀ t ∈ queue, (env.execute t).calls = []) → queue.length + 1 ≤ fuel →
      work_loop env fuel ⟨queue, false, false, false, notified⟩ =
        some ⟨[], false, false, false, notified ++ queue.flatMap (executed_trace env)⟩ := by
  intro queue
  induction queue with
  | nil =>
    intro fuel notified _ hf
    obtain ⟨f, rfl⟩ : ∃ f, fuel = f + 1 := ⟨fuel - 1, by simp at hf; omega⟩
    unfold work_loop
    simp
  | cons t rest ih =>
    intro fuel notified hc hf
    obtain ⟨f, rfl⟩ : ∃ f, fuel = f + 1 := ⟨fuel - 1, by simp at hf; omega⟩
    unfold work_loop
    simp only [Bool.false_eq_true, if_false]
    rw [run_transaction_quiet env _ t (hc t (List.mem_cons_self _ _))]
    dsimp only
    rw [ih f _ (fun u hu => hc u (List.mem_cons_of_mem _ hu)) (by simp at hf ⊢; omega)]
    simp [List.flatMap_cons, List.append_assoc]

theorem work_loop_stop (env : thread_env) :
    ∀ (pre : List the_transaction_t) (t : the_transaction_t) (post : List the_transaction_t)
      (fuel : Nat) (sleep : Bool) (notified : List (the_transaction_t × state_t)),
      (∀ u ∈ pre, (env.execute u).calls = []) →
      (env.execute t).calls = [thread_call.stop] →
      pre.length + 2 ≤ fuel →
      work_loop env fuel ⟨pre ++ t :: post, false, sleep, false, notified⟩ =
        some ⟨post, true, sleep, false,
          notified ++ (pre ++ [t]).flatMap (executed_trace env)⟩ := by
  intro pre
  induction pre with
  | nil =>
    intro t post fuel sleep notified _ ht hf
    obtain ⟨f, rfl⟩ : ∃ f, fuel = f + 2 := ⟨fuel - 2, by simp at hf; omega⟩
    unfold work_loop
    simp only [Bool.false_eq_true, if_false, List.nil_append]
    rw [run_transaction_stop env _ t ht rfl]
    dsimp only
    unfold work_loop
    simp
  | cons u pre ih =>
    intro t post fuel sleep notified hc ht hf
    obtain ⟨f, rfl⟩ : ∃ f, fuel = f + 1 := ⟨fuel - 1, by simp at hf; omega⟩
    unfold work_loop
    simp only [Bool.false_eq_true, if_false, List.cons_append]
    rw [run_transaction_quiet env _ u (hc u (List.mem_cons_self _ _))]
    dsimp only
    rw [ih t post f sleep _ (fun v hv => hc v (List.mem_cons_of_mem _ hv)) ht
        (by simp at hf ⊢; omega)]
    simp [List.flatMap_cons, List.append_assoc]

theorem countP_eq_one_of_nodup {α : Type} [DecidableEq α] :
    ∀ (l : List α), l.Nodup → ∀ a, a ∈ l → l.countP (fun e => decide (e = a)) = 1 := by
  intro l
  induction l with
  | nil => intro _ a ha; exact absurd ha (List.not_mem_nil a)
  | cons b l ih =>
    intro hn a ha
    obtain ⟨hb, hl⟩ := List.nodup_cons.mp hn
    by_cases hba : b = a
    · subst hba
      rw [List.countP_cons_of_pos _ _ (by simp)]
      have : l.countP (fun e => decide (e = b)) = 0 := by
        rw [List.countP_eq_zero]
        intro e he
        simp only [decide_eq_true_eq]
        rintro rfl
        exact hb he
      rw [this]
    · rw [List.countP_cons_of_neg _ _ (by simpa using hba)]
      rcases List.mem_cons.mp ha with h | h
      · exact absurd h.symm hba
      · exact ih hl a h

theorem count_skipped (queue : List the_transaction_t) (hnodup : queue.Nodup)
    (x : the_transaction_t) (hx : x ∈ queue) :
    (queue.map (fun t => (t, state_t.SKIPPED_E))).countP
        (fun e => decide (e = (x, state_t.SKIPPED_E))) = 1 ∧
    (x, state_t.STARTED_E) ∉ queue.map (fun t => (t, state_t.SKIPPED_E)) := by
  constructor
  · apply countP_eq_one_of_nodup
    · exact hnodup.map (fun a b h => (Prod.mk.inj h).1)
    · exact List.mem_map.mpr ⟨x, hx, rfl⟩
  · intro h
    obtain ⟨y, _, hy⟩ := List.mem_map.mp h
    exact absurd (Prod.mk.inj hy).2 (by decide)

theorem executed_trace_mem (env : thread_env) (run : List the_transaction_t)
    (e : the_transaction_t × state_t) (he : e ∈ run.flatMap (executed_trace env)) :
    e.1 ∈ run ∧ e.2 ≠ state_t.SKIPPED_E := by
  obtain ⟨t, ht, h⟩ := List.mem_flatMap.mp he
  unfold executed_trace at h
  simp only [List.mem_cons, List.mem_singleton, List.not_mem_nil, or_false] at h
  rcases h with h | h
  · rw [h]
    exact ⟨ht, by simp⟩
  · rw [h]
    refine ⟨ht, ?_⟩
    dsimp only
    split <;> simp

/-- C21: for a running worker without a pool (not stopped, idle sleep off) whose
queue holds `t1 .. tn` in `push_back` order and whose transactions make no call
on the thread, `work` returns, after executing the transactions in that order:
the notifications added are `STARTED(ti)` followed by `DONE(ti)`, or by
`ABORTED(ti)` when `execute` throws, for `i = 1 .. n`; a throw stops nothing. -/
theorem work_executes_in_order (env : thread_env) (queue : List the_transaction_t)
    (notified : List (the_transaction_t × state_t)) (fuel : Nat)
    (hquiet : ∀ t ∈ queue, (env.execute t).calls = []) (hfuel : queue.length + 1 ≤ fuel) :
    ((queue.foldl the_thread_interface_t.push_back ⟨[], false, false, false, notified⟩) =
      ⟨queue, false, false, false, notified⟩) ∧
    work env fuel ⟨queue, false, false, false, notified⟩ =
      some (true, ⟨[], true, false, false,
        notified ++ queue.flatMap
          (fun t => [(t, state_t.STARTED_E),
            (t, if (env.execute t).throws then state_t.ABORTED_E else state_t.DONE_E)])⟩) := by
  constructor
  · have : ∀ (l q : List the_transaction_t),
        l.foldl the_thread_interface_t.push_back ⟨q, false, false, false, notified⟩ =
          ⟨q ++ l, false, false, false, notified⟩ := by
      intro l
      induction l with
      | nil => intro q; simp
      | cons a l ih =>
        intro q
        rw [List.foldl_cons]
        show List.foldl the_thread_interface_t.push_back ⟨q ++ [a], false, false, false, notified⟩ l = _
        rw [ih]
        simp
    simpa using this queue []
  · unfold work
    rw [work_loop_quiet env queue fuel notified hquiet hfuel]
    simp [skip_pending]
    rfl

/-- Witness of C21: the queue `[1, 13, 2]`, whose second transaction throws. -/
theorem work_executes_in_order_witness :
    work quiet_env 4 (worker [1, 13, 2]) =
      some (true, ⟨[], true, false, false,
        [(1, .STARTED_E), (1, .DONE_E), (13, .STARTED_E), (13, .ABORTED_E),
          (2, .STARTED_E), (2, .DONE_E)]⟩) ∧
    (([1, 13, 2].foldl the_thread_interface_t.push_back ⟨[], false, false, false, []⟩) =
      ⟨[1, 13, 2], false, false, false, []⟩) ∧
    work quiet_env 4 ⟨[1, 13, 2], false, false, false, []⟩ =
      some (true, ⟨[], true, false, false,
        [] ++ [1, 13, 2].flatMap
          (fun t => [(t, state_t.STARTED_E),
            (t, if (quiet_env.execute t).throws then state_t.ABORTED_E
              else state_t.DONE_E)])⟩) :=
  ⟨by decide, work_executes_in_order quiet_env [1, 13, 2] [] 4 (fun _ _ => rfl) (by decide)⟩

theorem work_of_loop (env : thread_env) (fuel : Nat) (thread at_end : the_thread_interface_t)
    (hloop : work_loop env fuel thread = some at_end) (hpool : at_end.thread_pool_ = false) :
    work env fuel thread =
      some (at_end.transactions_.isEmpty,
        ⟨[], true, at_end.sleep_when_idle_, false,
          at_end.notified ++ at_end.transactions_.map (fun t => (t, state_t.SKIPPED_E))⟩) := by
  unfold work
  rw [hloop]
  dsimp only
  rw [skip_pending_spec]
  obtain ⟨q, s, sl, p, n⟩ := at_end
  dsimp only at hpool
  subst hpool
  cases q <;> simp

theorem skipped_once (run post : List the_transaction_t) (env : thread_env)
    (hnodup : (run ++ post).Nodup) (x : the_transaction_t) (hx : x ∈ post) :
    (run.flatMap (executed_trace env) ++ post.map (fun t => (t, state_t.SKIPPED_E))).countP
        (fun e => decide (e = (x, state_t.SKIPPED_E))) = 1 ∧
    (x, state_t.STARTED_E) ∉
      run.flatMap (executed_trace env) ++ post.map (fun t => (t, state_t.SKIPPED_E)) := by
  obtain ⟨_, hpost, hdisj⟩ := List.nodup_append.mp hnodup
  obtain ⟨hc, hs⟩ := count_skipped post hpost x hx
  constructor
  · rw [List.countP_append, hc]
    have : (run.flatMap (executed_trace env)).countP
        (fun e => decide (e = (x, state_t.SKIPPED_E))) = 0 := by
      rw [List.countP_eq_zero]
      intro e he
      simp only [decide_eq_true_eq]
      rintro rfl
      exact (executed_trace_mem env run _ he).2 rfl
    rw [this]
  · intro h
    rcases List.mem_append.mp h with h | h
    · exact hdisj (executed_trace_mem env run _ h).1 hx
    · exact hs h

/-- C22: every transaction still queued when `flush`, `terminate_transactions`,
`stop_and_go` or `flush_and_go` is called, or when `work` leaves its loop after a
transaction called `stop`, gets one `SKIPPED` notification per queue entry and is
removed from the queue: `flush` and `terminate_transactions` leave the queue
empty, `stop_and_go` and `flush_and_go` leave exactly the newly scheduled
transactions in their order (`start` touching neither queue nor notifications),
and `work`, for a queue `pre ++ t :: post` whose `t` stops the thread, returns
with an empty queue after notifying `SKIPPED` for `post`. When the queue holds
no transaction twice, a skipped transaction is notified `SKIPPED` exactly once
and `STARTED` never. -/
theorem pending_transactions_skipped (env : thread_env) (thread : the_thread_interface_t)
    (transaction : the_transaction_t) (schedule pre post : List the_transaction_t)
    (t : the_transaction_t) (sleep : Bool) (notified : List (the_transaction_t × state_t))
    (fuel : Nat)
    (hstart : ∀ th, (env.start th).transactions_ = th.transactions_ ∧
      (env.start th).notified = th.notified)
    (hquiet : ∀ u ∈ pre, (env.execute u).calls = [])
    (hstop : (env.execute t).calls = [thread_call.stop])
    (hfuel : pre.length + 2 ≤ fuel)
    (hqueue : thread.transactions_.Nodup) (hnodup : (pre ++ t :: post).Nodup) :
    (∀ after ∈ [thread.flush, thread.terminate_transactions],
      after.transactions_ = [] ∧
      after.notified =
        thread.notified ++ thread.transactions_.map (fun u => (u, state_t.SKIPPED_E))) ∧
    (∀ after ∈ [thread.stop_and_go env transaction, thread.flush_and_go env transaction],
      after.transactions_ = [transaction] ∧
      after.notified =
        thread.notified ++ thread.transactions_.map (fun u => (u, state_t.SKIPPED_E))) ∧
    (∀ after ∈ [thread.stop_and_go_list env schedule, thread.flush_and_go_list env schedule],
      after.transactions_ = schedule ∧
      after.notified =
        thread.notified ++ thread.transactions_.map (fun u => (u, state_t.SKIPPED_E))) ∧
    (∀ x ∈ thread.transactions_,
      (thread.transactions_.map (fun u => (u, state_t.SKIPPED_E))).countP
          (fun e => decide (e = (x, state_t.SKIPPED_E))) = 1 ∧
      (x, state_t.STARTED_E) ∉ thread.transactions_.map (fun u => (u, state_t.SKIPPED_E))) ∧
    work env fuel ⟨pre ++ t :: post, false, sleep, false, notified⟩ =
      some (post.isEmpty, ⟨[], true, sleep, false,
        notified ++ ((pre ++ [t]).flatMap (executed_trace env) ++
          post.map (fun u => (u, state_t.SKIPPED_E)))⟩) ∧
    (∀ x ∈ post,
      ((pre ++ [t]).flatMap (executed_trace env) ++
          post.map (fun u => (u, state_t.SKIPPED_E))).countP
          (fun e => decide (e = (x, state_t.SKIPPED_E))) = 1 ∧
      (x, state_t.STARTED_E) ∉ (pre ++ [t]).flatMap (executed_trace env) ++
          post.map (fun u => (u, state_t.SKIPPED_E))) := by
  have hskip := skip_pending_queue thread
  refine ⟨?_, ?_, ?_, ?_, ?_, ?_⟩
  · intro after hafter
    simp only [List.mem_cons, List.mem_singleton, List.not_mem_nil, or_false] at hafter
    rcases hafter with rfl | rfl
    · unfold the_thread_interface_t.flush
      rw [hskip]
      exact ⟨rfl, rfl⟩
    · unfold the_thread_interface_t.terminate_transactions
      rw [hskip]
      exact ⟨rfl, rfl⟩
  · intro after hafter
    simp only [List.mem_cons, List.mem_singleton, List.not_mem_nil, or_false] at hafter
    rcases hafter with rfl | rfl
    · unfold the_thread_interface_t.stop_and_go
      rw [(hstart _).1, (hstart _).2, hskip]
      exact ⟨rfl, rfl⟩
    · unfold the_thread_interface_t.flush_and_go
      rw [(hstart _).1, (hstart _).2, hskip]
      exact ⟨rfl, rfl⟩
  · intro after hafter
    simp only [List.mem_cons, List.mem_singleton, List.not_mem_nil, or_false] at hafter
    rcases hafter with rfl | rfl
    · unfold the_thread_interface_t.stop_and_go_list
      rw [(hstart _).1, (hstart _).2, hskip]
      exact ⟨rfl, rfl⟩
    · unfold the_thread_interface_t.flush_and_go_list
      rw [(hstart _).1, (hstart _).2, hskip]
      exact ⟨rfl, rfl⟩
  · intro x hx
    exact count_skipped thread.transactions_ hqueue x hx
  · rw [work_of_loop env fuel _ _
      (work_loop_stop env pre t post fuel sleep notified hquiet hstop hfuel) rfl]
    simp
  · intro x hx
    exact skipped_once (pre ++ [t]) post env (by simpa using hnodup) x hx

/-- Witness of C22: the queue `[1, 7, 2, 3]` whose transaction 7 stops the worker,
and a thread with the queue `[4, 5]` for the flushing calls. -/
theorem pending_transactions_skipped_witness :
    work stopping_env 3 (worker [1, 7, 2, 3]) =
      some (false, ⟨[], true, false, false,
        [(1, .STARTED_E), (1, .DONE_E), (7, .STARTED_E), (7, .DONE_E),
          (2, .SKIPPED_E), (3, .SKIPPED_E)]⟩) ∧
    (the_thread_interface_t.flush_and_go_list stopping_env (worker [4, 5]) [8, 9] =
      ⟨[8, 9], false, false, false, [(4, .SKIPPED_E), (5, .SKIPPED_E)]⟩) ∧
    ((∀ after ∈ [(worker [4, 5]).flush, (worker [4, 5]).terminate_transactions],
      after.transactions_ = [] ∧
      after.notified =
        (worker [4, 5]).notified ++
          (worker [4, 5]).transactions_.map (fun u => (u, state_t.SKIPPED_E))) ∧
    (∀ after ∈ [(worker [4, 5]).stop_and_go stopping_env 8,
        (worker [4, 5]).flush_and_go stopping_env 8],
      after.transactions_ = [8] ∧
      after.notified =
        (worker [4, 5]).notified ++
          (worker [4, 5]).transactions_.map (fun u => (u, state_t.SKIPPED_E))) ∧
    (∀ after ∈ [(worker [4, 5]).stop_and_go_list stopping_env [8, 9],
        (worker [4, 5]).flush_and_go_list stopping_env [8, 9]],
      after.transactions_ = [8, 9] ∧
      after.notified =
        (worker [4, 5]).notified ++
          (worker [4, 5]).transactions_.map (fun u => (u, state_t.SKIPPED_E))) ∧
    (∀ x ∈ (worker [4, 5]).transactions_,
      ((worker [4, 5]).transactions_.map (fun u => (u, state_t.SKIPPED_E))).countP
          (fun e => decide (e = (x, state_t.SKIPPED_E))) = 1 ∧
      (x, state_t.STARTED_E) ∉
        (worker [4, 5]).transactions_.map (fun u => (u, state_t.SKIPPED_E))) ∧
    work stopping_env 3 ⟨[1] ++ 7 :: [2, 3], false, false, false, []⟩ =
      some (([2, 3] : List the_transaction_t).isEmpty, ⟨[], true, false, false,
        [] ++ (([1] ++ [7]).flatMap (executed_trace stopping_env) ++
          ([2, 3] : List the_transaction_t).map (fun u => (u, state_t.SKIPPED_E)))⟩) ∧
    (∀ x ∈ ([2, 3] : List the_transaction_t),
      (([1] ++ [7]).flatMap (executed_trace stopping_env) ++
          ([2, 3] : List the_transaction_t).map (fun u => (u, state_t.SKIPPED_E))).countP
          (fun e => decide (e = (x, state_t.SKIPPED_E))) = 1 ∧
      (x, state_t.STARTED_E) ∉ ([1] ++ [7]).flatMap (executed_trace stopping_env) ++
          ([2, 3] : List the_transaction_t).map (fun u => (u, state_t.SKIPPED_E)))) :=
  ⟨by decide, by decide,
    pending_transactions_skipped stopping_env (worker [4, 5]) 8 [8, 9] [1] [2, 3] 7 false [] 3
      (fun _ => ⟨rfl, rfl⟩) (by decide) (by decide) (by decide) (by decide) (by decide)⟩

/-- C29: when the loop of `work` ends, on a thread without a pool, `work` returns,
and the value returned is `false` exactly when a transaction was still in the
queue at that moment (it is then skipped); a transaction that ended `ABORTED`
does not make the value `false`: the worker whose only transaction 13 throws
returns `true` with the trace `STARTED(13), ABORTED(13)`. -/
theorem work_return_value (env : thread_env) (fuel : Nat)
    (thread at_end : the_thread_interface_t)
    (hloop : work_loop env fuel thread = some at_end) (hpool : at_end.thread_pool_ = false) :
    (∃ b after, work env fuel thread = some (b, after) ∧
      (b = false ↔ at_end.transactions_ ≠ []) ∧
      after.notified =
        at_end.notified ++ at_end.transactions_.map (fun t => (t, state_t.SKIPPED_E))) ∧
    work quiet_env 2 (worker [13]) =
      some (true, ⟨[], true, false, false, [(13, .STARTED_E), (13, .ABORTED_E)]⟩) := by
  refine ⟨⟨_, _, work_of_loop env fuel thread at_end hloop hpool, ?_, rfl⟩, by decide⟩
  cases at_end.transactions_ <;> simp

/-- Witness of C29: the worker stopped by transaction 7 with `[2, 3]` still queued
returns `false`. -/
theorem work_return_value_witness :
    work stopping_env 3 (worker [1, 7, 2, 3]) =
      some (false, ⟨[], true, false, false,
        [(1, .STARTED_E), (1, .DONE_E), (7, .STARTED_E), (7, .DONE_E),
          (2, .SKIPPED_E), (3, .SKIPPED_E)]⟩) ∧
    (∃ b after, work stopping_env 3 (worker [1, 7, 2, 3]) = some (b, after) ∧
      (b = false ↔ ([2, 3] : List the_transaction_t) ≠ []) ∧
      after.notified =
        [(1, .STARTED_E), (1, .DONE_E), (7, .STARTED_E), (7, .DONE_E)] ++
          ([2, 3] : List the_transaction_t).map (fun t => (t, state_t.SKIPPED_E))) ∧
    work quiet_env 2 (worker [13]) =
      some (true, ⟨[], true, false, false, [(13, .STARTED_E), (13, .ABORTED_E)]⟩) :=
  ⟨by decide,
    work_return_value stopping_env 3 (worker [1, 7, 2, 3])
      ⟨[2, 3], true, false, false,
        [(1, .STARTED_E), (1, .DONE_E), (7, .STARTED_E), (7, .DONE_E)]⟩
      (by decide) rfl⟩

theorem tiles_split (num_tiles start num_threads : Nat) (hstart : start ≤ num_tiles)
    (hmax : num_tiles < 2 ^ 32) :
    num_tiles_distributed num_tiles start num_threads =
      (num_tiles - start) - (num_tiles - start) % num_threads ∧
    num_tiles_remaining num_tiles start num_threads =
      (num_tiles - start) - ((num_tiles - start) - (num_tiles - start) % num_threads) ∧
    distributed_tiles num_tiles start num_threads =
      List.range' start ((num_tiles - start) - (num_tiles - start) % num_threads) ∧
    remaining_tiles num_tiles start num_threads =
      List.range' (start + ((num_tiles - start) - (num_tiles - start) % num_threads))
        ((num_tiles - start) - ((num_tiles - start) - (num_tiles - start) % num_threads)) := by
  have e32 : (2 : Nat) ^ 32 = 4294967296 := by norm_num
  have hspan : (num_tiles + 2 ^ 32 - start) % 2 ^ 32 = num_tiles - start := by
    rw [e32] at hmax ⊢
    omega
  have hle := Nat.mod_le (num_tiles - start) num_threads
  have hd : num_tiles_distributed num_tiles start num_threads =
      (num_tiles - start) - (num_tiles - start) % num_threads := by
    unfold num_tiles_distributed
    dsimp only
    rw [hspan]
    generalize (num_tiles - start) % num_threads = r at hle ⊢
    rw [e32] at hmax ⊢
    omega
  have hr : num_tiles_remaining num_tiles start num_threads =
      (num_tiles - start) - ((num_tiles - start) - (num_tiles - start) % num_threads) := by
    unfold num_tiles_remaining
    dsimp only
    rw [hspan, hd]
    generalize (num_tiles - start) % num_threads = r at hle ⊢
    rw [e32] at hmax ⊢
    omega
  refine ⟨hd, hr, ?_, ?_⟩
  · unfold distributed_tiles
    rw [hd, List.range'_eq_map_range]
    apply List.map_congr_left
    intro i hi
    have hi := List.mem_range.mp hi
    generalize (num_tiles - start) % num_threads = r at hle hi ⊢
    rw [e32] at hmax ⊢
    omega
  · unfold remaining_tiles
    rw [hr, hd, List.range'_eq_map_range]
    apply List.map_congr_left
    intro i hi
    have hi := List.mem_range.mp hi
    generalize (num_tiles - start) % num_threads = r at hle hi ⊢
    rw [e32] at hmax ⊢
    omega

/-- C28: in a pass of `refine_mosaic_mt` with `num_threads >= 1` workers, which is
reached with at least two tiles, the tiles given to `refine_one_tile_t`
transactions are the indices `[start, start + d)` and the tiles handled in line
the indices `[start + d, num_tiles)`, with
`d = (num_tiles - start) - (num_tiles - start) % num_threads`; the two lists are
disjoint and together hold every mobile tile exactly once, so a pass that
returns has computed `shift[i]` once for each mobile tile, from the transforms
as they were before any of them is updated. -/
theorem mt_pass_covers_mobile_tiles (env : Env Img Msk) (o : options_t) (tile : List Img)
    (mask : List (Option Msk)) (neighbors : List (List Nat)) (num_threads : Nat)
    (st : mosaic_state Img Msk)
    (hthreads : 1 ≤ num_threads) (htiles : 2 ≤ tile.length) (hmax : tile.length < 2 ^ 32) :
    (∀ i, i ∈ distributed_tiles tile.length (start_index o.keep_first_tile_fixed) num_threads ↔
      start_index o.keep_first_tile_fixed ≤ i ∧
      i < start_index o.keep_first_tile_fixed +
        ((tile.length - start_index o.keep_first_tile_fixed) -
          (tile.length - start_index o.keep_first_tile_fixed) % num_threads)) ∧
    (∀ i, i ∈ remaining_tiles tile.length (start_index o.keep_first_tile_fixed) num_threads ↔
      start_index o.keep_first_tile_fixed +
        ((tile.length - start_index o.keep_first_tile_fixed) -
          (tile.length - start_index o.keep_first_tile_fixed) % num_threads) ≤ i ∧
      i < tile.length) ∧
    List.Disjoint (distributed_tiles tile.length (start_index o.keep_first_tile_fixed) num_threads)
      (remaining_tiles tile.length (start_index o.keep_first_tile_fixed) num_threads) ∧
    distributed_tiles tile.length (start_index o.keep_first_tile_fixed) num_threads ++
        remaining_tiles tile.length (start_index o.keep_first_tile_fixed) num_threads =
      mobile_tiles tile.length (start_index o.keep_first_tile_fixed) ∧
    (∀ i, start_index o.keep_first_tile_fixed ≤ i → i < tile.length →
      (distributed_tiles tile.length (start_index o.keep_first_tile_fixed) num_threads ++
        remaining_tiles tile.length (start_index o.keep_first_tile_fixed) num_threads).count i
        = 1) ∧
    (refine_mosaic_mt_pass env o tile mask neighbors num_threads st =
      match (if o.prewarp_tiles then
          (mobile_tiles tile.length (start_index o.keep_first_tile_fixed)).foldlM
            (warp_tile env tile mask st.transform) (st.warped_tile, st.warped_mask)
        else some (st.warped_tile, st.warped_mask)) with
      | none => none
      | some w =>
        match (distributed_tiles tile.length (start_index o.keep_first_tile_fixed)
              num_threads).foldlM
            (shift_step env o st.transform w.1 w.2 neighbors)
            (List.replicate tile.length []) with
        | none => none
        | some shift0 =>
          match (remaining_tiles tile.length (start_index o.keep_first_tile_fixed)
                num_threads).foldlM
              (shift_step env o st.transform w.1 w.2 neighbors) shift0 with
          | none => none
          | some shift =>
            match (mobile_tiles tile.length (start_index o.keep_first_tile_fixed)).foldlM
                (update_step shift) st.transform with
            | none => none
            | some transform => some (⟨transform, w.1, w.2⟩, shift)) ∧
    (∀ st1 shift, refine_mosaic_mt_pass env o tile mask neighbors num_threads st =
        some (st1, shift) →
      ∀ i, start_index o.keep_first_tile_fixed ≤ i → i < tile.length →
        ∃ gt s, st.transform[i]? = some gt ∧
          refine_one_tile env o i st.transform st1.warped_tile st1.warped_mask neighbors =
            some s ∧
          shift[i]? = some s ∧ st1.transform[i]? = some (update gt s)) := by
  have hstart : start_index o.keep_first_tile_fixed ≤ tile.length := by
    unfold start_index
    split <;> omega
  obtain ⟨hd, hr, hdist, hrem⟩ :=
    tiles_split tile.length (start_index o.keep_first_tile_fixed) num_threads hstart hmax
  have hle := Nat.mod_le (tile.length - start_index o.keep_first_tile_fixed) num_threads
  have hcover : distributed_tiles tile.length (start_index o.keep_first_tile_fixed) num_threads ++
        remaining_tiles tile.length (start_index o.keep_first_tile_fixed) num_threads =
      mobile_tiles tile.length (start_index o.keep_first_tile_fixed) := by
    rw [hdist, hrem, List.range'_append_1]
    unfold mobile_tiles
    congr 1
    omega
  have hmemd : ∀ i,
      i ∈ distributed_tiles tile.length (start_index o.keep_first_tile_fixed) num_threads ↔
      start_index o.keep_first_tile_fixed ≤ i ∧
      i < start_index o.keep_first_tile_fixed +
        ((tile.length - start_index o.keep_first_tile_fixed) -
          (tile.length - start_index o.keep_first_tile_fixed) % num_threads) := by
    intro i
    rw [hdist, List.mem_range'_1]
  have hmemr : ∀ i,
      i ∈ remaining_tiles tile.length (start_index o.keep_first_tile_fixed) num_threads ↔
      start_index o.keep_first_tile_fixed +
        ((tile.length - start_index o.keep_first_tile_fixed) -
          (tile.length - start_index o.keep_first_tile_fixed) % num_threads) ≤ i ∧
      i < tile.length := by
    intro i
    rw [hrem, List.mem_range'_1]
    omega
  refine ⟨hmemd, hmemr, ?_, hcover, ?_, ?_, ?_⟩
  · intro i h1 h2
    have := (hmemd i).mp h1
    have := (hmemr i).mp h2
    omega
  · intro i h1 h2
    rw [hcover]
    exact List.count_eq_one_of_mem (nodup_mobile_tiles _ _) ((mem_mobile_tiles _ _ _).mpr ⟨h1, h2⟩)
  · unfold refine_mosaic_mt_pass
    dsimp only
    have hne : ¬ num_threads = 0 := by omega
    simp only [hdist, hrem, if_neg hne]
  · intro st1 shift h
    rw [refine_mosaic_mt_pass_eq env o tile mask neighbors num_threads st (by omega)] at h
    exact (refine_mosaic_pass_spec env o tile mask neighbors st st1 shift h).2.2.1

/-- Witness of C28: four tiles, the first one fixed, two workers: tiles 1 and 2 go
to transactions, tile 3 is handled in line. -/
theorem mt_pass_covers_mobile_tiles_witness :
    distributed_tiles 4 1 2 = [1, 2] ∧ remaining_tiles 4 1 2 = [3] ∧
    distributed_tiles ([0, 0, 0, 0] : List Nat).length
        (start_index (demo_options true).keep_first_tile_fixed) 2 ++
      remaining_tiles ([0, 0, 0, 0] : List Nat).length
        (start_index (demo_options true).keep_first_tile_fixed) 2 =
      mobile_tiles ([0, 0, 0, 0] : List Nat).length
        (start_index (demo_options true).keep_first_tile_fixed) :=
  ⟨by decide, by decide,
    (mt_pass_covers_mobile_tiles demo_env (demo_options true) [0, 0, 0, 0] [] [] 2 ⟨[], [], []⟩
      (by decide) (by decide) (by decide)).2.2.2.1⟩

theorem mesh_pixel_vertex_index (gt : the_grid_transform_t) (row col : Nat)
    (hcol : col ≤ gt.cols_) : mesh_pixel gt (gt.vertex_index row col) = (col, row) := by
  unfold mesh_pixel the_grid_transform_t.vertex_index
  dsimp only
  have h : col < gt.cols_ + 1 := by omega
  rw [Nat.add_comm, Nat.add_mul_mod_self_right, Nat.mod_eq_of_lt h, Nat.add_mul_div_right _ _
    (by omega : 0 < gt.cols_ + 1), Nat.div_eq_of_lt h, Nat.zero_add]

theorem vertex_index_mesh_pixel (gt : the_grid_transform_t) (i : Nat) :
    gt.vertex_index (mesh_pixel gt i).2 (mesh_pixel gt i).1 = i := by
  unfold mesh_pixel the_grid_transform_t.vertex_index
  dsimp only
  rw [Nat.mul_comm]
  exact Nat.div_add_mod i (gt.cols_ + 1)

theorem mesh_pixel_bounds (gt : the_grid_transform_t) (i : Nat)
    (hi : i < (gt.rows_ + 1) * (gt.cols_ + 1)) :
    (mesh_pixel gt i).1 ≤ gt.cols_ ∧ (mesh_pixel gt i).2 ≤ gt.rows_ := by
  unfold mesh_pixel
  dsimp only
  constructor
  · have := Nat.mod_lt i (by omega : 0 < gt.cols_ + 1)
    omega
  · have := (Nat.div_lt_iff_lt_mul (by omega : 0 < gt.cols_ + 1)).mpr hi
    omega

theorem vertex_index_lt (gt : the_grid_transform_t) (row col : Nat)
    (hrow : row ≤ gt.rows_) (hcol : col ≤ gt.cols_) :
    gt.vertex_index row col < (gt.rows_ + 1) * (gt.cols_ + 1) := by
  unfold the_grid_transform_t.vertex_index
  calc row * (gt.cols_ + 1) + col < row * (gt.cols_ + 1) + (gt.cols_ + 1) := by omega
    _ = (row + 1) * (gt.cols_ + 1) := by ring
    _ ≤ (gt.rows_ + 1) * (gt.cols_ + 1) := Nat.mul_le_mul_right _ (by omega)

/-- C30: for a grid of `rows_ x cols_` quads the mesh index
`row * (cols_ + 1) + col` of `vertex(row, col)` and the displacement-image pixel
`(i % (cols_ + 1), i / (cols_ + 1))` of `calc_displacements` denote the same
lattice point: for `col <= cols_` the pixel of `vertex(row, col)` is
`(col, row)`; the pixel map is a bijection between `[0, (rows_+1)(cols_+1))` and
`[0, cols_] x [0, rows_]` with the mesh index as its inverse; every such pixel
lies inside the `(cols_+1) x (rows_+1)` displacement images, and it is the pixel
the vertex loop of `calc_displacements` writes for the mesh index. -/
theorem mesh_index_pixel_bijection (gt : the_grid_transform_t) :
    (∀ row col, col ≤ gt.cols_ → mesh_pixel gt (gt.vertex_index row col) = (col, row)) ∧
    (∀ row col, row ≤ gt.rows_ → col ≤ gt.cols_ →
      gt.vertex_index row col < (gt.rows_ + 1) * (gt.cols_ + 1)) ∧
    (∀ i, gt.vertex_index (mesh_pixel gt i).2 (mesh_pixel gt i).1 = i) ∧
    Set.BijOn (mesh_pixel gt) (Set.Iio ((gt.rows_ + 1) * (gt.cols_ + 1)))
      (Set.Iic gt.cols_ ×ˢ Set.Iic gt.rows_) ∧
    (∀ i, i < (gt.rows_ + 1) * (gt.cols_ + 1) →
      (mesh_pixel gt i).1 < (make_image (gt.cols_ + 1) (gt.rows_ + 1)).cols ∧
      (mesh_pixel gt i).2 < (make_image (gt.cols_ + 1) (gt.rows_ + 1)).rows) ∧
    (∀ (env : Env Img Msk) (warped : Bool) (tile_0 tile_1 : Img) (mask_0 mask_1 : Option Msk)
        (forward_0 : the_grid_transform_t) (neighborhood : Nat) (min_overlap : ℚ)
        (d : image_t × image_t × image_t) (i : Nat),
      (calc_displacements_vertex env warped tile_0 mask_0 forward_0 tile_1 mask_1 gt
          neighborhood min_overlap d i).2.2.pix (mesh_pixel gt i) =
        (if (env.refine_one_point_fft warped tile_0 mask_0 forward_0 tile_1 mask_1 gt
          neighborhood min_overlap i).isSome then 1 else 0) ∧
      ∀ p, p ≠ mesh_pixel gt i →
        (calc_displacements_vertex env warped tile_0 mask_0 forward_0 tile_1 mask_1 gt
          neighborhood min_overlap d i).2.2.pix p = d.2.2.pix p) := by
  refine ⟨fun row col h => mesh_pixel_vertex_index gt row col h,
    fun row col h1 h2 => vertex_index_lt gt row col h1 h2,
    fun i => vertex_index_mesh_pixel gt i, ⟨?_, ?_, ?_⟩, ?_, ?_⟩
  · intro i hi
    have := mesh_pixel_bounds gt i hi
    exact ⟨this.1, this.2⟩
  · intro i _ j _ hij
    rw [← vertex_index_mesh_pixel gt i, ← vertex_index_mesh_pixel gt j, hij]
  · rintro ⟨col, row⟩ ⟨hcol, hrow⟩
    exact ⟨gt.vertex_index row col, vertex_index_lt gt row col hrow hcol,
      mesh_pixel_vertex_index gt row col hcol⟩
  · intro i hi
    have := mesh_pixel_bounds gt i hi
    show (mesh_pixel gt i).1 < gt.cols_ + 1 ∧ (mesh_pixel gt i).2 < gt.rows_ + 1
    omega
  · intro env warped tile_0 tile_1 mask_0 mask_1 forward_0 neighborhood min_overlap d i
    unfold calc_displacements_vertex
    dsimp only
    cases env.refine_one_point_fft warped tile_0 mask_0 forward_0 tile_1 mask_1 gt
        neighborhood min_overlap i with
    | none =>
      constructor
      · simp [image_t.SetPixel, mesh_pixel]
      · intro p hp
        simp only [image_t.SetPixel]
        rw [Function.update_noteq]
        exact hp
    | some shift =>
      constructor
      · simp [image_t.SetPixel, mesh_pixel]
      · intro p hp
        simp only [image_t.SetPixel]
        rw [Function.update_noteq, Function.update_noteq]
        · exact hp
        · exact hp

/-- Witness of C30: vertex `(1, 1)` of a grid of `1 x 1` quads has mesh index 3
and pixel `(1, 1)`. -/
theorem mesh_index_pixel_bijection_witness :
    (demo_grid 0).vertex_index 1 1 = 3 ∧
    mesh_pixel (demo_grid 0) ((demo_grid 0).vertex_index 1 1) = (1, 1) :=
  ⟨by decide,
    (@mesh_index_pixel_bijection Nat Unit (demo_grid 0)).1 1 1 (by decide)⟩

/-- C27 (the code evaluated at the failing input): `refine_mosaic` sets no entry
of the warped set but, with `keep_first_tile_fixed`, entry 0; without prewarping
no pass sets any, and `calc_displacements` dereferences the null moving tile.
Two neighboring tiles, one pass, `prewarp_tiles = false`: `refine_mosaic` and
`refine_mosaic_mt` with one worker are undefined for both values of
`keep_first_tile_fixed`, while `refine_mosaic_mt` with two workers, which
duplicates every tile before the first pass, returns. With prewarping every
tile handed over has been set. -/
theorem refine_mosaic_null_warped_tile :
    (∀ (keep : Bool) (w : List (Option Nat) × List (Option Unit)) (i : Nat),
      refine_mosaic_init [0, 1] [some (), some ()] keep = some w →
      start_index keep ≤ i → w.1.getD i none = none) ∧
    (∀ (mass : List ℚ) (warped : Bool) (tile_0 : Option Nat) (mask_0 mask_1 : Option Unit)
        (forward_0 forward_1 : the_grid_transform_t),
      calc_displacements demo_env mass warped tile_0 mask_0 forward_0 none mask_1 forward_1
        8 (1 / 4) 0 = none) ∧
    refine_mosaic demo_env ⟨8, false, 1 / 4, 0, false⟩ [demo_grid 0, demo_grid 1] [0, 1]
      [some (), some ()] 1 = none ∧
    refine_mosaic demo_env ⟨8, false, 1 / 4, 0, true⟩ [demo_grid 0, demo_grid 1] [0, 1]
      [some (), some ()] 1 = none ∧
    refine_mosaic_mt demo_env ⟨8, false, 1 / 4, 0, false⟩ [demo_grid 0, demo_grid 1] [0, 1]
      [some (), some ()] 1 0 1 = none ∧
    refine_mosaic_mt demo_env ⟨8, false, 1 / 4, 0, false⟩ [demo_grid 0, demo_grid 1] [0, 1]
      [some (), some ()] 1 0 2 = some [demo_grid (1 / 2), demo_grid (3 / 2)] ∧
    refine_mosaic_mt demo_env ⟨8, false, 1 / 4, 0, true⟩ [demo_grid 0, demo_grid 1] [0, 1]
      [some (), some ()] 1 0 2 = some [demo_grid 0, demo_grid 2] ∧
    refine_mosaic demo_env ⟨8, true, 1 / 4, 0, false⟩ [demo_grid 0, demo_grid 1] [0, 1]
      [some (), some ()] 1 = some [demo_grid (1 / 2), demo_grid (3 / 2)] := by
  refine ⟨?_, ?_, by decide!, by decide!, by decide!, by decide!, by decide!, by decide!⟩
  · intro keep w i h hi
    cases keep
    · simp only [refine_mosaic_init] at h
      simp at h
      subst h
      match i with
      | 0 => rfl
      | 1 => rfl
      | (n + 2) => rfl
    · simp only [refine_mosaic_init] at h
      simp at h
      subst h
      have hi : 1 ≤ i := hi
      match i, hi with
      | 1, _ => rfl
      | (n + 2), _ => rfl
  · intro mass warped tile_0 mask_0 mask_1 forward_0 forward_1
    cases tile_0 <;> rfl

theorem mask_fold_all_in_zone (overlap : ℚ × ℚ → ℚ) (overlap_min overlap_max min : ℚ)
    (nx ny : Nat) (hall : ∀ pt, in_overlap_zone overlap overlap_min overlap_max pt = true) :
    ∀ (l : List (Nat × Nat)) (s : itk_image_t × Int),
      l.foldl (mask_pixel overlap overlap_min overlap_max min nx ny) s =
        (s.1, s.2 + 4 * (l.length : Int)) := by
  intro l
  induction l with
  | nil => intro s; simp
  | cons a l ih =>
    intro s
    rw [List.foldl_cons, ih]
    unfold mask_pixel
    rw [if_pos (hall _)]
    simp only [List.length_cons, Nat.cast_add, Nat.cast_one]
    congr 1
    ring

theorem quadrant_length (nx ny : Nat) : (quadrant nx ny).length = (ny / 2 + 1) * (nx / 2 + 1) := by
  unfold quadrant
  simp [List.length_flatMap, Function.comp_def]

/-- C26 (the code evaluated at the failing input): when every displacement lies in
the overlap range, as with the range `[0, 1]`, the masking step changes no
pixel and counts `PixelsInOverlapZone = 4 (nx/2 + 1) (ny/2 + 1)`, which is more
than the `nx * ny` pixels of the PDF; for a 4 by 4 PDF the count is 36 with 16
pixels unmasked, and with the range `[1/4, 1/2]` it is 28. -/
theorem pixels_in_overlap_zone_overcounts :
    (∀ (overlap : ℚ × ℚ → ℚ) (overlap_min overlap_max min : ℚ) (PDF : itk_image_t),
      (∀ pt, in_overlap_zone overlap overlap_min overlap_max pt = true) →
      PDF.w ≠ 0 → PDF.h ≠ 0 →
      mask_pdf overlap overlap_min overlap_max min PDF =
        some (PDF, 4 * (((PDF.h / 2 + 1) * (PDF.w / 2 + 1) : Nat) : Int)) ∧
      PDF.w * PDF.h < 4 * ((PDF.h / 2 + 1) * (PDF.w / 2 + 1))) ∧
    mask_pdf (OverlapPercent (4, 4)) 0 1 0 ramp_pdf = some (ramp_pdf, 36) ∧
    (mask_pdf (OverlapPercent (4, 4)) (1 / 4) (1 / 2) 0 ramp_pdf).map Prod.snd = some 28 := by
  have hgen : ∀ (overlap : ℚ × ℚ → ℚ) (overlap_min overlap_max min : ℚ) (PDF : itk_image_t),
      (∀ pt, in_overlap_zone overlap overlap_min overlap_max pt = true) →
      PDF.w ≠ 0 → PDF.h ≠ 0 →
      mask_pdf overlap overlap_min overlap_max min PDF =
        some (PDF, 4 * (((PDF.h / 2 + 1) * (PDF.w / 2 + 1) : Nat) : Int)) ∧
      PDF.w * PDF.h < 4 * ((PDF.h / 2 + 1) * (PDF.w / 2 + 1)) := by
    intro overlap lo hi min PDF hall hw hh
    constructor
    · unfold mask_pdf
      rw [if_neg (by tauto), mask_fold_all_in_zone overlap lo hi min PDF.w PDF.h hall,
        quadrant_length]
      simp
    · have h1 : PDF.w < 2 * (PDF.w / 2 + 1) := by omega
      have h2 : PDF.h < 2 * (PDF.h / 2 + 1) := by omega
      calc PDF.w * PDF.h < (2 * (PDF.w / 2 + 1)) * (2 * (PDF.h / 2 + 1)) :=
            Nat.mul_lt_mul'' h1 h2
        _ = 4 * ((PDF.h / 2 + 1) * (PDF.w / 2 + 1)) := by ring
  refine ⟨hgen, ?_, by decide!⟩
  have hzone : ∀ pt, in_overlap_zone (OverlapPercent (4, 4)) 0 1 pt = true := by
    intro pt
    unfold in_overlap_zone OverlapPercent
    simp only [Bool.and_eq_true, decide_eq_true_eq]
    have h1 : (0 : ℚ) ≤ max 0 (((4 : Nat) : ℚ) - fabs pt.1) := le_max_left _ _
    have h2 : (0 : ℚ) ≤ max 0 (((4 : Nat) : ℚ) - fabs pt.2) := le_max_left _ _
    have f1 : (0 : ℚ) ≤ fabs pt.1 := by unfold fabs; split <;> linarith
    have f2 : (0 : ℚ) ≤ fabs pt.2 := by unfold fabs; split <;> linarith
    have h3 : max 0 (((4 : Nat) : ℚ) - fabs pt.1) ≤ 4 := max_le (by norm_num) (by push_cast; linarith)
    have h4 : max 0 (((4 : Nat) : ℚ) - fabs pt.2) ≤ 4 := max_le (by norm_num) (by push_cast; linarith)
    constructor
    · apply div_nonneg (mul_nonneg h1 h2)
      norm_num
    · rw [div_le_iff₀ (by norm_num)]
      push_cast at h1 h2 h3 h4 ⊢
      nlinarith [mul_le_mul h3 h4 h2 (by norm_num : (0 : ℚ) ≤ 4)]
  have := (hgen (OverlapPercent (4, 4)) 0 1 0 ramp_pdf hzone (by decide) (by decide)).1
  rw [this]
  rfl

/-- C25 (the code evaluated at the failing input): the assertion `fraction < 1.0`
does not hold for every input. For images of 1 by 1 pixel, whatever the overlap
function and range, the count `PixelsInOverlapZone` is 0 or 4; with the count 4
the fraction is `5/4`. For a 4 by 4 PDF and the overlap range `[1, 1]` only the
zero displacement lies in the range: the count is 4 and the fraction `5/4`;
with the range `[2, 3]` the count is 0 and the quotient `64.0 / area` is not
finite. In both cases the build with assertions stops at the assertion; with
the assertions compiled out the function goes on to `find_maxima_cm`, which
for the count 0 finds the masked PDF constant and returns 0. -/
theorem find_correlation_assertion_fails :
    (∀ (overlap : ℚ × ℚ → ℚ) (overlap_min overlap_max min : ℚ) (PDF : itk_image_t),
      PDF.w = 1 → PDF.h = 1 →
      ∃ masked n, mask_pdf overlap overlap_min overlap_max min PDF = some (masked, n) ∧
        (n = 0 ∨ n = 4)) ∧
    fraction 4 = 5 / 4 ∧ ¬ fraction 4 < 1 ∧
    (mask_pdf (OverlapPercent (4, 4)) 1 1 0 ramp_pdf).map Prod.snd = some 4 ∧
    (mask_pdf (OverlapPercent (4, 4)) 2 3 0 ramp_pdf).map Prod.snd = some 0 ∧
    find_correlation false (OverlapPercent (4, 4)) [] ramp_pdf 2 3 = none ∧
    find_correlation false (OverlapPercent (4, 4)) [] ramp_pdf 1 1 = none ∧
    find_correlation true (OverlapPercent (4, 4)) [] ramp_pdf 2 3 = some (0, []) ∧
    (find_correlation true (OverlapPercent (4, 4)) [] ramp_pdf 1 1).isSome = true := by
  refine ⟨?_, by decide!, by decide!, by decide!, by decide!, by decide!, by decide!,
    by decide!, by decide!⟩
  intro overlap lo hi min PDF hw hh
  obtain ⟨w, h, pix⟩ := PDF
  dsimp only at hw hh
  subst hw hh
  have hq : quadrant 1 1 = [(0, 0)] := by decide
  unfold mask_pdf
  rw [if_neg (by simp), hq]
  simp only [List.foldl_cons, List.foldl_nil]
  unfold mask_pixel
  dsimp only
  split
  · exact ⟨_, _, rfl, Or.inr rfl⟩
  · split
    · exact ⟨_, _, rfl, Or.inr rfl⟩
    · split
      · exact ⟨_, _, rfl, Or.inr rfl⟩
      · split
        · exact ⟨_, _, rfl, Or.inr rfl⟩
        · exact ⟨_, _, rfl, Or.inl rfl⟩

theorem label_log_fold_fst (peaks : itk_image_t) :
    ∀ (l : List (Nat × Nat)) (sl : clusters_t × List (Nat × Nat)),
      (l.foldl (fun sl p => (label_pixel peaks sl.1 p, sl.2 ++ label_merged peaks sl.1 p)) sl).1 =
        l.foldl (label_pixel peaks) sl.1 := by
  intro l
  induction l with
  | nil => intro sl; rfl
  | cons p l ih =>
    intro sl
    rw [List.foldl_cons, List.foldl_cons, ih]

theorem push_back_unique_head (l : List Nat) (a : Nat) (hl : l ≠ []) :
    (push_back_unique l a).head? = l.head? := by
  unfold push_back_unique
  split
  · rfl
  · cases l with
    | nil => exact absurd rfl hl
    | cons b l => rfl

theorem push_back_unique_ne_nil (l : List Nat) (a : Nat) : push_back_unique l a ≠ [] := by
  unfold push_back_unique
  split
  · intro h
    subst h
    simp at *
  · simp

theorem collect_fold_head (w h : Nat) (cm : Int → Option Nat) (x y : Int) :
    ∀ (l : List (Int × Int)) (acc : List Nat), acc ≠ [] →
      (l.foldl
        (fun neighbors d =>
          let u := x + d.1
          let v := y + d.2
          if u < 0 ∨ (w : Int) ≤ u ∨ v < 0 ∨ (h : Int) ≤ v then neighbors
          else
            match cm (u * h + v) with
            | none => neighbors
            | some cluster_id => push_back_unique neighbors cluster_id)
        acc).head? = acc.head? := by
  intro l
  induction l with
  | nil => intro acc _; rfl
  | cons d l ih =>
    intro acc hacc
    rw [List.foldl_cons]
    dsimp only
    split
    · exact ih acc hacc
    · split
      · exact ih acc hacc
      · rw [ih _ (push_back_unique_ne_nil _ _), push_back_unique_head _ _ hacc]

theorem collect_fold_first (w h : Nat) (cm : Int → Option Nat) (x y : Int) :
    ∀ (l : List (Int × Int)) (id : Nat) (rest : List Nat),
      l.foldl
        (fun neighbors d =>
          let u := x + d.1
          let v := y + d.2
          if u < 0 ∨ (w : Int) ≤ u ∨ v < 0 ∨ (h : Int) ≤ v then neighbors
          else
            match cm (u * h + v) with
            | none => neighbors
            | some cluster_id => push_back_unique neighbors cluster_id)
        [] = id :: rest →
      ∃ pre d post, l = pre ++ d :: post ∧ in_image w h (x + d.1, y + d.2) ∧
        cm (key h (x + d.1, y + d.2)) = some id ∧
        ∀ e ∈ pre, ¬ in_image w h (x + e.1, y + e.2) ∨ cm (key h (x + e.1, y + e.2)) = none := by
  intro l
  induction l with
  | nil => intro id rest h; exact absurd h (by simp)
  | cons d l ih =>
    intro id rest hfold
    rw [List.foldl_cons] at hfold
    dsimp only at hfold
    by_cases hout : x + d.1 < 0 ∨ (w : Int) ≤ x + d.1 ∨ y + d.2 < 0 ∨ (h : Int) ≤ y + d.2
    · rw [if_pos hout] at hfold
      obtain ⟨pre, e, post, h1, h2, h3, h4⟩ := ih id rest hfold
      refine ⟨d :: pre, e, post, by rw [h1]; rfl, h2, h3, ?_⟩
      intro e' he'
      rcases List.mem_cons.mp he' with rfl | he'
      · left
        unfold in_image
        dsimp only
        omega
      · exact h4 e' he'
    · rw [if_neg hout] at hfold
      cases hcm : cm ((x + d.1) * h + (y + d.2)) with
      | none =>
        rw [hcm] at hfold
        dsimp only at hfold
        obtain ⟨pre, e, post, h1, h2, h3, h4⟩ := ih id rest hfold
        refine ⟨d :: pre, e, post, by rw [h1]; rfl, h2, h3, ?_⟩
        intro e' he'
        rcases List.mem_cons.mp he' with rfl | he'
        · right
          exact hcm
        · exact h4 e' he'
      | some c =>
        rw [hcm] at hfold
        dsimp only at hfold
        have hhead := collect_fold_head w h cm x y l (push_back_unique [] c)
          (push_back_unique_ne_nil _ _)
        rw [hfold] at hhead
        have hc : c = id := by
          simp [push_back_unique] at hhead
          exact hhead.symm
        subst hc
        refine ⟨[], d, l, rfl, ?_, hcm, fun _ he => absurd he (List.not_mem_nil _)⟩
        unfold in_image
        dsimp only
        omega

theorem collect_neighbors_head (w h : Nat) (cm : Int → Option Nat) (x y : Int)
    (id : Nat) (rest : List Nat) (hn : collect_neighbors w h cm x y = id :: rest) :
    ∃ pre d post, stencil = pre ++ d :: post ∧ in_image w h (x + d.1, y + d.2) ∧
      cm (key h (x + d.1, y + d.2)) = some id ∧
      ∀ e ∈ pre, ¬ in_image w h (x + e.1, y + e.2) ∨ cm (key h (x + e.1, y + e.2)) = none :=
  collect_fold_first w h cm x y stencil id rest hn

theorem periodic_log_fold_fst (w h i : Nat) (index : index_t) :
    ∀ (l : List (Int × Int)) (sl : clusters_t × List (Nat × Nat)),
      (l.foldl (periodic_merge_log w h i index) sl).1 =
        l.foldl (periodic_merge w h i index) sl.1 := by
  intro l
  induction l with
  | nil => intro sl; rfl
  | cons d l ih =>
    intro sl
    rw [List.foldl_cons, List.foldl_cons, ih]
    rfl

theorem periodic_merged_lower (peaks : itk_image_t) (i : Nat) (index : index_t)
    (s : clusters_t) (d : Int × Int)
    (hw : walk_inv peaks i s) (hidx : index ∈ s.clusters i) (hd : d ∈ stencil) :
    ∀ m ∈ periodic_merged peaks.w peaks.h i index s d, m.1 < m.2 := by
  obtain ⟨hfgP, hmP⟩ := hw.inv.member_fg i index hidx
  obtain ⟨r1, r2, r3, r4⟩ := hw.inv.member_range i index hidx
  have hwpos : 0 < peaks.w := by
    obtain ⟨a1, a2, _, _⟩ := hfgP.1
    omega
  have hhpos : 0 < peaks.h := by
    obtain ⟨_, _, a3, a4⟩ := hfgP.1
    omega
  have hQ := torus_neighbor_in_image peaks.w peaks.h hwpos hhpos (wrap peaks.w peaks.h index) d
  have heq : periodic_merged peaks.w peaks.h i index s d =
      match s.cluster_map
        (key peaks.h (torus_neighbor peaks.w peaks.h (wrap peaks.w peaks.h index) d)) with
      | none => []
      | some cluster_id => if cluster_id = i then [] else [(i, cluster_id)] := by
    unfold periodic_merged
    have e1 : Int.tmod (index.1 + peaks.w) peaks.w = (index.1 + peaks.w) % peaks.w :=
      Int.tmod_eq_emod (by omega) (by omega)
    have e2 : Int.tmod (index.2 + peaks.h) peaks.h = (index.2 + peaks.h) % peaks.h :=
      Int.tmod_eq_emod (by omega) (by omega)
    simp only [e1, e2]
    rfl
  rw [heq]
  cases hm : s.cluster_map
      (key peaks.h (torus_neighbor peaks.w peaks.h (wrap peaks.w peaks.h index) d)) with
  | none => intro m hmem; exact absurd hmem (List.not_mem_nil _)
  | some cid =>
    dsimp only
    by_cases hci : cid = i
    · rw [if_pos hci]
      intro m hmem
      exact absurd hmem (List.not_mem_nil _)
    · rw [if_neg hci]
      intro m hmem
      rw [List.mem_singleton] at hmem
      subst hmem
      show i < cid
      by_contra hle
      have hlt : cid < i := by omega
      obtain ⟨ij, hij, hwq⟩ := hw.inv.map_member _ cid hQ hm
      have hcl := hw.closed cid hlt ij hij (-d.1, -d.2) (stencil_neg d hd)
      rw [hwq, torus_neighbor_symm _ _ _ _ hfgP.1] at hcl
      have := hcl hfgP
      rw [hmP] at this
      exact hci (Option.some.inj this).symm

theorem periodic_log_fold_lower (peaks : itk_image_t) (i : Nat) (index : index_t) :
    ∀ (l : List (Int × Int)) (sl : clusters_t × List (Nat × Nat)),
      walk_inv peaks i sl.1 → index ∈ sl.1.clusters i → (∀ d ∈ l, d ∈ stencil) →
      (∀ m ∈ sl.2, m.1 < m.2) →
      ∀ m ∈ (l.foldl (periodic_merge_log peaks.w peaks.h i index) sl).2, m.1 < m.2 := by
  intro l
  induction l with
  | nil => intro sl _ _ _ hlog; exact hlog
  | cons d l ih =>
    intro sl hw hidx hl hlog
    rw [List.foldl_cons]
    have hd : d ∈ stencil := hl d (List.mem_cons_self _ _)
    obtain ⟨g1, ⟨m, g2⟩, _, _, _⟩ := periodic_merge_preserves peaks i index sl.1 d hw hidx hd
    apply ih (periodic_merge_log peaks.w peaks.h i index sl d) g1
    · show index ∈ (periodic_merge peaks.w peaks.h i index sl.1 d).clusters i
      rw [g2]
      exact List.mem_append_left _ hidx
    · exact fun e he => hl e (List.mem_cons_of_mem _ he)
    · intro e he
      rcases List.mem_append.mp he with he | he
      · exact hlog e he
      · exact periodic_merged_lower peaks i index sl.1 d hw hidx hd e he

theorem periodic_walk_log_fst (w h i : Nat) :
    ∀ (fuel pos : Nat) (sl : clusters_t × List (Nat × Nat)),
      (periodic_walk_log w h i fuel pos sl).map Prod.fst = periodic_walk w h i fuel pos sl.1 := by
  intro fuel
  induction fuel with
  | zero => intro pos sl; rfl
  | succ fuel ih =>
    intro pos sl
    unfold periodic_walk_log periodic_walk
    cases (sl.1.clusters i)[pos]? with
    | none => rfl
    | some index =>
      dsimp only
      rw [ih, periodic_log_fold_fst]

theorem periodic_walk_log_lower (peaks : itk_image_t) (i : Nat) :
    ∀ (fuel pos : Nat) (sl r : clusters_t × List (Nat × Nat)),
      walk_inv peaks i sl.1 → (∀ m ∈ sl.2, m.1 < m.2) →
      periodic_walk_log peaks.w peaks.h i fuel pos sl = some r →
      ∀ m ∈ r.2, m.1 < m.2 := by
  intro fuel
  induction fuel with
  | zero =>
    intro pos sl r _ _ h
    exact Option.noConfusion h
  | succ fuel ih =>
    intro pos sl r hw hlog h
    unfold periodic_walk_log at h
    cases hget : (sl.1.clusters i)[pos]? with
    | none =>
      rw [hget] at h
      cases h
      exact hlog
    | some index =>
      rw [hget] at h
      dsimp only at h
      have hidx : index ∈ sl.1.clusters i := List.getElem?_mem hget
      obtain ⟨g1, _, _, _, _⟩ := stencil_fold_preserves peaks i index stencil sl.1 hw hidx
        (fun _ hd => hd)
      refine ih (pos + 1) _ r ?_ ?_ h
      · rw [periodic_log_fold_fst]
        exact g1
      · exact periodic_log_fold_lower peaks i index stencil sl hw hidx (fun _ hd => hd) hlog

theorem periodic_fold_log_spec (peaks : itk_image_t) :
    ∀ (n : Nat) (s : clusters_t), periodic_inv peaks 0 s → n ≤ s.size →
      ∃ t log, (List.range n).foldlM
          (fun sl i =>
            if sl.1.clusters i = [] then some sl
            else periodic_walk_log peaks.w peaks.h i (peaks.w * peaks.h + 1) 0 sl)
          (s, []) = some (t, log) ∧
        (List.range n).foldlM
          (fun s i =>
            if s.clusters i = [] then some s
            else periodic_walk peaks.w peaks.h i (peaks.w * peaks.h + 1) 0 s) s = some t ∧
        periodic_inv peaks n t ∧ t.size = s.size ∧ ∀ m ∈ log, m.1 < m.2 := by
  intro n
  induction n with
  | zero =>
    intro s hs _
    exact ⟨s, [], rfl, rfl, hs, rfl, fun _ h => absurd h (List.not_mem_nil _)⟩
  | succ n ih =>
    intro s hs hn
    obtain ⟨t, log, hlogged, ht, hinv, hsize, hlog⟩ := ih s hs (by omega)
    obtain ⟨u, hu, huinv, husize⟩ := periodic_fold_spec peaks (n + 1) s hs hn
    rw [List.range_succ, List.foldlM_append, ht] at hu
    simp only [Option.bind_eq_bind, Option.some_bind, List.foldlM_cons, List.foldlM_nil,
      Option.pure_def, Option.bind_some] at hu
    rw [List.range_succ, List.foldlM_append, List.foldlM_append, ht, hlogged]
    simp only [Option.bind_eq_bind, Option.some_bind, List.foldlM_cons, List.foldlM_nil,
      Option.pure_def, Option.bind_some]
    by_cases hemp : t.clusters n = []
    · rw [if_pos hemp] at hu ⊢
      rw [if_pos hemp]
      cases hu
      exact ⟨t, log, rfl, rfl, huinv, husize, hlog⟩
    · rw [if_neg hemp] at hu ⊢
      rw [if_neg hemp]
      have hfst := periodic_walk_log_fst peaks.w peaks.h n (peaks.w * peaks.h + 1) 0 (t, log)
      rw [hu] at hfst
      cases hr : periodic_walk_log peaks.w peaks.h n (peaks.w * peaks.h + 1) 0 (t, log) with
      | none => rw [hr] at hfst; exact Option.noConfusion hfst
      | some r =>
        rw [hr] at hfst
        have hru : r.1 = u := Option.some.inj hfst
        have hw : walk_inv peaks n t :=
          ⟨labelling_inv_mono peaks _ _ t (fun id h => by omega) hinv.inv, hinv.complete,
            hinv.closed, by omega⟩
        have hlow := periodic_walk_log_lower peaks n (peaks.w * peaks.h + 1) 0 (t, log) r hw hlog hr
        obtain ⟨r1, r2⟩ := r
        dsimp only at hru hlow
        subst hru
        exact ⟨r1, r2, rfl, hu, huinv, husize, hlow⟩

/-- C23 (counterexample): in the scanline pass the surviving cluster can be the
one with the higher id. For the 3 by 2 image with the pixels `(2, 0)`, `(0, 1)`
and `(1, 1)` above the threshold, `(2, 0)` starts cluster 0 and `(0, 1)`
cluster 1; at `(1, 1)` the neighbor ids are collected as `[1, 0]` and cluster 0
is emptied into cluster 1. -/
theorem scanline_survivor_not_lowest :
    image_min_max staircase_image = (0, 1) ∧
    (∀ p, foreground (threshold_peaks staircase_image (1 / 2)) p ↔
      p = (2, 0) ∨ p = (0, 1) ∨ p = (1, 1)) ∧
    (label_clusters_log (threshold_peaks staircase_image (1 / 2))).2 = [(1, 0)] ∧
    ∃ m ∈ (label_clusters_log (threshold_peaks staircase_image (1 / 2))).2, m.2 < m.1 := by
  have hlog : (label_clusters_log (threshold_peaks staircase_image (1 / 2))).2 = [(1, 0)] := by
    decide!
  refine ⟨by decide!, ?_, hlog, ⟨(1, 0), by rw [hlog]; exact List.mem_singleton.mpr rfl,
    by decide⟩⟩
  intro p
  constructor
  · intro hp
    obtain ⟨⟨h1, h2, h3, h4⟩, hpix⟩ := hp
    obtain ⟨x, y⟩ := p
    have hw : ((threshold_peaks staircase_image (1 / 2)).w : Int) = 3 := rfl
    have hh : ((threshold_peaks staircase_image (1 / 2)).h : Int) = 2 := rfl
    dsimp only at h1 h2 h3 h4
    rw [hw] at h2
    rw [hh] at h4
    have hx : x = 0 ∨ x = 1 ∨ x = 2 := by omega
    have hy : y = 0 ∨ y = 1 := by omega
    rcases hx with rfl | rfl | rfl <;> rcases hy with rfl | rfl <;>
      first
        | (exact Or.inl rfl)
        | (exact Or.inr (Or.inl rfl))
        | (exact Or.inr (Or.inr rfl))
        | (exact absurd hpix (by decide!))
  · rintro (rfl | rfl | rfl) <;> decide!

/-- C23 (amended): in the periodic-boundary pass of `find_maxima_cm`, run on the
result of the scanline pass of any image, every merge empties a cluster into
one with a lower id (the record of the merges does not change the pass, which
returns). In the scanline pass the cluster that survives at a pixel is the
first entry `id` of the vector `neighbors`, which receives the pixels of every
further entry: `id` is the cluster of the first stencil neighbor, in stencil
order, that lies inside the image and is labelled. -/
theorem merge_survivor (peaks : itk_image_t) :
    (∃ t log, periodic_pass_log peaks.w peaks.h (label_clusters peaks) = some (t, log) ∧
      periodic_pass peaks.w peaks.h (label_clusters peaks) = some t ∧
      ∀ m ∈ log, m.1 < m.2) ∧
    (label_clusters_log peaks).1 = label_clusters peaks ∧
    (∀ (s : clusters_t) (p : Nat × Nat) (id : Nat) (rest : List Nat),
      0 < peaks.pix ((p.1 : Int), (p.2 : Int)) →
      collect_neighbors peaks.w peaks.h s.cluster_map p.1 p.2 = id :: rest →
      label_pixel peaks s p =
        rest.foldl (merge_cluster peaks.h id) (absorb peaks.h id s ((p.1 : Int), (p.2 : Int))) ∧
      label_merged peaks s p = rest.map (fun old_id => (id, old_id)) ∧
      ∃ pre d post, stencil = pre ++ d :: post ∧
        in_image peaks.w peaks.h ((p.1 : Int) + d.1, (p.2 : Int) + d.2) ∧
        s.cluster_map (key peaks.h ((p.1 : Int) + d.1, (p.2 : Int) + d.2)) = some id ∧
        ∀ e ∈ pre, ¬ in_image peaks.w peaks.h ((p.1 : Int) + e.1, (p.2 : Int) + e.2) ∨
          s.cluster_map (key peaks.h ((p.1 : Int) + e.1, (p.2 : Int) + e.2)) = none) ∧
    (∀ (s : clusters_t) (id old_id : Nat), old_id ≠ id →
      (merge_cluster peaks.h id s old_id).clusters id = s.clusters id ++ s.clusters old_id ∧
      (merge_cluster peaks.h id s old_id).clusters old_id = []) := by
  refine ⟨?_, ?_, ?_, ?_⟩
  · obtain ⟨h1, h2⟩ := label_clusters_inv peaks
    have h0 : periodic_inv peaks 0 (label_clusters peaks) :=
      ⟨labelling_inv_mono peaks _ _ _ (fun _ h => absurd h id) h1, h2,
        fun id hid => absurd hid (Nat.not_lt_zero id)⟩
    obtain ⟨t, log, hlogged, ht, _, _, hlog⟩ := periodic_fold_log_spec peaks
      (label_clusters peaks).size (label_clusters peaks) h0 (le_refl _)
    exact ⟨t, log, hlogged, ht, hlog⟩
  · exact label_log_fold_fst peaks _ _
  · intro s p id rest hpix hn
    refine ⟨?_, ?_, collect_neighbors_head _ _ _ _ _ id rest hn⟩
    · unfold label_pixel
      dsimp only
      rw [if_neg (not_le.mpr hpix), hn]
    · unfold label_merged
      dsimp only
      rw [if_neg (not_le.mpr hpix), hn]
  · intro s id old_id hne
    rw [merge_cluster_eq]
    obtain ⟨g1, g2, _⟩ := merge_into_spec peaks.h id 0 0 s old_id hne
    refine ⟨?_, g2⟩
    rw [g1]
    simp

theorem neighbor_loop_boxes (env : Env Img Msk)
    (boxes : List the_grid_transform_t → List Img → Nat → bbox_t) (o : options_t)
    (tile_index : Nat) (transform : List the_grid_transform_t)
    (warped_tile : List (Option Img)) (warped_mask : List (Option Msk))
    (gt : the_grid_transform_t) :
    ∀ (js : List Nat) (acc : List (List vec2d_t) × List ℚ),
    neighbor_loop { env with calc_mosaic_bboxes := boxes } o tile_index transform warped_tile
      warped_mask gt js acc =
    neighbor_loop env o tile_index transform warped_tile warped_mask gt js acc := by
  intro js
  induction js with
  | nil => intro acc; rfl
  | cons j js ih =>
    intro acc
    unfold neighbor_loop
    simp only [ih]
    rfl

theorem refine_one_tile_boxes (env : Env Img Msk)
    (boxes : List the_grid_transform_t → List Img → Nat → bbox_t) (o : options_t)
    (tile_index : Nat) (transform : List the_grid_transform_t)
    (warped_tile : List (Option Img)) (warped_mask : List (Option Msk))
    (neighbors : List (List Nat)) :
    refine_one_tile { env with calc_mosaic_bboxes := boxes } o tile_index transform warped_tile
      warped_mask neighbors =
    refine_one_tile env o tile_index transform warped_tile warped_mask neighbors := by
  unfold refine_one_tile
  simp only [neighbor_loop_boxes]

theorem shift_step_boxes (env : Env Img Msk)
    (boxes : List the_grid_transform_t → List Img → Nat → bbox_t) (o : options_t) :
    shift_step { env with calc_mosaic_bboxes := boxes } o = shift_step env o := by
  funext a b c d e f
  unfold shift_step
  rw [refine_one_tile_boxes]

theorem refine_mosaic_pass_boxes (env : Env Img Msk) (o : options_t) (tile : List Img)
    (mask : List (Option Msk)) (neighbors : List (List Nat)) (st : mosaic_state Img Msk)
    (boxes : List the_grid_transform_t → List Img → Nat → bbox_t) :
    refine_mosaic_pass { env with calc_mosaic_bboxes := boxes } o tile mask neighbors st =
      refine_mosaic_pass env o tile mask neighbors st := by
  have h2 : warp_tile { env with calc_mosaic_bboxes := boxes } = warp_tile env := rfl
  unfold refine_mosaic_pass
  rw [shift_step_boxes, h2]

theorem refine_mosaic_mt_pass_boxes (env : Env Img Msk) (o : options_t) (tile : List Img)
    (mask : List (Option Msk)) (neighbors : List (List Nat)) (num_threads : Nat)
    (st : mosaic_state Img Msk)
    (boxes : List the_grid_transform_t → List Img → Nat → bbox_t) :
    refine_mosaic_mt_pass { env with calc_mosaic_bboxes := boxes } o tile mask neighbors
        num_threads st =
      refine_mosaic_mt_pass env o tile mask neighbors num_threads st := by
  have h2 : warp_tile { env with calc_mosaic_bboxes := boxes } = warp_tile env := rfl
  unfold refine_mosaic_mt_pass
  rw [shift_step_boxes, h2]

theorem refine_mosaic_loop_boxes (env : Env Img Msk) (o : options_t) (tile : List Img)
    (mask : List (Option Msk)) (neighbors : List (List Nat))
    (boxes : List the_grid_transform_t → List Img → Nat → bbox_t) :
    ∀ (n : Nat) (st : mosaic_state Img Msk),
      refine_mosaic_loop { env with calc_mosaic_bboxes := boxes } o tile mask neighbors n st =
        refine_mosaic_loop env o tile mask neighbors n st := by
  intro n
  induction n with
  | zero => intro st; rfl
  | succ n ih =>
    intro st
    unfold refine_mosaic_loop
    rw [refine_mosaic_pass_boxes]
    simp only [ih]

theorem refine_mosaic_mt_loop_boxes (env : Env Img Msk) (o : options_t) (tile : List Img)
    (mask : List (Option Msk)) (neighbors : List (List Nat)) (threshold : ℚ) (num_threads : Nat)
    (boxes : List the_grid_transform_t → List Img → Nat → bbox_t) :
    ∀ (n : Nat) (last_average : ℚ) (st : mosaic_state Img Msk),
      refine_mosaic_mt_loop { env with calc_mosaic_bboxes := boxes } o tile mask neighbors
          threshold num_threads n last_average st =
        refine_mosaic_mt_loop env o tile mask neighbors threshold num_threads n last_average st := by
  intro n
  induction n with
  | zero => intro last st; rfl
  | succ n ih =>
    intro last st
    unfold refine_mosaic_mt_loop
    rw [refine_mosaic_mt_pass_boxes]
    simp only [ih]

theorem find_neighbors_boxes (env : Env Img Msk) (transform : List the_grid_transform_t)
    (tile : List Img) (start : Nat)
    (boxes : List the_grid_transform_t → List Img → Nat → bbox_t)
    (hinit : ∀ i, boxes transform tile i = env.calc_mosaic_bboxes transform tile i) :
    find_neighbors { env with calc_mosaic_bboxes := boxes } transform tile start =
      find_neighbors env transform tile start := by
  unfold find_neighbors
  have : boxes transform tile = env.calc_mosaic_bboxes transform tile := funext hinit
  dsimp only
  rw [this]

theorem refine_mosaic_boxes (env : Env Img Msk) (o : options_t)
    (transform : List the_grid_transform_t) (tile : List Img) (mask : List (Option Msk))
    (num_passes : Nat) (boxes : List the_grid_transform_t → List Img → Nat → bbox_t)
    (hinit : ∀ i, boxes transform tile i = env.calc_mosaic_bboxes transform tile i) :
    refine_mosaic { env with calc_mosaic_bboxes := boxes } o transform tile mask num_passes =
      refine_mosaic env o transform tile mask num_passes := by
  unfold refine_mosaic refine_mosaic_state
  dsimp only
  rw [find_neighbors_boxes env transform tile _ boxes hinit]
  simp only [refine_mosaic_loop_boxes]

theorem refine_mosaic_loop_last (env : Env Img Msk) (o : options_t) (tile : List Img)
    (mask : List (Option Msk)) (neighbors : List (List Nat)) :
    ∀ (n : Nat) (st : mosaic_state Img Msk),
      refine_mosaic_loop env o tile mask neighbors (n + 1) st =
        (refine_mosaic_loop env o tile mask neighbors n st).bind
          (fun st1 => (refine_mosaic_pass env o tile mask neighbors st1).map Prod.fst) := by
  intro n
  induction n with
  | zero =>
    intro st
    cases hp : refine_mosaic_pass env o tile mask neighbors st with
    | none => simp [refine_mosaic_loop, hp]
    | some r => simp [refine_mosaic_loop, hp]
  | succ n ih =>
    intro st
    rw [refine_mosaic_loop]
    cases hp : refine_mosaic_pass env o tile mask neighbors st with
    | none =>
      dsimp only
      rw [refine_mosaic_loop, hp]
      rfl
    | some r =>
      dsimp only
      rw [ih r.1]
      conv_rhs => rw [refine_mosaic_loop, hp]

/-- C24 (counterexample): the neighbor lists are not rebuilt in a pass. Two tiles,
the first one fixed, the second one at offset 1/2, a matcher that always
reports the shift `(1, 0)`: the boxes intersect at first, so tile 0 is a
neighbor of tile 1; the first pass moves tile 1 to offset 3/2, where the boxes
no longer intersect, and the second pass matches the pair again and moves
tile 1 to 5/2, in `refine_mosaic` as in `refine_mosaic_mt`; a loop that builds
the list in every pass leaves tile 1 at 3/2. -/
theorem neighbors_not_rebuilt :
    find_neighbors box_env [demo_grid 0, demo_grid (1 / 2)] [0, 1] 1 = [[], [0]] ∧
    refine_mosaic box_env (demo_options true) [demo_grid 0, demo_grid (1 / 2)] [0, 1]
      [some (), some ()] 1 = some [demo_grid 0, demo_grid (3 / 2)] ∧
    find_neighbors box_env [demo_grid 0, demo_grid (3 / 2)] [0, 1] 1 = [[], []] ∧
    refine_mosaic box_env (demo_options true) [demo_grid 0, demo_grid (1 / 2)] [0, 1]
      [some (), some ()] 2 = some [demo_grid 0, demo_grid (5 / 2)] ∧
    refine_mosaic_mt box_env (demo_options true) [demo_grid 0, demo_grid (1 / 2)] [0, 1]
      [some (), some ()] 2 0 2 = some [demo_grid 0, demo_grid (5 / 2)] ∧
    refine_mosaic_per_pass_neighbors box_env (demo_options true)
      [demo_grid 0, demo_grid (1 / 2)] [0, 1] [some (), some ()] 2 =
        some [demo_grid 0, demo_grid (3 / 2)] ∧
    refine_mosaic box_env (demo_options true) [demo_grid 0, demo_grid (1 / 2)] [0, 1]
      [some (), some ()] 2 ≠
    refine_mosaic_per_pass_neighbors box_env (demo_options true)
      [demo_grid 0, demo_grid (1 / 2)] [0, 1] [some (), some ()] 2 := by
  decide!

/-- C24 (amended): the neighbor list is built once, before the first pass, from
the mosaic bounding boxes under the transforms the function is called with, and
every pass uses that list: `refine_mosaic` and `refine_mosaic_mt` return the
same transforms for any two box functions that agree on the initial transforms,
and each further pass of `refine_mosaic` is a pass with the neighbor list of
the initial transforms. -/
theorem neighbors_built_once (env : Env Img Msk) (o : options_t)
    (transform : List the_grid_transform_t) (tile : List Img) (mask : List (Option Msk))
    (num_passes : Nat) (displacement_threshold : ℚ) (num_threads : Nat)
    (boxes : List the_grid_transform_t → List Img → Nat → bbox_t)
    (hinit : ∀ i, boxes transform tile i = env.calc_mosaic_bboxes transform tile i)
    (htiles : 2 ≤ tile.length) :
    refine_mosaic { env with calc_mosaic_bboxes := boxes } o transform tile mask num_passes =
      refine_mosaic env o transform tile mask num_passes ∧
    refine_mosaic_mt { env with calc_mosaic_bboxes := boxes } o transform tile mask num_passes
        displacement_threshold num_threads =
      refine_mosaic_mt env o transform tile mask num_passes displacement_threshold num_threads ∧
    refine_mosaic_state env o transform tile mask (num_passes + 1) =
      (refine_mosaic_state env o transform tile mask num_passes).bind
        (fun st => (refine_mosaic_pass env o tile mask
          (find_neighbors env transform tile (start_index o.keep_first_tile_fixed)) st).map
            Prod.fst) := by
  have h1 := refine_mosaic_boxes env o transform tile mask num_passes boxes hinit
  refine ⟨h1, ?_, ?_⟩
  · unfold refine_mosaic_mt
    rw [h1]
    unfold refine_mosaic_mt_state
    dsimp only
    rw [find_neighbors_boxes env transform tile _ boxes hinit]
    simp only [refine_mosaic_mt_loop_boxes]
  · unfold refine_mosaic_state
    dsimp only
    rw [if_neg (by omega), if_neg (by omega)]
    cases refine_mosaic_init tile mask o.keep_first_tile_fixed with
    | none => rfl
    | some w =>
      dsimp only
      exact refine_mosaic_loop_last env o tile mask _ num_passes _

/-- Witness of C24: the two tiles of the counterexample, with a box function that
is right for the initial transforms only. -/
theorem neighbors_built_once_witness :
    refine_mosaic { box_env with
        calc_mosaic_bboxes := stale_boxes [demo_grid 0, demo_grid (1 / 2)] }
      (demo_options true) [demo_grid 0, demo_grid (1 / 2)] [0, 1] [some (), some ()] 2 =
    refine_mosaic box_env (demo_options true) [demo_grid 0, demo_grid (1 / 2)] [0, 1]
      [some (), some ()] 2 :=
  (neighbors_built_once box_env (demo_options true) [demo_grid 0, demo_grid (1 / 2)] [0, 1]
    [some (), some ()] 2 0 2 (stale_boxes [demo_grid 0, demo_grid (1 / 2)])
    (fun _ => if_pos rfl) (by decide)).1

end Nornir
